import Mathlib

/-! # flvtool++ : AMF0 codec and FLV tag pipeline

A shallow embedding of `AMFData.h`, `AMFData.cpp`, `serialized_buffer.h` and the
parts of `flvtool++.cpp` the verified properties talk about, followed by the
theorems.

Conventions of the embedding

* A byte is a `Fin 256`.  Memory that the C++ code addresses through a `char*` is a
  `List Byte`; a pointer into the mapped input file is an offset.
* C++ exceptions, `assert` aborts and reads outside the mapping are values of
  `Fault`, carried by `Except`.
* The build modelled is the little-endian Linux one (`__BYTE_ORDER ==
  __LITTLE_ENDIAN`, x86-64, SSE2 scalar doubles): `BE16/BE32/BE64`, `htons`,
  `htonl` and `hton64` are byte swaps, `write<T>` stores the little-endian image.
* A `double` is identified with its 64-bit IEEE-754 image (a `Nat` below `2^64`);
  `F64` implements the arithmetic the program performs on doubles, correctly
  rounded (round to nearest, ties to even).
* `asString()` returns the text the C library calls in it produce (`sprintf` with
  `%f`, `gmtime_r` and `asctime_r`); a call whose text does not fit the buffer it is
  written to has no defined behaviour and is the fault `asString_undefined`.
-/

namespace FlvTool

abbrev Byte := Fin 256

/-- The byte holding the low eight bits of `n` (conversion to `char`/`uint8_t`). -/
def byte (n : Nat) : Byte := ⟨n % 256, Nat.mod_lt n (by decide)⟩

/-- A `std::string` literal as bytes. -/
def str (s : String) : List Byte := s.toList.map (fun c => byte c.toNat)

/-- The `std::runtime_error`s thrown by the AMF code. -/
inductive RuntimeError where
  /-- "AMFData::construct: unknown typeID 0x%02x" -/
  | unknown_typeID (typeID : Nat)
  /-- "AMFMixedArray::merge: attempt to merge with something other than a MixedArray" -/
  | merge_not_mixed_array
  deriving DecidableEq, Repr

/-- Ways a computation can end without a value. -/
inductive Fault where
  /-- The exception `end_of_buffer(needed, available)`. -/
  | end_of_buffer (needed available : Nat)
  /-- A `std::runtime_error`. -/
  | runtime_error (what : RuntimeError)
  /-- A read outside the mapped file or a vector index out of range (undefined behaviour). -/
  | out_of_bounds
  /-- A failed `assert`. -/
  | assert_fail
  /-- A shift by at least the width of the shifted type (undefined behaviour). -/
  | bad_shift
  /-- A call of `asString()` without defined behaviour: `sprintf` or `asctime_r` has more
  text than its buffer holds, or the `time_t` arithmetic overflows. -/
  | asString_undefined
  /-- The program ended through `exit(-1)` after its own check of the input failed. -/
  | exit_failure
  /-- The embedding ran out of fuel; never the case for the fuel the entry points pass. -/
  | out_of_fuel
  deriving DecidableEq, Repr

deriving instance DecidableEq for Except

/-- Whether `catch (const std::exception&)` catches the fault. -/
def Fault.isException : Fault → Bool
  | .end_of_buffer _ _ => true
  | .runtime_error _ => true
  | _ => false

/-! ## IEEE-754 binary64 arithmetic on 64-bit images -/

namespace F64

def expField (x : Nat) : Nat := x / 2 ^ 52 % 2048
def fracField (x : Nat) : Nat := x % 2 ^ 52
def signBit (x : Nat) : Bool := x / 2 ^ 63 % 2 == 1
def isNaN (x : Nat) : Bool := expField x == 2047 && fracField x != 0
def isInf (x : Nat) : Bool := expField x == 2047 && fracField x == 0
def isZero (x : Nat) : Bool := x % 2 ^ 63 == 0
/-- A NaN operand as it is returned by an SSE2 operation: its quiet bit set. -/
def quiet (x : Nat) : Nat := x % 2 ^ 64 ||| 2 ^ 51
/-- The NaN an invalid SSE2 operation produces (the "real indefinite"). -/
def defaultNaN : Nat := 0xFFF8000000000000
def inf : Nat := 0x7FF0000000000000
def withSign (neg : Bool) (mag : Nat) : Nat := if neg then mag + 2 ^ 63 else mag

/-- Magnitude of a finite double in units of `2^-1074`. -/
def scaled (x : Nat) : Nat :=
  if expField x = 0 then fracField x else (fracField x + 2 ^ 52) * 2 ^ (expField x - 1)

/-- Signed value of a finite double in units of `2^-1074`. -/
def toScaled (x : Nat) : Int := if signBit x then - (scaled x : Int) else (scaled x : Int)

/-- Position of the highest set bit of `n` (0 for 0), in at most `fuel` halvings. -/
def log2F : Nat → Nat → Nat
  | 0, _ => 0
  | fuel + 1, n => if n < 2 then 0 else log2F fuel (n / 2) + 1

def log2 (n : Nat) : Nat := log2F n n

/-- The quotient `num/den` rounded to 53 significant bits (ties to even), packed as
exponent field and significand, before the overflow check; `num` and `den` are positive.
With `k` the exponent field less one, the significand `m` counts units of `2^(k-1074)`;
a carry out of the significand moves into the exponent field. -/
def roundRaw (num den : Nat) : Nat :=
  let n := num * 2 ^ 1074
  let k0 := (log2 num + 1074) - (log2 den + 53)
  let k := if n / (den * 2 ^ k0) < 2 ^ 53 then k0 else k0 + 1
  let dk := den * 2 ^ k
  let q := n / dk
  let r := n % dk
  let m := if 2 * r < dk then q else if dk < 2 * r then q + 1 else if q % 2 = 0 then q else q + 1
  k * 2 ^ 52 + m

/-- Image of the double nearest to `num/den` (ties to even, overflow to infinity);
`den` is positive. -/
def roundPos (num den : Nat) : Nat :=
  if num = 0 then 0 else min (roundRaw num den) inf

def roundSigned (neg : Bool) (num den : Nat) : Nat := withSign neg (roundPos num den)

/-- Conversion of an unsigned integer to `double`. -/
def ofNat (n : Nat) : Nat := roundPos n 1

/-- Conversion of a signed integer to `double`. -/
def ofInt (i : Int) : Nat := roundSigned (decide (i < 0)) i.natAbs 1

/-- The NaN returned when an operand is a NaN.  (With two NaN operands the hardware
returns the one in the destination register; the program never combines two
different NaNs.) -/
def propagate (a b : Nat) : Nat := if isNaN a then quiet a else quiet b

def mul (a b : Nat) : Nat :=
  if isNaN a || isNaN b then propagate a b
  else
    let neg := signBit a != signBit b
    if isInf a || isInf b then
      (if isZero a || isZero b then defaultNaN else withSign neg inf)
    else roundSigned neg (scaled a * scaled b) (2 ^ 2148)

def div (a b : Nat) : Nat :=
  if isNaN a || isNaN b then propagate a b
  else
    let neg := signBit a != signBit b
    if isInf a then (if isInf b then defaultNaN else withSign neg inf)
    else if isInf b then withSign neg 0
    else if isZero b then (if isZero a then defaultNaN else withSign neg inf)
    else roundSigned neg (scaled a) (scaled b)

def add (a b : Nat) : Nat :=
  if isNaN a || isNaN b then propagate a b
  else if isInf a then (if isInf b && signBit a != signBit b then defaultNaN else a % 2 ^ 64)
  else if isInf b then b % 2 ^ 64
  else
    let s := toScaled a + toScaled b
    if s = 0 then withSign (signBit a && signBit b) 0
    else roundSigned (decide (s < 0)) s.natAbs (2 ^ 1074)

def neg (a : Nat) : Nat := if signBit a then a % 2 ^ 63 else a % 2 ^ 63 + 2 ^ 63

def sub (a b : Nat) : Nat :=
  if isNaN a || isNaN b then propagate a b else add a (neg b)

/-- The C library `floor`. -/
def floor (a : Nat) : Nat :=
  if isNaN a then quiet a
  else if isInf a then a % 2 ^ 64
  else
    let n := toScaled a / (2 ^ 1074 : Int)
    if n = 0 then withSign (signBit a) 0 else ofInt n

/-- Conversion of a `double` to a signed 64-bit integer, `(time_t) x`: truncation
toward zero, and what `cvttsd2si` delivers (the "integer indefinite") for a NaN or
a value out of range. -/
def toInt64 (a : Nat) : Int :=
  if isNaN a || isInf a then -(2 ^ 63 : Int)
  else
    let t := (scaled a / 2 ^ 1074 : Nat)
    let v : Int := if signBit a then - (t : Int) else (t : Int)
    if v < -(2 ^ 63 : Int) ∨ (2 ^ 63 : Int) ≤ v then -(2 ^ 63 : Int) else v

end F64

/-! ## Byte order (`serialized_buffer.h`, `AMFData.h`) -/

/-- The `n` bytes an `n`-byte unsigned integer occupies in memory (little-endian host);
also the conversion of `x` to that integer type. -/
def store_le : Nat → Nat → List Byte
  | 0, _ => []
  | n + 1, x => byte x :: store_le n (x / 256)

/-- The unsigned integer found in memory at the given bytes (little-endian host):
`*reinterpret_cast<const uintN_t*>(p)`. -/
def load_le : List Byte → Nat
  | [] => 0
  | b :: bs => b.val + 256 * load_le bs

/-- Reversal of the `n` bytes of an `n`-byte integer. -/
def bswap (n : Nat) (x : Nat) : Nat := load_le (store_le n x).reverse

def bswap_16 (x : Nat) : Nat := bswap 2 x
def bswap_32 (x : Nat) : Nat := bswap 4 x
def bswap_64 (x : Nat) : Nat := bswap 8 x
def BE16 (x : Nat) : Nat := bswap_16 x
def BE32 (x : Nat) : Nat := bswap_32 x
def BE64 (x : Nat) : Nat := bswap_64 x
def htons (x : Nat) : Nat := bswap_16 x
def htonl (x : Nat) : Nat := bswap_32 x
def ntohl (x : Nat) : Nat := bswap_32 x
def hton64 (x : Nat) : Nat := bswap_64 x

/-! ## `serialized_buffer` -/

/-- The cursor of `serialized_buffer.h`.  `p` is the memory from the read pointer to
the end of the mapping the pointer points into, `len` the number of bytes the buffer
believes it has left. -/
structure serialized_buffer where
  p : List Byte
  len : Nat
  deriving DecidableEq, Repr

namespace serialized_buffer

/-- A buffer over exactly the given bytes. -/
def ofBytes (bs : List Byte) : serialized_buffer := ⟨bs, bs.length⟩

def remaining (b : serialized_buffer) : Nat := b.len

/-- The protected `consume`: the old pointer and the advanced buffer. -/
def consume (b : serialized_buffer) (bytes : Nat) :
    Except Fault (List Byte × serialized_buffer) :=
  if b.len < bytes then .error (.end_of_buffer bytes b.len)
  else .ok (b.p, ⟨b.p.drop bytes, b.len - bytes⟩)

end serialized_buffer

/-- Reading `n` bytes through a pointer. -/
def deref (r : List Byte) (n : Nat) : Except Fault (List Byte) :=
  if r.length < n then .error .out_of_bounds else .ok (r.take n)

namespace serialized_buffer

/-- The bytes `get_bytes(bytes)` points at, as every caller copies them. -/
def get_bytes (b : serialized_buffer) (bytes : Nat) :
    Except Fault (List Byte × serialized_buffer) :=
  match b.consume bytes with
  | .error e => .error e
  | .ok (r, b1) =>
    match deref r bytes with
    | .error e => .error e
    | .ok bs => .ok (bs, b1)

def get_u8 (b : serialized_buffer) : Except Fault (Nat × serialized_buffer) :=
  match b.consume 1 with
  | .error e => .error e
  | .ok (r, b1) =>
    match deref r 1 with
    | .error e => .error e
    | .ok bs => .ok (load_le bs, b1)

def get_u16_be (b : serialized_buffer) : Except Fault (Nat × serialized_buffer) :=
  match b.consume 2 with
  | .error e => .error e
  | .ok (r, b1) =>
    match deref r 2 with
    | .error e => .error e
    | .ok bs => .ok (BE16 (load_le bs), b1)

def get_u32_be (b : serialized_buffer) : Except Fault (Nat × serialized_buffer) :=
  match b.consume 4 with
  | .error e => .error e
  | .ok (r, b1) =>
    match deref r 4 with
    | .error e => .error e
    | .ok bs => .ok (BE32 (load_le bs), b1)

def get_u64_be (b : serialized_buffer) : Except Fault (Nat × serialized_buffer) :=
  match b.consume 8 with
  | .error e => .error e
  | .ok (r, b1) =>
    match deref r 8 with
    | .error e => .error e
    | .ok bs => .ok (BE64 (load_le bs), b1)

/-- The union in `get_double_be` reinterprets the integer as a double: the image is the value. -/
def get_double_be (b : serialized_buffer) : Except Fault (Nat × serialized_buffer) :=
  b.get_u64_be

end serialized_buffer

/-! ## AMF0 values (`AMFData.h`) -/

/-- The class hierarchy under `AMFData`, one constructor per concrete class.  The
`dmap` of `AMFMixedArray`/`AMFObject` is a `std::map<string, shared_ptr<AMFData>>`:
the list of its entries in iteration order, that is in ascending key order. -/
inductive AMFData where
  | AMFDouble (d : Nat)
  | AMFBoolean (d : Bool)
  | AMFString (d : List Byte)
  | AMFObject (dmap : List (List Byte × AMFData))
  | AMFNull
  | AMFUndefined
  | AMFMixedArray (dmap : List (List Byte × AMFData))
  | AMFArray (dmap : List AMFData)
  | AMFDate (tv_sec tv_usec : Int) (tz_minuteswest tz_dsttime : Int)
  | AMFUnsupported
  deriving Repr

abbrev Dmap := List (List Byte × AMFData)

def AMF_TYPE_DOUBLE : Nat := 0
def AMF_TYPE_BOOLEAN : Nat := 1
def AMF_TYPE_STRING : Nat := 2
def AMF_TYPE_OBJECT : Nat := 3
def AMF_TYPE_NULL : Nat := 5
def AMF_TYPE_UNDEFINED : Nat := 6
def AMF_TYPE_MIXED_ARRAY : Nat := 8
def AMF_TYPE_ARRAY : Nat := 10
def AMF_TYPE_DATE : Nat := 11
def AMF_TYPE_UNSUPPORTED : Nat := 13

def AMFData.typeID : AMFData → Nat
  | .AMFDouble _ => AMF_TYPE_DOUBLE
  | .AMFBoolean _ => AMF_TYPE_BOOLEAN
  | .AMFString _ => AMF_TYPE_STRING
  | .AMFObject _ => AMF_TYPE_OBJECT
  | .AMFNull => AMF_TYPE_NULL
  | .AMFUndefined => AMF_TYPE_UNDEFINED
  | .AMFMixedArray _ => AMF_TYPE_MIXED_ARRAY
  | .AMFArray _ => AMF_TYPE_ARRAY
  | .AMFDate _ _ _ _ => AMF_TYPE_DATE
  | .AMFUnsupported => AMF_TYPE_UNSUPPORTED

/-- The order `std::less<std::string>` puts on keys: lexicographic on unsigned bytes. -/
def strLt : List Byte → List Byte → Bool
  | _, [] => false
  | [], _ :: _ => true
  | a :: as, b :: bs => if a < b then true else if b < a then false else strLt as bs

/-- The call `dmap.insert(make_pair(k, v))`: an entry with an equivalent key stays as it is. -/
def mapInsert : Dmap → List Byte → AMFData → Dmap
  | [], k, v => [(k, v)]
  | (k1, v1) :: m, k, v =>
    if strLt k k1 then (k, v) :: (k1, v1) :: m
    else if strLt k1 k then (k1, v1) :: mapInsert m k v
    else (k1, v1) :: m

/-- The statement `dmap[k] = v`. -/
def mapAssign : Dmap → List Byte → AMFData → Dmap
  | [], k, v => [(k, v)]
  | (k1, v1) :: m, k, v =>
    if strLt k k1 then (k, v) :: (k1, v1) :: m
    else if strLt k1 k then (k1, v1) :: mapAssign m k v
    else (k1, v) :: m

/-- Lookup of the entry with a key equivalent to `k`. -/
def mapFind : Dmap → List Byte → Option AMFData
  | [], _ => none
  | (k1, v1) :: m, k =>
    if strLt k k1 then none
    else if strLt k1 k then mapFind m k
    else some v1

/-- The milliseconds `AMFDate::write` computes,
`(double)tv_sec * 1000.0 + (double)tv_usec / 1000.0`. -/
def dateMillis (tv_sec tv_usec : Int) : Nat :=
  F64.add (F64.mul (F64.ofInt tv_sec) (F64.ofNat 1000)) (F64.div (F64.ofInt tv_usec) (F64.ofNat 1000))

/-- The `tv_sec` and `tv_usec` the constructor `AMFDate(serialized_buffer&)` computes from
the double it read. -/
def dateFields (ms : Nat) : Int × Int :=
  let s := F64.div ms (F64.ofNat 1000)
  (F64.toInt64 (F64.floor s),
   F64.toInt64 (F64.mul (F64.sub s (F64.floor s)) (F64.ofNat 1000000)))

mutual
/-- The virtual `write`, as the bytes it hands to the sink, in order. -/
def AMFData.write : AMFData → List Byte
  | .AMFDouble d => byte AMF_TYPE_DOUBLE :: store_le 8 (hton64 d)
  | .AMFBoolean d => [byte AMF_TYPE_BOOLEAN, if d then 0x01 else 0x00]
  | .AMFString d => byte AMF_TYPE_STRING :: (store_le 2 (htons d.length) ++ d)
  | .AMFObject dmap => byte AMF_TYPE_OBJECT :: _write dmap
  | .AMFNull => [byte AMF_TYPE_NULL]
  | .AMFUndefined => [byte AMF_TYPE_UNDEFINED]
  | .AMFMixedArray dmap =>
    byte AMF_TYPE_MIXED_ARRAY :: (store_le 4 (htonl dmap.length) ++ _write dmap)
  | .AMFArray dmap => byte AMF_TYPE_ARRAY :: (store_le 4 (htonl dmap.length) ++ writeElems dmap)
  | .AMFDate tv_sec tv_usec tz_minuteswest _ =>
    byte AMF_TYPE_DATE ::
      (store_le 8 (hton64 (dateMillis tv_sec tv_usec)) ++
        store_le 2 (htons (tz_minuteswest % 65536).toNat))
  | .AMFUnsupported => [byte AMF_TYPE_UNSUPPORTED]
/-- The protected `AMFMixedArray::_write`: the entries in iteration order, then the terminator. -/
def _write : List (List Byte × AMFData) → List Byte
  | [] => store_le 2 0 ++ [0x09]
  | (k, v) :: m => store_le 2 (htons k.length) ++ k ++ v.write ++ _write m
/-- The loop of `AMFArray::write`. -/
def writeElems : List AMFData → List Byte
  | [] => []
  | v :: vs => v.write ++ writeElems vs
end

mutual
/-- The factory `AMFData::construct` with the constructors it dispatches to. -/
def constructF : Nat → serialized_buffer → Except Fault (AMFData × serialized_buffer)
  | 0, _ => .error .out_of_fuel
  | fuel + 1, buf =>
    match buf.get_u8 with
    | .error e => .error e
    | .ok (typeID, buf) =>
      if typeID = AMF_TYPE_DOUBLE then
        match buf.get_double_be with
        | .error e => .error e
        | .ok (d, buf) => .ok (.AMFDouble d, buf)
      else if typeID = AMF_TYPE_BOOLEAN then
        match buf.get_u8 with
        | .error e => .error e
        | .ok (d, buf) => .ok (.AMFBoolean (d != 0), buf)
      else if typeID = AMF_TYPE_STRING then
        match buf.get_u16_be with
        | .error e => .error e
        | .ok (l, buf) =>
          match buf.get_bytes l with
          | .error e => .error e
          | .ok (d, buf) => .ok (.AMFString d, buf)
      else if typeID = AMF_TYPE_OBJECT then
        match _constructF fuel buf [] with
        | .error e => .error e
        | .ok (dmap, buf) => .ok (.AMFObject dmap, buf)
      else if typeID = AMF_TYPE_NULL then .ok (.AMFNull, buf)
      else if typeID = AMF_TYPE_UNDEFINED then .ok (.AMFUndefined, buf)
      else if typeID = AMF_TYPE_MIXED_ARRAY then
        match buf.get_u32_be with
        | .error e => .error e
        | .ok (_, buf) =>
          match _constructF fuel buf [] with
          | .error e => .error e
          | .ok (dmap, buf) => .ok (.AMFMixedArray dmap, buf)
      else if typeID = AMF_TYPE_ARRAY then
        match buf.get_u32_be with
        | .error e => .error e
        | .ok (len, buf) =>
          match constructElems fuel len buf [] with
          | .error e => .error e
          | .ok (dmap, buf) => .ok (.AMFArray dmap, buf)
      else if typeID = AMF_TYPE_DATE then
        match buf.get_double_be with
        | .error e => .error e
        | .ok (ms, buf) =>
          match buf.get_u16_be with
          | .error e => .error e
          | .ok (tz, buf) =>
            .ok (.AMFDate (dateFields ms).1 (dateFields ms).2 (tz : Int) 0, buf)
      else if typeID = AMF_TYPE_UNSUPPORTED then .ok (.AMFUnsupported, buf)
      else .error (.runtime_error (.unknown_typeID typeID))
/-- The protected `AMFMixedArray::_construct`, `dmap` being the entries read so far. -/
def _constructF : Nat → serialized_buffer → Dmap → Except Fault (Dmap × serialized_buffer)
  | 0, _, _ => .error .out_of_fuel
  | fuel + 1, buf, dmap =>
    match buf.get_u16_be with
    | .error (.end_of_buffer _ _) => .ok (dmap, buf)
    | .error e => .error e
    | .ok (l, buf1) =>
      if l = 0 then
        match buf1.get_u8 with
        | .error e => .error e
        | .ok (_, buf2) => .ok (dmap, buf2)
      else
        match buf1.get_bytes l with
        | .error e => .error e
        | .ok (k, buf2) =>
          match constructF fuel buf2 with
          | .error e => .error e
          | .ok (v, buf3) => _constructF fuel buf3 (mapInsert dmap k v)
/-- The loop of the constructor `AMFArray(serialized_buffer&)`: `len` elements still to read. -/
def constructElems : Nat → Nat → serialized_buffer → List AMFData →
    Except Fault (List AMFData × serialized_buffer)
  | 0, _, _, _ => .error .out_of_fuel
  | _ + 1, 0, buf, dmap => .ok (dmap, buf)
  | fuel + 1, len + 1, buf, dmap =>
    match constructF fuel buf with
    | .error e => .error e
    | .ok (v, buf1) => constructElems fuel len buf1 (dmap ++ [v])
end

/-- The factory `AMFData::construct`.  Every nested call consumes a byte, so the fuel
handed to the recursion is never used up. -/
def AMFData.construct (buf : serialized_buffer) : Except Fault (AMFData × serialized_buffer) :=
  constructF (2 * buf.len + 2) buf

/-- The method `AMFMixedArray::merge` applied to the array with entries `dmap`: the
guard compares `right->typeID()` with `AMF_TYPE_MIXED_ARRAY`, which only an
`AMFMixedArray` returns (`AMFObject` overrides `typeID`). -/
def AMFMixedArray.merge (dmap : Dmap) (right : AMFData) (overwrite : Bool) : Except Fault Dmap :=
  match right with
  | .AMFMixedArray r =>
    .ok (r.foldl (fun acc ri => if overwrite then mapAssign acc ri.1 ri.2 else mapInsert acc ri.1 ri.2) dmap)
  | _ => .error (.runtime_error .merge_not_mixed_array)

/-! ## Predicates used to state the codec properties -/

mutual
/-- Structural equality of AMF values, as a computable test. -/
def AMFData.beq : AMFData → AMFData → Bool
  | .AMFDouble a, .AMFDouble b => a == b
  | .AMFBoolean a, .AMFBoolean b => a == b
  | .AMFString a, .AMFString b => a == b
  | .AMFObject a, .AMFObject b => beqPairs a b
  | .AMFNull, .AMFNull => true
  | .AMFUndefined, .AMFUndefined => true
  | .AMFMixedArray a, .AMFMixedArray b => beqPairs a b
  | .AMFArray a, .AMFArray b => beqElems a b
  | .AMFDate s1 u1 m1 d1, .AMFDate s2 u2 m2 d2 => s1 == s2 && u1 == u2 && m1 == m2 && d1 == d2
  | .AMFUnsupported, .AMFUnsupported => true
  | _, _ => false
def beqPairs : List (List Byte × AMFData) → List (List Byte × AMFData) → Bool
  | [], [] => true
  | (k1, v1) :: m1, (k2, v2) :: m2 => k1 == k2 && v1.beq v2 && beqPairs m1 m2
  | _, _ => false
def beqElems : List AMFData → List AMFData → Bool
  | [], [] => true
  | v1 :: a1, v2 :: a2 => v1.beq v2 && beqElems a1 a2
  | _, _ => false
end

/-- Equality test on the results of `construct`. -/
def resultBeq : Except Fault (AMFData × serialized_buffer) →
    Except Fault (AMFData × serialized_buffer) → Bool
  | .ok (v1, b1), .ok (v2, b2) => v1.beq v2 && b1 == b2
  | .error e1, .error e2 => e1 == e2
  | _, _ => false

/-- Keys in strictly ascending order: the iteration order of a `std::map`. -/
def Ascending (m : Dmap) : Prop := m.Pairwise (fun a b => strLt a.1 b.1 = true)

mutual
/-- What holds of every value the factory returns: the representation invariants of the
C++ objects (a `std::map` iterates in ascending key order) and the ranges of what was read
from the wire. -/
def AMFData.Wf : AMFData → Prop
  | .AMFDouble d => d < 2 ^ 64
  | .AMFString d => d.length < 65536
  | .AMFObject dmap => Ascending dmap ∧ WfPairs dmap
  | .AMFMixedArray dmap => Ascending dmap ∧ WfPairs dmap
  | .AMFArray dmap => dmap.length < 2 ^ 32 ∧ WfElems dmap
  | .AMFDate _ _ tz_minuteswest tz_dsttime =>
    0 ≤ tz_minuteswest ∧ tz_minuteswest < 65536 ∧ tz_dsttime = 0
  | _ => True
def WfPairs : List (List Byte × AMFData) → Prop
  | [] => True
  | (k, v) :: m => 0 < k.length ∧ k.length < 65536 ∧ v.Wf ∧ WfPairs m
def WfElems : List AMFData → Prop
  | [] => True
  | v :: a => v.Wf ∧ WfElems a
end

mutual
/-- Every `AMFDate` inside the value is one whose seconds and microseconds the reading
constructor recovers from the milliseconds `AMFDate::write` computes. -/
def AMFData.DatesStable : AMFData → Prop
  | .AMFObject dmap => DatesStablePairs dmap
  | .AMFMixedArray dmap => DatesStablePairs dmap
  | .AMFArray dmap => DatesStableElems dmap
  | .AMFDate tv_sec tv_usec _ _ => dateFields (dateMillis tv_sec tv_usec) = (tv_sec, tv_usec)
  | _ => True
def DatesStablePairs : List (List Byte × AMFData) → Prop
  | [] => True
  | (_, v) :: m => v.DatesStable ∧ DatesStablePairs m
def DatesStableElems : List AMFData → Prop
  | [] => True
  | v :: a => v.DatesStable ∧ DatesStableElems a
end

/-! ## Sample data for the witnesses -/

/-- A mixed array holding one value of every kind. -/
def sampleValue : AMFData :=
  .AMFMixedArray
    [(str "a", .AMFDouble 0x3FF8000000000000),
     (str "b", .AMFBoolean true),
     (str "c", .AMFString (str "flv")),
     (str "d", .AMFObject [(str "x", .AMFNull), (str "y", .AMFUndefined)]),
     (str "e", .AMFArray [.AMFDouble 0, .AMFUnsupported]),
     (str "f", .AMFDate 0 1000 60 0)]

/-- The wire form of `sampleValue`, with a count hint of 7 and a Boolean byte of 2. -/
def sampleBytes : List Byte :=
  [0x08, 0, 0, 0, 7,
   0, 1, 0x61, 0x00, 0x3F, 0xF8, 0, 0, 0, 0, 0, 0,
   0, 1, 0x62, 0x01, 2,
   0, 1, 0x63, 0x02, 0, 3, 0x66, 0x6C, 0x76,
   0, 1, 0x64, 0x03, 0, 1, 0x78, 0x05, 0, 1, 0x79, 0x06, 0, 0, 9,
   0, 1, 0x65, 0x0A, 0, 0, 0, 2, 0x00, 0, 0, 0, 0, 0, 0, 0, 0, 0x0D,
   0, 1, 0x66, 0x0B, 0x3F, 0xF0, 0, 0, 0, 0, 0, 0, 0, 60,
   0, 0, 9]

/-! ## Reading the mapped input file (`flvtool++.cpp`)

The mapped file is a `List Byte`, a `char*` into it is an offset, and dereferencing an
offset outside the file is the fault `out_of_bounds`.  A `char` is represented by its
unsigned value, so that `c & 0xff` is the byte itself. -/

/-- Dereferencing the pointer `ptr`. -/
def peek (mem : List Byte) (ptr : Nat) : Except Fault Byte :=
  match mem[ptr]? with
  | some b => .ok b
  | none => .error .out_of_bounds

/-- The inline function `deserialize_uint24`: the value and the advanced pointer. -/
def deserialize_uint24 (mem : List Byte) (ptr : Nat) : Except Fault (Nat × Nat) :=
  match peek mem ptr with
  | .error e => .error e
  | .ok b0 =>
    match peek mem (ptr + 1) with
    | .error e => .error e
    | .ok b1 =>
      match peek mem (ptr + 2) with
      | .error e => .error e
      | .ok b2 => .ok ((b0.val <<< 16) + (b1.val <<< 8) + b2.val, ptr + 3)

/-- The state `process_timestamp` works on: the caller's `last_timestamp` and the
function's static flag. -/
structure TsState where
  last_timestamp : Nat
  timestamp_warning_given : Bool
  deriving DecidableEq, Repr

/-- The function `process_timestamp`: the returned timestamp, the advanced pointer and the
state after the call.  Arithmetic on `uint32_t` is modulo `2^32`. -/
def process_timestamp (tag_type : Byte) (mem : List Byte) (fptr : Nat) (st : TsState) :
    Except Fault (Nat × Nat × TsState) :=
  match deserialize_uint24 mem fptr with
  | .error e => .error e
  | .ok (lo, fptr) =>
    match peek mem fptr with
    | .error e => .error e
    | .ok hi =>
      let fptr := fptr + 1
      let tag_timestamp := lo ||| (hi.val <<< 24)
      let last_timestamp := st.last_timestamp
      let track (tag_timestamp : Nat) (warned : Bool) : Except Fault (Nat × Nat × TsState) :=
        .ok (tag_timestamp, fptr,
          ⟨if tag_type = 9 then max tag_timestamp last_timestamp else last_timestamp, warned⟩)
      if tag_timestamp < last_timestamp then
        if (tag_timestamp &&& 0xff000000) = 0 ∧ (last_timestamp &&& 0xfff00000) ≠ 0 then
          let new_timestamp := (tag_timestamp + (last_timestamp &&& 0xff000000)) % 2 ^ 32
          let new_timestamp :=
            if new_timestamp < last_timestamp then (new_timestamp + 0x1000000) % 2 ^ 32
            else new_timestamp
          if new_timestamp ≥ last_timestamp then track new_timestamp true
          else .error .assert_fail
        else
          track tag_timestamp
            (st.timestamp_warning_given || decide (tag_type = 9 ∨ tag_type = 18))
      else track tag_timestamp st.timestamp_warning_given

/-! ## `bitstream` -/

/-- Conversion of a 32-bit pattern to `int`/`int32_t`. -/
def toInt32 (x : Nat) : Int :=
  if x % 2 ^ 32 < 2 ^ 31 then (x % 2 ^ 32 : Nat) else ((x % 2 ^ 32 : Nat) : Int) - 2 ^ 32

structure bitstream where
  buffer : serialized_buffer
  current_byte : Nat
  last_used_bit : Nat
  deriving DecidableEq, Repr

namespace bitstream

/-- The constructor `bitstream(serialized_buffer*)`. -/
def init (buffer : serialized_buffer) : bitstream := ⟨buffer, 0, 0⟩

def refill (bs : bitstream) : Except Fault bitstream :=
  match bs.buffer.get_u8 with
  | .error e => .error e
  | .ok (b, buffer) => .ok ⟨buffer, b, 8⟩

def get_bit (bs : bitstream) : Except Fault (Nat × bitstream) :=
  match (if bs.last_used_bit = 0 then bs.refill else .ok bs) with
  | .error e => .error e
  | .ok bs =>
    let last_used_bit := bs.last_used_bit - 1
    .ok (((bs.current_byte &&& (1 <<< last_used_bit)) >>> last_used_bit) &&& 1,
      { bs with last_used_bit := last_used_bit })

/-- The loop of `get_bits`, `nbits` more bits to go. -/
def get_bits_loop : Nat → Nat → bitstream → Except Fault (Nat × bitstream)
  | 0, result, bs => .ok (result, bs)
  | nbits + 1, result, bs =>
    match bs.get_bit with
    | .error e => .error e
    | .ok (b, bs) => get_bits_loop nbits ((result <<< 1) % 2 ^ 32 ||| b) bs

/-- The method `get_bits(uint8_t nbits)`; the argument is converted to `uint8_t`. -/
def get_bits (bs : bitstream) (nbits : Nat) : Except Fault (Nat × bitstream) :=
  if nbits % 256 ≤ 32 then get_bits_loop (nbits % 256) 0 bs else .error .assert_fail

/-- The loop `while (! get_bit()) ++leading_zeros;`. -/
def count_zeros : Nat → Nat → bitstream → Except Fault (Nat × bitstream)
  | 0, _, _ => .error .out_of_fuel
  | fuel + 1, leading_zeros, bs =>
    match bs.get_bit with
    | .error e => .error e
    | .ok (b, bs) =>
      if b = 0 then count_zeros fuel ((leading_zeros + 1) % 2 ^ 32) bs
      else .ok (leading_zeros, bs)

/-- The method `get_golomb_ue`.  The operands of `|` are evaluated right to left here;
`1 << leading_zeros` is a shift of an `int`. -/
def get_golomb_ue (bs : bitstream) : Except Fault (Nat × bitstream) :=
  match count_zeros (8 * bs.buffer.p.length + bs.last_used_bit + 1) 0 bs with
  | .error e => .error e
  | .ok (leading_zeros, bs) =>
    match bs.get_bits leading_zeros with
    | .error e => .error e
    | .ok (suffix, bs) =>
      if leading_zeros < 32 then
        .ok ((((1 <<< leading_zeros) ||| suffix) + (2 ^ 32 - 1)) % 2 ^ 32, bs)
      else .error .bad_shift

def get_golomb_se (bs : bitstream) : Except Fault (Int × bitstream) :=
  match bs.get_golomb_ue with
  | .error e => .error e
  | .ok (ue, bs) =>
    if ue = 0 then .ok (0, bs)
    else if ue &&& 1 ≠ 0 then .ok (toInt32 (ue >>> 1), bs)
    else .ok (toInt32 ((2 ^ 32 - (ue >>> 1)) % 2 ^ 32), bs)

/-- The loop `for (frame_idx = 0; frame_idx < n; ++frame_idx) avc.get_golomb_se();`. -/
def skip_golomb_se : Nat → bitstream → Except Fault bitstream
  | 0, bs => .ok bs
  | n + 1, bs =>
    match bs.get_golomb_se with
    | .error e => .error e
    | .ok (_, bs) => skip_golomb_se n bs

end bitstream

/-! ## The video parameter probe of pass 1 -/

/-- What the block under `if (! have_video_params)` leaves behind. -/
inductive Probe where
  /-- Control left through `goto didnt_get_video_params`. -/
  | didnt_get_video_params
  /-- Control reached the statements after the `switch` with these `w` and `h`. -/
  | params (w h : Int)
  deriving DecidableEq, Repr

/-- The H.263 case: `vptr` points at the byte after the codec byte. -/
def probeH263 (mem : List Byte) (vptr : Nat) : Except Fault Probe := do
  let vptr := vptr + 3
  let d0 ← peek mem vptr
  let d1 ← peek mem (vptr + 1)
  let dim_flag := ((d0.val &&& 0x03) <<< 1) + ((d1.val &&& 0x80) >>> 7)
  let vptr := vptr + 1
  if dim_flag = 0 then
    let v0 ← peek mem vptr
    let v1 ← peek mem (vptr + 1)
    let v1b ← peek mem (vptr + 1)
    let v2 ← peek mem (vptr + 2)
    pure (.params (((v0.val &&& 0x7f) <<< 1) + ((v1.val &&& 0x80) >>> 7) : Nat)
      (((v1b.val &&& 0x7f) <<< 1) + ((v2.val &&& 0x80) >>> 7) : Nat))
  else if dim_flag = 1 then
    let v0 ← peek mem vptr
    let v1 ← peek mem (vptr + 1)
    let v1b ← peek mem (vptr + 1)
    let v2 ← peek mem (vptr + 2)
    let w := ((((v0.val &&& 0x7f) <<< 1) + ((v1.val &&& 0x80) >>> 7)) <<< 8) +
      (((v1b.val &&& 0x7f) <<< 1) + ((v2.val &&& 0x80) >>> 7))
    let v2b ← peek mem (vptr + 2)
    let v3 ← peek mem (vptr + 3)
    let v3b ← peek mem (vptr + 3)
    let v4 ← peek mem (vptr + 4)
    let h := ((((v2b.val &&& 0x7f) <<< 1) + ((v3.val &&& 0x80) >>> 7)) <<< 8) +
      (((v3b.val &&& 0x7f) <<< 1) + ((v4.val &&& 0x80) >>> 7))
    pure (.params (w : Nat) (h : Nat))
  else if dim_flag = 2 then pure (.params 352 288)
  else if dim_flag = 3 then pure (.params 176 144)
  else if dim_flag = 4 then pure (.params 128 96)
  else if dim_flag = 5 then pure (.params 320 240)
  else if dim_flag = 6 then pure (.params 160 120)
  else pure (.params 0 0)

/-- The SCREEN case. -/
def probeScreen (mem : List Byte) (vptr : Nat) : Except Fault Probe := do
  let b0 ← peek mem vptr
  let b1 ← peek mem (vptr + 1)
  let w := ((b0.val &&& 0x0f) <<< 8) + (b1.val &&& 0xff)
  let _b2 ← peek mem (vptr + 2)
  let b3 ← peek mem (vptr + 3)
  let h := (b3.val &&& 0xf0) >>> 4
  pure (.params (w : Nat) (h : Nat))

/-- The VP6 case. -/
def probeVP6 (mem : List Byte) (vptr : Nat) : Except Fault Probe := do
  let b4 ← peek mem (vptr + 4)
  let b5 ← peek mem (vptr + 5)
  let b0 ← peek mem vptr
  let b0b ← peek mem vptr
  let w : Int := ((b4.val &&& 0xff) * 16 : Nat)
  let h : Int := ((b5.val &&& 0xff) * 16 : Nat)
  pure (.params (w - ((b0b.val &&& 0xf0) >>> 4 : Nat)) (h - (b0.val &&& 0x0f : Nat)))

/-- The H.264 case; `tag_length` is the `uint32_t` body length of the tag. -/
def probeH264 (mem : List Byte) (vptr : Nat) (tag_length : Nat) : Except Fault Probe := do
  let avc_packet_type ← peek mem vptr
  let vptr := vptr + 1
  let vptr := vptr + 3
  if avc_packet_type.val ≠ 0 ∧ avc_packet_type.val ≠ 1 then pure .didnt_get_video_params else
  let vptr := if avc_packet_type.val = 0 then vptr + 8 else vptr
  let avc_buffer : serialized_buffer := ⟨mem.drop vptr, (tag_length + 2 ^ 32 - 4) % 2 ^ 32⟩
  let avc := bitstream.init avc_buffer
  let (forbidden_zero_bit, avc) ← avc.get_bit
  if forbidden_zero_bit ≠ 0 then pure .didnt_get_video_params else
  let (_, avc) ← avc.get_bits 2
  let (nal_unit_type, avc) ← avc.get_bits 5
  if nal_unit_type % 256 ≠ 7 then pure .didnt_get_video_params else
  let (profile_idc, avc) ← avc.get_bits 8
  let profile_idc := profile_idc % 256
  let (_, avc) ← avc.get_bits 8
  let (_, avc) ← avc.get_bits 8
  let (_, avc) ← avc.get_golomb_ue
  let high ← (if profile_idc = 100 ∨ profile_idc = 110 ∨ profile_idc = 122 ∨ profile_idc = 144 then do
      let (chroma_format_idc, avc) ← avc.get_golomb_ue
      let avc ← (if chroma_format_idc = 3 then do
          let (_, avc) ← avc.get_bit
          pure avc
        else pure avc)
      let (_, avc) ← avc.get_golomb_ue
      let (_, avc) ← avc.get_golomb_ue
      let (_, avc) ← avc.get_bits 1
      let (seq_scaling_matrix_present, avc) ← avc.get_bits 1
      pure (seq_scaling_matrix_present ≠ 0, avc)
    else pure (false, avc) : Except Fault (Bool × bitstream))
  let (unhandled, avc) := high
  if unhandled then pure (.params 0 0) else
  let (_, avc) ← avc.get_golomb_ue
  let (pic_order_cnt_type, avc) ← avc.get_golomb_ue
  let avc ← (if pic_order_cnt_type = 0 then do
      let (_, avc) ← avc.get_golomb_ue
      pure avc
    else if pic_order_cnt_type = 1 then do
      let (_, avc) ← avc.get_bit
      let (_, avc) ← avc.get_golomb_se
      let (_, avc) ← avc.get_golomb_se
      let (num_ref_frames_in_pic_order_cnt_cycle, avc) ← avc.get_golomb_ue
      avc.skip_golomb_se num_ref_frames_in_pic_order_cnt_cycle
    else pure avc)
  let (_, avc) ← avc.get_golomb_ue
  let (_, avc) ← avc.get_bit
  let (ue_w, avc) ← avc.get_golomb_ue
  let pic_width_in_mbs := (ue_w + 1) % 2 ^ 32
  let (ue_h, avc) ← avc.get_golomb_ue
  let pic_height_in_map_units := (ue_h + 1) % 2 ^ 32
  let (frames_mbs_only_bit, avc) ← avc.get_bit
  let frames_mbs_only := frames_mbs_only_bit ≠ 0
  let avc ← (if ¬ frames_mbs_only then do
      let (_, avc) ← avc.get_bit
      pure avc
    else pure avc)
  let (_, avc) ← avc.get_bit
  let (frame_cropping, avc) ← avc.get_bit
  let offsets ← (if frame_cropping ≠ 0 then do
      let (l, avc) ← avc.get_golomb_ue
      let (r, avc) ← avc.get_golomb_ue
      let (t, avc) ← avc.get_golomb_ue
      let (b, _) ← avc.get_golomb_ue
      let top_offset := (t * 2) % 2 ^ 32
      let bottom_offset := (b * 2) % 2 ^ 32
      pure ((l * 2) % 2 ^ 32, (r * 2) % 2 ^ 32,
        (if ¬ frames_mbs_only then (top_offset * 2) % 2 ^ 32 else top_offset),
        (if ¬ frames_mbs_only then (bottom_offset * 2) % 2 ^ 32 else bottom_offset))
    else pure (0, 0, 0, 0) : Except Fault (Nat × Nat × Nat × Nat))
  let (left_offset, right_offset, top_offset, bottom_offset) := offsets
  let w := toInt32 ((pic_width_in_mbs * 16 + (2 ^ 32 - (left_offset + right_offset) % 2 ^ 32)) % 2 ^ 32)
  let h := toInt32 ((pic_height_in_map_units * 16 + (2 ^ 32 - (top_offset + bottom_offset) % 2 ^ 32)) % 2 ^ 32)
  let h := if ¬ frames_mbs_only then toInt32 ((h * 2) % 2 ^ 32).toNat else h
  pure (.params w h)

/-- The second `switch (codec_id)` of the probe, `vptr` pointing after the codec byte. -/
def probeVideo (mem : List Byte) (vptr : Nat) (tag_length : Nat) (codec_id : Nat) :
    Except Fault Probe :=
  if codec_id = 2 then probeH263 mem vptr
  else if codec_id = 3 then probeScreen mem vptr
  else if codec_id = 4 then probeVP6 mem vptr
  else if codec_id = 7 then probeH264 mem vptr tag_length
  else .ok (.params 0 0)

/-! ## The driver `main` (`flvtool++.cpp`) -/

/-- The command line after the argument loop of `main`. -/
structure Options where
  nomerge : Bool := false
  nodump : Bool := false
  nometapackets : Bool := false
  strip : Bool := false
  extra_tags : List (List Byte × List Byte) := []
  filename : Option String := none
  outFilename : Option String := none
  deriving DecidableEq, Repr

/-- The argument loop of `main` over `argv[1..]`.  A `-tag` without its two operands
constructs a `std::string` from the null pointer that ends `argv`. -/
def parseArgs : List String → Options → Except Fault Options
  | [], o => .ok o
  | a :: rest, o =>
    if a = "-nomerge" then parseArgs rest { o with nomerge := true }
    else if a = "-nodump" then parseArgs rest { o with nodump := true }
    else if a = "-nometapackets" then parseArgs rest { o with nometapackets := true }
    else if a = "-strip" then parseArgs rest { o with strip := true, nometapackets := true }
    else if a = "-tag" then
      match rest with
      | tn :: tv :: rest => parseArgs rest { o with extra_tags := o.extra_tags ++ [(str tn, str tv)] }
      | _ => .error .out_of_bounds
    else if o.filename.isNone then parseArgs rest { o with filename := some a }
    else parseArgs rest { o with outFilename := some a }

/-- What `gettimeofday` stores in a fresh `AMFDate`. -/
structure Now where
  tv_sec : Int
  tv_usec : Int
  tz_minuteswest : Int
  tz_dsttime : Int
  deriving DecidableEq, Repr

/-! ## The texts `asString()` builds with the C library -/

/-- The decimal digits of `n` (conversion `%d` of a non-negative number), most
significant first, pushed in front of `acc`. -/
def decimalF : Nat → Nat → List Byte → List Byte
  | 0, _, acc => acc
  | fuel + 1, n, acc =>
    if n < 10 then byte (48 + n) :: acc
    else decimalF fuel (n / 10) (byte (48 + n % 10) :: acc)

def decimal (n : Nat) : List Byte := decimalF (n + 1) n []

/-- The digits of `n` filled up on the left with the character `c` to `width` places
(conversions `%3d` and `%.2d` of a non-negative number). -/
def padded (c : Byte) (width n : Nat) : List Byte :=
  List.replicate (width - (decimal n).length) c ++ decimal n

/-- The conversion `%d`. -/
def decimalInt (i : Int) : List Byte :=
  if i < 0 then str "-" ++ decimal i.natAbs else decimal i.natAbs

/-- The text of the conversion `%f` of the double with image `x`, as glibc prints it: the
sign, then `nan`, `inf`, or the value rounded to six decimals (ties to even). -/
def F64.format_f (x : Nat) : List Byte :=
  let sign := if F64.signBit x then str "-" else []
  if F64.isNaN x then sign ++ str "nan"
  else if F64.isInf x then sign ++ str "inf"
  else
    let num := F64.scaled x * 10 ^ 6
    let den := 2 ^ 1074
    let q := num / den
    let r := num % den
    let m := if 2 * r < den then q else if den < 2 * r then q + 1
      else if q % 2 = 0 then q else q + 1
    sign ++ decimal (m / 10 ^ 6) ++ str "." ++ padded 48 6 (m % 10 ^ 6)

/-- The call `sprintf(buf, "%f", d)` on a `char buf[size]`: the text, which has to fit the
buffer together with its terminating zero. -/
def sprintf_f (size : Nat) (d : Nat) : Except Fault (List Byte) :=
  if (F64.format_f d).length + 1 ≤ size then .ok (F64.format_f d) else .error .asString_undefined

def wday_name : List String := ["Sun", "Mon", "Tue", "Wed", "Thu", "Fri", "Sat"]

def mon_name : List String :=
  ["Jan", "Feb", "Mar", "Apr", "May", "Jun", "Jul", "Aug", "Sep", "Oct", "Nov", "Dec"]

/-- The broken-down time of `gmtime_r`. -/
structure Tm where
  tm_sec : Nat
  tm_min : Nat
  tm_hour : Nat
  tm_mday : Nat
  tm_mon : Nat
  /-- The calendar year, `tm_year + 1900`. -/
  year : Int
  tm_wday : Nat
  deriving DecidableEq, Repr

/-- The call `gmtime_r(&t, &tmbuf)`: the proleptic Gregorian date of second `t` of the
epoch. -/
def gmtime (t : Int) : Tm :=
  let days := t / 86400
  let rem := (t % 86400).toNat
  let z := days + 719468
  let era := z / 146097
  let doe := (z % 146097).toNat
  let yoe := (doe - doe / 1460 + doe / 36524 - doe / 146096) / 365
  let doy := doe - (365 * yoe + yoe / 4 - yoe / 100)
  let mp := (5 * doy + 2) / 153
  let d := doy - (153 * mp + 2) / 5 + 1
  let m := if mp < 10 then mp + 3 else mp - 9
  let y := (yoe : Int) + era * 400 + (if m ≤ 2 then 1 else 0)
  { tm_sec := rem % 60, tm_min := rem / 60 % 60, tm_hour := rem / 3600,
    tm_mday := d, tm_mon := m - 1, year := y, tm_wday := ((days + 4) % 7).toNat }

/-- The call `asctime_r(&tmbuf, buf)`: the text `"%.3s %.3s%3d %.2d:%.2d:%.2d %d\n"` of
the weekday, month, day, time and year.  The function is given room for 26 bytes, which
the text and its terminating zero take when the year has four characters; with a longer
year the behaviour is undefined. -/
def asctime (tm : Tm) : Except Fault (List Byte) :=
  if tm.year < -999 ∨ 9999 < tm.year then .error .asString_undefined
  else .ok (str (wday_name.getD tm.tm_wday "???") ++ str " " ++
    str (mon_name.getD tm.tm_mon "???") ++ padded 32 3 tm.tm_mday ++ str " " ++
    padded 48 2 tm.tm_hour ++ str ":" ++ padded 48 2 tm.tm_min ++ str ":" ++
    padded 48 2 tm.tm_sec ++ str " " ++ decimalInt tm.year ++ str "\n")

mutual
/-- The virtual `asString`: the text, or the fault of a call without defined behaviour.
`AMFDouble` prints into a `char buf[64]`; `AMFDate` renders the `time_t`
`tv_sec - tz_minuteswest * 60` and cuts the text at the newline; `AMFObject` inherits the
method of `AMFMixedArray`. -/
def AMFData.asString : AMFData → Except Fault (List Byte)
  | .AMFDouble d => sprintf_f 64 d
  | .AMFBoolean d => .ok (str (if d then "true" else "false"))
  | .AMFString d => .ok d
  | .AMFObject dmap => asStringPairs dmap (str "\x7b \n")
  | .AMFNull => .ok (str "NULL")
  | .AMFUndefined => .ok (str "UNDEFINED")
  | .AMFMixedArray dmap => asStringPairs dmap (str "\x7b \n")
  | .AMFArray dmap => asStringElems dmap (str "\x7b \n")
  | .AMFDate tv_sec _ tz_minuteswest _ =>
    if tz_minuteswest * 60 < -(2 ^ 31 : Int) ∨ (2 ^ 31 : Int) ≤ tz_minuteswest * 60 then
      .error .asString_undefined
    else if tv_sec - tz_minuteswest * 60 < -(2 ^ 63 : Int) ∨
        (2 ^ 63 : Int) ≤ tv_sec - tz_minuteswest * 60 then
      .error .asString_undefined
    else
      match asctime (gmtime (tv_sec - tz_minuteswest * 60)) with
      | .error e => .error e
      | .ok buf => .ok (buf.takeWhile (fun c => c ≠ 10))
  | .AMFUnsupported => .ok (str "UNSUPPORTED")
/-- The loop of `AMFMixedArray::asString` over the entries still to visit, `d` being the
text so far. -/
def asStringPairs : List (List Byte × AMFData) → List Byte → Except Fault (List Byte)
  | [], d => .ok (d ++ str "\x7d")
  | (k, v) :: m, d =>
    match v.asString with
    | .error e => .error e
    | .ok s => asStringPairs m (d ++ str "  " ++ k ++ str ": " ++ s ++ str "\n")
/-- The loop of `AMFArray::asString`. -/
def asStringElems : List AMFData → List Byte → Except Fault (List Byte)
  | [], d => .ok (d ++ str "\x7d")
  | v :: a, d =>
    match v.asString with
    | .error e => .error e
    | .ok s => asStringElems a (d ++ str "  " ++ s ++ str "\n")
end

/-- The locals of `main` that pass 1 works on. -/
structure Scan where
  fptr : Nat
  fend : Nat
  onMetaData : Dmap
  hasVideo : Bool
  hasAudio : Bool
  total_audio : Nat
  total_video : Nat
  ts : TsState
  have_audio_params : Bool
  have_video_params : Bool
  hasKeyframes : Bool
  vframe_count : Nat
  keyframe_count : Nat
  deriving Repr

/-- The `try` block of the `tag_type == 18` branch with its handler: the `onMetaData`
map afterwards.  The key is compared through `tagKey->asString()`; a tag with another key
is printed, key and value, through `asString()`. -/
def scanMeta (nomerge : Bool) (tagbuf : serialized_buffer) (onMetaData : Dmap) :
    Except Fault Dmap :=
  let attempt : Except Fault Dmap :=
    match AMFData.construct tagbuf with
    | .error e => .error e
    | .ok (tagKey, tagbuf) =>
      match AMFData.construct tagbuf with
      | .error e => .error e
      | .ok (d, _) =>
        match tagKey.asString with
        | .error e => .error e
        | .ok key =>
          if key = str "onMetaData" then
            if ¬ nomerge then AMFMixedArray.merge onMetaData d false else .ok onMetaData
          else
            match d.asString with
            | .error e => .error e
            | .ok _ => .ok onMetaData
  match attempt with
  | .ok m => .ok m
  | .error e => if e.isException then .ok onMetaData else .error e

/-- The `tag_type == 9` branch of pass 1; `fptr` points at the tag body. -/
def scanVideo (mem : List Byte) (tag_length : Nat) (s : Scan) : Except Fault Scan := do
  let codec_id_and_frame_type ← peek mem s.fptr
  let fptr := s.fptr + 1
  let codec_id := codec_id_and_frame_type.val &&& 0x0f
  let frame_type := (codec_id_and_frame_type.val >>> 4) &&& 0x0f
  let s := { s with hasVideo := true }
  let s := if frame_type = 1 then
      { s with hasKeyframes := true, keyframe_count := (s.keyframe_count + 1) % 2 ^ 32 }
    else s
  let s ← (if ¬ s.have_video_params then do
      let r ← probeVideo mem fptr tag_length codec_id
      match r with
      | .didnt_get_video_params => pure s
      | .params w h =>
        let dmap := mapAssign s.onMetaData (str "videocodecid") (.AMFDouble (F64.ofNat codec_id))
        let dmap := if w ≠ 0 then mapAssign dmap (str "width") (.AMFDouble (F64.ofInt w)) else dmap
        let dmap := if h ≠ 0 then mapAssign dmap (str "height") (.AMFDouble (F64.ofInt h)) else dmap
        pure { s with onMetaData := dmap, have_video_params := true }
    else pure s : Except Fault Scan)
  pure { s with
    fptr := fptr + (tag_length + 2 ^ 32 - 1) % 2 ^ 32
    total_video := (s.total_video + (tag_length + 2 ^ 32 - 1) % 2 ^ 32) % 2 ^ 64
    vframe_count := (s.vframe_count + 1) % 2 ^ 32 }

/-- The `tag_type == 8 && tag_length > 0` branch of pass 1. -/
def scanAudio (mem : List Byte) (tag_length : Nat) (s : Scan) : Except Fault Scan := do
  let audio_format_byte ← peek mem s.fptr
  let fptr := s.fptr + 1
  let audio_format := (audio_format_byte.val >>> 4) &&& 0x0f
  let rate_index := (audio_format_byte.val >>> 2) &&& 0x03
  let audio_rate : Nat :=
    if rate_index = 0 then 5500 else if rate_index = 1 then 11000
    else if rate_index = 2 then 22000 else 44100
  let audio_sample_size : Nat := if audio_format_byte.val &&& 0x02 ≠ 0 then 16 else 8
  let stereo : Bool := audio_format_byte.val &&& 0x01 ≠ 0
  let (audio_sample_size, audio_rate, stereo) :=
    if audio_format = 4 then (8, 16000, false)
    else if audio_format = 5 then (8, 8000, false)
    else (audio_sample_size, audio_rate, stereo)
  let s := { s with hasAudio := true }
  let s := if ¬ s.have_audio_params then
      let dmap := mapAssign s.onMetaData (str "audiocodecid") (.AMFDouble (F64.ofNat audio_format))
      let dmap := mapAssign dmap (str "audiosamplerate") (.AMFDouble (F64.ofNat audio_rate))
      let dmap := mapAssign dmap (str "audiosamplesize") (.AMFDouble (F64.ofNat audio_sample_size))
      let dmap := mapAssign dmap (str "stereo") (.AMFBoolean stereo)
      { s with onMetaData := dmap, have_audio_params := true }
    else s
  pure { s with
    fptr := fptr + (tag_length - 1)
    total_audio := (s.total_audio + tag_length) % 2 ^ 64 }

/-- One turn of the `while (fptr < fend)` loop of pass 1: the state afterwards and whether
the loop goes on (`false` after a `break`). -/
def pass1Step (nomerge : Bool) (mem : List Byte) (s : Scan) : Except Fault (Bool × Scan) := do
  let tag_start := s.fptr
  if tag_start + 15 > s.fend then pure (false, { s with fend := tag_start - 1 }) else
  let tag_type ← peek mem s.fptr
  let (tag_length, fptr) ← deserialize_uint24 mem (s.fptr + 1)
  if tag_start + tag_length > s.fend then
    pure (false, { s with fptr := fptr, fend := tag_start }) else
  let (_, fptr, ts) ← process_timestamp tag_type mem fptr s.ts
  let fptr := fptr + 3
  let s := { s with fptr := fptr, ts := ts }
  let s ← (if tag_type = 18 then do
      let dmap ← scanMeta nomerge ⟨mem.drop fptr, tag_length⟩ s.onMetaData
      pure { s with onMetaData := dmap, fptr := fptr + tag_length }
    else if tag_type = 9 then scanVideo mem tag_length s
    else if tag_type = 8 ∧ tag_length > 0 then scanAudio mem tag_length s
    else pure { s with fptr := fptr + tag_length } : Except Fault Scan)
  pure (true, { s with fptr := s.fptr + 4 })

/-- The `while (fptr < fend)` loop of pass 1. -/
def pass1Loop (nomerge : Bool) (mem : List Byte) : Nat → Scan → Except Fault Scan
  | 0, _ => .error .out_of_fuel
  | fuel + 1, s =>
    if s.fptr < s.fend then
      match pass1Step nomerge mem s with
      | .error e => .error e
      | .ok (true, s) => pass1Loop nomerge mem fuel s
      | .ok (false, s) => .ok s
    else .ok s

/-- The offset `tag_stream_start`, computed from the header size field with `uint32_t`
arithmetic. -/
def tagStreamStart (mem : List Byte) : Nat :=
  let header_size := ntohl (load_le ((mem.drop 5).take 4))
  5 + 4 + (header_size + 2 ^ 32 - 9) % 2 ^ 32 + 4

/-- The checks at the start of `main` and pass 1. -/
def pass1 (nomerge : Bool) (mem : List Byte) : Except Fault Scan :=
  if mem.length < 13 then .error .exit_failure
  else if mem.take 4 ≠ [0x46, 0x4C, 0x56, 0x01] then .error .exit_failure
  else
    pass1Loop nomerge mem (mem.length + 1)
      { fptr := tagStreamStart mem, fend := mem.length, onMetaData := [],
        hasVideo := false, hasAudio := false, total_audio := 0, total_video := 0,
        ts := ⟨0, false⟩, have_audio_params := false, have_video_params := false,
        hasKeyframes := false, vframe_count := 0, keyframe_count := 0 }

/-- The assignments to `onMetaData` between pass 1 and the dump-only exit. -/
def installStats (s : Scan) : Dmap :=
  let length_sec := F64.div (F64.ofNat s.ts.last_timestamp) (F64.ofNat 1000)
  let videodatarate :=
    F64.div (F64.div (F64.mul (F64.ofNat s.total_video) (F64.ofNat 8)) (F64.ofNat 1000)) length_sec
  let audiodatarate :=
    F64.div (F64.div (F64.mul (F64.ofNat s.total_audio) (F64.ofNat 8)) (F64.ofNat 1000)) length_sec
  let framerate := F64.div (F64.ofNat s.vframe_count) length_sec
  let dmap := s.onMetaData
  let dmap := mapAssign dmap (str "hasAudio") (.AMFBoolean s.hasAudio)
  let dmap := mapAssign dmap (str "hasVideo") (.AMFBoolean s.hasVideo)
  let dmap := mapAssign dmap (str "hasCuePoints") (.AMFBoolean false)
  let dmap := mapAssign dmap (str "hasMetadata") (.AMFBoolean true)
  let dmap := mapAssign dmap (str "canSeekToEnd") (.AMFBoolean true)
  let dmap := mapAssign dmap (str "duration") (.AMFDouble length_sec)
  let dmap := mapAssign dmap (str "framerate") (.AMFDouble framerate)
  let dmap := mapAssign dmap (str "videodatarate") (.AMFDouble videodatarate)
  let dmap := mapAssign dmap (str "audiodatarate") (.AMFDouble audiodatarate)
  let dmap := mapAssign dmap (str "videosize") (.AMFDouble (F64.ofNat s.total_video))
  let dmap := mapAssign dmap (str "audiosize") (.AMFDouble (F64.ofNat s.total_audio))
  let dmap := mapAssign dmap (str "hasKeyframes") (.AMFBoolean s.hasKeyframes)
  let dmap := mapAssign dmap (str "totalframes") (.AMFDouble (F64.ofNat s.vframe_count))
  let dmap := mapAssign dmap (str "lasttimestamp")
    (.AMFDouble (F64.div (F64.ofNat s.ts.last_timestamp) (F64.ofNat 1000)))
  mapAssign dmap (str "datasize") (.AMFDouble (F64.ofNat 0))

/-- The assignments after the dump-only exit, up to and including the `-tag` loop. -/
def installTags (o : Options) (now : Now) (dmap : Dmap) : Dmap :=
  let dmap := mapAssign dmap (str "metadatacreator")
    (.AMFString (str "flvtool++ (Facebook, Motion project, dweatherford)"))
  let dmap := mapAssign dmap (str "metadatadate")
    (.AMFDate now.tv_sec now.tv_usec now.tz_minuteswest now.tz_dsttime)
  o.extra_tags.foldl (fun dmap eti => mapAssign dmap eti.1 (.AMFString eti.2)) dmap

/-- The `onMetaData` map as `onMetaData->write` sees it, given the map `dmap` left by the
`-tag` loop and the current contents of the two shared arrays `keyTimes` and
`keyPositions`: the `keyframes` object is installed under its key, and `-strip` clears
the map. -/
def metaWith (strip : Bool) (dmap : Dmap) (keyTimes keyPositions : List AMFData) : Dmap :=
  let keyframes : Dmap := mapAssign [] (str "times") (.AMFArray keyTimes)
  let keyframes := mapAssign keyframes (str "filepositions") (.AMFArray keyPositions)
  let dmap := mapAssign dmap (str "keyframes") (.AMFObject keyframes)
  if strip then [] else dmap

/-! ### The output file

`Sink` is the `fout` of `fout.h` seen from outside: the contents the file has once all
that was written is flushed, and the position `tell()` reports. -/

structure Sink where
  file : List Byte
  pos : Nat
  deriving DecidableEq, Repr

/-- The file after `fwrite` has written `dat` at offset `pos`: a write of no bytes leaves
the file as it is, and a gap past the end reads as zeros. -/
def overwrite (file : List Byte) (pos : Nat) (dat : List Byte) : List Byte :=
  if dat = [] then file
  else file.take pos ++ List.replicate (pos - file.length) 0 ++ dat ++ file.drop (pos + dat.length)

namespace Sink

def write (fp : Sink) (dat : List Byte) : Sink :=
  ⟨overwrite fp.file fp.pos dat, fp.pos + dat.length⟩

def putc (fp : Sink) (c : Byte) : Sink := fp.write [c]

def write_u24_be (fp : Sink) (d : Nat) : Sink :=
  ((fp.putc (byte ((d >>> 16) &&& 0xff))).putc (byte ((d >>> 8) &&& 0xff))).putc (byte (d &&& 0xff))

def tell (fp : Sink) : Nat := fp.pos

def seek (fp : Sink) (offset : Nat) : Sink := ⟨fp.file, offset⟩

end Sink

/-- The output file from its first byte to the start of the copied tags, as the code
before pass 2 writes it: FLV header, the script tag with the payload `onMetaData` followed
by the encoded map, the tag's trailer, and the backpatched length.  Returns the sink and
the offset `fp_metadata_start`. -/
def writePreamble (hasVideo hasAudio : Bool) (dmap : Dmap) : Sink × Nat :=
  let fp : Sink := ⟨[], 0⟩
  let fp := fp.write [0x46, 0x4C, 0x56, 0x01]
  let flags := (if hasVideo then 0x04 else 0) ||| (if hasAudio then 0x01 else 0)
  let fp := fp.putc (byte flags)
  let fp := fp.write [0x00, 0x00, 0x00, 0x09, 0x00, 0x00, 0x00, 0x00]
  let fp := fp.putc 18
  let fp_metadata_length_offset := fp.tell
  let fp := fp.write [0x00, 0x00, 0x00]
  let fp := fp.write [0x00, 0x00, 0x00, 0x00]
  let fp := fp.write [0x00, 0x00, 0x00]
  let fp_metadata_real_start := fp.tell
  let fp := fp.write (AMFData.AMFString (str "onMetaData")).write
  let fp_metadata_start := fp.tell
  let fp := fp.write (AMFData.AMFMixedArray dmap).write
  let fp_metadata_len := fp.tell - fp_metadata_real_start
  let fp := fp.write (store_le 4 (htons (fp_metadata_len + 11)))
  let fp_tagstream_start := fp.tell
  let fp := fp.seek fp_metadata_length_offset
  let fp := fp.putc (byte ((fp_metadata_len >>> 16) &&& 0xff))
  let fp := fp.putc (byte ((fp_metadata_len >>> 8) &&& 0xff))
  let fp := fp.putc (byte (fp_metadata_len &&& 0xff))
  let fp := fp.seek fp_tagstream_start
  (fp, fp_metadata_start)

/-- The locals pass 2 works on. -/
structure Copy where
  fptr : Nat
  ts : TsState
  current_keyframe : Nat
  keyTimes : List AMFData
  keyPositions : List AMFData
  fp : Sink
  deriving Repr

/-- The assignment `v[i] = x` on a `std::vector`. -/
def vectorSet (v : List AMFData) (i : Nat) (x : AMFData) : Except Fault (List AMFData) :=
  if i < v.length then .ok (v.set i x) else .error .out_of_bounds

/-- One turn of the `while (fptr < fend)` loop of pass 2. -/
def pass2Step (nometapackets : Bool) (mem : List Byte) (c : Copy) : Except Fault Copy := do
  let tag_type ← peek mem c.fptr
  let (tag_length, fptr) ← deserialize_uint24 mem (c.fptr + 1)
  let (tag_timestamp, fptr, ts) ← process_timestamp tag_type mem fptr c.ts
  let (streamID, fptr) ← deserialize_uint24 mem fptr
  let c ← (if tag_type = 9 then do
      let codec_id_and_frame_type ← peek mem fptr
      let frame_type := (codec_id_and_frame_type.val >>> 4) &&& 0x0f
      if frame_type = 1 then do
        let keyTimes ← vectorSet c.keyTimes c.current_keyframe
          (.AMFDouble (F64.div (F64.ofNat tag_timestamp) (F64.ofNat 1000)))
        let keyPositions ← vectorSet c.keyPositions c.current_keyframe
          (.AMFDouble (F64.ofNat c.fp.tell))
        pure { c with keyTimes := keyTimes, keyPositions := keyPositions,
                      current_keyframe := (c.current_keyframe + 1) % 2 ^ 32 }
      else pure c
    else pure c : Except Fault Copy)
  let fp ← (if (tag_type = 8 ∧ tag_length > 0) ∨ tag_type = 9 ∨
        (tag_type = 18 ∧ ¬ nometapackets) then do
      let fp := c.fp.putc tag_type
      let fp := fp.write_u24_be tag_length
      let fp := fp.write_u24_be tag_timestamp
      let fp := fp.putc (byte ((tag_timestamp >>> 24) &&& 0xff))
      let fp := fp.write_u24_be streamID
      let body ← deref (mem.drop fptr) (tag_length + 4)
      pure (fp.write body)
    else pure c.fp : Except Fault Sink)
  pure { c with fptr := fptr + (tag_length + 4), ts := ts, fp := fp }

/-- The `while (fptr < fend)` loop of pass 2. -/
def pass2Loop (nometapackets : Bool) (mem : List Byte) (fend : Nat) :
    Nat → Copy → Except Fault Copy
  | 0, _ => .error .out_of_fuel
  | fuel + 1, c =>
    if c.fptr < fend then
      match pass2Step nometapackets mem c with
      | .error e => .error e
      | .ok c => pass2Loop nometapackets mem fend fuel c
    else .ok c

/-- What a run of `main` leaves behind. -/
structure Outcome where
  /-- The `onMetaData` map at the end of the run. -/
  onMetaData : Dmap
  /-- The contents of the output file, when one was asked for. -/
  output : Option (List Byte)
  /-- What `fp.tell()` is right after the first and right after the second
  `onMetaData->write(fp)`, when an output file was asked for. -/
  write_ends : Option (Nat × Nat)
  deriving Repr

/-- The function `main` after the argument loop, on the mapped input `mem`; `now` is what
`gettimeofday` answers when the `metadatadate` is created.  The map is printed through
`asString()` in dump-only mode and, without `-nodump`, at the end of the run. -/
def run (o : Options) (now : Now) (mem : List Byte) : Except Fault Outcome := do
  let s ← pass1 o.nomerge mem
  let dmap := installStats s
  if o.outFilename.isNone then
    match (AMFData.AMFMixedArray dmap).asString with
    | .error e => .error e
    | .ok _ => pure { onMetaData := dmap, output := none, write_ends := none } else
  let dmap := installTags o now dmap
  let keyTimes := List.replicate s.keyframe_count (AMFData.AMFDouble (F64.ofNat 0))
  let keyPositions := List.replicate s.keyframe_count (AMFData.AMFDouble (F64.ofNat 0))
  let first := metaWith o.strip dmap keyTimes keyPositions
  let (fp, fp_metadata_start) := writePreamble s.hasVideo s.hasAudio first
  let c ← pass2Loop o.nometapackets mem s.fend (mem.length + 1)
    { fptr := tagStreamStart mem, ts := ⟨0, s.ts.timestamp_warning_given⟩,
      current_keyframe := 0, keyTimes := keyTimes, keyPositions := keyPositions, fp := fp }
  let final := metaWith o.strip dmap c.keyTimes c.keyPositions
  let final := if ¬ o.strip then
      mapAssign final (str "datasize") (.AMFDouble (F64.ofNat c.fp.tell))
    else final
  let fp := c.fp.seek fp_metadata_start
  let fp := fp.write (AMFData.AMFMixedArray final).write
  let dump : Except Fault (List Byte) :=
    if ¬ o.nodump then (AMFData.AMFMixedArray final).asString else .ok []
  match dump with
  | .error e => .error e
  | .ok _ =>
    pure { onMetaData := final, output := some fp.file,
           write_ends := some (fp_metadata_start + (AMFData.AMFMixedArray first).write.length, fp.tell) }

/-- The function `main` with its argument loop; `readFile` stands for the file system. -/
def main (argv : List String) (readFile : String → Option (List Byte)) (now : Now) :
    Except Fault Outcome :=
  match parseArgs (argv.drop 1) {} with
  | .error e => .error e
  | .ok o =>
    match o.filename with
    | none => .error .exit_failure
    | some filename =>
      match readFile filename with
      | none => .error .exit_failure
      | some mem => run o now mem

/-! ## Notions used to state the timestamp properties -/

/-- The timestamp a tag header stores: the 24 bits `low` in the three bytes at header
offset 4 and the extension byte `high`, combined as `high << 24 | low`. -/
def candidate (b0 b1 b2 b3 : Byte) : Nat :=
  (b3.val <<< 24) ||| ((b0.val <<< 16) + (b1.val <<< 8) + b2.val)

/-- The condition under which `process_timestamp` repairs a candidate. -/
def RepairCondition (cand last_timestamp : Nat) : Prop :=
  cand < last_timestamp ∧ cand &&& 0xff000000 = 0 ∧ last_timestamp &&& 0xfff00000 ≠ 0

instance (cand last_timestamp : Nat) : Decidable (RepairCondition cand last_timestamp) := by
  unfold RepairCondition
  exact inferInstance

/-- The value the repair computes, in `uint32_t` arithmetic. -/
def repaired (cand last_timestamp : Nat) : Nat :=
  let new_timestamp := (cand + (last_timestamp &&& 0xff000000)) % 2 ^ 32
  if new_timestamp < last_timestamp then (new_timestamp + 0x1000000) % 2 ^ 32 else new_timestamp

/-- The timestamps `process_timestamp` returns for a sequence of video tags (tag type 9),
each given by the four timestamp bytes of its header, fed in order. -/
def videoRun : List (Byte × Byte × Byte × Byte) → TsState → Except Fault (List Nat)
  | [], _ => .ok []
  | (b0, b1, b2, b3) :: tags, st =>
    match process_timestamp 9 [b0, b1, b2, b3] 0 st with
    | .error e => .error e
    | .ok (tag_timestamp, _, st) =>
      match videoRun tags st with
      | .error e => .error e
      | .ok out => .ok (tag_timestamp :: out)

/-- Whether no tag of the sequence falls below the running `last_timestamp` without
meeting the repair condition. -/
def everyRegressionRepaired : List (Byte × Byte × Byte × Byte) → TsState → Bool
  | [], _ => true
  | (b0, b1, b2, b3) :: tags, st =>
    decide (candidate b0 b1 b2 b3 < st.last_timestamp →
      RepairCondition (candidate b0 b1 b2 b3) st.last_timestamp) &&
    match process_timestamp 9 [b0, b1, b2, b3] 0 st with
    | .error _ => true
    | .ok (_, _, st) => everyRegressionRepaired tags st

/-! ## Sample inputs -/

/-- The FLV header with both stream flags set, header size 9, and the first
"previous tag size". -/
def sampleHeader : List Byte := [0x46, 0x4C, 0x56, 0x01, 0x05, 0, 0, 0, 9, 0, 0, 0, 0]

/-- A video tag at timestamp 0 whose one-byte body `0x11` is a keyframe of codec 1. -/
def sampleKeyframe : List Byte := [9, 0, 0, 1, 0, 0, 0, 0, 0, 0, 0, 0x11, 0, 0, 0, 12]

/-- A script tag with the payload `onMetaData` followed by the mixed array `{a: Null}`. -/
def sampleMetaTag : List Byte :=
  [18, 0, 0, 25, 0, 0, 0, 0, 0, 0, 0,
   0x02, 0, 10, 0x6F, 0x6E, 0x4D, 0x65, 0x74, 0x61, 0x44, 0x61, 0x74, 0x61,
   0x08, 0, 0, 0, 1, 0, 1, 0x61, 0x05, 0, 0, 9,
   0, 0, 0, 36]

/-- A video tag that announces a body of 5 bytes and ends with its body: the four bytes
of the trailer are missing. -/
def sampleCutTag : List Byte := [9, 0, 0, 5, 0, 0, 0, 0, 0, 0, 0, 0x21, 1, 2, 3, 4]

/-- A file system holding one input file. -/
def oneFile (mem : List Byte) : String → Option (List Byte) := fun _ => some mem

/-- The time of day used in the sample runs. -/
def sampleNow : Now := ⟨0, 0, 0, 0⟩

/-! ## Canonical encodings -/

/-- The unsigned integer a big-endian byte string denotes. -/
def beNat (bs : List Byte) : Nat := load_le bs.reverse

mutual
/-- Whether `bs` starts with a canonical encoding of one AMF0 value, and what follows it.
Canonical means: a known type byte; a Boolean payload of `00` or `01`; in an Object or
MixedArray non-empty keys in strictly ascending byte order and the terminator `00 00 09`;
a MixedArray count equal to the number of entries; a StrictArray with as many elements as
its count; a Date whose milliseconds `AMFDate::write` computes again from the seconds and
microseconds read from them. -/
def canonicalF : Nat → List Byte → Option (List Byte)
  | 0, _ => none
  | _ + 1, [] => none
  | fuel + 1, t :: bs =>
    if t.val = AMF_TYPE_DOUBLE then (if 8 ≤ bs.length then some (bs.drop 8) else none)
    else if t.val = AMF_TYPE_BOOLEAN then
      match bs with
      | b :: rest => if b.val ≤ 1 then some rest else none
      | [] => none
    else if t.val = AMF_TYPE_STRING then
      if 2 ≤ bs.length ∧ beNat (bs.take 2) ≤ (bs.drop 2).length then
        some ((bs.drop 2).drop (beNat (bs.take 2)))
      else none
    else if t.val = AMF_TYPE_OBJECT then
      match canonicalPairs fuel none bs with
      | some (_, rest) => some rest
      | none => none
    else if t.val = AMF_TYPE_NULL ∨ t.val = AMF_TYPE_UNDEFINED ∨ t.val = AMF_TYPE_UNSUPPORTED then
      some bs
    else if t.val = AMF_TYPE_MIXED_ARRAY then
      if 4 ≤ bs.length then
        match canonicalPairs fuel none (bs.drop 4) with
        | some (count, rest) => if beNat (bs.take 4) = count then some rest else none
        | none => none
      else none
    else if t.val = AMF_TYPE_ARRAY then
      if 4 ≤ bs.length then canonicalElems fuel (beNat (bs.take 4)) (bs.drop 4) else none
    else if t.val = AMF_TYPE_DATE then
      if 10 ≤ bs.length ∧
          dateMillis (dateFields (beNat (bs.take 8))).1 (dateFields (beNat (bs.take 8))).2 =
            beNat (bs.take 8) then
        some (bs.drop 10)
      else none
    else none
/-- The entries of an Object or MixedArray after the key `prev`, up to and including the
terminator: their number and what follows. -/
def canonicalPairs : Nat → Option (List Byte) → List Byte → Option (Nat × List Byte)
  | 0, _, _ => none
  | fuel + 1, prev, bs =>
    if 2 ≤ bs.length then
      if beNat (bs.take 2) = 0 then
        match bs.drop 2 with
        | e :: rest => if e.val = 9 then some (0, rest) else none
        | [] => none
      else if beNat (bs.take 2) ≤ (bs.drop 2).length ∧
          (match prev with
           | none => true
           | some p => strLt p ((bs.drop 2).take (beNat (bs.take 2)))) = true then
        match canonicalF fuel ((bs.drop 2).drop (beNat (bs.take 2))) with
        | some rest =>
          match canonicalPairs fuel (some ((bs.drop 2).take (beNat (bs.take 2)))) rest with
          | some (count, rest) => some (count + 1, rest)
          | none => none
        | none => none
      else none
    else none
/-- The `count` elements of a StrictArray. -/
def canonicalElems : Nat → Nat → List Byte → Option (List Byte)
  | 0, _, _ => none
  | _ + 1, 0, bs => some bs
  | fuel + 1, count + 1, bs =>
    match canonicalF fuel bs with
    | some rest => canonicalElems fuel count rest
    | none => none
end

/-- A MixedArray `{a: 1.5, b: {x: Null}, c: [true]}` in canonical form. -/
def sampleCanonical : List Byte :=
  [0x08, 0, 0, 0, 3,
   0, 1, 0x61, 0x00, 0x3F, 0xF8, 0, 0, 0, 0, 0, 0,
   0, 1, 0x62, 0x03, 0, 1, 0x78, 0x05, 0, 0, 9,
   0, 1, 0x63, 0x0A, 0, 0, 0, 1, 0x01, 0x01,
   0, 0, 9]

/-- The MixedArray `{b: Null, a: Null}` with its keys in that order on the wire. -/
def sampleDescending : List Byte :=
  [0x08, 0, 0, 0, 2, 0, 1, 0x62, 0x05, 0, 1, 0x61, 0x05, 0, 0, 9]

/-! ## Well-formed input files and what pass 2 makes of them -/

/-- One tag of an FLV file, by the bytes of its fields: type, the three bytes of the body
length, the three timestamp bytes and the extension byte, the three bytes of the stream
id, the body, and the four bytes of the trailer. -/
structure Tag where
  tag_type : Byte
  l0 : Byte
  l1 : Byte
  l2 : Byte
  b0 : Byte
  b1 : Byte
  b2 : Byte
  b3 : Byte
  s0 : Byte
  s1 : Byte
  s2 : Byte
  body : List Byte
  trailer : List Byte
  deriving DecidableEq, Repr

namespace Tag

/-- The bytes of the tag in the file. -/
def encode (t : Tag) : List Byte :=
  [t.tag_type, t.l0, t.l1, t.l2, t.b0, t.b1, t.b2, t.b3, t.s0, t.s1, t.s2] ++ t.body ++ t.trailer

/-- The value of the length field. -/
def tag_length (t : Tag) : Nat := (t.l0.val <<< 16) + (t.l1.val <<< 8) + t.l2.val

/-- The value of the stream id field. -/
def streamID (t : Tag) : Nat := (t.s0.val <<< 16) + (t.s1.val <<< 8) + t.s2.val

/-- The framing of the tag is complete: the body has the announced length, the trailer
has four bytes, and a video tag has the byte that holds its frame type. -/
def Wf (t : Tag) : Prop :=
  t.body.length = t.tag_length ∧ t.trailer.length = 4 ∧ (t.tag_type = 9 → t.body ≠ [])

instance (t : Tag) : Decidable t.Wf := by
  unfold Wf
  infer_instance

/-- A video tag whose `frame_type` (high nibble of the first body byte) is 1. -/
def isKeyframe (t : Tag) : Bool :=
  match t.body with
  | b :: _ => decide (t.tag_type = 9) && decide ((b.val >>> 4) &&& 0x0f = 1)
  | [] => false

/-- The copy condition of pass 2. -/
def copied (nometapackets : Bool) (t : Tag) : Bool :=
  decide ((t.tag_type = 8 ∧ t.tag_length > 0) ∨ t.tag_type = 9 ∨
    (t.tag_type = 18 ∧ ¬ nometapackets))

/-- The bytes pass 2 writes for a copied tag whose reconstructed timestamp is `ts`. -/
def rewritten (t : Tag) (ts : Nat) : List Byte :=
  [t.tag_type,
   byte ((t.tag_length >>> 16) &&& 0xff), byte ((t.tag_length >>> 8) &&& 0xff),
   byte (t.tag_length &&& 0xff),
   byte ((ts >>> 16) &&& 0xff), byte ((ts >>> 8) &&& 0xff), byte (ts &&& 0xff),
   byte ((ts >>> 24) &&& 0xff),
   byte ((t.streamID >>> 16) &&& 0xff), byte ((t.streamID >>> 8) &&& 0xff),
   byte (t.streamID &&& 0xff)] ++ t.body ++ t.trailer

end Tag

/-- The bytes of a sequence of tags. -/
def encodeTags : List Tag → List Byte
  | [] => []
  | t :: tags => t.encode ++ encodeTags tags

/-- The FLV file with the given flags byte, a header size of 9, the four bytes `p4` of the
first "previous tag size", and the given tags. -/
def flvFile (flags : Byte) (p4 : List Byte) (tags : List Tag) : List Byte :=
  [0x46, 0x4C, 0x56, 0x01, flags, 0, 0, 0, 9] ++ p4 ++ encodeTags tags

/-- The timestamps `process_timestamp` reconstructs for the tags of a file, in file order. -/
def tagTimestamps : List Tag → TsState → Except Fault (List Nat)
  | [], _ => .ok []
  | t :: tags, st =>
    match process_timestamp t.tag_type [t.b0, t.b1, t.b2, t.b3] 0 st with
    | .error e => .error e
    | .ok (tag_timestamp, _, st) =>
      match tagTimestamps tags st with
      | .error e => .error e
      | .ok out => .ok (tag_timestamp :: out)

/-- The tag stream of the output: the copied tags, each with its reconstructed timestamp. -/
def copiedBytes (nometapackets : Bool) : List (Tag × Nat) → List Byte
  | [] => []
  | (t, ts) :: rest =>
    (if t.copied nometapackets then t.rewritten ts else []) ++ copiedBytes nometapackets rest

/-- For each keyframe tag, in order, the offset at which its copy begins in an output
whose tag stream begins at offset `pos`, and its reconstructed timestamp. -/
def keyIndex (nometapackets : Bool) : List (Tag × Nat) → Nat → List (Nat × Nat)
  | [], _ => []
  | (t, ts) :: rest, pos =>
    (if t.isKeyframe then [(pos, ts)] else []) ++
      keyIndex nometapackets rest
        (pos + if t.copied nometapackets then (t.rewritten ts).length else 0)

/-- The output file up to the tag stream, for the final `onMetaData` map `dmap`: the FLV
header, the script tag header with the payload length, the payload (the string
`onMetaData` and the encoded map) and the four bytes written as the tag's trailer. -/
def preambleBytes (hasVideo hasAudio : Bool) (dmap : Dmap) : List Byte :=
  let payload := (AMFData.AMFString (str "onMetaData")).write ++ (AMFData.AMFMixedArray dmap).write
  [0x46, 0x4C, 0x56, 0x01,
   byte ((if hasVideo then 0x04 else 0) ||| (if hasAudio then 0x01 else 0)),
   0x00, 0x00, 0x00, 0x09, 0x00, 0x00, 0x00, 0x00,
   18,
   byte ((payload.length >>> 16) &&& 0xff), byte ((payload.length >>> 8) &&& 0xff),
   byte (payload.length &&& 0xff),
   0x00, 0x00, 0x00, 0x00, 0x00, 0x00, 0x00] ++
  payload ++ store_le 4 (htons (payload.length + 11))

/-- Two keyframe video tags at 0 ms and 2000 ms around an audio tag. -/
def sampleTags : List Tag :=
  [⟨9, 0, 0, 2, 0, 0, 0, 0, 0, 0, 0, [0x11, 0xAA], [0, 0, 0, 13]⟩,
   ⟨8, 0, 0, 1, 0, 0, 10, 0, 0, 0, 0, [0x2F], [0, 0, 0, 12]⟩,
   ⟨9, 0, 0, 1, 0, 0x07, 0xD0, 0, 0, 0, 0, [0x11], [0, 0, 0, 12]⟩]

/-- The command line `flvtool++ in.flv out.flv`. -/
def sampleOptions : Options := { filename := some "in.flv", outFilename := some "out.flv" }

/-! ## The remaining getters of `serialized_buffer.h` and explicit state for the throwing
methods -/

def LE16 (x : Nat) : Nat := x
def LE32 (x : Nat) : Nat := x
def LE64 (x : Nat) : Nat := x

namespace serialized_buffer

/-- The protected `consume` with the object as explicit state: the cursor after the call,
whether the call returned or threw, and the pointer returned. -/
def consumeState (b : serialized_buffer) (bytes : Nat) :
    serialized_buffer × Except Fault (List Byte) :=
  if b.len < bytes then (b, .error (.end_of_buffer bytes b.len))
  else (⟨b.p.drop bytes, b.len - bytes⟩, .ok b.p)

def get_u16_le (b : serialized_buffer) : Except Fault (Nat × serialized_buffer) :=
  match b.consume 2 with
  | .error e => .error e
  | .ok (r, b1) =>
    match deref r 2 with
    | .error e => .error e
    | .ok bs => .ok (LE16 (load_le bs), b1)

/-- The getter `get_u24_be`: three bytes are consumed and a `uint32_t` is loaded from
the pointer `consume` returned. -/
def get_u24_be (b : serialized_buffer) : Except Fault (Nat × serialized_buffer) :=
  match b.consume 3 with
  | .error e => .error e
  | .ok (r, b1) =>
    match deref r 4 with
    | .error e => .error e
    | .ok bs => .ok (BE32 (load_le bs &&& 0x00ffffff), b1)

def get_u24_le (b : serialized_buffer) : Except Fault (Nat × serialized_buffer) :=
  match b.consume 3 with
  | .error e => .error e
  | .ok (r, b1) =>
    match deref r 4 with
    | .error e => .error e
    | .ok bs => .ok (LE32 (load_le bs &&& 0x00ffffff), b1)

def get_u32_le (b : serialized_buffer) : Except Fault (Nat × serialized_buffer) :=
  match b.consume 4 with
  | .error e => .error e
  | .ok (r, b1) =>
    match deref r 4 with
    | .error e => .error e
    | .ok bs => .ok (LE32 (load_le bs), b1)

def get_u64_le (b : serialized_buffer) : Except Fault (Nat × serialized_buffer) :=
  match b.consume 8 with
  | .error e => .error e
  | .ok (r, b1) =>
    match deref r 8 with
    | .error e => .error e
    | .ok bs => .ok (LE64 (load_le bs), b1)

def get_double_le (b : serialized_buffer) : Except Fault (Nat × serialized_buffer) :=
  b.get_u64_le

end serialized_buffer

/-- The method `AMFMixedArray::merge` with the map of `this` as explicit state: the map
after the call and whether the call returned or threw.  The guard is the comparison of
the virtual `typeID()` with `AMF_TYPE_MIXED_ARRAY`; the `static_cast` that follows is
valid for an `AMFMixedArray` and for the class `AMFObject` derived from it. -/
def AMFMixedArray.mergeState (dmap : Dmap) (right : AMFData) (overwrite : Bool) :
    Dmap × Except Fault Unit :=
  if right.typeID ≠ AMF_TYPE_MIXED_ARRAY then
    (dmap, .error (.runtime_error .merge_not_mixed_array))
  else
    match right with
    | .AMFMixedArray r =>
      (r.foldl (fun acc ri =>
        if overwrite then mapAssign acc ri.1 ri.2 else mapInsert acc ri.1 ri.2) dmap, .ok ())
    | .AMFObject r =>
      (r.foldl (fun acc ri =>
        if overwrite then mapAssign acc ri.1 ri.2 else mapInsert acc ri.1 ri.2) dmap, .ok ())
    | _ => (dmap, .error .out_of_bounds)

/-- The type bytes `AMFData::construct` has a `case` for. -/
def knownTypeIDs : List Nat :=
  [AMF_TYPE_DOUBLE, AMF_TYPE_BOOLEAN, AMF_TYPE_STRING, AMF_TYPE_OBJECT, AMF_TYPE_NULL,
   AMF_TYPE_UNDEFINED, AMF_TYPE_MIXED_ARRAY, AMF_TYPE_ARRAY, AMF_TYPE_DATE,
   AMF_TYPE_UNSUPPORTED]

/-- The cursor the read contract promises after a read of width `w`: advanced by `w` with
`w` fewer bytes remaining, or the exception `end_of_buffer(w, remaining)`. -/
def serialized_buffer.after (b : serialized_buffer) (w : Nat) : Except Fault serialized_buffer :=
  if b.len < w then .error (.end_of_buffer w b.len) else .ok ⟨b.p.drop w, b.len - w⟩

/-- The cursor after a read through one of the two 24-bit getters: as `after 3`, but the
four-byte load faults when the memory behind the cursor holds three bytes. -/
def serialized_buffer.after24 (b : serialized_buffer) : Except Fault serialized_buffer :=
  if b.len < 3 then .error (.end_of_buffer 3 b.len)
  else if b.p.length < 4 then .error .out_of_bounds
  else .ok ⟨b.p.drop 3, b.len - 3⟩

/-! ## Bit strings and Exp-Golomb code words -/

/-- The `n` low bits of `x`, most significant first. -/
def natBits : Nat → Nat → List Nat
  | 0, _ => []
  | n + 1, x => (x / 2 ^ n % 2) :: natBits n x

/-- The bits of a byte string, each byte most significant bit first. -/
def bytesBits : List Byte → List Nat
  | [] => []
  | b :: bs => natBits 8 b.val ++ bytesBits bs

namespace bitstream

/-- The bits the cursor has not handed out yet: the low `last_used_bit` bits of
`current_byte`, then the bits of the bytes remaining in the buffer. -/
def pending (bs : bitstream) : List Nat :=
  natBits bs.last_used_bit bs.current_byte ++ bytesBits (bs.buffer.p.take bs.buffer.len)

/-- The bytes the buffer counts as remaining exist in memory. -/
def InMemory (bs : bitstream) : Prop := bs.buffer.len ≤ bs.buffer.p.length

instance (bs : bitstream) : Decidable bs.InMemory := by
  unfold InMemory
  infer_instance

end bitstream

/-- The unsigned Exp-Golomb code word with `z` leading zero bits for `u`, where
`2^z <= u + 1 < 2^(z+1)`: `z` zeros, a one, and the `z` low bits of `u + 1`. -/
def ueCode (z u : Nat) : List Nat := List.replicate z 0 ++ 1 :: natBits z (u + 1)

/-- The index of the signed Exp-Golomb code word of `k`: `2k - 1` for positive `k`,
`-2k` otherwise. -/
def seIndex (k : Int) : Nat := if 0 < k then (2 * k - 1).toNat else (-2 * k).toNat

/-! ## Sample video tags for the probe -/

/-- A video tag whose body is an H.264 keyframe with `avc_packet_type` 0: the codec byte
`0x17`, the packet type, three bytes of composition time, eight more bytes, and a
sequence parameter set for a 320x240 picture (20 by 15 macroblocks, frames only, no
cropping). -/
def sampleAvcTag : List Byte :=
  [9, 0, 0, 21, 0, 0, 0, 0, 0, 0, 0,
   0x17, 0, 0, 0, 0, 1, 2, 3, 4, 5, 6, 7, 8, 0x67, 0x42, 0x00, 0x1E, 0xF8, 0x28, 0x3F, 0x00,
   0, 0, 0, 32]

/-- A video tag whose body is an H.264 keyframe with `avc_packet_type` 2. -/
def sampleGotoTag : List Byte :=
  [9, 0, 0, 5, 0, 0, 0, 0, 0, 0, 0, 0x17, 2, 0, 0, 0, 0, 0, 0, 16]

/-- A video tag at 40 ms whose body is a VP6 inter frame of 20 by 15 macroblocks. -/
def sampleVp6Tag : List Byte :=
  [9, 0, 0, 8, 0, 0, 0, 40, 0, 0, 0, 0x24, 0, 0, 0, 0, 20, 15, 0, 0, 0, 0, 19]

/-- The part of the H.264 case that parses the NAL unit from the bit cursor over
`avc_buffer`: from `bitstream avc(&avc_buffer)` to the end of the case. -/
def probeSPS (avc_buffer : serialized_buffer) : Except Fault Probe := do
  let avc := bitstream.init avc_buffer
  let (forbidden_zero_bit, avc) ← avc.get_bit
  if forbidden_zero_bit ≠ 0 then pure .didnt_get_video_params else
  let (_, avc) ← avc.get_bits 2
  let (nal_unit_type, avc) ← avc.get_bits 5
  if nal_unit_type % 256 ≠ 7 then pure .didnt_get_video_params else
  let (profile_idc, avc) ← avc.get_bits 8
  let profile_idc := profile_idc % 256
  let (_, avc) ← avc.get_bits 8
  let (_, avc) ← avc.get_bits 8
  let (_, avc) ← avc.get_golomb_ue
  let high ← (if profile_idc = 100 ∨ profile_idc = 110 ∨ profile_idc = 122 ∨ profile_idc = 144 then do
      let (chroma_format_idc, avc) ← avc.get_golomb_ue
      let avc ← (if chroma_format_idc = 3 then do
          let (_, avc) ← avc.get_bit
          pure avc
        else pure avc)
      let (_, avc) ← avc.get_golomb_ue
      let (_, avc) ← avc.get_golomb_ue
      let (_, avc) ← avc.get_bits 1
      let (seq_scaling_matrix_present, avc) ← avc.get_bits 1
      pure (seq_scaling_matrix_present ≠ 0, avc)
    else pure (false, avc) : Except Fault (Bool × bitstream))
  let (unhandled, avc) := high
  if unhandled then pure (.params 0 0) else
  let (_, avc) ← avc.get_golomb_ue
  let (pic_order_cnt_type, avc) ← avc.get_golomb_ue
  let avc ← (if pic_order_cnt_type = 0 then do
      let (_, avc) ← avc.get_golomb_ue
      pure avc
    else if pic_order_cnt_type = 1 then do
      let (_, avc) ← avc.get_bit
      let (_, avc) ← avc.get_golomb_se
      let (_, avc) ← avc.get_golomb_se
      let (num_ref_frames_in_pic_order_cnt_cycle, avc) ← avc.get_golomb_ue
      avc.skip_golomb_se num_ref_frames_in_pic_order_cnt_cycle
    else pure avc)
  let (_, avc) ← avc.get_golomb_ue
  let (_, avc) ← avc.get_bit
  let (ue_w, avc) ← avc.get_golomb_ue
  let pic_width_in_mbs := (ue_w + 1) % 2 ^ 32
  let (ue_h, avc) ← avc.get_golomb_ue
  let pic_height_in_map_units := (ue_h + 1) % 2 ^ 32
  let (frames_mbs_only_bit, avc) ← avc.get_bit
  let frames_mbs_only := frames_mbs_only_bit ≠ 0
  let avc ← (if ¬ frames_mbs_only then do
      let (_, avc) ← avc.get_bit
      pure avc
    else pure avc)
  let (_, avc) ← avc.get_bit
  let (frame_cropping, avc) ← avc.get_bit
  let offsets ← (if frame_cropping ≠ 0 then do
      let (l, avc) ← avc.get_golomb_ue
      let (r, avc) ← avc.get_golomb_ue
      let (t, avc) ← avc.get_golomb_ue
      let (b, _) ← avc.get_golomb_ue
      let top_offset := (t * 2) % 2 ^ 32
      let bottom_offset := (b * 2) % 2 ^ 32
      pure ((l * 2) % 2 ^ 32, (r * 2) % 2 ^ 32,
        (if ¬ frames_mbs_only then (top_offset * 2) % 2 ^ 32 else top_offset),
        (if ¬ frames_mbs_only then (bottom_offset * 2) % 2 ^ 32 else bottom_offset))
    else pure (0, 0, 0, 0) : Except Fault (Nat × Nat × Nat × Nat))
  let (left_offset, right_offset, top_offset, bottom_offset) := offsets
  let w := toInt32 ((pic_width_in_mbs * 16 + (2 ^ 32 - (left_offset + right_offset) % 2 ^ 32)) % 2 ^ 32)
  let h := toInt32 ((pic_height_in_map_units * 16 + (2 ^ 32 - (top_offset + bottom_offset) % 2 ^ 32)) % 2 ^ 32)
  let h := if ¬ frames_mbs_only then toInt32 ((h * 2) % 2 ^ 32).toNat else h
  pure (.params w h)

/-! ## Objects and MixedArrays on the wire -/

/-- The protected method `AMFMixedArray::_construct` on a map that holds `dmap`, the
first `AMFData::construct` of the recursion included. -/
def AMFMixedArray._construct (buf : serialized_buffer) (dmap : Dmap) :
    Except Fault (Dmap × serialized_buffer) :=
  _constructF (2 * buf.len + 1) buf dmap

/-- One entry of an Object or MixedArray on the wire: the key, the bytes that encode the
value, and the value the factory reads from those bytes. -/
structure WireEntry where
  key : List Byte
  bytes : List Byte
  value : AMFData

/-- The entries as they stand on the wire, in the order of the list and without the
terminator: for each entry the length of the key, the key and the encoded value. -/
def wireEntries : List WireEntry → List Byte
  | [] => []
  | e :: es => store_le 2 (htons e.key.length) ++ e.key ++ e.bytes ++ wireEntries es

/-- The bytes `bytes` are an encoding of `v`: wherever they stand in a buffer, the factory
reads `v` from them and stops right behind them. -/
def Decodes (bytes : List Byte) (v : AMFData) : Prop :=
  ∀ (tail : List Byte) (n : Nat),
    AMFData.construct ⟨bytes ++ tail, bytes.length + n⟩ = .ok (v, ⟨tail, n⟩)

/-- An entry the reader takes for an entry: the key is not empty (an empty key is the
terminator), its length fits the 16-bit prefix, and the value bytes encode the value. -/
def WireEntry.Ok (e : WireEntry) : Prop :=
  0 < e.key.length ∧ e.key.length < 65536 ∧ Decodes e.bytes e.value

/-- The keys and values of the entries, in wire order. -/
def entryPairs (es : List WireEntry) : List (List Byte × AMFData) :=
  es.map (fun e => (e.key, e.value))

/-- The map `_construct` builds from entries read in the order of the list: each is
handed to `dmap.insert`. -/
def insertAll (ps : List (List Byte × AMFData)) (dmap : Dmap) : Dmap :=
  ps.foldl (fun m p => mapInsert m p.1 p.2) dmap

/-- The value of the first entry of the list with the key `k`. -/
def firstValue (ps : List (List Byte × AMFData)) (k : List Byte) : Option AMFData :=
  (ps.find? (fun p => decide (p.1 = k))).map Prod.snd

/-- The value of the last entry of the list with the key `k`. -/
def lastValue (ps : List (List Byte × AMFData)) (k : List Byte) : Option AMFData :=
  firstValue ps.reverse k

/-- The first bytes of an Object on the wire: the type marker. -/
def objectHeader : List Byte := [3]

/-- The first bytes of a MixedArray on the wire: the type marker and the four bytes of the
count, which the reader skips. -/
def mixedArrayHeader (c0 c1 c2 c3 : Byte) : List Byte := [8, c0, c1, c2, c3]

/-- The two containers `_construct` reads the entries of: the bytes in front of the
entries, and the class the factory builds from the map. -/
def containerForms (c0 c1 c2 c3 : Byte) : List (List Byte × (Dmap → AMFData)) :=
  [(objectHeader, AMFData.AMFObject), (mixedArrayHeader c0 c1 c2 c3, AMFData.AMFMixedArray)]

/-- The bytes are what is left of a Double, Boolean, String or Date whose input ends
before the value does (or of any value, when nothing is left): the type marker says which,
and fewer bytes follow it than that reader consumes. -/
def cutScalar : List Byte → Bool
  | [] => true
  | ty :: t =>
    if ty.val = AMF_TYPE_DOUBLE then decide (t.length < 8)
    else if ty.val = AMF_TYPE_BOOLEAN then decide (t.length < 1)
    else if ty.val = AMF_TYPE_STRING then
      decide (t.length < 2) || decide (t.length - 2 < BE16 (load_le (t.take 2)))
    else if ty.val = AMF_TYPE_DATE then decide (t.length < 10)
    else false

/-- Two entries with the key `a`: `true` first, `false` second. -/
def sampleEntries : List WireEntry :=
  [⟨str "a", [1, 1], .AMFBoolean true⟩, ⟨str "a", [1, 0], .AMFBoolean false⟩]

/-! ## What pass 1 records of the video tags of a file -/

namespace Tag

/-- The `codec_id` of a video tag: the low nibble of the first body byte. -/
def codec_id (t : Tag) : Nat :=
  match t.body with
  | b :: _ => b.val &&& 0x0f
  | [] => 0

end Tag

/-- The three assignments behind the `switch` of the probe: `videocodecid` always,
`width` and `height` when not 0. -/
def videoAssign (dmap : Dmap) (codec_id : Nat) (w h : Int) : Dmap :=
  let dmap := mapAssign dmap (str "videocodecid") (.AMFDouble (F64.ofNat codec_id))
  let dmap := if w ≠ 0 then mapAssign dmap (str "width") (.AMFDouble (F64.ofInt w)) else dmap
  if h ≠ 0 then mapAssign dmap (str "height") (.AMFDouble (F64.ofInt h)) else dmap

/-- The first video tag of `tags`, which stand at offset `off` of the file `mem`, whose
probe runs to the end of its `switch`: its `codec_id` and the probed width and height. -/
def firstProbed (mem : List Byte) : Nat → List Tag → Option (Nat × Int × Int)
  | _, [] => none
  | off, t :: tags =>
    if t.tag_type = 9 then
      match probeVideo mem (off + 12) t.tag_length t.codec_id with
      | .ok (.params w h) => some (t.codec_id, w, h)
      | _ => firstProbed mem (off + t.encode.length) tags
    else firstProbed mem (off + t.encode.length) tags

/-- The keys the video branch of pass 1 assigns. -/
def videoKeys : List (List Byte) := [str "videocodecid", str "width", str "height"]

/-- The map `m1` has under the video keys what `m` has there; without `-nomerge` it may
have gained a video key that `m` lacks (from a merged `onMetaData` tag). -/
def KeepsVideo (nomerge : Bool) (m m1 : Dmap) : Prop :=
  ∀ k ∈ videoKeys,
    (∀ v, mapFind m k = some v → mapFind m1 k = some v) ∧
    (nomerge = true → mapFind m1 k = mapFind m k)

/-- The H.264 tag with `avc_packet_type` 2 and the VP6 tag of 20 by 15 macroblocks. -/
def sampleVideoTags : List Tag :=
  [⟨9, 0, 0, 5, 0, 0, 0, 0, 0, 0, 0, [0x17, 2, 0, 0, 0], [0, 0, 0, 16]⟩,
   ⟨9, 0, 0, 8, 0, 0, 0, 40, 0, 0, 0, [0x24, 0, 0, 0, 0, 20, 15, 0], [0, 0, 0, 19]⟩]

/-! ## The tags of the output file -/

namespace Tag

/-- The tag with the four timestamp bytes of its header replaced by those of the 32-bit
timestamp `ts`: the low 24 bits big-endian, then the top byte. -/
def withTimestamp (t : Tag) (ts : Nat) : Tag :=
  { t with
    b0 := byte ((ts >>> 16) &&& 0xff), b1 := byte ((ts >>> 8) &&& 0xff),
    b2 := byte (ts &&& 0xff), b3 := byte ((ts >>> 24) &&& 0xff) }

end Tag

/-! ## The counters of pass 1 -/

/-- The part of the state of pass 1 that the tags are counted into. -/
structure Counts where
  hasAudio : Bool
  hasVideo : Bool
  total_audio : Nat
  total_video : Nat
  vframe_count : Nat
  keyframe_count : Nat
  deriving DecidableEq, Repr

/-- The counters held in a state of pass 1. -/
def Scan.counts (s : Scan) : Counts :=
  ⟨s.hasAudio, s.hasVideo, s.total_audio, s.total_video, s.vframe_count, s.keyframe_count⟩

/-- An audio tag whose body is not empty. -/
def Tag.isAudio (t : Tag) : Bool := decide (t.tag_type = 8 ∧ t.tag_length > 0)

/-- What one tag adds to the counters: a video tag sets `hasVideo`, counts as a frame (and
as a keyframe when it is one) and adds its body less the codec byte to `total_video`; an
audio tag with a body sets `hasAudio` and adds its body to `total_audio`; any other tag
adds nothing. -/
def countTag (c : Counts) (t : Tag) : Counts :=
  if t.tag_type = 9 then
    { c with
      hasVideo := true
      keyframe_count := if t.isKeyframe then (c.keyframe_count + 1) % 2 ^ 32 else c.keyframe_count
      total_video := (c.total_video + (t.tag_length + 2 ^ 32 - 1) % 2 ^ 32) % 2 ^ 64
      vframe_count := (c.vframe_count + 1) % 2 ^ 32 }
  else if t.isAudio then
    { c with hasAudio := true, total_audio := (c.total_audio + t.tag_length) % 2 ^ 64 }
  else c

/-- The counters after the tags of a file. -/
def countTags (tags : List Tag) : Counts := tags.foldl countTag ⟨false, false, 0, 0, 0, 0⟩

/-- The state of `process_timestamp` after the tags of a file. -/
def finalTs : List Tag → TsState → Except Fault TsState
  | [], st => .ok st
  | t :: tags, st =>
    match process_timestamp t.tag_type [t.b0, t.b1, t.b2, t.b3] 0 st with
    | .error e => .error e
    | .ok (_, _, st) => finalTs tags st

/-- An audio tag whose body is empty. -/
def Tag.isEmptyAudio (t : Tag) : Bool := decide (t.tag_type = 8 ∧ t.tag_length = 0)

/-- A keyframe, an audio tag with an empty body, an audio tag with a body. -/
def sampleAudioTags : List Tag :=
  [⟨9, 0, 0, 2, 0, 0, 0, 0, 0, 0, 0, [0x11, 0xAA], [0, 0, 0, 13]⟩,
   ⟨8, 0, 0, 0, 0, 0, 5, 0, 0, 0, 0, [], [0, 0, 0, 11]⟩,
   ⟨8, 0, 0, 1, 0, 0, 10, 0, 0, 0, 0, [0x2F], [0, 0, 0, 12]⟩]

/-! ## The buffered output sink (`fout.h`) -/

def BUFFER_SIZE : Nat := 32768

/-- The object `fout` while its file is open: the contents of the file behind `fp`, the
position of `fp`, and the first `buffer_used` bytes of `buffer`. -/
structure fout where
  file : List Byte
  fpos : Nat
  buffer : List Byte
  deriving DecidableEq, Repr

namespace fout

/-- The object after the constructor `fout(const char* fn)` has opened the file with
mode `wb`. -/
def opened : fout := ⟨[], 0, []⟩

def buffer_used (f : fout) : Nat := f.buffer.length

def flush (f : fout) : fout :=
  let f := if f.buffer_used ≠ 0 then
      { f with file := overwrite f.file f.fpos f.buffer, fpos := f.fpos + f.buffer_used }
    else f
  { f with buffer := [] }

/-- The method `close`: the contents the file is left with. -/
def close (f : fout) : List Byte := f.flush.file

def write (f : fout) (dat : List Byte) : fout :=
  let f := if dat.length + f.buffer_used > BUFFER_SIZE then f.flush else f
  if dat.length > BUFFER_SIZE then
    { f with file := overwrite f.file f.fpos dat, fpos := f.fpos + dat.length }
  else { f with buffer := f.buffer ++ dat }

def putc (f : fout) (c : Byte) : fout :=
  let f := if f.buffer_used = BUFFER_SIZE then f.flush else f
  { f with buffer := f.buffer ++ [c] }

def write_u24_be (f : fout) (d : Nat) : fout :=
  ((f.putc (byte ((d >>> 16) &&& 0xff))).putc (byte ((d >>> 8) &&& 0xff))).putc (byte (d &&& 0xff))

def tell (f : fout) : Nat := f.fpos + f.buffer_used

def seek (f : fout) (offset : Nat) : fout := { f.flush with fpos := offset }

end fout

/-- A call of one of the writing methods of `fout`. -/
inductive Call where
  | write (dat : List Byte)
  | putc (c : Byte)
  | write_u24_be (d : Nat)
  | seek (offset : Nat)
  deriving DecidableEq, Repr

/-- The call made on the buffered sink. -/
def fout.call (f : fout) : Call → fout
  | .write dat => f.write dat
  | .putc c => f.putc c
  | .write_u24_be d => f.write_u24_be d
  | .seek offset => f.seek offset

/-- The call made on the unbuffered positional writer. -/
def Sink.call (fp : Sink) : Call → Sink
  | .write dat => fp.write dat
  | .putc c => fp.putc c
  | .write_u24_be d => fp.write_u24_be d
  | .seek offset => fp.seek offset

/-- A sequence of calls on the buffered sink. -/
def fout.calls (f : fout) (cs : List Call) : fout := cs.foldl fout.call f

/-- The same sequence on the unbuffered positional writer. -/
def Sink.calls (fp : Sink) (cs : List Call) : Sink := cs.foldl Sink.call fp

/-- The buffered sink seen from outside: the contents the file has once the buffer is
written out, and the logical position. -/
def fout.view (f : fout) : Sink := ⟨overwrite f.file f.fpos f.buffer, f.fpos + f.buffer.length⟩

/-! ## The H.263 dimensions read through the bit cursor -/

/-- The number a bit string denotes when it continues the number `acc`, most significant
bit first. -/
def bitsVal (acc : Nat) : List Nat → Nat
  | [] => acc
  | b :: l => bitsVal (2 * acc + b) l

/-- The H.263 dimensions behind the selector, read through the bit cursor: selector 0 is
followed by two 8-bit fields, selector 1 by two 16-bit fields, and the selectors 2 to 6
stand for fixed picture sizes. -/
def probeH263_fields (selector : Nat) (bs : bitstream) : Except Fault Probe :=
  if selector = 0 then do
    let (w, bs) ← bs.get_bits 8
    let (h, _) ← bs.get_bits 8
    pure (.params (w : Nat) (h : Nat))
  else if selector = 1 then do
    let (w, bs) ← bs.get_bits 16
    let (h, _) ← bs.get_bits 16
    pure (.params (w : Nat) (h : Nat))
  else if selector = 2 then pure (.params 352 288)
  else if selector = 3 then pure (.params 176 144)
  else if selector = 4 then pure (.params 128 96)
  else if selector = 5 then pure (.params 320 240)
  else if selector = 6 then pure (.params 160 120)
  else pure (.params 0 0)

/-- The H.263 dimensions as the bit cursor reads them from the bytes behind the codec
byte: 30 bits are skipped, the next 3 bits are the selector, and the fields behind it
give the dimensions. -/
def probeH263_cursor (body : List Byte) : Except Fault Probe := do
  let bs := bitstream.init (.ofBytes body)
  let (_, bs) ← bs.get_bits 30
  let (selector, bs) ← bs.get_bits 3
  probeH263_fields selector bs

/-- Two fields of `n` bits read one after the other. -/
def twoFields (n : Nat) (bs : bitstream) : Except Fault Probe := do
  let (w, bs) ← bs.get_bits n
  let (h, _) ← bs.get_bits n
  pure (.params (w : Nat) (h : Nat))

/-! ## The sequence parameter set as a bit string -/

/-- The code word ue(v) of `u`: as many zeros as the binary numeral of `u + 1` has
digits behind its leading one, then that numeral. -/
def ue (u : Nat) : List Nat := ueCode (F64.log2 (u + 1)) u

/-- The code word se(v) of `k`. -/
def se (k : Int) : List Nat := ue (seIndex k)

/-- A flag as a bit. -/
def flagBit (b : Bool) : Nat := if b then 1 else 0

/-- The fields that depend on `pic_order_cnt_type`. -/
inductive PicOrderCnt where
  | type0 (log2_max_pic_order_cnt_lsb_minus4 : Nat)
  | type1 (delta_pic_order_always_zero_flag : Bool)
      (offset_for_non_ref_pic offset_for_top_to_bottom_field : Int)
      (offset_for_ref_frame : List Int)
  | type2
  deriving DecidableEq, Repr

/-- The four frame cropping offsets. -/
structure FrameCrop where
  left : Nat
  right : Nat
  top : Nat
  bottom : Nat
  deriving DecidableEq, Repr

/-- The fields of a sequence parameter set NAL unit without scaling matrix, up to the
frame cropping offsets.  The five fields from `chroma_format_idc` to
`qpprime_y_zero_transform_bypass_flag` are on the wire for the profiles 100, 110, 122
and 144 only, `residual_colour_transform_flag` only behind `chroma_format_idc` 3, and
`mb_adaptive_frame_field_flag` only when `frame_mbs_only_flag` is 0. -/
structure SPS where
  nal_ref_idc : Nat
  profile_idc : Byte
  constraint_flags : Byte
  level_idc : Byte
  seq_parameter_set_id : Nat
  chroma_format_idc : Nat
  residual_colour_transform_flag : Bool
  bit_depth_luma_minus8 : Nat
  bit_depth_chroma_minus8 : Nat
  qpprime_y_zero_transform_bypass_flag : Bool
  log2_max_frame_num_minus4 : Nat
  pic_order_cnt : PicOrderCnt
  num_ref_frames : Nat
  gaps_in_frame_num_value_allowed_flag : Bool
  pic_width_in_mbs_minus1 : Nat
  pic_height_in_map_units_minus1 : Nat
  frame_mbs_only_flag : Bool
  mb_adaptive_frame_field_flag : Bool
  direct_8x8_inference_flag : Bool
  frame_cropping : Option FrameCrop
  deriving DecidableEq, Repr

/-- The profiles whose parameter sets carry the chroma format fields. -/
def highProfile (profile_idc : Nat) : Prop :=
  profile_idc = 100 ∨ profile_idc = 110 ∨ profile_idc = 122 ∨ profile_idc = 144

instance (profile_idc : Nat) : Decidable (highProfile profile_idc) := by
  unfold highProfile
  infer_instance

/-- The code words of a list of signed values. -/
def seList : List Int → List Nat
  | [] => []
  | k :: ks => se k ++ seList ks

namespace SPS

/-- The chroma format fields, the last bit being `seq_scaling_matrix_present_flag` 0. -/
def highBits (s : SPS) : List Nat :=
  if highProfile s.profile_idc.val then
    ue s.chroma_format_idc ++
      ((if s.chroma_format_idc = 3 then [flagBit s.residual_colour_transform_flag] else []) ++
        (ue s.bit_depth_luma_minus8 ++ (ue s.bit_depth_chroma_minus8 ++
          [flagBit s.qpprime_y_zero_transform_bypass_flag, 0])))
  else []

/-- The field `pic_order_cnt_type` and the fields that depend on it. -/
def picOrderBits (s : SPS) : List Nat :=
  match s.pic_order_cnt with
  | .type0 lsb => ue 0 ++ ue lsb
  | .type1 flag nonref topbottom offsets =>
    ue 1 ++ (flagBit flag :: (se nonref ++ (se topbottom ++ (ue offsets.length ++ seList offsets))))
  | .type2 => ue 2

/-- The field `frame_cropping_flag` and the offsets behind it. -/
def cropBits (s : SPS) : List Nat :=
  match s.frame_cropping with
  | none => [0]
  | some c => 1 :: (ue c.left ++ (ue c.right ++ (ue c.top ++ ue c.bottom)))

/-- The NAL unit as a bit string: the NAL header with `forbidden_zero_bit` 0 and
`nal_unit_type` 7, then the fields in the order of the sequence parameter set. -/
def bits (s : SPS) : List Nat :=
  0 :: (natBits 2 s.nal_ref_idc ++ (natBits 5 7 ++ (natBits 8 s.profile_idc.val ++
    (natBits 8 s.constraint_flags.val ++ (natBits 8 s.level_idc.val ++
    (ue s.seq_parameter_set_id ++ (s.highBits ++ (ue s.log2_max_frame_num_minus4 ++
    (s.picOrderBits ++ (ue s.num_ref_frames ++
    (flagBit s.gaps_in_frame_num_value_allowed_flag :: (ue s.pic_width_in_mbs_minus1 ++
    (ue s.pic_height_in_map_units_minus1 ++ (flagBit s.frame_mbs_only_flag ::
    ((if s.frame_mbs_only_flag then [] else [flagBit s.mb_adaptive_frame_field_flag]) ++
    (flagBit s.direct_8x8_inference_flag :: s.cropBits))))))))))))))))

/-- The cropping offsets, 0 without frame cropping. -/
def crop (s : SPS) : FrameCrop := s.frame_cropping.getD ⟨0, 0, 0, 0⟩

/-- The width `16 * (pic_width_in_mbs_minus1 + 1) - 2 * (crop_left + crop_right)`. -/
def width (s : SPS) : Int :=
  16 * ((s.pic_width_in_mbs_minus1 : Int) + 1) - 2 * ((s.crop.left : Int) + s.crop.right)

/-- The height `16 * (pic_height_in_map_units_minus1 + 1) - 2 * (crop_top + crop_bottom)`
of a parameter set with `frame_mbs_only_flag` 1; with `frame_mbs_only_flag` 0 the top
and bottom offsets are doubled once more and the height is doubled. -/
def height (s : SPS) : Int :=
  if s.frame_mbs_only_flag then
    16 * ((s.pic_height_in_map_units_minus1 : Int) + 1) - 2 * ((s.crop.top : Int) + s.crop.bottom)
  else
    2 * (16 * ((s.pic_height_in_map_units_minus1 : Int) + 1) -
      2 * (2 * (s.crop.top : Int) + 2 * s.crop.bottom))

/-- A value that `get_golomb_ue` can return: at most `2^32 - 2`. -/
def ueRange (u : Nat) : Prop := u + 1 < 2 ^ 32

instance (u : Nat) : Decidable (ueRange u) := by
  unfold ueRange
  infer_instance

/-- The fields on the wire are ones the cursor's Exp-Golomb readers can return. -/
def InRange (s : SPS) : Prop :=
  ueRange s.seq_parameter_set_id ∧
  (highProfile s.profile_idc.val → ueRange s.chroma_format_idc ∧
    ueRange s.bit_depth_luma_minus8 ∧ ueRange s.bit_depth_chroma_minus8) ∧
  ueRange s.log2_max_frame_num_minus4 ∧
  (match s.pic_order_cnt with
    | .type0 lsb => ueRange lsb
    | .type1 _ nonref topbottom offsets =>
      ueRange (seIndex nonref) ∧ ueRange (seIndex topbottom) ∧ ueRange offsets.length ∧
        ∀ k ∈ offsets, ueRange (seIndex k)
    | .type2 => True) ∧
  ueRange s.num_ref_frames ∧
  ueRange s.pic_width_in_mbs_minus1 ∧ ueRange s.pic_height_in_map_units_minus1 ∧
  ueRange s.crop.left ∧ ueRange s.crop.right ∧ ueRange s.crop.top ∧ ueRange s.crop.bottom

instance (s : SPS) : Decidable s.InRange := by
  unfold InRange
  cases s.pic_order_cnt <;> infer_instance

end SPS

/-- The value of an `int` expression in 32-bit two's complement. -/
def wrapInt32 (x : Int) : Int := toInt32 (x % 2 ^ 32).toNat

/-! ### The blocks of the H.264 case -/

/-- The block under `if (profile_idc == 100 || ...)`: whether it left through `break`,
and the cursor behind it. -/
def spsHigh (profile_idc : Nat) (avc : bitstream) : Except Fault (Bool × bitstream) :=
  if profile_idc = 100 ∨ profile_idc = 110 ∨ profile_idc = 122 ∨ profile_idc = 144 then do
    let (chroma_format_idc, avc) ← avc.get_golomb_ue
    let avc ← (if chroma_format_idc = 3 then do
        let (_, avc) ← avc.get_bit
        pure avc
      else pure avc)
    let (_, avc) ← avc.get_golomb_ue
    let (_, avc) ← avc.get_golomb_ue
    let (_, avc) ← avc.get_bits 1
    let (seq_scaling_matrix_present, avc) ← avc.get_bits 1
    pure (seq_scaling_matrix_present ≠ 0, avc)
  else pure (false, avc)

/-- The statements under `if (pic_order_cnt_type == 0) ... else if (... == 1) ...`. -/
def spsPicOrder (pic_order_cnt_type : Nat) (avc : bitstream) : Except Fault bitstream :=
  if pic_order_cnt_type = 0 then do
    let (_, avc) ← avc.get_golomb_ue
    pure avc
  else if pic_order_cnt_type = 1 then do
    let (_, avc) ← avc.get_bit
    let (_, avc) ← avc.get_golomb_se
    let (_, avc) ← avc.get_golomb_se
    let (num_ref_frames_in_pic_order_cnt_cycle, avc) ← avc.get_golomb_ue
    avc.skip_golomb_se num_ref_frames_in_pic_order_cnt_cycle
  else pure avc

/-- The statement `if (! frames_mbs_only) avc.get_bit();`. -/
def spsMbaff (frames_mbs_only_bit : Nat) (avc : bitstream) : Except Fault bitstream :=
  if ¬ frames_mbs_only_bit ≠ 0 then do
    let (_, avc) ← avc.get_bit
    pure avc
  else pure avc

/-- The block under `if (frame_cropping)`: the four offsets. -/
def spsCrop (frame_cropping frames_mbs_only_bit : Nat) (avc : bitstream) :
    Except Fault (Nat × Nat × Nat × Nat) :=
  if frame_cropping ≠ 0 then do
    let (l, avc) ← avc.get_golomb_ue
    let (r, avc) ← avc.get_golomb_ue
    let (t, avc) ← avc.get_golomb_ue
    let (b, _) ← avc.get_golomb_ue
    let top_offset := (t * 2) % 2 ^ 32
    let bottom_offset := (b * 2) % 2 ^ 32
    pure ((l * 2) % 2 ^ 32, (r * 2) % 2 ^ 32,
      (if ¬ frames_mbs_only_bit ≠ 0 then (top_offset * 2) % 2 ^ 32 else top_offset),
      (if ¬ frames_mbs_only_bit ≠ 0 then (bottom_offset * 2) % 2 ^ 32 else bottom_offset))
  else pure (0, 0, 0, 0)

/-- The assignments to `w` and `h` that end the H.264 case. -/
def spsDims (ue_w ue_h frames_mbs_only_bit : Nat) (offsets : Nat × Nat × Nat × Nat) : Probe :=
  let pic_width_in_mbs := (ue_w + 1) % 2 ^ 32
  let pic_height_in_map_units := (ue_h + 1) % 2 ^ 32
  let (left_offset, right_offset, top_offset, bottom_offset) := offsets
  let w := toInt32 ((pic_width_in_mbs * 16 + (2 ^ 32 - (left_offset + right_offset) % 2 ^ 32)) % 2 ^ 32)
  let h := toInt32 ((pic_height_in_map_units * 16 + (2 ^ 32 - (top_offset + bottom_offset) % 2 ^ 32)) % 2 ^ 32)
  let h := if ¬ frames_mbs_only_bit ≠ 0 then toInt32 ((h * 2) % 2 ^ 32).toNat else h
  .params w h

/-- The parse of the NAL unit, block by block. -/
def probeSPS_blocks (avc_buffer : serialized_buffer) : Except Fault Probe := do
  let avc := bitstream.init avc_buffer
  let (forbidden_zero_bit, avc) ← avc.get_bit
  if forbidden_zero_bit ≠ 0 then pure .didnt_get_video_params else
  let (_, avc) ← avc.get_bits 2
  let (nal_unit_type, avc) ← avc.get_bits 5
  if nal_unit_type % 256 ≠ 7 then pure .didnt_get_video_params else
  let (profile_idc, avc) ← avc.get_bits 8
  let (_, avc) ← avc.get_bits 8
  let (_, avc) ← avc.get_bits 8
  let (_, avc) ← avc.get_golomb_ue
  let (unhandled, avc) ← spsHigh (profile_idc % 256) avc
  if unhandled then pure (.params 0 0) else
  let (_, avc) ← avc.get_golomb_ue
  let (pic_order_cnt_type, avc) ← avc.get_golomb_ue
  let avc ← spsPicOrder pic_order_cnt_type avc
  let (_, avc) ← avc.get_golomb_ue
  let (_, avc) ← avc.get_bit
  let (ue_w, avc) ← avc.get_golomb_ue
  let (ue_h, avc) ← avc.get_golomb_ue
  let (frames_mbs_only_bit, avc) ← avc.get_bit
  let avc ← spsMbaff frames_mbs_only_bit avc
  let (_, avc) ← avc.get_bit
  let (frame_cropping, avc) ← avc.get_bit
  let offsets ← spsCrop frame_cropping frames_mbs_only_bit avc
  pure (spsDims ue_w ue_h frames_mbs_only_bit offsets)

/-- A sequence parameter set of profile 100 with `pic_order_cnt_type` 1, 120 macroblocks
by 34 map units, `frame_mbs_only_flag` 0 and a bottom cropping offset of 2. -/
def sampleSPS : SPS :=
  { nal_ref_idc := 3, profile_idc := 100, constraint_flags := 0, level_idc := 40,
    seq_parameter_set_id := 0, chroma_format_idc := 1, residual_colour_transform_flag := false,
    bit_depth_luma_minus8 := 0, bit_depth_chroma_minus8 := 0,
    qpprime_y_zero_transform_bypass_flag := false, log2_max_frame_num_minus4 := 0,
    pic_order_cnt := .type1 false 0 (-1) [2, -3], num_ref_frames := 4,
    gaps_in_frame_num_value_allowed_flag := false, pic_width_in_mbs_minus1 := 119,
    pic_height_in_map_units_minus1 := 33, frame_mbs_only_flag := false,
    mb_adaptive_frame_field_flag := true, direct_8x8_inference_flag := true,
    frame_cropping := some ⟨0, 0, 0, 2⟩ }

/-- The body of an H.264 tag behind the codec byte: `avc_packet_type` 1, three bytes of
composition time, and the 102 bits of `sampleSPS` in 13 bytes. -/
def sampleSPSBody : List Byte :=
  [1, 0, 0, 0, 103, 100, 0, 40, 172, 165, 178, 28, 160, 60, 2, 39, 236]

/-! ## The output file as a sequence of tags -/

/-- The copied tags of the output, each with the bytes of its reconstructed timestamp. -/
def outTags (nometapackets : Bool) (l : List (Tag × Nat)) : List Tag :=
  (l.filter (fun p => p.1.copied nometapackets)).map (fun p => p.1.withTimestamp p.2)

/-- The generated script tag of the output for the final `onMetaData` map `dmap`: type
18, the low 24 bits of the payload length, timestamp and stream id zero, the payload, and
the four bytes written as "previous tag size". -/
def metaTag (dmap : Dmap) : Tag :=
  let payload := (AMFData.AMFString (str "onMetaData")).write ++ (AMFData.AMFMixedArray dmap).write
  { tag_type := 18,
    l0 := byte ((payload.length >>> 16) &&& 0xff), l1 := byte ((payload.length >>> 8) &&& 0xff),
    l2 := byte (payload.length &&& 0xff),
    b0 := 0, b1 := 0, b2 := 0, b3 := 0, s0 := 0, s1 := 0, s2 := 0,
    body := payload, trailer := store_le 4 (htons (payload.length + 11)) }

/-- The tuple of counters and `last_timestamp` that pass 1 ends with. -/
def Scan.tuple (s : Scan) : Counts × Nat := (s.counts, s.ts.last_timestamp)

/-- Pass 1 on the output file of a run: its tuple, or `none` when the run wrote no
output file. -/
def reparse (nomerge : Bool) (r : Except Fault Outcome) : Except Fault (Option (Counts × Nat)) :=
  match r with
  | .error e => .error e
  | .ok r =>
    match r.output with
    | none => .ok none
    | some out => (pass1 nomerge out).map (fun s => some s.tuple)

/-- An audio tag with a body of two bytes. -/
def sampleAudioTag : List Byte := [8, 0, 0, 2, 0, 0, 0, 0, 0, 0, 0, 0x2F, 0xAA, 0, 0, 0, 13]

/-! ## Sample inputs for the safety properties -/

/-- Two video tags: the first stores the timestamp `0xFF000100` (extension byte `0xFF`),
the second the raw timestamp `0x000050` with extension byte 0. -/
def sampleWrapTags : List Byte :=
  [9, 0, 0, 1, 0x00, 0x01, 0x00, 0xFF, 0, 0, 0, 0x11, 0, 0, 0, 12,
   9, 0, 0, 1, 0x00, 0x00, 0x50, 0x00, 0, 0, 0, 0x21, 0, 0, 0, 12]

/-- What pass 1 leaves unread at the end of a file: nothing, fewer than 15 bytes, or a
tag whose length field points beyond the end of the file. -/
def CutOff (junk : List Byte) : Prop :=
  junk = [] ∨ junk.length < 15 ∨
    match deserialize_uint24 junk 1 with
    | .ok (tag_length, _) => junk.length < tag_length
    | .error _ => False

instance (junk : List Byte) : Decidable (CutOff junk) := by
  unfold CutOff
  cases deserialize_uint24 junk 1 <;> infer_instance

/-- A video tag with a body of length 0. -/
def sampleEmptyVideo : List Byte := [9, 0, 0, 0, 0, 0, 0, 0, 0, 0, 0, 0, 0, 0, 11]

/-- The first 15 bytes of a video tag whose length field announces 256 bytes. -/
def sampleCutHeader : List Byte := [9, 0, 1, 0, 0, 0, 0, 0, 0, 0, 0, 0x11, 1, 2, 3]

/-- A video tag whose body is the one byte `0x22` (H.263, inter frame). -/
def sampleShortH263 : List Byte := [9, 0, 0, 1, 0, 0, 0, 0, 0, 0, 0, 0x22, 0, 0, 0, 12]

/-- A video tag whose body is the one byte `0x17` (H.264, keyframe). -/
def sampleShortAvc : List Byte := [9, 0, 0, 1, 0, 0, 0, 0, 0, 0, 0, 0x17, 0, 0, 0, 12]

/-- The body of an H.264 tag of 12 bytes: the codec byte, `avc_packet_type` 1, three
bytes of composition time, and the first seven bytes of a sequence parameter set. -/
def sampleAvcBody : List Byte :=
  [0x17, 1, 0, 0, 0, 0x67, 0x42, 0x00, 0x1E, 0xF8, 0x28, 0x3F]

/-! ## Reading back what `write` wrote -/

mutual
/-- Everything in the value has the size of the field `write` stores it in: the image of
a Double is below `2^64`, a String has fewer than `2^16` bytes, a key at least one and
fewer than `2^16`, an array fewer than `2^32` elements; and the keys of a map ascend, as a
`std::map` holds them. -/
def AMFData.Fits : AMFData → Prop
  | .AMFDouble d => d < 2 ^ 64
  | .AMFString d => d.length < 65536
  | .AMFObject dmap => Ascending dmap ∧ FitsPairs dmap
  | .AMFMixedArray dmap => Ascending dmap ∧ FitsPairs dmap
  | .AMFArray dmap => dmap.length < 2 ^ 32 ∧ FitsElems dmap
  | _ => True
def FitsPairs : List (List Byte × AMFData) → Prop
  | [] => True
  | (k, v) :: m => 0 < k.length ∧ k.length < 65536 ∧ v.Fits ∧ FitsPairs m
def FitsElems : List AMFData → Prop
  | [] => True
  | v :: a => v.Fits ∧ FitsElems a
end

mutual
/-- The value with every `AMFDate` in it replaced by the one the constructor
`AMFDate(serialized_buffer&)` makes of what `AMFDate::write` writes for it: seconds and
microseconds computed from the written milliseconds, the time zone as the 16 bits
written, `tz_dsttime` zero.  Nothing else is changed. -/
def AMFData.reread : AMFData → AMFData
  | .AMFObject dmap => .AMFObject (rereadPairs dmap)
  | .AMFMixedArray dmap => .AMFMixedArray (rereadPairs dmap)
  | .AMFArray dmap => .AMFArray (rereadElems dmap)
  | .AMFDate tv_sec tv_usec tz_minuteswest _ =>
    .AMFDate (dateFields (dateMillis tv_sec tv_usec)).1 (dateFields (dateMillis tv_sec tv_usec)).2
      (((tz_minuteswest % 65536).toNat : Nat) : Int) 0
  | v => v
def rereadPairs : List (List Byte × AMFData) → List (List Byte × AMFData)
  | [] => []
  | (k, v) :: m => (k, v.reread) :: rereadPairs m
def rereadElems : List AMFData → List AMFData
  | [] => []
  | v :: a => v.reread :: rereadElems a
end

mutual
/-- Whether the value is or holds an `AMFDate`. -/
def AMFData.hasDate : AMFData → Bool
  | .AMFObject dmap => hasDatePairs dmap
  | .AMFMixedArray dmap => hasDatePairs dmap
  | .AMFArray dmap => hasDateElems dmap
  | .AMFDate _ _ _ _ => true
  | _ => false
def hasDatePairs : List (List Byte × AMFData) → Bool
  | [] => false
  | (_, v) :: m => v.hasDate || hasDatePairs m
def hasDateElems : List AMFData → Bool
  | [] => false
  | v :: a => v.hasDate || hasDateElems a
end

/-! ## Sample script tags whose Double does not fit `char buf[64]` -/

/-- A script tag with the key `x` and the Double `1e60` as value. -/
def sampleBigDoubleTag : List Byte :=
  [18, 0, 0, 13, 0, 0, 0, 0, 0, 0, 0,
   0x02, 0, 1, 0x78,
   0x00, 0x4C, 0x63, 0xE9, 0xE4, 0xE4, 0xC2, 0xF3, 0x44,
   0, 0, 0, 24]

/-- An `onMetaData` script tag whose MixedArray holds the Double `1e60` under `big`. -/
def sampleBigMetaTag : List Byte :=
  [18, 0, 0, 35, 0, 0, 0, 0, 0, 0, 0,
   0x02, 0, 10, 0x6F, 0x6E, 0x4D, 0x65, 0x74, 0x61, 0x44, 0x61, 0x74, 0x61,
   0x08, 0, 0, 0, 1,
   0, 3, 0x62, 0x69, 0x67,
   0x00, 0x4C, 0x63, 0xE9, 0xE4, 0xE4, 0xC2, 0xF3, 0x44,
   0, 0, 9,
   0, 0, 0, 46]
/-! # Theorems -/

/-! ## Byte order -/

theorem store_le_length (n x : Nat) : (store_le n x).length = n := by
  induction n generalizing x with
  | zero => rfl
  | succ n ih => simp [store_le, ih]

theorem load_le_store_le (n x : Nat) : load_le (store_le n x) = x % 256 ^ n := by
  induction n generalizing x with
  | zero => simp [store_le, load_le, Nat.mod_one]
  | succ n ih =>
    simp only [store_le, load_le, ih, byte]
    rw [pow_succ, Nat.mul_comm (256 ^ n) 256, Nat.mod_mul]

theorem store_le_load_le (bs : List Byte) : store_le bs.length (load_le bs) = bs := by
  induction bs with
  | nil => rfl
  | cons b bs ih =>
    have hb := b.isLt
    simp only [List.length_cons, store_le, load_le]
    have h1 : (b.val + 256 * load_le bs) / 256 = load_le bs := by omega
    have h2 : byte (b.val + 256 * load_le bs) = b := by
      apply Fin.ext
      simp only [byte]
      omega
    rw [h1, h2, ih]

theorem store_le_bswap (n x : Nat) : store_le n (bswap n x) = (store_le n x).reverse := by
  have h := store_le_load_le (store_le n x).reverse
  rw [List.length_reverse, store_le_length] at h
  exact h

theorem bswap_load_le (bs : List Byte) : bswap bs.length (load_le bs) = load_le bs.reverse := by
  unfold bswap
  rw [store_le_load_le]

theorem bswap_load_store_bswap (n x : Nat) :
    bswap n (load_le (store_le n (bswap n x))) = x % 256 ^ n := by
  rw [store_le_bswap]
  have h := bswap_load_le (store_le n x).reverse
  rw [List.length_reverse, store_le_length, List.reverse_reverse, load_le_store_le] at h
  exact h

/-! ## The byte cursor on the bytes a writer produced -/

theorem deref_append (bs p : List Byte) : deref (bs ++ p) bs.length = .ok bs := by
  simp [deref]

theorem get_bytes_append (d p : List Byte) (n : Nat) :
    serialized_buffer.get_bytes ⟨d ++ p, d.length + n⟩ d.length = .ok (d, ⟨p, n⟩) := by
  simp [serialized_buffer.get_bytes, serialized_buffer.consume, deref]

theorem get_u8_cons (b : Byte) (p : List Byte) (n : Nat) :
    serialized_buffer.get_u8 ⟨b :: p, n + 1⟩ = .ok (b.val, ⟨p, n⟩) := by
  simp [serialized_buffer.get_u8, serialized_buffer.consume, deref, load_le]

theorem get_be_append (w x : Nat) (p : List Byte) (n : Nat) :
    (serialized_buffer.consume ⟨store_le w (bswap w x) ++ p, w + n⟩ w = 
      .ok (store_le w (bswap w x) ++ p, ⟨p, n⟩)) ∧
    deref (store_le w (bswap w x) ++ p) w = .ok (store_le w (bswap w x)) := by
  constructor
  · have hl := store_le_length w (bswap w x)
    simp [serialized_buffer.consume, hl]
  · have h := deref_append (store_le w (bswap w x)) p
    rwa [store_le_length] at h

theorem get_u16_be_append (x : Nat) (hx : x < 65536) (p : List Byte) (n : Nat) :
    serialized_buffer.get_u16_be ⟨store_le 2 (htons x) ++ p, 2 + n⟩ = .ok (x, ⟨p, n⟩) := by
  obtain ⟨h1, h2⟩ := get_be_append 2 x p n
  have h3 := bswap_load_store_bswap 2 x
  simp only [serialized_buffer.get_u16_be, htons, bswap_16, BE16, h1, h2, h3]
  rw [Nat.mod_eq_of_lt (by simpa using hx)]

theorem get_u32_be_append (x : Nat) (hx : x < 2 ^ 32) (p : List Byte) (n : Nat) :
    serialized_buffer.get_u32_be ⟨store_le 4 (htonl x) ++ p, 4 + n⟩ = .ok (x, ⟨p, n⟩) := by
  obtain ⟨h1, h2⟩ := get_be_append 4 x p n
  have h3 := bswap_load_store_bswap 4 x
  simp only [serialized_buffer.get_u32_be, htonl, bswap_32, BE32, h1, h2, h3]
  rw [Nat.mod_eq_of_lt (by simpa using hx)]

theorem get_double_be_append (x : Nat) (hx : x < 2 ^ 64) (p : List Byte) (n : Nat) :
    serialized_buffer.get_double_be ⟨store_le 8 (hton64 x) ++ p, 8 + n⟩ = .ok (x, ⟨p, n⟩) := by
  obtain ⟨h1, h2⟩ := get_be_append 8 x p n
  have h3 := bswap_load_store_bswap 8 x
  simp only [serialized_buffer.get_double_be, serialized_buffer.get_u64_be, hton64, bswap_64, BE64,
    h1, h2, h3]
  rw [Nat.mod_eq_of_lt (by simpa using hx)]

/-! ## The key order -/

theorem strLt_irrefl (a : List Byte) : strLt a a = false := by
  induction a with
  | nil => rfl
  | cons x xs ih => simp [strLt, ih]

theorem strLt_asymm : ∀ (a b : List Byte), strLt a b = true → strLt b a = false
  | _, [], h => by simp [strLt] at h
  | [], _ :: _, _ => by simp [strLt]
  | x :: xs, y :: ys, h => by
    simp only [strLt] at h ⊢
    by_cases hxy : x < y
    · have : ¬ y < x := not_lt_of_lt hxy
      simp [this, hxy]
    · by_cases hyx : y < x
      · simp [hxy, hyx] at h
      · simp only [hxy, hyx, if_false] at h ⊢
        exact strLt_asymm xs ys h

theorem strLt_trans : ∀ (a b c : List Byte), strLt a b = true → strLt b c = true → strLt a c = true
  | _, [], _, h, _ => by simp [strLt] at h
  | _, _ :: _, [], _, h => by simp [strLt] at h
  | [], _ :: _, _ :: _, _, _ => by simp [strLt]
  | x :: xs, y :: ys, z :: zs, h1, h2 => by
    simp only [strLt] at h1 h2 ⊢
    by_cases hxy : x < y
    · by_cases hyz : y < z
      · simp [lt_trans hxy hyz]
      · by_cases hzy : z < y
        · simp [hyz, hzy] at h2
        · have : y = z := le_antisymm (not_lt.mp hzy) (not_lt.mp hyz)
          subst this
          simp [hxy]
    · by_cases hyx : y < x
      · simp [hxy, hyx] at h1
      · have : x = y := le_antisymm (not_lt.mp hyx) (not_lt.mp hxy)
        subst this
        simp only [hxy, if_false] at h1
        by_cases hxz : x < z
        · simp [hxz]
        · by_cases hzx : z < x
          · simp [hxz, hzx] at h2
          · simp only [hxz, hzx, if_false] at h2 ⊢
            exact strLt_trans xs ys zs h1 h2

theorem strLt_total : ∀ (a b : List Byte), strLt a b = false → strLt b a = false → a = b
  | [], [], _, _ => rfl
  | [], _ :: _, h, _ => by simp [strLt] at h
  | _ :: _, [], _, h => by simp [strLt] at h
  | x :: xs, y :: ys, h1, h2 => by
    simp only [strLt] at h1 h2
    by_cases hxy : x < y
    · simp [hxy] at h1
    · by_cases hyx : y < x
      · simp [hyx] at h2
      · have : x = y := le_antisymm (not_lt.mp hyx) (not_lt.mp hxy)
        subst this
        simp only [hxy, if_false] at h1 h2
        rw [strLt_total xs ys h1 h2]

/-! ## The map operations -/

theorem mapInsert_append (m : Dmap) (k : List Byte) (v : AMFData)
    (h : ∀ e ∈ m, strLt e.1 k = true) : mapInsert m k v = m ++ [(k, v)] := by
  induction m with
  | nil => rfl
  | cons e m ih =>
    obtain ⟨k1, v1⟩ := e
    have h1 : strLt k1 k = true := h (k1, v1) (List.mem_cons_self _ _)
    have h2 : strLt k k1 = false := strLt_asymm _ _ h1
    simp only [mapInsert, h1, h2, if_true, List.cons_append]
    rw [ih (fun e he => h e (List.mem_cons_of_mem _ he))]
    simp

theorem mem_mapInsert (m : Dmap) (k : List Byte) (v : AMFData) (e : List Byte × AMFData)
    (he : e ∈ mapInsert m k v) : e ∈ m ∨ e = (k, v) := by
  induction m with
  | nil => simpa [mapInsert] using he
  | cons e1 m ih =>
    obtain ⟨k1, v1⟩ := e1
    simp only [mapInsert] at he
    split at he
    · simp only [List.mem_cons] at he ⊢
      rcases he with h | h | h
      · exact Or.inr h
      · exact Or.inl (Or.inl h)
      · exact Or.inl (Or.inr h)
    · split at he
      · simp only [List.mem_cons] at he ⊢
        rcases he with h | h
        · exact Or.inl (Or.inl h)
        · rcases ih h with h | h
          · exact Or.inl (Or.inr h)
          · exact Or.inr h
      · exact Or.inl he

theorem ascending_mapInsert (m : Dmap) (k : List Byte) (v : AMFData) (h : Ascending m) :
    Ascending (mapInsert m k v) := by
  induction m with
  | nil => simp [mapInsert, Ascending]
  | cons e1 m ih =>
    obtain ⟨k1, v1⟩ := e1
    unfold Ascending at h ih ⊢
    rw [List.pairwise_cons] at h
    simp only [mapInsert]
    split
    · rename_i hlt
      rw [List.pairwise_cons]
      refine ⟨?_, List.pairwise_cons.mpr h⟩
      intro b hb
      rcases List.mem_cons.mp hb with hb | hb
      · subst hb; exact hlt
      · exact strLt_trans _ _ _ hlt (h.1 b hb)
    · split
      · rename_i hlt
        rw [List.pairwise_cons]
        refine ⟨?_, ih h.2⟩
        intro b hb
        rcases mem_mapInsert m k v b hb with hb | hb
        · exact h.1 b hb
        · subst hb; exact hlt
      · exact List.pairwise_cons.mpr h

/-! ## Ranges of the doubles the program computes -/

theorem F64.roundPos_le (num den : Nat) : F64.roundPos num den ≤ F64.inf := by
  unfold F64.roundPos
  split
  · exact Nat.zero_le _
  · exact Nat.min_le_right _ _

theorem F64.withSign_lt (neg : Bool) (x : Nat) (h : x ≤ F64.inf) : F64.withSign neg x < 2 ^ 64 := by
  unfold F64.withSign
  unfold F64.inf at h
  split <;> omega

theorem F64.roundSigned_lt (neg : Bool) (num den : Nat) : F64.roundSigned neg num den < 2 ^ 64 :=
  F64.withSign_lt _ _ (F64.roundPos_le _ _)

theorem F64.propagate_lt (a b : Nat) : F64.propagate a b < 2 ^ 64 := by
  unfold F64.propagate F64.quiet
  split
  · exact Nat.or_lt_two_pow (Nat.mod_lt _ (by decide)) (by decide)
  · exact Nat.or_lt_two_pow (Nat.mod_lt _ (by decide)) (by decide)

theorem F64.add_lt (a b : Nat) : F64.add a b < 2 ^ 64 := by
  unfold F64.add
  split
  · exact F64.propagate_lt a b
  · split
    · split
      · decide
      · exact Nat.mod_lt _ (by decide)
    · split
      · exact Nat.mod_lt _ (by decide)
      · simp only []
        split
        · exact F64.withSign_lt _ _ (by simp [F64.inf])
        · exact F64.roundSigned_lt _ _ _

theorem dateMillis_lt (tv_sec tv_usec : Int) : dateMillis tv_sec tv_usec < 2 ^ 64 :=
  F64.add_lt _ _

/-! ## Decoding what was encoded -/

theorem get_u8_at (b : Byte) (p : List Byte) (len n : Nat) (h : len = n + 1) :
    serialized_buffer.get_u8 ⟨b :: p, len⟩ = .ok (b.val, ⟨p, n⟩) := by
  subst h; exact get_u8_cons b p n

theorem get_u16_be_at (x : Nat) (hx : x < 65536) (p : List Byte) (len n : Nat) (h : len = 2 + n) :
    serialized_buffer.get_u16_be ⟨store_le 2 (htons x) ++ p, len⟩ = .ok (x, ⟨p, n⟩) := by
  subst h; exact get_u16_be_append x hx p n

theorem get_u32_be_at (x : Nat) (hx : x < 2 ^ 32) (p : List Byte) (len n : Nat) (h : len = 4 + n) :
    serialized_buffer.get_u32_be ⟨store_le 4 (htonl x) ++ p, len⟩ = .ok (x, ⟨p, n⟩) := by
  subst h; exact get_u32_be_append x hx p n

theorem get_u32_be_any (x : Nat) (p : List Byte) (len n : Nat) (h : len = 4 + n) :
    serialized_buffer.get_u32_be ⟨store_le 4 (htonl x) ++ p, len⟩ = .ok (x % 2 ^ 32, ⟨p, n⟩) := by
  subst h
  obtain ⟨h1, h2⟩ := get_be_append 4 x p n
  have h3 := bswap_load_store_bswap 4 x
  simp only [serialized_buffer.get_u32_be, htonl, bswap_32, BE32, h1, h2, h3]
  rfl

theorem get_double_be_at (x : Nat) (hx : x < 2 ^ 64) (p : List Byte) (len n : Nat)
    (h : len = 8 + n) :
    serialized_buffer.get_double_be ⟨store_le 8 (hton64 x) ++ p, len⟩ = .ok (x, ⟨p, n⟩) := by
  subst h; exact get_double_be_append x hx p n

theorem get_bytes_at (d p : List Byte) (len n : Nat) (h : len = d.length + n) :
    serialized_buffer.get_bytes ⟨d ++ p, len⟩ d.length = .ok (d, ⟨p, n⟩) := by
  subst h; exact get_bytes_append d p n

theorem byte_val_mod (n : Nat) : (byte n).val = n % 256 := rfl

theorem ascending_append_cons (acc m : Dmap) (k : List Byte) (v : AMFData)
    (h : Ascending (acc ++ (k, v) :: m)) : ∀ e ∈ acc, strLt e.1 k = true := by
  unfold Ascending at h
  rw [List.pairwise_append] at h
  intro e he
  exact h.2.2 e he (k, v) (List.mem_cons_self _ _)

theorem write_length_pos (v : AMFData) : 0 < v.write.length := by
  cases v <;> simp [AMFData.write]

theorem roundtrip_fuel (fuel : Nat) :
    (∀ v : AMFData, v.Wf → v.DatesStable → ∀ (tail : List Byte) (n : Nat),
      2 * v.write.length + 1 ≤ fuel →
      constructF fuel ⟨v.write ++ tail, v.write.length + n⟩ = .ok (v, ⟨tail, n⟩)) ∧
    (∀ m : Dmap, WfPairs m → DatesStablePairs m → ∀ (acc : Dmap), Ascending (acc ++ m) →
      ∀ (tail : List Byte) (n : Nat), 2 * (_write m).length + 2 ≤ fuel →
      _constructF fuel ⟨_write m ++ tail, (_write m).length + n⟩ acc = .ok (acc ++ m, ⟨tail, n⟩)) ∧
    (∀ a : List AMFData, WfElems a → DatesStableElems a → ∀ (acc : List AMFData),
      ∀ (tail : List Byte) (n : Nat), 2 * (writeElems a).length + 2 ≤ fuel →
      constructElems fuel a.length ⟨writeElems a ++ tail, (writeElems a).length + n⟩ acc =
        .ok (acc ++ a, ⟨tail, n⟩)) := by
  induction fuel with
  | zero =>
    refine ⟨fun v _ _ _ _ h => absurd h (by omega), fun m _ _ _ _ _ _ h => absurd h (by omega),
      fun a _ _ _ _ _ h => absurd h (by omega)⟩
  | succ fuel ih =>
    obtain ⟨ihv, ihm, iha⟩ := ih
    refine ⟨?_, ?_, ?_⟩
    · intro v hw hd tail n hf
      cases v with
      | AMFDouble d =>
        simp only [AMFData.Wf] at hw
        simp only [AMFData.write, List.length_cons, store_le_length, List.cons_append]
        rw [constructF, get_u8_at _ _ _ (8 + n) (by omega)]
        simp only [AMF_TYPE_DOUBLE, AMF_TYPE_BOOLEAN, AMF_TYPE_STRING, AMF_TYPE_OBJECT, AMF_TYPE_NULL,
          AMF_TYPE_UNDEFINED, AMF_TYPE_MIXED_ARRAY, AMF_TYPE_ARRAY, AMF_TYPE_DATE, AMF_TYPE_UNSUPPORTED,
          byte_val_mod, Nat.reduceMod, Nat.reduceEqDiff, ↓reduceIte, OfNat.ofNat_ne_zero]
        rw [get_double_be_at d hw _ _ n rfl]
      | AMFBoolean d =>
        simp only [AMFData.write, List.length_cons, List.length_nil, List.cons_append,
          List.nil_append]
        rw [constructF, get_u8_at _ _ _ (1 + n) (by omega)]
        simp only [AMF_TYPE_DOUBLE, AMF_TYPE_BOOLEAN, AMF_TYPE_STRING, AMF_TYPE_OBJECT, AMF_TYPE_NULL,
          AMF_TYPE_UNDEFINED, AMF_TYPE_MIXED_ARRAY, AMF_TYPE_ARRAY, AMF_TYPE_DATE, AMF_TYPE_UNSUPPORTED,
          byte_val_mod, Nat.reduceMod, Nat.reduceEqDiff, ↓reduceIte, OfNat.ofNat_ne_zero]
        rw [get_u8_at _ _ _ n (by omega)]
        cases d <;> rfl
      | AMFString d =>
        simp only [AMFData.Wf] at hw
        simp only [AMFData.write, List.length_cons, List.length_append, store_le_length,
          List.cons_append, List.append_assoc]
        rw [constructF, get_u8_at _ _ _ (2 + (d.length + n)) (by omega)]
        simp only [AMF_TYPE_DOUBLE, AMF_TYPE_BOOLEAN, AMF_TYPE_STRING, AMF_TYPE_OBJECT, AMF_TYPE_NULL,
          AMF_TYPE_UNDEFINED, AMF_TYPE_MIXED_ARRAY, AMF_TYPE_ARRAY, AMF_TYPE_DATE, AMF_TYPE_UNSUPPORTED,
          byte_val_mod, Nat.reduceMod, Nat.reduceEqDiff, ↓reduceIte, OfNat.ofNat_ne_zero]
        rw [get_u16_be_at d.length hw _ _ (d.length + n) rfl]
        simp only []
        rw [get_bytes_at d tail _ n rfl]
      | AMFObject dmap =>
        simp only [AMFData.Wf] at hw
        simp only [AMFData.DatesStable] at hd
        simp only [AMFData.write, List.length_cons, List.cons_append] at hf ⊢
        rw [constructF, get_u8_at _ _ _ ((_write dmap).length + n) (by omega)]
        simp only [AMF_TYPE_DOUBLE, AMF_TYPE_BOOLEAN, AMF_TYPE_STRING, AMF_TYPE_OBJECT, AMF_TYPE_NULL,
          AMF_TYPE_UNDEFINED, AMF_TYPE_MIXED_ARRAY, AMF_TYPE_ARRAY, AMF_TYPE_DATE, AMF_TYPE_UNSUPPORTED,
          byte_val_mod, Nat.reduceMod, Nat.reduceEqDiff, ↓reduceIte, OfNat.ofNat_ne_zero]
        rw [ihm dmap hw.2 hd [] (by simpa using hw.1) tail n (by omega)]
        simp only [List.nil_append]
      | AMFNull =>
        simp only [AMFData.write, List.length_cons, List.length_nil, List.cons_append,
          List.nil_append]
        rw [constructF, get_u8_at _ _ _ n (by omega)]
        simp only [AMF_TYPE_DOUBLE, AMF_TYPE_BOOLEAN, AMF_TYPE_STRING, AMF_TYPE_OBJECT, AMF_TYPE_NULL,
          AMF_TYPE_UNDEFINED, AMF_TYPE_MIXED_ARRAY, AMF_TYPE_ARRAY, AMF_TYPE_DATE, AMF_TYPE_UNSUPPORTED,
          byte_val_mod, Nat.reduceMod, Nat.reduceEqDiff, ↓reduceIte, OfNat.ofNat_ne_zero]
      | AMFUndefined =>
        simp only [AMFData.write, List.length_cons, List.length_nil, List.cons_append,
          List.nil_append]
        rw [constructF, get_u8_at _ _ _ n (by omega)]
        simp only [AMF_TYPE_DOUBLE, AMF_TYPE_BOOLEAN, AMF_TYPE_STRING, AMF_TYPE_OBJECT, AMF_TYPE_NULL,
          AMF_TYPE_UNDEFINED, AMF_TYPE_MIXED_ARRAY, AMF_TYPE_ARRAY, AMF_TYPE_DATE, AMF_TYPE_UNSUPPORTED,
          byte_val_mod, Nat.reduceMod, Nat.reduceEqDiff, ↓reduceIte, OfNat.ofNat_ne_zero]
      | AMFMixedArray dmap =>
        simp only [AMFData.Wf] at hw
        simp only [AMFData.DatesStable] at hd
        simp only [AMFData.write, List.length_cons, List.length_append, store_le_length,
          List.cons_append, List.append_assoc] at hf ⊢
        rw [constructF, get_u8_at _ _ _ (4 + ((_write dmap).length + n)) (by omega)]
        simp only [AMF_TYPE_DOUBLE, AMF_TYPE_BOOLEAN, AMF_TYPE_STRING, AMF_TYPE_OBJECT, AMF_TYPE_NULL,
          AMF_TYPE_UNDEFINED, AMF_TYPE_MIXED_ARRAY, AMF_TYPE_ARRAY, AMF_TYPE_DATE, AMF_TYPE_UNSUPPORTED,
          byte_val_mod, Nat.reduceMod, Nat.reduceEqDiff, ↓reduceIte, OfNat.ofNat_ne_zero]
        rw [get_u32_be_any dmap.length _ _ ((_write dmap).length + n) rfl]
        simp only []
        rw [ihm dmap hw.2 hd [] (by simpa using hw.1) tail n (by omega)]
        simp only [List.nil_append]
      | AMFArray dmap =>
        simp only [AMFData.Wf] at hw
        simp only [AMFData.DatesStable] at hd
        simp only [AMFData.write, List.length_cons, List.length_append, store_le_length,
          List.cons_append, List.append_assoc] at hf ⊢
        rw [constructF, get_u8_at _ _ _ (4 + ((writeElems dmap).length + n)) (by omega)]
        simp only [AMF_TYPE_DOUBLE, AMF_TYPE_BOOLEAN, AMF_TYPE_STRING, AMF_TYPE_OBJECT, AMF_TYPE_NULL,
          AMF_TYPE_UNDEFINED, AMF_TYPE_MIXED_ARRAY, AMF_TYPE_ARRAY, AMF_TYPE_DATE, AMF_TYPE_UNSUPPORTED,
          byte_val_mod, Nat.reduceMod, Nat.reduceEqDiff, ↓reduceIte, OfNat.ofNat_ne_zero]
        rw [get_u32_be_at dmap.length hw.1 _ _ ((writeElems dmap).length + n) rfl]
        simp only []
        rw [iha dmap hw.2 hd [] tail n (by omega)]
        simp only [List.nil_append]
      | AMFDate tv_sec tv_usec tz dst =>
        simp only [AMFData.Wf] at hw
        simp only [AMFData.DatesStable] at hd
        obtain ⟨htz0, htz1, hdst⟩ := hw
        subst hdst
        simp only [AMFData.write, List.length_cons, List.length_append, store_le_length,
          List.cons_append, List.append_assoc] at hf ⊢
        rw [constructF, get_u8_at _ _ _ (8 + (2 + n)) (by omega)]
        simp only [AMF_TYPE_DOUBLE, AMF_TYPE_BOOLEAN, AMF_TYPE_STRING, AMF_TYPE_OBJECT, AMF_TYPE_NULL,
          AMF_TYPE_UNDEFINED, AMF_TYPE_MIXED_ARRAY, AMF_TYPE_ARRAY, AMF_TYPE_DATE, AMF_TYPE_UNSUPPORTED,
          byte_val_mod, Nat.reduceMod, Nat.reduceEqDiff, ↓reduceIte, OfNat.ofNat_ne_zero]
        rw [get_double_be_at _ (dateMillis_lt tv_sec tv_usec) _ _ (2 + n) rfl]
        simp only []
        have htz : (tz % 65536).toNat < 65536 := by omega
        rw [get_u16_be_at _ htz _ _ n rfl]
        simp only [hd]
        have hcast : (((tz % 65536).toNat : Nat) : Int) = tz := by omega
        simp only [hcast]
      | AMFUnsupported =>
        simp only [AMFData.write, List.length_cons, List.length_nil, List.cons_append,
          List.nil_append]
        rw [constructF, get_u8_at _ _ _ n (by omega)]
        simp only [AMF_TYPE_DOUBLE, AMF_TYPE_BOOLEAN, AMF_TYPE_STRING, AMF_TYPE_OBJECT, AMF_TYPE_NULL,
          AMF_TYPE_UNDEFINED, AMF_TYPE_MIXED_ARRAY, AMF_TYPE_ARRAY, AMF_TYPE_DATE, AMF_TYPE_UNSUPPORTED,
          byte_val_mod, Nat.reduceMod, Nat.reduceEqDiff, ↓reduceIte, OfNat.ofNat_ne_zero]
    · intro m hw hd acc hasc tail n hf
      cases m with
      | nil =>
        simp only [_write, List.length_append, store_le_length, List.length_cons, List.length_nil,
          List.append_assoc, List.cons_append, List.nil_append, List.append_nil]
        have h0 : store_le 2 0 = store_le 2 (htons 0) := by decide
        rw [_constructF, h0, get_u16_be_at 0 (by decide) _ _ (1 + n) (by omega)]
        simp only [if_true]
        rw [get_u8_at _ _ _ n (by omega)]
      | cons e m =>
        obtain ⟨k, v⟩ := e
        simp only [WfPairs] at hw
        simp only [DatesStablePairs] at hd
        obtain ⟨hk0, hk1, hwv, hwm⟩ := hw
        simp only [_write, List.length_append, store_le_length, List.append_assoc] at hf ⊢
        rw [_constructF, get_u16_be_at k.length hk1 _ _
          (k.length + (v.write.length + ((_write m).length + n))) (by omega)]
        simp only [show ¬ (k.length = 0) by omega, if_false]
        rw [get_bytes_at k _ _ (v.write.length + ((_write m).length + n)) rfl]
        simp only []
        rw [ihv v hwv hd.1 (_write m ++ tail) ((_write m).length + n) (by omega)]
        simp only []
        rw [mapInsert_append acc k v (ascending_append_cons acc m k v hasc)]
        rw [ihm m hwm hd.2 (acc ++ [(k, v)]) (by simpa using hasc) tail n (by omega)]
        simp
    · intro a hw hd acc tail n hf
      cases a with
      | nil =>
        simp only [writeElems, List.length_nil, List.nil_append, Nat.zero_add, List.append_nil]
        rw [constructElems]
      | cons v a =>
        simp only [WfElems] at hw
        simp only [DatesStableElems] at hd
        simp only [writeElems, List.length_append, List.append_assoc, List.length_cons] at hf ⊢
        have hpos := write_length_pos v
        rw [constructElems]
        rw [show v.write.length + (writeElems a).length + n =
          v.write.length + ((writeElems a).length + n) by omega]
        rw [ihv v hw.1 hd.1 (writeElems a ++ tail) ((writeElems a).length + n) (by omega)]
        simp only []
        rw [iha a hw.2 hd.2 (acc ++ [v]) tail n (by omega)]
        simp

/-! ## What the factory returns is well formed -/

theorem load_le_lt (bs : List Byte) : load_le bs < 256 ^ bs.length := by
  induction bs with
  | nil => simp [load_le]
  | cons b bs ih =>
    have hb := b.isLt
    simp only [load_le, List.length_cons, pow_succ]
    omega

theorem bswap_lt (n x : Nat) : bswap n x < 256 ^ n := by
  have h := load_le_lt (store_le n x).reverse
  rwa [List.length_reverse, store_le_length] at h

theorem get_u16_be_lt (b b1 : serialized_buffer) (x : Nat)
    (h : b.get_u16_be = .ok (x, b1)) : x < 65536 := by
  unfold serialized_buffer.get_u16_be at h
  split at h
  · cases h
  · split at h
    · cases h
    · simp only [Except.ok.injEq, Prod.mk.injEq] at h
      rw [← h.1]
      exact bswap_lt 2 _

theorem get_u32_be_lt (b b1 : serialized_buffer) (x : Nat)
    (h : b.get_u32_be = .ok (x, b1)) : x < 2 ^ 32 := by
  unfold serialized_buffer.get_u32_be at h
  split at h
  · cases h
  · split at h
    · cases h
    · simp only [Except.ok.injEq, Prod.mk.injEq] at h
      rw [← h.1]
      exact bswap_lt 4 _

theorem get_double_be_lt (b b1 : serialized_buffer) (x : Nat)
    (h : b.get_double_be = .ok (x, b1)) : x < 2 ^ 64 := by
  unfold serialized_buffer.get_double_be serialized_buffer.get_u64_be at h
  split at h
  · cases h
  · split at h
    · cases h
    · simp only [Except.ok.injEq, Prod.mk.injEq] at h
      rw [← h.1]
      exact bswap_lt 8 _

theorem get_bytes_length (b b1 : serialized_buffer) (l : Nat) (k : List Byte)
    (h : b.get_bytes l = .ok (k, b1)) : k.length = l := by
  unfold serialized_buffer.get_bytes at h
  split at h
  · cases h
  · rename_i r b2 hc
    split at h
    · cases h
    · rename_i bs hd
      simp only [Except.ok.injEq, Prod.mk.injEq] at h
      rw [← h.1]
      unfold deref at hd
      split at hd
      · cases hd
      · simp only [Except.ok.injEq] at hd
        rw [← hd, List.length_take]
        omega

theorem wfPairs_mapInsert (m : Dmap) (k : List Byte) (v : AMFData) (hm : WfPairs m)
    (hk0 : 0 < k.length) (hk1 : k.length < 65536) (hv : v.Wf) : WfPairs (mapInsert m k v) := by
  induction m with
  | nil => simp [mapInsert, WfPairs, hk0, hk1, hv]
  | cons e m ih =>
    obtain ⟨k1, v1⟩ := e
    simp only [WfPairs] at hm
    simp only [mapInsert]
    split
    · simp only [WfPairs]
      exact ⟨hk0, hk1, hv, hm⟩
    · split
      · simp only [WfPairs]
        exact ⟨hm.1, hm.2.1, hm.2.2.1, ih hm.2.2.2⟩
      · simp only [WfPairs]
        exact hm

theorem wfElems_append (a : List AMFData) (v : AMFData) (ha : WfElems a) (hv : v.Wf) :
    WfElems (a ++ [v]) := by
  induction a with
  | nil => simp [WfElems, hv]
  | cons x a ih =>
    simp only [WfElems] at ha
    simp only [List.cons_append, WfElems]
    exact ⟨ha.1, ih ha.2⟩

theorem wf_fuel (fuel : Nat) :
    (∀ (buf : serialized_buffer) (v : AMFData) (buf1 : serialized_buffer),
      constructF fuel buf = .ok (v, buf1) → v.Wf) ∧
    (∀ (buf : serialized_buffer) (acc m : Dmap) (buf1 : serialized_buffer),
      _constructF fuel buf acc = .ok (m, buf1) → Ascending acc → WfPairs acc →
      Ascending m ∧ WfPairs m) ∧
    (∀ (len : Nat) (buf : serialized_buffer) (acc a : List AMFData) (buf1 : serialized_buffer),
      constructElems fuel len buf acc = .ok (a, buf1) → WfElems acc →
      WfElems a ∧ a.length = acc.length + len) := by
  induction fuel with
  | zero =>
    refine ⟨?_, ?_, ?_⟩
    · intro buf v buf1 h
      simp [constructF] at h
    · intro buf acc m buf1 h
      simp [_constructF] at h
    · intro len buf acc a buf1 h
      simp [constructElems] at h
  | succ fuel ih =>
    obtain ⟨ihv, ihm, iha⟩ := ih
    refine ⟨?_, ?_, ?_⟩
    · intro buf v buf1 h
      rw [constructF] at h
      split at h
      · cases h
      · rename_i typeID buf2 hg
        split at h
        · split at h
          · cases h
          · rename_i d buf3 hd
            simp only [Except.ok.injEq, Prod.mk.injEq] at h
            rw [← h.1]
            exact get_double_be_lt _ _ _ hd
        · split at h
          · split at h
            · cases h
            · simp only [Except.ok.injEq, Prod.mk.injEq] at h
              rw [← h.1]
              trivial
          · split at h
            · split at h
              · cases h
              · rename_i l buf3 hl
                split at h
                · cases h
                · rename_i d buf4 hd
                  simp only [Except.ok.injEq, Prod.mk.injEq] at h
                  rw [← h.1]
                  simp only [AMFData.Wf]
                  rw [get_bytes_length _ _ _ _ hd]
                  exact get_u16_be_lt _ _ _ hl
            · split at h
              · split at h
                · cases h
                · rename_i dmap buf3 hd
                  simp only [Except.ok.injEq, Prod.mk.injEq] at h
                  rw [← h.1]
                  exact ihm _ _ _ _ hd (by simp [Ascending]) (by simp [WfPairs])
              · split at h
                · simp only [Except.ok.injEq, Prod.mk.injEq] at h
                  rw [← h.1]
                  trivial
                · split at h
                  · simp only [Except.ok.injEq, Prod.mk.injEq] at h
                    rw [← h.1]
                    trivial
                  · split at h
                    · split at h
                      · cases h
                      · split at h
                        · cases h
                        · rename_i dmap buf4 hd
                          simp only [Except.ok.injEq, Prod.mk.injEq] at h
                          rw [← h.1]
                          exact ihm _ _ _ _ hd (by simp [Ascending]) (by simp [WfPairs])
                    · split at h
                      · split at h
                        · cases h
                        · rename_i len buf3 hl
                          split at h
                          · cases h
                          · rename_i dmap buf4 hd
                            simp only [Except.ok.injEq, Prod.mk.injEq] at h
                            rw [← h.1]
                            have := iha _ _ _ _ _ hd (by simp [WfElems])
                            simp only [AMFData.Wf]
                            refine ⟨?_, this.1⟩
                            rw [this.2]
                            simpa using get_u32_be_lt _ _ _ hl
                      · split at h
                        · split at h
                          · cases h
                          · split at h
                            · cases h
                            · rename_i tz buf4 htz
                              simp only [Except.ok.injEq, Prod.mk.injEq] at h
                              rw [← h.1]
                              simp only [AMFData.Wf]
                              have := get_u16_be_lt _ _ _ htz
                              exact ⟨Int.natCast_nonneg _, by exact_mod_cast this, trivial⟩
                        · split at h
                          · simp only [Except.ok.injEq, Prod.mk.injEq] at h
                            rw [← h.1]
                            trivial
                          · cases h
    · intro buf acc m buf1 h hasc hwf
      rw [_constructF] at h
      split at h
      · simp only [Except.ok.injEq, Prod.mk.injEq] at h
        rw [← h.1]
        exact ⟨hasc, hwf⟩
      · cases h
      · rename_i l buf2 hl
        split at h
        · split at h
          · cases h
          · simp only [Except.ok.injEq, Prod.mk.injEq] at h
            rw [← h.1]
            exact ⟨hasc, hwf⟩
        · rename_i hl0
          split at h
          · cases h
          · rename_i k buf3 hk
            split at h
            · cases h
            · rename_i v buf4 hv
              have hkl := get_bytes_length _ _ _ _ hk
              have hl1 := get_u16_be_lt _ _ _ hl
              exact ihm _ _ _ _ h (ascending_mapInsert acc k v hasc)
                (wfPairs_mapInsert acc k v hwf (by omega) (by omega) (ihv _ _ _ hv))
    · intro len buf acc a buf1 h hwf
      cases len with
      | zero =>
        rw [constructElems] at h
        simp only [Except.ok.injEq, Prod.mk.injEq] at h
        rw [← h.1]
        exact ⟨hwf, rfl⟩
      | succ len =>
        rw [constructElems] at h
        split at h
        · cases h
        · rename_i v buf2 hv
          have := iha _ _ _ _ _ h (wfElems_append acc v hwf (ihv _ _ _ hv))
          refine ⟨this.1, ?_⟩
          rw [this.2, List.length_append]
          simp
          omega

/-! ## The equality test -/

mutual
theorem AMFData.eq_of_beq : ∀ (a b : AMFData), a.beq b = true → a = b
  | .AMFDouble x, .AMFDouble y, h => by simp only [AMFData.beq, beq_iff_eq] at h; rw [h]
  | .AMFBoolean x, .AMFBoolean y, h => by simp only [AMFData.beq, beq_iff_eq] at h; rw [h]
  | .AMFString x, .AMFString y, h => by simp only [AMFData.beq, beq_iff_eq] at h; rw [h]
  | .AMFObject x, .AMFObject y, h => by
    simp only [AMFData.beq] at h; rw [eq_of_beqPairs x y h]
  | .AMFNull, .AMFNull, _ => rfl
  | .AMFUndefined, .AMFUndefined, _ => rfl
  | .AMFMixedArray x, .AMFMixedArray y, h => by
    simp only [AMFData.beq] at h; rw [eq_of_beqPairs x y h]
  | .AMFArray x, .AMFArray y, h => by
    simp only [AMFData.beq] at h; rw [eq_of_beqElems x y h]
  | .AMFDate s1 u1 m1 d1, .AMFDate s2 u2 m2 d2, h => by
    simp only [AMFData.beq, Bool.and_eq_true, beq_iff_eq] at h
    obtain ⟨⟨⟨h1, h2⟩, h3⟩, h4⟩ := h
    rw [h1, h2, h3, h4]
  | .AMFUnsupported, .AMFUnsupported, _ => rfl
  | .AMFDouble _, .AMFBoolean _, h | .AMFDouble _, .AMFString _, h | .AMFDouble _, .AMFObject _, h
  | .AMFDouble _, .AMFNull, h | .AMFDouble _, .AMFUndefined, h | .AMFDouble _, .AMFMixedArray _, h
  | .AMFDouble _, .AMFArray _, h | .AMFDouble _, .AMFDate _ _ _ _, h
  | .AMFDouble _, .AMFUnsupported, h => by simp [AMFData.beq] at h
  | .AMFBoolean _, .AMFDouble _, h | .AMFBoolean _, .AMFString _, h | .AMFBoolean _, .AMFObject _, h
  | .AMFBoolean _, .AMFNull, h | .AMFBoolean _, .AMFUndefined, h | .AMFBoolean _, .AMFMixedArray _, h
  | .AMFBoolean _, .AMFArray _, h | .AMFBoolean _, .AMFDate _ _ _ _, h
  | .AMFBoolean _, .AMFUnsupported, h => by simp [AMFData.beq] at h
  | .AMFString _, .AMFDouble _, h | .AMFString _, .AMFBoolean _, h | .AMFString _, .AMFObject _, h
  | .AMFString _, .AMFNull, h | .AMFString _, .AMFUndefined, h | .AMFString _, .AMFMixedArray _, h
  | .AMFString _, .AMFArray _, h | .AMFString _, .AMFDate _ _ _ _, h
  | .AMFString _, .AMFUnsupported, h => by simp [AMFData.beq] at h
  | .AMFObject _, .AMFDouble _, h | .AMFObject _, .AMFBoolean _, h | .AMFObject _, .AMFString _, h
  | .AMFObject _, .AMFNull, h | .AMFObject _, .AMFUndefined, h | .AMFObject _, .AMFMixedArray _, h
  | .AMFObject _, .AMFArray _, h | .AMFObject _, .AMFDate _ _ _ _, h
  | .AMFObject _, .AMFUnsupported, h => by simp [AMFData.beq] at h
  | .AMFNull, .AMFDouble _, h | .AMFNull, .AMFBoolean _, h | .AMFNull, .AMFString _, h
  | .AMFNull, .AMFObject _, h | .AMFNull, .AMFUndefined, h | .AMFNull, .AMFMixedArray _, h
  | .AMFNull, .AMFArray _, h | .AMFNull, .AMFDate _ _ _ _, h
  | .AMFNull, .AMFUnsupported, h => by simp [AMFData.beq] at h
  | .AMFUndefined, .AMFDouble _, h | .AMFUndefined, .AMFBoolean _, h | .AMFUndefined, .AMFString _, h
  | .AMFUndefined, .AMFObject _, h | .AMFUndefined, .AMFNull, h | .AMFUndefined, .AMFMixedArray _, h
  | .AMFUndefined, .AMFArray _, h | .AMFUndefined, .AMFDate _ _ _ _, h
  | .AMFUndefined, .AMFUnsupported, h => by simp [AMFData.beq] at h
  | .AMFMixedArray _, .AMFDouble _, h | .AMFMixedArray _, .AMFBoolean _, h
  | .AMFMixedArray _, .AMFString _, h | .AMFMixedArray _, .AMFObject _, h
  | .AMFMixedArray _, .AMFNull, h | .AMFMixedArray _, .AMFUndefined, h
  | .AMFMixedArray _, .AMFArray _, h | .AMFMixedArray _, .AMFDate _ _ _ _, h
  | .AMFMixedArray _, .AMFUnsupported, h => by simp [AMFData.beq] at h
  | .AMFArray _, .AMFDouble _, h | .AMFArray _, .AMFBoolean _, h | .AMFArray _, .AMFString _, h
  | .AMFArray _, .AMFObject _, h | .AMFArray _, .AMFNull, h | .AMFArray _, .AMFUndefined, h
  | .AMFArray _, .AMFMixedArray _, h | .AMFArray _, .AMFDate _ _ _ _, h
  | .AMFArray _, .AMFUnsupported, h => by simp [AMFData.beq] at h
  | .AMFDate _ _ _ _, .AMFDouble _, h | .AMFDate _ _ _ _, .AMFBoolean _, h
  | .AMFDate _ _ _ _, .AMFString _, h | .AMFDate _ _ _ _, .AMFObject _, h
  | .AMFDate _ _ _ _, .AMFNull, h | .AMFDate _ _ _ _, .AMFUndefined, h
  | .AMFDate _ _ _ _, .AMFMixedArray _, h | .AMFDate _ _ _ _, .AMFArray _, h
  | .AMFDate _ _ _ _, .AMFUnsupported, h => by simp [AMFData.beq] at h
  | .AMFUnsupported, .AMFDouble _, h | .AMFUnsupported, .AMFBoolean _, h
  | .AMFUnsupported, .AMFString _, h | .AMFUnsupported, .AMFObject _, h
  | .AMFUnsupported, .AMFNull, h | .AMFUnsupported, .AMFUndefined, h
  | .AMFUnsupported, .AMFMixedArray _, h | .AMFUnsupported, .AMFArray _, h
  | .AMFUnsupported, .AMFDate _ _ _ _, h => by simp [AMFData.beq] at h
theorem eq_of_beqPairs : ∀ (a b : List (List Byte × AMFData)), beqPairs a b = true → a = b
  | [], [], _ => rfl
  | [], _ :: _, h => by simp [beqPairs] at h
  | _ :: _, [], h => by simp [beqPairs] at h
  | (k1, v1) :: m1, (k2, v2) :: m2, h => by
    simp only [beqPairs, Bool.and_eq_true, beq_iff_eq] at h
    obtain ⟨⟨h1, h2⟩, h3⟩ := h
    rw [h1, AMFData.eq_of_beq v1 v2 h2, eq_of_beqPairs m1 m2 h3]
theorem eq_of_beqElems : ∀ (a b : List AMFData), beqElems a b = true → a = b
  | [], [], _ => rfl
  | [], _ :: _, h => by simp [beqElems] at h
  | _ :: _, [], h => by simp [beqElems] at h
  | v1 :: a1, v2 :: a2, h => by
    simp only [beqElems, Bool.and_eq_true] at h
    rw [AMFData.eq_of_beq v1 v2 h.1, eq_of_beqElems a1 a2 h.2]
end

theorem eq_of_resultBeq (r1 r2 : Except Fault (AMFData × serialized_buffer))
    (h : resultBeq r1 r2 = true) : r1 = r2 := by
  unfold resultBeq at h
  split at h
  · simp only [Bool.and_eq_true, beq_iff_eq] at h
    rw [AMFData.eq_of_beq _ _ h.1, h.2]
  · simp only [beq_iff_eq] at h
    rw [h]
  · cases h

/-! ## C1: decoding the encoding of a decoded value -/

theorem wf_of_construct (buf rest : serialized_buffer) (v : AMFData)
    (h : AMFData.construct buf = .ok (v, rest)) : v.Wf :=
  (wf_fuel _).1 buf v rest h

theorem construct_write_of_wf (v : AMFData) (hw : v.Wf) (hd : v.DatesStable) (tail : List Byte) :
    AMFData.construct (.ofBytes (v.write ++ tail)) = .ok (v, .ofBytes tail) := by
  have h := (roundtrip_fuel (2 * (v.write ++ tail).length + 2)).1 v hw hd tail tail.length
    (by rw [List.length_append]; omega)
  unfold AMFData.construct serialized_buffer.ofBytes
  rw [List.length_append] at h ⊢
  exact h


/-! ## C2: encoding what was decoded -/

theorem store_le_bswap_beNat (l : List Byte) : store_le l.length (bswap l.length (beNat l)) = l := by
  rw [store_le_bswap]
  unfold beNat
  have h := store_le_load_le l.reverse
  rw [List.length_reverse] at h
  rw [h, List.reverse_reverse]

theorem beNat_lt (l : List Byte) : beNat l < 256 ^ l.length := by
  have h := load_le_lt l.reverse
  rwa [List.length_reverse] at h

theorem store_be_take (w : Nat) (bs : List Byte) (h : w ≤ bs.length) :
    store_le w (bswap w (beNat (bs.take w))) = bs.take w := by
  have hl : (bs.take w).length = w := by rw [List.length_take]; omega
  have h1 := store_le_bswap_beNat (bs.take w)
  rwa [hl] at h1

theorem beNat_take_lt (w : Nat) (bs : List Byte) (h : w ≤ bs.length) :
    beNat (bs.take w) < 256 ^ w := by
  have hl : (bs.take w).length = w := by rw [List.length_take]; omega
  have h1 := beNat_lt (bs.take w)
  rwa [hl] at h1

theorem eq_byte_of_val (t : Byte) (n : Nat) (h : t.val = n) : t = byte n := by
  apply Fin.ext
  simp only [byte]
  rw [← h]
  exact (Nat.mod_eq_of_lt t.isLt).symm

theorem canonical_sound (fuel : Nat) :
    (∀ (bs rest : List Byte), canonicalF fuel bs = some rest →
      ∃ v : AMFData, v.Wf ∧ v.DatesStable ∧ bs = v.write ++ rest) ∧
    (∀ (prev : Option (List Byte)) (bs rest : List Byte) (count : Nat),
      canonicalPairs fuel prev bs = some (count, rest) →
      ∃ m : Dmap, WfPairs m ∧ DatesStablePairs m ∧ Ascending m ∧
        (∀ p, prev = some p → ∀ e ∈ m, strLt p e.1 = true) ∧ m.length = count ∧
        bs = _write m ++ rest) ∧
    (∀ (count : Nat) (bs rest : List Byte), canonicalElems fuel count bs = some rest →
      ∃ a : List AMFData, WfElems a ∧ DatesStableElems a ∧ a.length = count ∧
        bs = writeElems a ++ rest) := by
  induction fuel with
  | zero =>
    refine ⟨?_, ?_, ?_⟩
    · intro bs rest h; simp [canonicalF] at h
    · intro prev bs rest count h; simp [canonicalPairs] at h
    · intro count bs rest h; simp [canonicalElems] at h
  | succ fuel ih =>
    obtain ⟨ihv, ihm, iha⟩ := ih
    refine ⟨?_, ?_, ?_⟩
    · intro bs rest h
      cases bs with
      | nil => simp [canonicalF] at h
      | cons t bs =>
        simp only [canonicalF] at h
        split at h
        · -- Double
          rename_i ht
          split at h
          · rename_i hlen
            simp only [Option.some.injEq] at h
            refine ⟨.AMFDouble (beNat (bs.take 8)), ?_, trivial, ?_⟩
            · simpa [AMFData.Wf] using beNat_take_lt 8 bs hlen
            · simp only [AMFData.write, hton64, bswap_64, store_be_take 8 bs hlen, ← h,
                List.cons_append, List.take_append_drop]
              congr 1
              exact eq_byte_of_val t _ ht
          · cases h
        · split at h
          · -- Boolean
            rename_i ht
            cases bs with
            | nil => simp at h
            | cons b bs =>
              simp only at h
              split at h
              · rename_i hb
                simp only [Option.some.injEq] at h
                refine ⟨.AMFBoolean (b.val = 1), trivial, trivial, ?_⟩
                simp only [AMFData.write, ← h, List.cons_append, List.nil_append]
                congr 1
                · exact eq_byte_of_val t _ ht
                · congr 1
                  apply Fin.ext
                  by_cases hb1 : b.val = 1
                  · simp [hb1]
                  · have : b.val = 0 := by omega
                    simp [this]
              · cases h
          · split at h
            · -- String
              rename_i ht
              split at h
              · rename_i hlen
                simp only [Option.some.injEq] at h
                have hl : ((bs.drop 2).take (beNat (bs.take 2))).length = beNat (bs.take 2) := by
                  rw [List.length_take]; omega
                refine ⟨.AMFString ((bs.drop 2).take (beNat (bs.take 2))), ?_, trivial, ?_⟩
                · simp only [AMFData.Wf, hl]
                  simpa using beNat_take_lt 2 bs hlen.1
                · simp only [AMFData.write, hl, htons, bswap_16, store_be_take 2 bs hlen.1, ← h,
                    List.cons_append, List.append_assoc, List.take_append_drop]
                  congr 1
                  exact eq_byte_of_val t _ ht
              · cases h
            · split at h
              · -- Object
                rename_i ht
                split at h
                · rename_i count rest1 hp
                  simp only [Option.some.injEq] at h
                  obtain ⟨m, hw, hd, hasc, _, _, hbs⟩ := ihm none bs rest1 count hp
                  refine ⟨.AMFObject m, ⟨hasc, hw⟩, hd, ?_⟩
                  simp only [AMFData.write, hbs, ← h, List.cons_append]
                  congr 1
                  exact eq_byte_of_val t _ ht
                · cases h
              · split at h
                · -- Null, Undefined, Unsupported
                  rename_i ht
                  simp only [Option.some.injEq] at h
                  rcases ht with ht | ht | ht
                  · refine ⟨.AMFNull, trivial, trivial, ?_⟩
                    simp only [AMFData.write, ← h, List.cons_append, List.nil_append]
                    congr 1
                    exact eq_byte_of_val t _ ht
                  · refine ⟨.AMFUndefined, trivial, trivial, ?_⟩
                    simp only [AMFData.write, ← h, List.cons_append, List.nil_append]
                    congr 1
                    exact eq_byte_of_val t _ ht
                  · refine ⟨.AMFUnsupported, trivial, trivial, ?_⟩
                    simp only [AMFData.write, ← h, List.cons_append, List.nil_append]
                    congr 1
                    exact eq_byte_of_val t _ ht
                · split at h
                  · -- MixedArray
                    rename_i ht
                    split at h
                    · rename_i hlen
                      split at h
                      · rename_i count rest1 hp
                        split at h
                        · rename_i hc
                          simp only [Option.some.injEq] at h
                          obtain ⟨m, hw, hd, hasc, _, hcount, hbs⟩ :=
                            ihm none (bs.drop 4) rest1 count hp
                          refine ⟨.AMFMixedArray m, ⟨hasc, hw⟩, hd, ?_⟩
                          have h4 := store_be_take 4 bs hlen
                          rw [hc, ← hcount] at h4
                          simp only [AMFData.write, htonl, bswap_32, h4, ← h,
                            List.cons_append]
                          congr 1
                          · exact eq_byte_of_val t _ ht
                          · rw [List.append_assoc, ← hbs, List.take_append_drop]
                        · cases h
                      · cases h
                    · cases h
                  · split at h
                    · -- StrictArray
                      rename_i ht
                      split at h
                      · rename_i hlen
                        obtain ⟨a, hw, hd, hcount, hbs⟩ := iha _ _ _ h
                        have hlt := beNat_take_lt 4 bs hlen
                        refine ⟨.AMFArray a, ⟨?_, hw⟩, hd, ?_⟩
                        · rw [hcount]
                          simpa using hlt
                        · have h4 := store_be_take 4 bs hlen
                          rw [← hcount] at h4
                          simp only [AMFData.write, htonl, bswap_32, h4,
                            List.cons_append]
                          congr 1
                          · exact eq_byte_of_val t _ ht
                          · rw [List.append_assoc, ← hbs, List.take_append_drop]
                      · cases h
                    · split at h
                      · -- Date
                        rename_i ht
                        split at h
                        · rename_i hlen
                          simp only [Option.some.injEq] at h
                          obtain ⟨hlen, hstable⟩ := hlen
                          have h2 : 2 ≤ (bs.drop 8).length := by
                            rw [List.length_drop]; omega
                          have htz := beNat_take_lt 2 (bs.drop 8) h2
                          refine ⟨.AMFDate (dateFields (beNat (bs.take 8))).1
                            (dateFields (beNat (bs.take 8))).2
                            (beNat ((bs.drop 8).take 2) : Nat) 0, ?_, ?_, ?_⟩
                          · exact ⟨Int.natCast_nonneg _, by exact_mod_cast (by simpa using htz), rfl⟩
                          · simp only [AMFData.DatesStable, hstable]
                          · have hmod : ((beNat ((bs.drop 8).take 2) : Nat) : Int) % 65536 =
                                (beNat ((bs.drop 8).take 2) : Nat) := by
                              have : beNat ((bs.drop 8).take 2) < 65536 := by simpa using htz
                              omega
                            have h8 := store_be_take 8 bs (by omega)
                            have h2b := store_be_take 2 (bs.drop 8) h2
                            simp only [AMFData.write, hstable, hmod, Int.toNat_ofNat, hton64,
                              bswap_64, htons, bswap_16, h8, h2b, ← h, List.cons_append,
                              List.append_assoc]
                            have e1 : bs.drop 10 = (bs.drop 8).drop 2 := by
                              rw [List.drop_drop]
                            rw [e1, List.take_append_drop, List.take_append_drop]
                            congr 1
                            exact eq_byte_of_val t _ ht
                        · cases h
                      · cases h
    · intro prev bs rest count h
      simp only [canonicalPairs] at h
      split at h
      · rename_i hlen
        split at h
        · rename_i hz
          split at h
          · rename_i e rest1 hdrop
            split at h
            · rename_i he
              simp only [Option.some.injEq, Prod.mk.injEq] at h
              refine ⟨[], trivial, trivial, by simp [Ascending], by simp, h.1, ?_⟩
              have h2 := store_be_take 2 bs hlen
              rw [hz] at h2
              have e9 : e = 9 := Fin.ext he
              have hs : store_le 2 0 = store_le 2 (bswap 2 0) := by decide
              simp only [_write, hs, h2, List.append_assoc, List.cons_append, List.nil_append]
              rw [← h.2, ← e9, ← hdrop, List.take_append_drop]
            · cases h
          · cases h
        · rename_i hnz
          split at h
          · rename_i hk
            split at h
            · rename_i rest1 hv
              split at h
              · rename_i count1 rest2 hp
                simp only [Option.some.injEq, Prod.mk.injEq] at h
                obtain ⟨v, hwv, hdv, hbv⟩ := ihv _ _ hv
                obtain ⟨m, hwm, hdm, hasc, hprev, hcount, hbm⟩ := ihm _ _ _ _ hp
                have hl : ((bs.drop 2).take (beNat (bs.take 2))).length = beNat (bs.take 2) := by
                  rw [List.length_take]; omega
                have hlt := beNat_take_lt 2 bs hlen
                refine ⟨((bs.drop 2).take (beNat (bs.take 2)), v) :: m, ?_, ⟨hdv, hdm⟩, ?_, ?_, ?_, ?_⟩
                · simp only [WfPairs, hl]
                  exact ⟨by omega, by simpa using hlt, hwv, hwm⟩
                · unfold Ascending
                  rw [List.pairwise_cons]
                  exact ⟨fun e he => hprev _ rfl e he, hasc⟩
                · intro p hp1 e he
                  rcases List.mem_cons.mp he with he | he
                  · subst he
                    subst hp1
                    simpa using hk.2
                  · subst hp1
                    exact strLt_trans _ _ _ (by simpa using hk.2) (hprev _ rfl e he)
                · rw [List.length_cons, hcount, h.1]
                · simp only [_write, hl, htons, bswap_16, store_be_take 2 bs hlen,
                    List.append_assoc]
                  rw [← h.2, ← hbm, ← hbv, List.take_append_drop, List.take_append_drop]
              · cases h
            · cases h
          · cases h
      · cases h
    · intro count bs rest h
      cases count with
      | zero =>
        rw [canonicalElems] at h
        simp only [Option.some.injEq] at h
        exact ⟨[], trivial, trivial, rfl, by simp [writeElems, h]⟩
      | succ count =>
        rw [canonicalElems] at h
        split at h
        · rename_i rest1 hv
          obtain ⟨v, hwv, hdv, hbv⟩ := ihv _ _ hv
          obtain ⟨a, hwa, hda, hcount, hba⟩ := iha _ _ _ h
          refine ⟨v :: a, ⟨hwv, hwa⟩, ⟨hdv, hda⟩, by rw [List.length_cons, hcount], ?_⟩
          simp only [writeElems, List.append_assoc]
          rw [← hba, ← hbv]
        · cases h

/-- C2 (amended): every byte string that starts with a canonical encoding of one AMF0
value (MixedArray count equal to the number of entries, keys non-empty and in strictly
ascending byte order, terminator `00 00 09`, Boolean payload `00` or `01`, Date payloads
that `AMFDate::write` reproduces) followed by `rest` is decoded to a value whose encoding,
followed by `rest`, is the byte string again.  Objects and MixedArrays are re-encoded in
ascending key order, which for such input is the order on the wire. -/
theorem write_construct_canonical (fuel : Nat) (bs rest : List Byte)
    (h : canonicalF fuel bs = some rest) :
    ∃ v : AMFData, AMFData.construct (.ofBytes bs) = .ok (v, .ofBytes rest) ∧
      v.write ++ rest = bs := by
  obtain ⟨v, hw, hd, hbs⟩ := (canonical_sound fuel).1 bs rest h
  refine ⟨v, ?_, hbs.symm⟩
  rw [hbs]
  exact construct_write_of_wf v hw hd rest

/-- Witness for C2 (amended): a canonical MixedArray `{a: 1.5, b: {x: Null}, c: [true]}`. -/
theorem write_construct_canonical_witness :
    canonicalF 8 sampleCanonical = some [] ∧
    ∃ v : AMFData, AMFData.construct (.ofBytes sampleCanonical) = .ok (v, .ofBytes []) ∧
      v.write ++ [] = sampleCanonical :=
  ⟨by decide!, write_construct_canonical 8 sampleCanonical [] (by decide!)⟩

/-- C2 (counterexample): the MixedArray `{b: Null, a: Null}`, with count 2, unique
non-empty keys and the terminator `00 00 09`, decodes to a map that is written with the
key `a` first. -/
theorem write_construct_key_order_counterexample :
    AMFData.construct (.ofBytes sampleDescending) =
      .ok (.AMFMixedArray [(str "a", .AMFNull), (str "b", .AMFNull)], .ofBytes []) ∧
    (AMFData.AMFMixedArray [(str "a", .AMFNull), (str "b", .AMFNull)]).write =
      [0x08, 0, 0, 0, 2, 0, 1, 0x61, 0x05, 0, 1, 0x62, 0x05, 0, 0, 9] ∧
    (AMFData.AMFMixedArray [(str "a", .AMFNull), (str "b", .AMFNull)]).write ≠
      sampleDescending :=
  ⟨eq_of_resultBeq _ _ (by decide!), by decide!, by decide!⟩

/-! ## C3, C4: `process_timestamp` -/

theorem peek_append (pre l : List Byte) (i : Nat) :
    peek (pre ++ l) (pre.length + i) = peek l i := by
  unfold peek
  rw [List.getElem?_append_right (by omega)]
  simp

theorem deserialize_uint24_append (pre l : List Byte) (i : Nat) :
    deserialize_uint24 (pre ++ l) (pre.length + i) =
      (deserialize_uint24 l i).map (fun r => (r.1, pre.length + r.2)) := by
  unfold deserialize_uint24
  rw [peek_append, Nat.add_assoc, peek_append, Nat.add_assoc, peek_append]
  cases peek l i with
  | error e => rfl
  | ok b0 =>
    cases peek l (i + 1) with
    | error e => rfl
    | ok b1 =>
      cases peek l (i + 2) with
      | error e => rfl
      | ok b2 => simp [Except.map, Nat.add_assoc]

theorem process_timestamp_eq (tag_type : Byte) (pre post : List Byte) (b0 b1 b2 b3 : Byte)
    (st : TsState) :
    process_timestamp tag_type (pre ++ b0 :: b1 :: b2 :: b3 :: post) pre.length st =
      if RepairCondition (candidate b0 b1 b2 b3) st.last_timestamp then
        (if st.last_timestamp ≤ repaired (candidate b0 b1 b2 b3) st.last_timestamp then
          .ok (repaired (candidate b0 b1 b2 b3) st.last_timestamp, pre.length + 4,
            ⟨if tag_type = 9 then
                max (repaired (candidate b0 b1 b2 b3) st.last_timestamp) st.last_timestamp
              else st.last_timestamp, true⟩)
         else .error .assert_fail)
      else
        .ok (candidate b0 b1 b2 b3, pre.length + 4,
          ⟨if tag_type = 9 then max (candidate b0 b1 b2 b3) st.last_timestamp
            else st.last_timestamp,
           if candidate b0 b1 b2 b3 < st.last_timestamp then
             (st.timestamp_warning_given || decide (tag_type = 9 ∨ tag_type = 18))
           else st.timestamp_warning_given⟩) := by
  have h1 := deserialize_uint24_append pre (b0 :: b1 :: b2 :: b3 :: post) 0
  have h2 := peek_append pre (b0 :: b1 :: b2 :: b3 :: post) 3
  simp only [Nat.add_zero] at h1
  unfold process_timestamp
  rw [h1]
  simp only [deserialize_uint24, peek, List.getElem?_cons_zero, List.getElem?_cons_succ,
    Except.map, Nat.zero_add, Nat.reduceAdd] at h2 ⊢
  rw [h2]
  simp only [RepairCondition, repaired, candidate, Nat.or_comm (b3.val <<< 24)]
  by_cases hlt : ((b0.val <<< 16) + (b1.val <<< 8) + b2.val ||| b3.val <<< 24) < st.last_timestamp
  · by_cases hc : ((b0.val <<< 16) + (b1.val <<< 8) + b2.val ||| b3.val <<< 24) &&& 0xff000000 = 0 ∧
        st.last_timestamp &&& 0xfff00000 ≠ 0
    · simp only [hlt, hc, and_self, if_true, ge_iff_le, ne_eq, not_false_eq_true, true_and]
    · simp only [hlt, hc, if_true, if_false, and_false, true_and]
  · simp only [hlt, if_false, false_and]

/-- C3 (amended): for every raw timestamp (three bytes of the 24-bit low part, one
extension byte `high`), tag type and running `last_timestamp`, `process_timestamp` forms
`candidate = high << 24 | low` and takes the repair branch exactly when
`candidate < last_timestamp`, the candidate has a zero top byte and
`last_timestamp & 0xFFF00000` is non-zero.  In that branch it returns
`candidate + (last_timestamp & 0xFF000000)`, plus `0x01000000` if that is still below
`last_timestamp` (in 32-bit arithmetic), and stops at the assertion if the result is
below `last_timestamp`; in every other case it returns the candidate unchanged. -/
theorem process_timestamp_repair (tag_type : Byte) (pre post : List Byte) (b0 b1 b2 b3 : Byte)
    (st : TsState) :
    (process_timestamp tag_type (pre ++ b0 :: b1 :: b2 :: b3 :: post) pre.length st).map
        (fun r => r.1) =
      if candidate b0 b1 b2 b3 < st.last_timestamp ∧
          candidate b0 b1 b2 b3 &&& 0xff000000 = 0 ∧
          st.last_timestamp &&& 0xfff00000 ≠ 0 then
        (if st.last_timestamp ≤ repaired (candidate b0 b1 b2 b3) st.last_timestamp then
          .ok (repaired (candidate b0 b1 b2 b3) st.last_timestamp)
         else .error .assert_fail)
      else .ok (candidate b0 b1 b2 b3) := by
  rw [process_timestamp_eq]
  unfold RepairCondition
  split
  · split <;> rfl
  · rfl

/-- C3 (counterexample): with `last_timestamp = 0x10000000`, whose bits under the mask
`0x0FF00000` are all zero, the raw timestamp 5 with extension byte 0 is repaired to
`0x10000005` and not returned unchanged. -/
theorem process_timestamp_mask_counterexample :
    (0x10000000 &&& 0x0FF00000 = 0) ∧
    candidate 0 0 5 0 = 5 ∧
    (process_timestamp 9 [0, 0, 5, 0] 0 ⟨0x10000000, false⟩).map (fun r => r.1) =
      .ok 0x10000005 := by
  decide

/-- The running `last_timestamp` is a lower bound of what a video tag returns when the tag
does not regress unrepaired. -/
theorem process_timestamp_video_ge (b0 b1 b2 b3 : Byte) (st st1 : TsState) (ts fptr : Nat)
    (h : process_timestamp 9 [b0, b1, b2, b3] 0 st = .ok (ts, fptr, st1))
    (hr : candidate b0 b1 b2 b3 < st.last_timestamp →
      RepairCondition (candidate b0 b1 b2 b3) st.last_timestamp) :
    st.last_timestamp ≤ ts ∧ st1.last_timestamp = ts := by
  have h0 := process_timestamp_eq 9 [] [] b0 b1 b2 b3 st
  simp only [List.nil_append, List.length_nil] at h0
  rw [h0] at h
  split at h
  · split at h
    · rename_i hle
      simp only [Except.ok.injEq, Prod.mk.injEq] at h
      obtain ⟨h1, _, h3⟩ := h
      subst h1
      rw [← h3]
      simp only [if_true]
      exact ⟨hle, Nat.max_eq_left hle⟩
    · cases h
  · rename_i hn
    simp only [Except.ok.injEq, Prod.mk.injEq] at h
    obtain ⟨h1, _, h3⟩ := h
    subst h1
    rw [← h3]
    simp only [if_true]
    have hle : st.last_timestamp ≤ candidate b0 b1 b2 b3 := by
      by_contra hlt
      exact hn (hr (Nat.lt_of_not_le hlt))
    exact ⟨hle, Nat.max_eq_left hle⟩

theorem videoRun_sorted (tags : List (Byte × Byte × Byte × Byte)) :
    ∀ (st : TsState) (out : List Nat), videoRun tags st = .ok out →
      everyRegressionRepaired tags st = true →
      (∀ x ∈ out, st.last_timestamp ≤ x) ∧ out.Pairwise (fun a b => a ≤ b) := by
  induction tags with
  | nil =>
    intro st out h _
    simp only [videoRun, Except.ok.injEq] at h
    subst h
    simp
  | cons t tags ih =>
    obtain ⟨b0, b1, b2, b3⟩ := t
    intro st out h hr
    simp only [videoRun] at h
    simp only [everyRegressionRepaired, Bool.and_eq_true, decide_eq_true_eq] at hr
    cases hp : process_timestamp 9 [b0, b1, b2, b3] 0 st with
    | error e => simp [hp] at h
    | ok r =>
      obtain ⟨ts, fptr, st1⟩ := r
      simp only [hp] at h hr
      cases hv : videoRun tags st1 with
      | error e => simp [hv] at h
      | ok out1 =>
        simp only [hv, Except.ok.injEq] at h
        subst h
        obtain ⟨hge, hst1⟩ := process_timestamp_video_ge b0 b1 b2 b3 st st1 ts fptr hp hr.1
        obtain ⟨hall, hsorted⟩ := ih st1 out1 hv hr.2
        rw [hst1] at hall
        refine ⟨?_, List.pairwise_cons.mpr ⟨hall, hsorted⟩⟩
        intro x hx
        rcases List.mem_cons.mp hx with hx | hx
        · rw [hx]; exact hge
        · exact Nat.le_trans hge (hall x hx)

theorem process_timestamp_error (b0 b1 b2 b3 : Byte) (st : TsState) (e : Fault)
    (h : process_timestamp 9 [b0, b1, b2, b3] 0 st = .error e) : e = .assert_fail := by
  have h0 := process_timestamp_eq 9 [] [] b0 b1 b2 b3 st
  simp only [List.nil_append, List.length_nil] at h0
  rw [h0] at h
  split at h
  · split at h
    · cases h
    · simp only [Except.error.injEq] at h
      exact h.symm
  · cases h

theorem videoRun_error (tags : List (Byte × Byte × Byte × Byte)) :
    ∀ (st : TsState) (e : Fault), videoRun tags st = .error e → e = .assert_fail := by
  induction tags with
  | nil =>
    intro st e h
    simp [videoRun] at h
  | cons t tags ih =>
    obtain ⟨b0, b1, b2, b3⟩ := t
    intro st e h
    simp only [videoRun] at h
    cases hp : process_timestamp 9 [b0, b1, b2, b3] 0 st with
    | error e1 =>
      simp only [hp, Except.error.injEq] at h
      subst h
      exact process_timestamp_error b0 b1 b2 b3 st _ hp
    | ok r =>
      obtain ⟨ts, fptr, st1⟩ := r
      simp only [hp] at h
      cases hv : videoRun tags st1 with
      | error e1 =>
        simp only [hv, Except.error.injEq] at h
        subst h
        exact ih st1 _ hv
      | ok out => simp [hv] at h

/-- C4 (amended): for every sequence of video tags fed in order through
`process_timestamp` starting from `last_timestamp = 0`, if every tag whose candidate is
below the running `last_timestamp` meets the repair condition (zero top byte and
`last_timestamp & 0xFFF00000` non-zero), then the run either stops at the assertion of the
repair branch or returns a non-decreasing sequence of timestamps. -/
theorem videoRun_nondecreasing (tags : List (Byte × Byte × Byte × Byte))
    (h : everyRegressionRepaired tags ⟨0, false⟩ = true) :
    match videoRun tags ⟨0, false⟩ with
    | .ok out => out.Pairwise (fun a b => a ≤ b)
    | .error e => e = .assert_fail := by
  cases hv : videoRun tags ⟨0, false⟩ with
  | ok out => exact (videoRun_sorted tags _ out hv h).2
  | error e => exact videoRun_error tags _ e hv

/-- C4 (counterexample): the video tags with raw timestamps `0x080000` and `0x000010`
(extension bytes 0) come back as `0x080000` followed by `0x000010`. -/
theorem videoRun_decreasing_counterexample :
    videoRun [(0x08, 0, 0, 0), (0, 0, 0x10, 0)] ⟨0, false⟩ = .ok [0x080000, 0x000010] ∧
    ¬ [0x080000, 0x000010].Pairwise (fun a b : Nat => a ≤ b) := by
  decide

/-! ## C6: the keyframe index -/

theorem peek_cons_zero (b : Byte) (l : List Byte) : peek (b :: l) 0 = .ok b := by
  simp [peek]

theorem peek_cons_succ (b : Byte) (l : List Byte) (i : Nat) : peek (b :: l) (i + 1) = peek l i := by
  simp [peek]

theorem Tag.encode_append (t : Tag) (post : List Byte) :
    t.encode ++ post =
      t.tag_type :: t.l0 :: t.l1 :: t.l2 :: t.b0 :: t.b1 :: t.b2 :: t.b3 :: t.s0 :: t.s1 :: t.s2 ::
        (t.body ++ (t.trailer ++ post)) := by
  simp [Tag.encode]

theorem Tag.encode_length (t : Tag) : t.encode.length = 11 + t.body.length + t.trailer.length := by
  simp [Tag.encode]
  omega

theorem Tag.rewritten_length (t : Tag) (ts : Nat) :
    (t.rewritten ts).length = 11 + t.body.length + t.trailer.length := by
  simp [Tag.rewritten]
  omega

theorem process_timestamp_shift (tag_type : Byte) (pre post : List Byte) (b0 b1 b2 b3 : Byte)
    (st : TsState) :
    process_timestamp tag_type (pre ++ b0 :: b1 :: b2 :: b3 :: post) pre.length st =
      (process_timestamp tag_type [b0, b1, b2, b3] 0 st).map
        (fun r => (r.1, pre.length + r.2.1, r.2.2)) := by
  have h0 := process_timestamp_eq tag_type [] [] b0 b1 b2 b3 st
  simp only [List.nil_append, List.length_nil] at h0
  rw [process_timestamp_eq, h0]
  split
  · split <;> simp [Except.map]
  · simp [Except.map]

/-- The reads pass 1 and pass 2 make in the header of a tag that lies in the file. -/
theorem tag_reads (pre post : List Byte) (t : Tag) (st : TsState) :
    peek (pre ++ (t.encode ++ post)) pre.length = .ok t.tag_type ∧
    deserialize_uint24 (pre ++ (t.encode ++ post)) (pre.length + 1) =
      .ok (t.tag_length, pre.length + 4) ∧
    process_timestamp t.tag_type (pre ++ (t.encode ++ post)) (pre.length + 4) st =
      (process_timestamp t.tag_type [t.b0, t.b1, t.b2, t.b3] 0 st).map
        (fun r => (r.1, pre.length + 4 + r.2.1, r.2.2)) ∧
    deserialize_uint24 (pre ++ (t.encode ++ post)) (pre.length + 8) =
      .ok (t.streamID, pre.length + 11) ∧
    peek (pre ++ (t.encode ++ post)) (pre.length + 11) = peek (t.body ++ (t.trailer ++ post)) 0 ∧
    (pre ++ (t.encode ++ post)).drop (pre.length + 11) = t.body ++ (t.trailer ++ post) := by
  rw [Tag.encode_append]
  refine ⟨?_, ?_, ?_, ?_, ?_, ?_⟩
  · have := peek_append pre (t.tag_type :: t.l0 :: t.l1 :: t.l2 :: t.b0 :: t.b1 :: t.b2 :: t.b3 ::
      t.s0 :: t.s1 :: t.s2 :: (t.body ++ (t.trailer ++ post))) 0
    simpa [peek_cons_zero] using this
  · rw [deserialize_uint24_append]
    simp [deserialize_uint24, peek_cons_succ, peek_cons_zero, Except.map, Tag.tag_length]
  · have h := process_timestamp_shift t.tag_type (pre ++ [t.tag_type, t.l0, t.l1, t.l2])
      (t.s0 :: t.s1 :: t.s2 :: (t.body ++ (t.trailer ++ post))) t.b0 t.b1 t.b2 t.b3 st
    simp only [List.append_assoc, List.cons_append, List.nil_append, List.length_append,
      List.length_cons, List.length_nil] at h
    exact h
  · rw [deserialize_uint24_append]
    simp [deserialize_uint24, peek_cons_succ, peek_cons_zero, Except.map, Tag.streamID]
  · rw [peek_append]
    simp [peek_cons_succ]
  · rw [List.drop_append]
    rfl

theorem deref_body (t : Tag) (post : List Byte) (hwf : t.Wf) :
    deref (t.body ++ (t.trailer ++ post)) (t.tag_length + 4) = .ok (t.body ++ t.trailer) := by
  obtain ⟨h1, h2, _⟩ := hwf
  unfold deref
  have hlen : ¬ (t.body ++ (t.trailer ++ post)).length < t.tag_length + 4 := by
    simp only [List.length_append]
    omega
  rw [if_neg hlen]
  congr 1
  rw [← List.append_assoc]
  have h3 : t.tag_length + 4 = (t.body ++ t.trailer).length := by
    rw [List.length_append]; omega
  rw [h3, List.take_left]

/-! ### The output sink -/

theorem overwrite_end (file dat : List Byte) : overwrite file file.length dat = file ++ dat := by
  unfold overwrite
  split
  · rename_i h
    rw [h, List.append_nil]
  · simp

theorem Sink.write_mk_end (f dat : List Byte) :
    Sink.write ⟨f, f.length⟩ dat = ⟨f ++ dat, (f ++ dat).length⟩ := by
  simp only [Sink.write, overwrite_end, List.length_append]

theorem Sink.putc_mk_end (f : List Byte) (c : Byte) :
    Sink.putc ⟨f, f.length⟩ c = ⟨f ++ [c], (f ++ [c]).length⟩ :=
  Sink.write_mk_end f [c]

theorem Sink.write_u24_be_mk_end (f : List Byte) (d : Nat) :
    Sink.write_u24_be ⟨f, f.length⟩ d =
      ⟨f ++ [byte ((d >>> 16) &&& 0xff), byte ((d >>> 8) &&& 0xff), byte (d &&& 0xff)],
       (f ++ [byte ((d >>> 16) &&& 0xff), byte ((d >>> 8) &&& 0xff),
          byte (d &&& 0xff)]).length⟩ := by
  simp only [Sink.write_u24_be, Sink.putc_mk_end, List.append_assoc, List.singleton_append]
  rfl

/-- The header and body pass 2 writes for a copied tag, on a sink positioned at its end. -/
theorem Sink.write_tag (f : List Byte) (t : Tag) (ts : Nat) :
    ((((((Sink.mk f f.length).putc t.tag_type).write_u24_be t.tag_length).write_u24_be ts).putc
        (byte ((ts >>> 24) &&& 0xff))).write_u24_be t.streamID).write (t.body ++ t.trailer) =
      ⟨f ++ t.rewritten ts, (f ++ t.rewritten ts).length⟩ := by
  simp only [Sink.putc_mk_end, Sink.write_u24_be_mk_end, Sink.write_mk_end, Tag.rewritten,
    List.append_assoc, List.singleton_append, List.cons_append, List.nil_append]

/-! ### One turn of pass 2 on a tag of the file -/

theorem process_timestamp_ptr (tag_type b0 b1 b2 b3 : Byte) (st st1 : TsState) (ts q : Nat)
    (h : process_timestamp tag_type [b0, b1, b2, b3] 0 st = .ok (ts, q, st1)) : q = 4 := by
  have h0 := process_timestamp_eq tag_type [] [] b0 b1 b2 b3 st
  simp only [List.nil_append, List.length_nil] at h0
  rw [h0] at h
  split at h
  · split at h
    · cases h; rfl
    · cases h
  · cases h; rfl

theorem pass2Step_tag (nometa : Bool) (pre post : List Byte) (t : Tag) (hwf : t.Wf)
    (c : Copy) (hf : c.fptr = pre.length) (hpos : c.fp.pos = c.fp.file.length)
    (ts q : Nat) (st1 : TsState)
    (hts : process_timestamp t.tag_type [t.b0, t.b1, t.b2, t.b3] 0 c.ts = .ok (ts, q, st1))
    (hk : t.isKeyframe = true →
      c.current_keyframe < c.keyTimes.length ∧ c.current_keyframe < c.keyPositions.length) :
    pass2Step nometa (pre ++ (t.encode ++ post)) c = .ok
      { fptr := pre.length + t.encode.length, ts := st1,
        current_keyframe :=
          if t.isKeyframe then (c.current_keyframe + 1) % 2 ^ 32 else c.current_keyframe,
        keyTimes :=
          if t.isKeyframe then
            c.keyTimes.set c.current_keyframe
              (.AMFDouble (F64.div (F64.ofNat ts) (F64.ofNat 1000)))
          else c.keyTimes,
        keyPositions :=
          if t.isKeyframe then
            c.keyPositions.set c.current_keyframe (.AMFDouble (F64.ofNat c.fp.file.length))
          else c.keyPositions,
        fp := ⟨c.fp.file ++ (if t.copied nometa then t.rewritten ts else []),
               (c.fp.file ++ (if t.copied nometa then t.rewritten ts else [])).length⟩ } := by
  obtain ⟨r1, r2, r3, r4, r5, r6⟩ := tag_reads pre post t c.ts
  obtain ⟨fptr, cts, ck, kt, kp, ⟨file, pos⟩⟩ := c
  simp only at hf hpos hts hk r3 ⊢
  subst hf hpos
  rw [hts] at r3
  simp only [Except.map] at r3
  have hd := deref_body t post hwf
  simp only [pass2Step, r1, r2, r3, r4, r5, r6, hd, bind, Except.bind, pure, Except.pure]
  have hq := process_timestamp_ptr _ _ _ _ _ _ _ _ _ hts
  subst hq
  simp only [Nat.add_assoc, Nat.reduceAdd, r4, r5, r6, hd]
  have hel : t.encode.length = 11 + (t.tag_length + 4) := by
    rw [Tag.encode_length, ← hwf.1, hwf.2.1]
    omega
  have hw := Sink.write_tag file t ts
  rw [hel]
  by_cases h9 : t.tag_type = 9
  · obtain ⟨b, rest, hb⟩ := List.exists_cons_of_ne_nil (hwf.2.2 h9)
    have hcop : Tag.copied nometa t = true := by simp [Tag.copied, h9]
    simp only [h9, hb, List.cons_append] at hw
    by_cases hft : (b.val >>> 4) &&& 15 = 1
    · have hkey : t.isKeyframe = true := by simp [Tag.isKeyframe, hb, h9, hft]
      obtain ⟨hk1, hk2⟩ := hk hkey
      simp only [h9, hb, hcop, hkey, List.cons_append, peek_cons_zero, hft, if_true, vectorSet,
        hk1, hk2, Sink.tell, or_true, true_or]
      rw [hw]
    · have hkey : t.isKeyframe = false := by simp [Tag.isKeyframe, hb, h9, hft]
      simp only [h9, hb, hcop, hkey, List.cons_append, peek_cons_zero, hft, if_true, if_false,
        Sink.tell, or_true, true_or, Bool.false_eq_true]
      rw [hw]
  · have hkey : t.isKeyframe = false := by
      unfold Tag.isKeyframe
      split <;> simp [h9]
    by_cases hc : Tag.copied nometa t = true
    · have hc2 := hc
      simp only [Tag.copied, decide_eq_true_eq, h9, false_or] at hc2
      simp only [h9, hkey, hc, if_true, if_false, Bool.false_eq_true, false_or]
      rw [if_pos hc2, hw]
    · have hc2 := hc
      simp only [Tag.copied, decide_eq_true_eq, h9, false_or] at hc2
      simp only [h9, hkey, hc, if_true, if_false, Bool.false_eq_true, List.append_nil, false_or]
      rw [if_neg hc2]

/-! ### The loop of pass 2 over the tags of the file -/

theorem take_set_succ (l : List AMFData) (j : Nat) (x : AMFData) (h : j < l.length) :
    (l.set j x).take (j + 1) = l.take j ++ [x] := by
  induction l generalizing j with
  | nil => simp at h
  | cons a l ih =>
    cases j with
    | zero => simp
    | succ j =>
      simp only [List.length_cons, Nat.add_lt_add_iff_right] at h
      simp [ih j h]

theorem drop_set_succ (l : List AMFData) (j n : Nat) (x : AMFData) :
    (l.set j x).drop (j + 1 + n) = l.drop (j + 1 + n) := by
  induction l generalizing j with
  | nil => simp
  | cons a l ih =>
    cases j with
    | zero => simp [Nat.add_comm 1 n]
    | succ j =>
      have : j + 1 + 1 + n = (j + 1 + n) + 1 := by omega
      rw [this]
      simp [ih j]

theorem tagTimestamps_cons_ok (t : Tag) (rest : List Tag) (st : TsState) (tss : List Nat)
    (h : tagTimestamps (t :: rest) st = .ok tss) :
    ∃ ts q st1 tss1, process_timestamp t.tag_type [t.b0, t.b1, t.b2, t.b3] 0 st = .ok (ts, q, st1) ∧
      tagTimestamps rest st1 = .ok tss1 ∧ tss = ts :: tss1 := by
  rw [tagTimestamps] at h
  cases hp : process_timestamp t.tag_type [t.b0, t.b1, t.b2, t.b3] 0 st with
  | error e => rw [hp] at h; cases h
  | ok r =>
    obtain ⟨ts, q, st1⟩ := r
    rw [hp] at h
    simp only at h
    cases hr : tagTimestamps rest st1 with
    | error e => rw [hr] at h; cases h
    | ok tss1 =>
      rw [hr] at h
      simp only [Except.ok.injEq] at h
      exact ⟨ts, q, st1, tss1, rfl, hr, h.symm⟩

theorem tagTimestamps_length (tags : List Tag) :
    ∀ (st : TsState) (tss : List Nat), tagTimestamps tags st = .ok tss → tss.length = tags.length := by
  induction tags with
  | nil =>
    intro st tss h
    rw [tagTimestamps] at h
    cases h
    rfl
  | cons t rest ih =>
    intro st tss h
    obtain ⟨ts, q, st1, tss1, _, h2, h3⟩ := tagTimestamps_cons_ok t rest st tss h
    rw [h3, List.length_cons, List.length_cons, ih st1 tss1 h2]

theorem keyIndex_length (nometa : Bool) (tags : List Tag) :
    ∀ (tss : List Nat) (pos : Nat), tss.length = tags.length →
      (keyIndex nometa (tags.zip tss) pos).length = (tags.filter Tag.isKeyframe).length := by
  induction tags with
  | nil => intro tss pos _; simp [keyIndex]
  | cons t rest ih =>
    intro tss pos h
    cases tss with
    | nil => simp at h
    | cons ts tss1 =>
      simp only [List.length_cons, Nat.add_right_cancel_iff] at h
      have hi := ih tss1 (pos + if t.copied nometa then (t.rewritten ts).length else 0) h
      rw [List.zip_cons_cons]
      simp only [keyIndex, List.length_append, List.filter_cons, hi]
      cases t.isKeyframe
      · simp only [Bool.false_eq_true, if_false, List.length_nil, Nat.zero_add]
      · simp only [if_true, List.length_cons, List.length_nil]
        omega

theorem pass2Loop_tags (nometa : Bool) (tags : List Tag) :
    ∀ (pre : List Byte) (c : Copy) (tss : List Nat) (fuel : Nat),
      (∀ t ∈ tags, t.Wf) → c.fptr = pre.length → c.fp.pos = c.fp.file.length →
      tagTimestamps tags c.ts = .ok tss →
      c.keyTimes.length = c.keyPositions.length →
      c.current_keyframe + (tags.filter Tag.isKeyframe).length ≤ c.keyTimes.length →
      c.keyTimes.length < 2 ^ 32 →
      tags.length < fuel →
      ∃ c1, pass2Loop nometa (pre ++ encodeTags tags) (pre ++ encodeTags tags).length fuel c =
          .ok c1 ∧
        c1.fp.file = c.fp.file ++ copiedBytes nometa (tags.zip tss) ∧
        c1.fp.pos = c1.fp.file.length ∧
        c1.keyTimes = c.keyTimes.take c.current_keyframe ++
          (keyIndex nometa (tags.zip tss) c.fp.file.length).map
            (fun e => AMFData.AMFDouble (F64.div (F64.ofNat e.2) (F64.ofNat 1000))) ++
          c.keyTimes.drop (c.current_keyframe + (tags.filter Tag.isKeyframe).length) ∧
        c1.keyPositions = c.keyPositions.take c.current_keyframe ++
          (keyIndex nometa (tags.zip tss) c.fp.file.length).map
            (fun e => AMFData.AMFDouble (F64.ofNat e.1)) ++
          c.keyPositions.drop (c.current_keyframe + (tags.filter Tag.isKeyframe).length) := by
  induction tags with
  | nil =>
    intro pre c tss fuel _ hf hpos hts _ _ _ hfuel
    rw [tagTimestamps] at hts
    cases hts
    cases fuel with
    | zero => simp at hfuel
    | succ fuel =>
      refine ⟨c, ?_, ?_, hpos, ?_, ?_⟩
      · simp [pass2Loop, encodeTags, hf]
      · simp [copiedBytes]
      · simp [keyIndex]
      · simp [keyIndex]
  | cons t rest ih =>
    intro pre c tss fuel hwf hf hpos hts hlen hcount hlt hfuel
    obtain ⟨ts, q, st1, tss1, hp, hts1, htss⟩ := tagTimestamps_cons_ok t rest c.ts tss hts
    subst htss
    have hwt : t.Wf := hwf t (List.mem_cons_self _ _)
    have hwr : ∀ u ∈ rest, u.Wf := fun u hu => hwf u (List.mem_cons_of_mem _ hu)
    cases fuel with
    | zero => simp at hfuel
    | succ fuel =>
      have hk : t.isKeyframe = true →
          c.current_keyframe < c.keyTimes.length ∧ c.current_keyframe < c.keyPositions.length := by
        intro hkey
        simp only [List.filter_cons, hkey, if_true, List.length_cons] at hcount
        omega
      have hstep := pass2Step_tag nometa pre (encodeTags rest) t hwt c hf hpos ts q st1 hp hk
      have hmem : pre ++ encodeTags (t :: rest) = (pre ++ t.encode) ++ encodeTags rest := by
        simp [encodeTags]
      have hcond : c.fptr < (pre ++ encodeTags (t :: rest)).length := by
        rw [hf]
        simp only [encodeTags, List.length_append, Tag.encode_length]
        omega
      rw [pass2Loop, if_pos hcond]
      simp only [encodeTags]
      rw [hstep]
      simp only []
      rw [← List.append_assoc]
      have hfuel1 : rest.length < fuel := by
        simp only [List.length_cons] at hfuel
        omega
      cases hkey : t.isKeyframe with
      | false =>
        simp only [hkey, Bool.false_eq_true, if_false]
        simp only [List.filter_cons, hkey, Bool.false_eq_true, if_false] at hcount
        obtain ⟨c1, h1, h2, h3, h4, h5⟩ := ih (pre ++ t.encode)
          { fptr := pre.length + t.encode.length, ts := st1,
            current_keyframe := c.current_keyframe, keyTimes := c.keyTimes,
            keyPositions := c.keyPositions,
            fp := ⟨c.fp.file ++ (if t.copied nometa then t.rewritten ts else []),
                   (c.fp.file ++ (if t.copied nometa then t.rewritten ts else [])).length⟩ }
          tss1 fuel hwr (by simp only [List.length_append]) rfl hts1 hlen hcount hlt hfuel1
        refine ⟨c1, h1, ?_, h3, ?_, ?_⟩
        · rw [h2, List.zip_cons_cons]
          simp only [copiedBytes, List.append_assoc]
        · rw [h4, List.zip_cons_cons]
          simp only [keyIndex, hkey, Bool.false_eq_true, if_false,
            List.nil_append, List.filter_cons, List.length_append]
          split <;> simp only [List.length_nil, Nat.add_zero]
        · rw [h5, List.zip_cons_cons]
          simp only [keyIndex, hkey, Bool.false_eq_true, if_false,
            List.nil_append, List.filter_cons, List.length_append]
          split <;> simp only [List.length_nil, Nat.add_zero]
      | true =>
        obtain ⟨hk1, hk2⟩ := hk hkey
        simp only [List.filter_cons, hkey, if_true, List.length_cons] at hcount
        have hmod : (c.current_keyframe + 1) % 2 ^ 32 = c.current_keyframe + 1 :=
          Nat.mod_eq_of_lt (by omega)
        simp only [hkey, if_true, hmod]
        obtain ⟨c1, h1, h2, h3, h4, h5⟩ := ih (pre ++ t.encode)
          { fptr := pre.length + t.encode.length, ts := st1,
            current_keyframe := c.current_keyframe + 1,
            keyTimes := c.keyTimes.set c.current_keyframe
              (.AMFDouble (F64.div (F64.ofNat ts) (F64.ofNat 1000))),
            keyPositions := c.keyPositions.set c.current_keyframe
              (.AMFDouble (F64.ofNat c.fp.file.length)),
            fp := ⟨c.fp.file ++ (if t.copied nometa then t.rewritten ts else []),
                   (c.fp.file ++ (if t.copied nometa then t.rewritten ts else [])).length⟩ }
          tss1 fuel hwr (by simp only [List.length_append]) rfl hts1
          (by simp only [List.length_set]; exact hlen)
          (by simp only [List.length_set]; omega)
          (by simp only [List.length_set]; exact hlt) hfuel1
        refine ⟨c1, h1, ?_, h3, ?_, ?_⟩
        · rw [h2, List.zip_cons_cons]
          simp only [copiedBytes, List.append_assoc]
        · rw [h4, List.zip_cons_cons]
          simp only [keyIndex, hkey, if_true, List.filter_cons,
            List.length_append, List.length_cons, List.map_append, List.map_cons, List.map_nil,
            List.singleton_append, List.cons_append, List.nil_append]
          rw [take_set_succ _ _ _ hk1, drop_set_succ]
          have e1 : c.current_keyframe + ((List.filter Tag.isKeyframe rest).length + 1) =
              c.current_keyframe + 1 + (List.filter Tag.isKeyframe rest).length := by omega
          rw [e1]
          split <;> simp only [List.length_nil, Nat.add_zero, List.append_assoc,
            List.singleton_append, List.cons_append, List.nil_append]
        · rw [h5, List.zip_cons_cons]
          simp only [keyIndex, hkey, if_true, List.filter_cons,
            List.length_append, List.length_cons, List.map_append, List.map_cons, List.map_nil,
            List.singleton_append, List.cons_append, List.nil_append]
          rw [take_set_succ _ _ _ hk2, drop_set_succ]
          have e1 : c.current_keyframe + ((List.filter Tag.isKeyframe rest).length + 1) =
              c.current_keyframe + 1 + (List.filter Tag.isKeyframe rest).length := by omega
          rw [e1]
          split <;> simp only [List.length_nil, Nat.add_zero, List.append_assoc,
            List.singleton_append, List.cons_append, List.nil_append]

/-! ### Pass 1 over the tags of the file -/

theorem Tag.tag_length_lt (t : Tag) : t.tag_length < 2 ^ 24 := by
  have h0 := t.l0.isLt
  have h1 := t.l1.isLt
  have h2 := t.l2.isLt
  simp only [Tag.tag_length, Nat.shiftLeft_eq]
  omega

theorem scanVideo_ok (mem : List Byte) (L : Nat) (s s1 : Scan) (b : Byte)
    (hb : peek mem s.fptr = .ok b) (hL : 0 < L) (hL2 : L < 2 ^ 32)
    (h : scanVideo mem L s = .ok s1) :
    s1.fptr = s.fptr + L ∧ s1.fend = s.fend ∧ s1.ts = s.ts ∧
      s1.keyframe_count =
        (if (b.val >>> 4) &&& 0x0f = 1 then (s.keyframe_count + 1) % 2 ^ 32
         else s.keyframe_count) := by
  have hm : (L + 2 ^ 32 - 1) % 2 ^ 32 = L - 1 := by
    have : L + 2 ^ 32 - 1 = (L - 1) + 2 ^ 32 := by omega
    rw [this, Nat.add_mod_right, Nat.mod_eq_of_lt (by omega)]
  by_cases hft : (b.val >>> 4) &&& 15 = 1
  · simp only [scanVideo, hb, bind, Except.bind, pure, Except.pure, hm, hft, if_true] at h
    simp only [hft, if_true]
    cases hv : s.have_video_params with
    | true =>
      simp only [hv, not_true_eq_false, if_false, Except.ok.injEq] at h
      subst h
      exact ⟨by simp only []; omega, rfl, rfl, rfl⟩
    | false =>
      simp only [hv, Bool.false_eq_true, not_false_eq_true, if_true] at h
      cases hpr : probeVideo mem (s.fptr + 1) L (b.val &&& 15) with
      | error e => rw [hpr] at h; cases h
      | ok r =>
        rw [hpr] at h
        cases r with
        | didnt_get_video_params =>
          simp only [Except.ok.injEq] at h
          subst h
          exact ⟨by simp only []; omega, rfl, rfl, rfl⟩
        | params w h1 =>
          simp only [Except.ok.injEq] at h
          subst h
          exact ⟨by simp only []; omega, rfl, rfl, rfl⟩
  · simp only [scanVideo, hb, bind, Except.bind, pure, Except.pure, hm, hft, if_false] at h
    simp only [hft, if_false]
    cases hv : s.have_video_params with
    | true =>
      simp only [hv, not_true_eq_false, if_false, Except.ok.injEq] at h
      subst h
      exact ⟨by simp only []; omega, rfl, rfl, rfl⟩
    | false =>
      simp only [hv, Bool.false_eq_true, not_false_eq_true, if_true] at h
      cases hpr : probeVideo mem (s.fptr + 1) L (b.val &&& 15) with
      | error e => rw [hpr] at h; cases h
      | ok r =>
        rw [hpr] at h
        cases r with
        | didnt_get_video_params =>
          simp only [Except.ok.injEq] at h
          subst h
          exact ⟨by simp only []; omega, rfl, rfl, rfl⟩
        | params w h1 =>
          simp only [Except.ok.injEq] at h
          subst h
          exact ⟨by simp only []; omega, rfl, rfl, rfl⟩

theorem scanAudio_ok (mem : List Byte) (L : Nat) (s s1 : Scan) (b : Byte)
    (hb : peek mem s.fptr = .ok b) (hL : 0 < L)
    (h : scanAudio mem L s = .ok s1) :
    s1.fptr = s.fptr + L ∧ s1.fend = s.fend ∧ s1.ts = s.ts ∧
      s1.keyframe_count = s.keyframe_count := by
  simp only [scanAudio, hb, bind, Except.bind, pure, Except.pure, Except.ok.injEq] at h
  subst h
  refine ⟨by simp only []; omega, ?_, ?_, ?_⟩ <;> split <;> rfl

theorem pass1Step_tag (nomerge : Bool) (pre post : List Byte) (t : Tag) (hwf : t.Wf)
    (s : Scan) (hf : s.fptr = pre.length) (hend : s.fend = (pre ++ (t.encode ++ post)).length)
    (b : Bool) (s1 : Scan)
    (h : pass1Step nomerge (pre ++ (t.encode ++ post)) s = .ok (b, s1)) :
    b = true ∧ s1.fptr = pre.length + t.encode.length ∧ s1.fend = s.fend ∧
      s1.keyframe_count =
        (if t.isKeyframe then (s.keyframe_count + 1) % 2 ^ 32 else s.keyframe_count) ∧
      ∃ ts q, process_timestamp t.tag_type [t.b0, t.b1, t.b2, t.b3] 0 s.ts = .ok (ts, q, s1.ts) := by
  obtain ⟨r1, r2, r3, r4, r5, r6⟩ := tag_reads pre post t s.ts
  have hel : t.encode.length = 11 + (t.tag_length + 4) := by
    rw [Tag.encode_length, ← hwf.1, hwf.2.1]
    omega
  have hc1 : ¬ (pre.length + 15 > s.fend) := by
    rw [hend]
    simp only [List.length_append, hel]
    omega
  have hc2 : ¬ (pre.length + t.tag_length > s.fend) := by
    rw [hend]
    simp only [List.length_append, hel]
    omega
  cases hp : process_timestamp t.tag_type [t.b0, t.b1, t.b2, t.b3] 0 s.ts with
  | error e =>
    rw [hp] at r3
    simp only [pass1Step, hf, hc1, hc2, r1, r2, r3, Except.map, bind, Except.bind, pure,
      Except.pure, if_false] at h
    cases h
  | ok r =>
    obtain ⟨ts, q, st1⟩ := r
    have hq := process_timestamp_ptr _ _ _ _ _ _ _ _ _ hp
    subst hq
    rw [hp] at r3
    simp only [pass1Step, hf, hc1, hc2, r1, r2, r3, Except.map, bind, Except.bind, pure,
      Except.pure, if_false, Nat.add_assoc, Nat.reduceAdd] at h
    split at h
    · cases h
    · rename_i v hv
      have hP : v.fptr = pre.length + 11 + t.tag_length ∧ v.fend = s.fend ∧ v.ts = st1 ∧
          v.keyframe_count =
            (if t.isKeyframe then (s.keyframe_count + 1) % 2 ^ 32 else s.keyframe_count) := by
        by_cases h18 : t.tag_type = 18
        · have hkey : t.isKeyframe = false := by
            unfold Tag.isKeyframe
            split <;> simp [h18]
          rw [if_pos h18] at hv
          split at hv
          · cases hv
          · simp only [Except.ok.injEq] at hv
            subst hv
            exact ⟨by simp only []; omega, rfl, rfl, by simp only [hkey, Bool.false_eq_true, if_false]⟩
        · rw [if_neg h18] at hv
          by_cases h9 : t.tag_type = 9
          · rw [if_pos h9] at hv
            obtain ⟨b0, rest, hb⟩ := List.exists_cons_of_ne_nil (hwf.2.2 h9)
            have hpk : peek (pre ++ (t.encode ++ post)) (pre.length + 11) = .ok b0 := by
              rw [r5, hb]
              exact peek_cons_zero _ _
            have hL : 0 < t.tag_length := by
              rw [← hwf.1, hb]
              simp
            have hL2 : t.tag_length < 2 ^ 32 := by
              have := t.tag_length_lt
              omega
            obtain ⟨e1, e2, e3, e4⟩ := scanVideo_ok _ _ _ _ b0 hpk hL hL2 hv
            refine ⟨e1, e2, e3, ?_⟩
            rw [e4]
            simp only [Tag.isKeyframe, hb, h9, decide_True, Bool.true_and, decide_eq_true_eq]
          · rw [if_neg h9] at hv
            have hkey : t.isKeyframe = false := by
              unfold Tag.isKeyframe
              split <;> simp [h9]
            simp only [hkey, Bool.false_eq_true, if_false]
            by_cases h8 : t.tag_type = 8 ∧ t.tag_length > 0
            · rw [if_pos h8] at hv
              have hne : t.body ≠ [] := by
                intro hnil
                have := hwf.1
                rw [hnil] at this
                simp at this
                omega
              obtain ⟨b0, rest, hb⟩ := List.exists_cons_of_ne_nil hne
              have hpk : peek (pre ++ (t.encode ++ post)) (pre.length + 11) = .ok b0 := by
                rw [r5, hb]
                exact peek_cons_zero _ _
              exact scanAudio_ok _ _ _ _ b0 hpk h8.2 hv
            · rw [if_neg h8] at hv
              simp only [Except.ok.injEq] at hv
              subst hv
              exact ⟨by simp only []; omega, rfl, rfl, rfl⟩
      obtain ⟨p1, p2, p3, p4⟩ := hP
      simp only [Except.ok.injEq, Prod.mk.injEq] at h
      obtain ⟨hb1, hs1⟩ := h
      subst hs1
      refine ⟨hb1.symm, ?_, p2, p4, ts, 4, ?_⟩
      · simp only [p1, hel]
        omega
      · simp only [p3]

theorem pass1Loop_tags (nomerge : Bool) (tags : List Tag) :
    ∀ (pre : List Byte) (s : Scan) (fuel : Nat) (s1 : Scan),
      (∀ t ∈ tags, t.Wf) → s.fptr = pre.length → s.fend = (pre ++ encodeTags tags).length →
      s.keyframe_count < 2 ^ 32 →
      pass1Loop nomerge (pre ++ encodeTags tags) fuel s = .ok s1 →
      s1.fend = s.fend ∧
        s1.keyframe_count = (s.keyframe_count + (tags.filter Tag.isKeyframe).length) % 2 ^ 32 ∧
        ∃ tss, tagTimestamps tags s.ts = .ok tss := by
  induction tags with
  | nil =>
    intro pre s fuel s1 _ hf hend hkc h
    cases fuel with
    | zero => rw [pass1Loop] at h; cases h
    | succ fuel =>
      have hc : ¬ s.fptr < s.fend := by
        rw [hf, hend]
        simp [encodeTags]
      rw [pass1Loop, if_neg hc] at h
      cases h
      refine ⟨rfl, ?_, [], by rw [tagTimestamps]⟩
      simp only [List.filter_nil, List.length_nil, Nat.add_zero]
      exact (Nat.mod_eq_of_lt hkc).symm
  | cons t rest ih =>
    intro pre s fuel s1 hwf hf hend hkc h
    have hwt : t.Wf := hwf t (List.mem_cons_self _ _)
    have hwr : ∀ u ∈ rest, u.Wf := fun u hu => hwf u (List.mem_cons_of_mem _ hu)
    cases fuel with
    | zero => rw [pass1Loop] at h; cases h
    | succ fuel =>
      have hc : s.fptr < s.fend := by
        rw [hf, hend]
        simp only [encodeTags, List.length_append, Tag.encode_length]
        omega
      rw [pass1Loop, if_pos hc] at h
      simp only [encodeTags] at h hend
      cases hs : pass1Step nomerge (pre ++ (t.encode ++ encodeTags rest)) s with
      | error e => rw [hs] at h; cases h
      | ok r =>
        obtain ⟨b, s2⟩ := r
        obtain ⟨hb, q1, q2, q3, ts, q, q4⟩ :=
          pass1Step_tag nomerge pre (encodeTags rest) t hwt s hf hend b s2 hs
        subst hb
        rw [hs] at h
        simp only [] at h
        rw [← List.append_assoc] at h
        have hkc2 : s2.keyframe_count < 2 ^ 32 := by
          rw [q3]
          split
          · exact Nat.mod_lt _ (by decide)
          · exact hkc
        obtain ⟨i1, i2, tss, i3⟩ := ih (pre ++ t.encode) s2 fuel s1 hwr
          (by rw [q1, List.length_append])
          (by rw [q2, hend, List.append_assoc]) hkc2 h
        refine ⟨by rw [i1, q2], ?_, ts :: tss, ?_⟩
        · rw [i2, q3, List.filter_cons]
          cases t.isKeyframe
          · simp only [Bool.false_eq_true, if_false]
          · simp only [if_true, List.length_cons, Nat.mod_add_mod]
            congr 1
            omega
        · rw [tagTimestamps, q4]
          simp only [i3]

theorem tagStreamStart_flvFile (flags : Byte) (p4 : List Byte) (tags : List Tag) :
    tagStreamStart (flvFile flags p4 tags) = 13 := by
  have h : ((flvFile flags p4 tags).drop 5).take 4 = [0, 0, 0, 9] := by
    simp [flvFile]
  unfold tagStreamStart
  rw [h]
  decide!

theorem flvFile_split (flags : Byte) (p4 : List Byte) (tags : List Tag) :
    flvFile flags p4 tags =
      ([0x46, 0x4C, 0x56, 0x01, flags, 0, 0, 0, 9] ++ p4) ++ encodeTags tags := rfl

theorem pass1_flvFile (nomerge : Bool) (flags : Byte) (p4 : List Byte) (tags : List Tag)
    (s : Scan) (hp4 : p4.length = 4) (hwf : ∀ t ∈ tags, t.Wf)
    (h : pass1 nomerge (flvFile flags p4 tags) = .ok s) :
    s.fend = (flvFile flags p4 tags).length ∧
      s.keyframe_count = (tags.filter Tag.isKeyframe).length % 2 ^ 32 ∧
      ∃ tss, tagTimestamps tags ⟨0, false⟩ = .ok tss := by
  unfold pass1 at h
  split at h
  · cases h
  · split at h
    · cases h
    · rw [tagStreamStart_flvFile] at h
      have := pass1Loop_tags nomerge tags ([0x46, 0x4C, 0x56, 0x01, flags, 0, 0, 0, 9] ++ p4)
        _ _ s hwf (by simp [hp4]) rfl (Nat.pos_of_ne_zero (by simp)) h
      simpa using this

/-! ### The warning flag does not influence the timestamps -/

theorem process_timestamp_flag (tag_type b0 b1 b2 b3 : Byte) (l : Nat) (w w1 : Bool) :
    (∀ e, process_timestamp tag_type [b0, b1, b2, b3] 0 ⟨l, w⟩ = .error e →
      process_timestamp tag_type [b0, b1, b2, b3] 0 ⟨l, w1⟩ = .error e) ∧
    (∀ ts q st, process_timestamp tag_type [b0, b1, b2, b3] 0 ⟨l, w⟩ = .ok (ts, q, st) →
      ∃ w2, process_timestamp tag_type [b0, b1, b2, b3] 0 ⟨l, w1⟩ =
        .ok (ts, q, ⟨st.last_timestamp, w2⟩)) := by
  have h0 := process_timestamp_eq tag_type [] [] b0 b1 b2 b3 ⟨l, w⟩
  have h1 := process_timestamp_eq tag_type [] [] b0 b1 b2 b3 ⟨l, w1⟩
  simp only [List.nil_append, List.length_nil] at h0 h1
  rw [h0, h1]
  constructor
  · intro e h
    split at h
    · rename_i hc
      rw [if_pos hc]
      split at h
      · cases h
      · rename_i hc2
        rw [if_neg hc2]
        exact h
    · cases h
  · intro ts q st h
    split at h
    · rename_i hc
      rw [if_pos hc]
      split at h
      · rename_i hc2
        rw [if_pos hc2]
        cases h
        exact ⟨true, rfl⟩
      · cases h
    · rename_i hc
      rw [if_neg hc]
      cases h
      exact ⟨_, rfl⟩

theorem tagTimestamps_flag (tags : List Tag) :
    ∀ (l : Nat) (w w1 : Bool), tagTimestamps tags ⟨l, w⟩ = tagTimestamps tags ⟨l, w1⟩ := by
  induction tags with
  | nil => intro l w w1; rw [tagTimestamps, tagTimestamps]
  | cons t rest ih =>
    intro l w w1
    obtain ⟨f1, f2⟩ := process_timestamp_flag t.tag_type t.b0 t.b1 t.b2 t.b3 l w w1
    rw [tagTimestamps, tagTimestamps]
    cases hp : process_timestamp t.tag_type [t.b0, t.b1, t.b2, t.b3] 0 ⟨l, w⟩ with
    | error e => rw [f1 e hp]
    | ok r =>
      obtain ⟨ts, q, st⟩ := r
      obtain ⟨w2, hw2⟩ := f2 ts q st hp
      rw [hw2]
      simp only []
      rw [ih st.last_timestamp w2 st.timestamp_warning_given]

/-! ### The bytes before the tag stream -/

theorem overwrite_end_of (file dat : List Byte) (n : Nat) (h : n = file.length) :
    overwrite file n dat = file ++ dat := by
  subst h
  exact overwrite_end file dat

theorem overwrite_mid (A B : List Byte) (c x : Byte) (n : Nat) (h : n = A.length) :
    overwrite (A ++ c :: B) n [x] = A ++ x :: B := by
  subst h
  simp [overwrite]

theorem overwrite_mid3 (A B : List Byte) (c0 c1 c2 x y z : Byte) (n : Nat) (h : n = A.length) :
    overwrite (overwrite (overwrite (A ++ c0 :: c1 :: c2 :: B) n [x]) (n + 1) [y]) (n + 2) [z] =
      A ++ x :: y :: z :: B := by
  rw [overwrite_mid A _ c0 x n h]
  have e1 : A ++ x :: c1 :: c2 :: B = (A ++ [x]) ++ c1 :: c2 :: B := by simp
  rw [e1, overwrite_mid (A ++ [x]) _ c1 y (n + 1) (by simp [h])]
  have e2 : A ++ [x] ++ y :: c2 :: B = (A ++ [x, y]) ++ c2 :: B := by simp
  rw [e2, overwrite_mid (A ++ [x, y]) _ c2 z (n + 2) (by simp [h])]
  simp

theorem onMetaData_write_length :
    (AMFData.AMFString (str "onMetaData")).write.length = 13 := by decide!

theorem writePreamble_eq (hasVideo hasAudio : Bool) (dmap : Dmap) :
    writePreamble hasVideo hasAudio dmap =
      (⟨preambleBytes hasVideo hasAudio dmap, (preambleBytes hasVideo hasAudio dmap).length⟩, 37) := by
  simp only [writePreamble, Sink.write, Sink.putc, Sink.tell, Sink.seek, List.length_cons,
    List.length_nil, Nat.reduceAdd, Nat.zero_add, preambleBytes]
  have hS := onMetaData_write_length
  generalize (AMFData.AMFString (str "onMetaData")).write = S at hS ⊢
  generalize (AMFData.AMFMixedArray dmap).write = W
  generalize byte ((if hasVideo = true then 4 else 0) ||| if hasAudio = true then 1 else 0) = fl
  have hl : 24 + S.length + W.length - 24 = (S ++ W).length := by
    rw [List.length_append]
    omega
  rw [hl]
  generalize store_le 4 (htons ((S ++ W).length + 11)) = T
  have e7 : overwrite (overwrite (overwrite (overwrite (overwrite (overwrite (overwrite [] 0
      [70, 76, 86, 1]) 4 [fl]) 5 [0, 0, 0, 9, 0, 0, 0, 0]) 13 [18]) 14 [0, 0, 0]) 17
      [0, 0, 0, 0]) 21 [0, 0, 0] =
      [70, 76, 86, 1, fl, 0, 0, 0, 9, 0, 0, 0, 0, 18] ++
        (0 : Byte) :: 0 :: 0 :: [0, 0, 0, 0, 0, 0, 0] := by
    simp [overwrite]
  rw [e7, overwrite_end_of _ S 24 (by simp), overwrite_end_of _ W (24 + S.length) (by simp; omega),
    overwrite_end_of _ T (24 + S.length + W.length) (by simp; omega)]
  have e8 : [70, 76, 86, 1, fl, 0, 0, 0, 9, 0, 0, 0, 0, 18] ++ [0, 0, 0, 0, 0, 0, 0, 0, 0, 0] ++
      S ++ W ++ T =
      [70, 76, 86, 1, fl, 0, 0, 0, 9, 0, 0, 0, 0, 18] ++
        (0 : Byte) :: 0 :: 0 :: ([0, 0, 0, 0, 0, 0, 0] ++ (S ++ W) ++ T) := by
    simp
  rw [e8, overwrite_mid3 _ _ _ _ _ _ _ _ 14 (by simp)]
  simp [hS]
  omega

/-! ### Assignments to the map and the length of its encoding -/

theorem mapFind_mapAssign_self (m : Dmap) (k : List Byte) (v : AMFData) :
    mapFind (mapAssign m k v) k = some v := by
  induction m with
  | nil => simp [mapAssign, mapFind, strLt_irrefl]
  | cons e m ih =>
    obtain ⟨k1, v1⟩ := e
    rw [mapAssign]
    cases h1 : strLt k k1 with
    | true => simp [mapFind, strLt_irrefl]
    | false =>
      cases h2 : strLt k1 k with
      | true => simp [mapFind, h1, h2, ih]
      | false => simp [mapFind, h1, h2]

theorem mapFind_mapAssign_other (m : Dmap) (k k1 : List Byte) (v : AMFData) (hne : k ≠ k1) :
    mapFind (mapAssign m k1 v) k = mapFind m k := by
  have hor : strLt k k1 = true ∨ strLt k1 k = true := by
    cases h1 : strLt k k1 with
    | true => exact Or.inl rfl
    | false =>
      cases h2 : strLt k1 k with
      | true => exact Or.inr rfl
      | false => exact absurd (strLt_total k k1 h1 h2) hne
  induction m with
  | nil =>
    rcases hor with h | h
    · simp [mapAssign, mapFind, h]
    · simp [mapAssign, mapFind, h, strLt_asymm _ _ h]
  | cons e m ih =>
    obtain ⟨k2, v2⟩ := e
    rw [mapAssign]
    cases h1 : strLt k1 k2 with
    | true =>
      simp only [if_true]
      rcases hor with h | h
      · simp [mapFind, h, strLt_trans _ _ _ h h1]
      · simp [mapFind, h, strLt_asymm _ _ h]
    | false =>
      cases h2 : strLt k2 k1 with
      | true =>
        simp only [Bool.false_eq_true, if_false, if_true]
        rw [mapFind, mapFind, ih]
      | false =>
        have hk : k1 = k2 := strLt_total k1 k2 h1 h2
        subst hk
        simp only [Bool.false_eq_true, if_false]
        rcases hor with h | h
        · simp [mapFind, h]
        · simp [mapFind, h, strLt_asymm _ _ h]

theorem write_length_mapAssign_congr (m : Dmap) (k : List Byte) (v v1 : AMFData)
    (h : v.write.length = v1.write.length) :
    (_write (mapAssign m k v)).length = (_write (mapAssign m k v1)).length := by
  induction m with
  | nil => simp [mapAssign, _write, h]
  | cons e m ih =>
    obtain ⟨k1, v0⟩ := e
    simp only [mapAssign]
    cases h1 : strLt k k1 with
    | true => simp [_write, h]
    | false =>
      cases h2 : strLt k1 k with
      | true => simp [_write, ih]
      | false => simp [_write, h]

theorem write_length_mapAssign_found (m : Dmap) (k : List Byte) (v0 v : AMFData)
    (hf : mapFind m k = some v0) (h : v0.write.length = v.write.length) :
    (_write (mapAssign m k v)).length = (_write m).length := by
  induction m with
  | nil => simp [mapFind] at hf
  | cons e m ih =>
    obtain ⟨k1, v1⟩ := e
    rw [mapAssign]
    rw [mapFind] at hf
    cases h1 : strLt k k1 with
    | true => simp [h1] at hf
    | false =>
      cases h2 : strLt k1 k with
      | true =>
        simp only [h1, h2, Bool.false_eq_true, if_false, if_true] at hf
        simp [_write, ih hf]
      | false =>
        simp only [h1, h2, Bool.false_eq_true, if_false, Option.some.injEq] at hf
        subst hf
        simp [_write, h]

theorem mixedArray_write_length (m : Dmap) :
    (AMFData.AMFMixedArray m).write.length = 5 + (_write m).length := by
  simp [AMFData.write, store_le_length]
  omega

theorem writeElems_doubles (l : List AMFData) (h : ∀ x ∈ l, ∃ d, x = AMFData.AMFDouble d) :
    (writeElems l).length = 9 * l.length := by
  induction l with
  | nil => simp [writeElems]
  | cons x l ih =>
    obtain ⟨d, hd⟩ := h x (List.mem_cons_self _ _)
    subst hd
    have := ih (fun y hy => h y (List.mem_cons_of_mem _ hy))
    simp [writeElems, AMFData.write, store_le_length, this]
    omega

theorem keyframes_object (a b : AMFData) :
    mapAssign (mapAssign [] (str "times") a) (str "filepositions") b =
      [(str "filepositions", b), (str "times", a)] := by
  have h : strLt (str "filepositions") (str "times") = true := by decide!
  simp [mapAssign, h]

theorem keyframes_write_length (kt kp kt1 kp1 : List AMFData)
    (h1 : ∀ x ∈ kt, ∃ d, x = AMFData.AMFDouble d) (h2 : ∀ x ∈ kp, ∃ d, x = AMFData.AMFDouble d)
    (h3 : ∀ x ∈ kt1, ∃ d, x = AMFData.AMFDouble d) (h4 : ∀ x ∈ kp1, ∃ d, x = AMFData.AMFDouble d)
    (hl1 : kt.length = kt1.length) (hl2 : kp.length = kp1.length) :
    (AMFData.AMFObject (mapAssign (mapAssign [] (str "times") (.AMFArray kt))
        (str "filepositions") (.AMFArray kp))).write.length =
      (AMFData.AMFObject (mapAssign (mapAssign [] (str "times") (.AMFArray kt1))
        (str "filepositions") (.AMFArray kp1))).write.length := by
  rw [keyframes_object, keyframes_object]
  simp [AMFData.write, _write, store_le_length, writeElems_doubles _ h1,
    writeElems_doubles _ h2, writeElems_doubles _ h3, writeElems_doubles _ h4, hl1, hl2]

theorem installStats_datasize (s : Scan) :
    mapFind (installStats s) (str "datasize") = some (.AMFDouble (F64.ofNat 0)) := by
  simp only [installStats]
  exact mapFind_mapAssign_self _ _ _

theorem foldl_tags_datasize (tags : List (List Byte × List Byte)) :
    ∀ (dmap : Dmap), (∀ e ∈ tags, e.1 ≠ str "datasize") →
      mapFind (tags.foldl (fun dmap eti => mapAssign dmap eti.1 (.AMFString eti.2)) dmap)
        (str "datasize") = mapFind dmap (str "datasize") := by
  induction tags with
  | nil => intro dmap _; rfl
  | cons e tags ih =>
    intro dmap h
    rw [List.foldl_cons, ih _ (fun x hx => h x (List.mem_cons_of_mem _ hx))]
    exact mapFind_mapAssign_other _ _ _ _ (fun hh => h e (List.mem_cons_self _ _) hh.symm)

theorem installTags_datasize (o : Options) (now : Now) (dmap : Dmap)
    (hds : ∀ e ∈ o.extra_tags, e.1 ≠ str "datasize") :
    mapFind (installTags o now dmap) (str "datasize") = mapFind dmap (str "datasize") := by
  simp only [installTags]
  rw [foldl_tags_datasize _ _ hds,
    mapFind_mapAssign_other _ _ _ _ (by decide), mapFind_mapAssign_other _ _ _ _ (by decide)]

theorem metaWith_eq (dmap : Dmap) (keyTimes keyPositions : List AMFData) :
    metaWith false dmap keyTimes keyPositions =
      mapAssign dmap (str "keyframes")
        (.AMFObject [(str "filepositions", .AMFArray keyPositions),
          (str "times", .AMFArray keyTimes)]) := by
  simp only [metaWith, keyframes_object, Bool.false_eq_true, if_false]

/-- The second write of the map has the length of the first when no `-tag` is named
`datasize` and the arrays hold as many Doubles as before. -/
theorem final_write_length (o : Options) (now : Now) (s : Scan)
    (kt kp kt1 kp1 : List AMFData) (x : Nat)
    (hds : ∀ e ∈ o.extra_tags, e.1 ≠ str "datasize")
    (h1 : ∀ x ∈ kt, ∃ d, x = AMFData.AMFDouble d) (h2 : ∀ x ∈ kp, ∃ d, x = AMFData.AMFDouble d)
    (h3 : ∀ x ∈ kt1, ∃ d, x = AMFData.AMFDouble d) (h4 : ∀ x ∈ kp1, ∃ d, x = AMFData.AMFDouble d)
    (hl1 : kt.length = kt1.length) (hl2 : kp.length = kp1.length) :
    (AMFData.AMFMixedArray (mapAssign (metaWith false (installTags o now (installStats s)) kt1 kp1)
        (str "datasize") (.AMFDouble x))).write.length =
      (AMFData.AMFMixedArray (metaWith false (installTags o now (installStats s)) kt kp)).write.length := by
  rw [mixedArray_write_length, mixedArray_write_length]
  congr 1
  have hf : mapFind (metaWith false (installTags o now (installStats s)) kt1 kp1) (str "datasize") =
      some (.AMFDouble (F64.ofNat 0)) := by
    simp only [metaWith, Bool.false_eq_true, if_false]
    rw [mapFind_mapAssign_other _ _ _ _ (by decide), installTags_datasize _ _ _ hds,
      installStats_datasize]
  rw [write_length_mapAssign_found _ _ _ _ hf (by simp [AMFData.write, store_le_length])]
  simp only [metaWith, Bool.false_eq_true, if_false]
  exact write_length_mapAssign_congr _ _ _ _
    (keyframes_write_length kt1 kp1 kt kp h3 h4 h1 h2 hl1.symm hl2.symm)

theorem overwrite_replace (A W W1 B : List Byte) (n : Nat) (h : n = A.length)
    (hw : W1.length = W.length) : overwrite (A ++ W ++ B) n W1 = A ++ W1 ++ B := by
  subst h
  unfold overwrite
  split
  · rename_i h1
    subst h1
    have hW : W = [] := List.length_eq_zero.mp (by simpa using hw.symm)
    subst hW
    simp
  · simp [hw]

/-- Rewriting the map in place with an encoding of the same length. -/
theorem preamble_rewrite (hasVideo hasAudio : Bool) (m0 m1 : Dmap) (C : List Byte)
    (hw : (AMFData.AMFMixedArray m1).write.length = (AMFData.AMFMixedArray m0).write.length) :
    overwrite (preambleBytes hasVideo hasAudio m0 ++ C) 37 (AMFData.AMFMixedArray m1).write =
      preambleBytes hasVideo hasAudio m1 ++ C := by
  simp only [preambleBytes]
  have hS := onMetaData_write_length
  generalize (AMFData.AMFString (str "onMetaData")).write = S at hS ⊢
  generalize (AMFData.AMFMixedArray m0).write = W at hw ⊢
  generalize (AMFData.AMFMixedArray m1).write = W1 at hw ⊢
  have hl : (S ++ W1).length = (S ++ W).length := by
    rw [List.length_append, List.length_append, hw]
  rw [hl]
  generalize store_le 4 (htons ((S ++ W).length + 11)) = T
  generalize byte ((if hasVideo = true then 4 else 0) ||| if hasAudio = true then 1 else 0) = fl
  generalize byte ((S ++ W).length >>> 16 &&& 255) = x0
  generalize byte ((S ++ W).length >>> 8 &&& 255) = x1
  generalize byte ((S ++ W).length &&& 255) = x2
  have e := overwrite_replace
    ([70, 76, 86, 1, fl, 0, 0, 0, 9, 0, 0, 0, 0, 18, x0, x1, x2, 0, 0, 0, 0, 0, 0, 0] ++ S)
    W W1 (T ++ C) 37 (by simp [hS]) hw
  simpa using e

theorem Tag.isKeyframe_type (t : Tag) (h : t.isKeyframe = true) : t.tag_type = 9 := by
  unfold Tag.isKeyframe at h
  split at h
  · simp only [Bool.and_eq_true, decide_eq_true_eq] at h
    exact h.1
  · cases h

theorem keyIndex_valid (nometa : Bool) (l : List (Tag × Nat)) :
    ∀ (A : List Byte) (pos : Nat), pos = A.length →
      ∀ e ∈ keyIndex nometa l pos, (A ++ copiedBytes nometa l)[e.1]? = some 9 := by
  induction l with
  | nil => intro A pos _ e he; simp [keyIndex] at he
  | cons a l ih =>
    obtain ⟨t, ts⟩ := a
    intro A pos hpos e he
    simp only [keyIndex, List.mem_append] at he
    rcases he with he | he
    · cases hk : t.isKeyframe with
      | false => simp [hk] at he
      | true =>
        have h9 := t.isKeyframe_type hk
        have hc : t.copied nometa = true := by simp [Tag.copied, h9]
        simp only [hk, if_true, List.mem_singleton] at he
        subst he
        have hx : ∀ (B : List Byte), (A ++ 9 :: B)[A.length]? = some 9 := by
          intro B
          rw [List.getElem?_append_right (Nat.le_refl _)]
          simp
        simp only [copiedBytes, hc, if_true, Tag.rewritten, h9, hpos, List.cons_append,
          List.append_assoc, List.nil_append]
        exact hx _
    · have := ih (A ++ (if t.copied nometa then t.rewritten ts else []))
        (pos + if t.copied nometa then (t.rewritten ts).length else 0)
        (by rw [List.length_append, hpos]; split <;> simp) e he
      simpa [copiedBytes] using this

theorem encodeTags_length (tags : List Tag) : tags.length ≤ (encodeTags tags).length := by
  induction tags with
  | nil => simp [encodeTags]
  | cons t tags ih =>
    simp only [encodeTags, List.length_cons, List.length_append, Tag.encode_length]
    omega

/-! ## C10: `AMFMixedArray::merge` -/

theorem strLt_ne (a b : List Byte) (h : strLt a b = true) : a ≠ b := by
  intro hab
  subst hab
  rw [strLt_irrefl] at h
  cases h

theorem not_mem_keys_of_lt (m : Dmap) (k : List Byte)
    (h : ∀ e ∈ m, strLt k e.1 = true) : k ∉ m.map Prod.fst := by
  intro hk
  obtain ⟨e, he, hek⟩ := List.mem_map.mp hk
  exact strLt_ne _ _ (h e he) hek.symm

theorem mem_mapInsert_iff (m : Dmap) (k : List Byte) (v : AMFData) (h : Ascending m)
    (e : List Byte × AMFData) :
    e ∈ mapInsert m k v ↔ e ∈ m ∨ (e = (k, v) ∧ k ∉ m.map Prod.fst) := by
  induction m with
  | nil => simp [mapInsert]
  | cons e1 m ih =>
    obtain ⟨k1, v1⟩ := e1
    unfold Ascending at h ih
    rw [List.pairwise_cons] at h
    simp only [mapInsert]
    by_cases h1 : strLt k k1 = true
    · have hk : k ∉ ((k1, v1) :: m).map Prod.fst :=
        not_mem_keys_of_lt _ _ (by
          intro b hb
          rcases List.mem_cons.mp hb with hb | hb
          · subst hb; exact h1
          · exact strLt_trans _ _ _ h1 (h.1 b hb))
      simp only [h1, if_true, List.mem_cons, hk, not_false_eq_true, and_true]
      tauto
    · by_cases h2 : strLt k1 k = true
      · have hne : k ≠ k1 := (strLt_ne _ _ h2).symm
        simp only [h1, h2, if_true, if_false, List.mem_cons, ih h.2, List.map_cons,
          Bool.false_eq_true]
        constructor
        · rintro (h3 | h3 | ⟨h3, h4⟩)
          · exact Or.inl (Or.inl h3)
          · exact Or.inl (Or.inr h3)
          · exact Or.inr ⟨h3, by
              intro h5
              rcases h5 with h5 | h5
              · exact hne h5
              · exact h4 h5⟩
        · rintro ((h3 | h3) | ⟨h3, h4⟩)
          · exact Or.inl h3
          · exact Or.inr (Or.inl h3)
          · exact Or.inr (Or.inr ⟨h3, fun h5 => h4 (Or.inr h5)⟩)
      · have heq : k = k1 := strLt_total _ _ (by simpa using h1) (by simpa using h2)
        subst heq
        simp only [h1, if_false, List.map_cons, List.mem_cons, true_or,
          not_true_eq_false, and_false, or_false, Bool.false_eq_true]

theorem mem_mapAssign (m : Dmap) (k : List Byte) (v : AMFData) (e : List Byte × AMFData)
    (he : e ∈ mapAssign m k v) : (∃ e1 ∈ m, e1.1 = e.1) ∨ e = (k, v) := by
  induction m with
  | nil => simpa [mapAssign] using he
  | cons e1 m ih =>
    obtain ⟨k1, v1⟩ := e1
    simp only [mapAssign] at he
    split at he
    · rcases List.mem_cons.mp he with h | h
      · exact Or.inr h
      · exact Or.inl ⟨e, h, rfl⟩
    · split at he
      · rcases List.mem_cons.mp he with h | h
        · exact Or.inl ⟨(k1, v1), List.mem_cons_self _ _, by rw [h]⟩
        · rcases ih h with ⟨e2, h2, h3⟩ | h2
          · exact Or.inl ⟨e2, List.mem_cons_of_mem _ h2, h3⟩
          · exact Or.inr h2
      · rcases List.mem_cons.mp he with h | h
        · exact Or.inl ⟨(k1, v1), List.mem_cons_self _ _, by rw [h]⟩
        · exact Or.inl ⟨e, List.mem_cons_of_mem _ h, rfl⟩

theorem ascending_mapAssign (m : Dmap) (k : List Byte) (v : AMFData) (h : Ascending m) :
    Ascending (mapAssign m k v) := by
  induction m with
  | nil => simp [mapAssign, Ascending]
  | cons e1 m ih =>
    obtain ⟨k1, v1⟩ := e1
    unfold Ascending at h ih ⊢
    rw [List.pairwise_cons] at h
    simp only [mapAssign]
    split
    · rename_i hlt
      rw [List.pairwise_cons]
      refine ⟨?_, List.pairwise_cons.mpr h⟩
      intro b hb
      rcases List.mem_cons.mp hb with hb | hb
      · subst hb; exact hlt
      · exact strLt_trans _ _ _ hlt (h.1 b hb)
    · split
      · rename_i hlt
        rw [List.pairwise_cons]
        refine ⟨?_, ih h.2⟩
        intro b hb
        rcases mem_mapAssign m k v b hb with ⟨e2, h2, h3⟩ | hb
        · rw [← h3]; exact h.1 e2 h2
        · subst hb; exact hlt
      · exact List.pairwise_cons.mpr ⟨h.1, h.2⟩

theorem mem_mapAssign_iff (m : Dmap) (k : List Byte) (v : AMFData) (h : Ascending m)
    (e : List Byte × AMFData) :
    e ∈ mapAssign m k v ↔ e = (k, v) ∨ (e ∈ m ∧ e.1 ≠ k) := by
  induction m with
  | nil => simp [mapAssign]
  | cons e1 m ih =>
    obtain ⟨k1, v1⟩ := e1
    unfold Ascending at h ih
    rw [List.pairwise_cons] at h
    simp only [mapAssign]
    by_cases h1 : strLt k k1 = true
    · simp only [h1, if_true, List.mem_cons]
      constructor
      · rintro (h3 | h3 | h3)
        · exact Or.inl h3
        · exact Or.inr ⟨Or.inl h3, by rw [h3]; exact (strLt_ne _ _ h1).symm⟩
        · exact Or.inr ⟨Or.inr h3, (strLt_ne _ _ (strLt_trans _ _ _ h1 (h.1 e h3))).symm⟩
      · rintro (h3 | ⟨h3 | h3, _⟩)
        · exact Or.inl h3
        · exact Or.inr (Or.inl h3)
        · exact Or.inr (Or.inr h3)
    · by_cases h2 : strLt k1 k = true
      · simp only [h1, h2, if_true, if_false, List.mem_cons, ih h.2, Bool.false_eq_true]
        constructor
        · rintro (h3 | h3 | ⟨h3, h4⟩)
          · exact Or.inr ⟨Or.inl h3, by rw [h3]; exact strLt_ne _ _ h2⟩
          · exact Or.inl h3
          · exact Or.inr ⟨Or.inr h3, h4⟩
        · rintro (h3 | ⟨h3 | h3, h4⟩)
          · exact Or.inr (Or.inl h3)
          · exact Or.inl h3
          · exact Or.inr (Or.inr ⟨h3, h4⟩)
      · have heq : k = k1 := strLt_total _ _ (by simpa using h1) (by simpa using h2)
        subst heq
        simp only [h1, if_false, List.mem_cons, Bool.false_eq_true]
        constructor
        · rintro (h3 | h3)
          · exact Or.inl h3
          · exact Or.inr ⟨Or.inr h3, (strLt_ne _ _ (h.1 e h3)).symm⟩
        · rintro (h3 | ⟨h3 | h3, h4⟩)
          · exact Or.inl h3
          · exact absurd (by rw [h3]) h4
          · exact Or.inr h3

theorem mem_keys_mapInsert (m : Dmap) (k : List Byte) (v : AMFData) (h : Ascending m)
    (k1 : List Byte) :
    k1 ∈ (mapInsert m k v).map Prod.fst ↔ k1 ∈ m.map Prod.fst ∨ k1 = k := by
  simp only [List.mem_map, mem_mapInsert_iff m k v h]
  constructor
  · rintro ⟨e, he | ⟨he, _⟩, hk⟩
    · exact Or.inl ⟨e, he, hk⟩
    · subst he; exact Or.inr hk.symm
  · rintro (⟨e, he, hk⟩ | hk)
    · exact ⟨e, Or.inl he, hk⟩
    · by_cases hin : k ∈ m.map Prod.fst
      · obtain ⟨e, he, hek⟩ := List.mem_map.mp hin
        exact ⟨e, Or.inl he, by rw [hek, hk]⟩
      · exact ⟨(k, v), Or.inr ⟨rfl, fun h => hin (List.mem_map.mpr h)⟩, hk.symm⟩

theorem foldl_mapInsert (r : Dmap) :
    ∀ (into : Dmap), Ascending into → Ascending r →
      Ascending (r.foldl (fun acc ri => mapInsert acc ri.1 ri.2) into) ∧
      ∀ e, e ∈ r.foldl (fun acc ri => mapInsert acc ri.1 ri.2) into ↔
        e ∈ into ∨ (e ∈ r ∧ e.1 ∉ into.map Prod.fst) := by
  induction r with
  | nil => intro into hi _; simp [hi]
  | cons e1 r ih =>
    obtain ⟨k, v⟩ := e1
    intro into hi hr
    unfold Ascending at hr
    rw [List.pairwise_cons] at hr
    obtain ⟨ha, hm⟩ := ih (mapInsert into k v) (ascending_mapInsert into k v hi) hr.2
    refine ⟨ha, ?_⟩
    intro e
    simp only [List.foldl_cons, hm e, mem_mapInsert_iff into k v hi, mem_keys_mapInsert into k v hi,
      List.mem_cons]
    constructor
    · rintro ((h1 | ⟨h1, h2⟩) | ⟨h1, h2⟩)
      · exact Or.inl h1
      · exact Or.inr ⟨Or.inl h1, by rw [h1]; exact h2⟩
      · exact Or.inr ⟨Or.inr h1, fun h3 => h2 (Or.inl h3)⟩
    · rintro (h1 | ⟨h1 | h1, h2⟩)
      · exact Or.inl (Or.inl h1)
      · exact Or.inl (Or.inr ⟨h1, by rw [h1] at h2; exact h2⟩)
      · refine Or.inr ⟨h1, ?_⟩
        rintro (h3 | h3)
        · exact h2 h3
        · exact strLt_ne _ _ (hr.1 e h1) h3.symm

theorem foldl_mapAssign (r : Dmap) :
    ∀ (into : Dmap), Ascending into → Ascending r →
      Ascending (r.foldl (fun acc ri => mapAssign acc ri.1 ri.2) into) ∧
      ∀ e, e ∈ r.foldl (fun acc ri => mapAssign acc ri.1 ri.2) into ↔
        e ∈ r ∨ (e ∈ into ∧ e.1 ∉ r.map Prod.fst) := by
  induction r with
  | nil => intro into hi _; simp [hi]
  | cons e1 r ih =>
    obtain ⟨k, v⟩ := e1
    intro into hi hr
    unfold Ascending at hr
    rw [List.pairwise_cons] at hr
    obtain ⟨ha, hm⟩ := ih (mapAssign into k v) (ascending_mapAssign into k v hi) hr.2
    refine ⟨ha, ?_⟩
    intro e
    have hk : k ∉ r.map Prod.fst := not_mem_keys_of_lt r k hr.1
    simp only [List.foldl_cons, hm e, mem_mapAssign_iff into k v hi, List.mem_cons, List.map_cons]
    constructor
    · rintro (h1 | ⟨h1 | ⟨h1, h2⟩, h3⟩)
      · exact Or.inl (Or.inr h1)
      · exact Or.inl (Or.inl h1)
      · refine Or.inr ⟨h1, ?_⟩
        rintro (h4 | h4)
        · exact h2 h4
        · exact h3 h4
    · rintro ((h1 | h1) | ⟨h1, h2⟩)
      · exact Or.inr ⟨Or.inl h1, by rw [h1]; exact hk⟩
      · exact Or.inl h1
      · exact Or.inr ⟨Or.inr ⟨h1, fun h3 => h2 (Or.inl h3)⟩, fun h3 => h2 (Or.inr h3)⟩

/-- C10: for every pair of MixedArrays `into` and `right` (maps, so with keys in ascending
order), `merge(into, right, false)` succeeds and leaves in `into` exactly the entries of
`into` together with the entries of `right` whose key `into` did not have (the key set is
the union, keys of `into` keep their value, every other key has `right`'s value);
`merge(into, right, true)` succeeds and leaves exactly the entries of `right` together
with the entries of `into` whose key `right` does not have.  The result is again a map. -/
theorem merge_entries (into right : Dmap) (hi : Ascending into) (hr : Ascending right) :
    (∃ m, AMFMixedArray.merge into (.AMFMixedArray right) false = .ok m ∧ Ascending m ∧
      (∀ k, k ∈ m.map Prod.fst ↔ k ∈ into.map Prod.fst ∨ k ∈ right.map Prod.fst) ∧
      (∀ e, e ∈ m ↔ e ∈ into ∨ (e ∈ right ∧ e.1 ∉ into.map Prod.fst))) ∧
    (∃ m, AMFMixedArray.merge into (.AMFMixedArray right) true = .ok m ∧ Ascending m ∧
      (∀ k, k ∈ m.map Prod.fst ↔ k ∈ into.map Prod.fst ∨ k ∈ right.map Prod.fst) ∧
      (∀ e, e ∈ m ↔ e ∈ right ∨ (e ∈ into ∧ e.1 ∉ right.map Prod.fst))) := by
  obtain ⟨ha1, hm1⟩ := foldl_mapInsert right into hi hr
  obtain ⟨ha2, hm2⟩ := foldl_mapAssign right into hi hr
  refine ⟨⟨_, rfl, ?_, ?_, ?_⟩, ⟨_, rfl, ?_, ?_, ?_⟩⟩
  · simpa using ha1
  · intro k
    simp only [Bool.false_eq_true, if_false, List.mem_map, hm1]
    constructor
    · rintro ⟨e, he | ⟨he, _⟩, hk⟩
      · exact Or.inl ⟨e, he, hk⟩
      · exact Or.inr ⟨e, he, hk⟩
    · rintro (⟨e, he, hk⟩ | ⟨e, he, hk⟩)
      · exact ⟨e, Or.inl he, hk⟩
      · by_cases hin : k ∈ into.map Prod.fst
        · obtain ⟨e1, he1, hk1⟩ := List.mem_map.mp hin
          exact ⟨e1, Or.inl he1, hk1⟩
        · exact ⟨e, Or.inr ⟨he, by rw [hk]; exact fun h => hin (List.mem_map.mpr h)⟩, hk⟩
  · simpa using hm1
  · simpa using ha2
  · intro k
    simp only [if_true, List.mem_map, hm2]
    constructor
    · rintro ⟨e, he | ⟨he, _⟩, hk⟩
      · exact Or.inr ⟨e, he, hk⟩
      · exact Or.inl ⟨e, he, hk⟩
    · rintro (⟨e, he, hk⟩ | ⟨e, he, hk⟩)
      · by_cases hin : k ∈ right.map Prod.fst
        · obtain ⟨e1, he1, hk1⟩ := List.mem_map.mp hin
          exact ⟨e1, Or.inl he1, hk1⟩
        · exact ⟨e, Or.inr ⟨he, by rw [hk]; exact fun h => hin (List.mem_map.mpr h)⟩, hk⟩
      · exact ⟨e, Or.inl he, hk⟩
  · simpa using hm2

/-! ## C5, C7, C8, C9: runs of `main` on sample inputs -/

set_option maxRecDepth 100000

/-- C5 (failing input): with `-tag datasize x` the first encode of `onMetaData` ends at
offset 502 of the output, where the tag's trailer begins, and the second encode, written
at the same start, ends at offset 507: it is five bytes longer, the string `x` having
been replaced by a Double. -/
theorem datasize_tag_changes_encoded_length :
    (main ["flvtool++", "-tag", "datasize", "x", "in.flv", "out.flv"]
        (oneFile (sampleHeader ++ sampleKeyframe)) sampleNow).map (fun r => r.write_ends) =
      .ok (some (502, 507)) := by
  decide!

/-- C7 (failing input): run with default options on a file whose only tag is a script
tag keyed `onMetaData`, the output holds, after the generated script tag and its trailer
(offsets 13 to 473), a copy of that input tag. -/
theorem onMetaData_tag_is_copied :
    (main ["flvtool++", "in.flv", "out.flv"]
        (oneFile (sampleHeader ++ sampleMetaTag)) sampleNow).map
        (fun r => r.output.map (fun out => (out.length, out.drop 474))) =
      .ok (some (474 + sampleMetaTag.length, sampleMetaTag)) := by
  decide!

/-- C8 (failing input): with `-tag keyframes x -tag datasize y` the value written under
`keyframes` is an Object (type 3) and the value under `datasize` a Double (type 0),
neither the String (type 2) asked for. -/
theorem generated_tags_override_manual_tags :
    (main ["flvtool++", "-tag", "keyframes", "x", "-tag", "datasize", "y", "in.flv", "out.flv"]
        (oneFile (sampleHeader ++ sampleKeyframe)) sampleNow).map
        (fun r => ((mapFind r.onMetaData (str "keyframes")).map AMFData.typeID,
                   (mapFind r.onMetaData (str "datasize")).map AMFData.typeID)) =
      .ok (some AMF_TYPE_OBJECT, some AMF_TYPE_DOUBLE) := by
  decide!

/-- C9 (failing input): on a 29-byte file whose only tag lacks its 4-byte trailer, pass 1
counts the tag (one video frame, `fend` left at the end of the file) and pass 2 reads
past the end of the file while copying it. -/
theorem cut_tag_is_counted_and_copied :
    (pass1 false (sampleHeader ++ sampleCutTag)).map (fun s => (s.fend, s.vframe_count)) =
      .ok (29, 1) ∧
    (main ["flvtool++", "in.flv", "out.flv"]
        (oneFile (sampleHeader ++ sampleCutTag)) sampleNow).map (fun r => r.output) =
      .error .out_of_bounds := by
  decide!

/-- Witness for C4 (amended): the raw timestamps `0x01000100` and `0x000050` (the second
without its extension byte) come back as `0x01000100`, `0x02000050`. -/
theorem videoRun_nondecreasing_witness :
    everyRegressionRepaired [(0, 1, 0, 1), (0, 0, 0x50, 0)] ⟨0, false⟩ = true ∧
    videoRun [(0, 1, 0, 1), (0, 0, 0x50, 0)] ⟨0, false⟩ = .ok [0x01000100, 0x02000050] ∧
    (match videoRun [(0, 1, 0, 1), (0, 0, 0x50, 0)] ⟨0, false⟩ with
     | .ok out => out.Pairwise (fun a b => a ≤ b)
     | .error e => e = .assert_fail) :=
  ⟨by decide, by decide, videoRun_nondecreasing _ (by decide)⟩

/-- Witness for C10: merging `{b: true, c: "x"}` into `{a: Null, c: 1.0}`. -/
theorem merge_entries_witness :
    AMFMixedArray.merge [(str "a", .AMFNull), (str "c", .AMFDouble 0x3FF0000000000000)]
        (.AMFMixedArray [(str "b", .AMFBoolean true), (str "c", .AMFString (str "x"))]) false =
      .ok [(str "a", .AMFNull), (str "b", .AMFBoolean true),
           (str "c", .AMFDouble 0x3FF0000000000000)] ∧
    AMFMixedArray.merge [(str "a", .AMFNull), (str "c", .AMFDouble 0x3FF0000000000000)]
        (.AMFMixedArray [(str "b", .AMFBoolean true), (str "c", .AMFString (str "x"))]) true =
      .ok [(str "a", .AMFNull), (str "b", .AMFBoolean true), (str "c", .AMFString (str "x"))] ∧
    ((∃ m, AMFMixedArray.merge [(str "a", .AMFNull), (str "c", .AMFDouble 0x3FF0000000000000)]
        (.AMFMixedArray [(str "b", .AMFBoolean true), (str "c", .AMFString (str "x"))]) false =
          .ok m ∧ Ascending m ∧
        (∀ k, k ∈ m.map Prod.fst ↔
          k ∈ [(str "a", AMFData.AMFNull), (str "c", .AMFDouble 0x3FF0000000000000)].map Prod.fst ∨
          k ∈ [(str "b", AMFData.AMFBoolean true), (str "c", .AMFString (str "x"))].map Prod.fst) ∧
        (∀ e, e ∈ m ↔ e ∈ [(str "a", AMFData.AMFNull), (str "c", .AMFDouble 0x3FF0000000000000)] ∨
          (e ∈ [(str "b", AMFData.AMFBoolean true), (str "c", .AMFString (str "x"))] ∧
            e.1 ∉ [(str "a", AMFData.AMFNull),
              (str "c", .AMFDouble 0x3FF0000000000000)].map Prod.fst))) ∧
     (∃ m, AMFMixedArray.merge [(str "a", .AMFNull), (str "c", .AMFDouble 0x3FF0000000000000)]
        (.AMFMixedArray [(str "b", .AMFBoolean true), (str "c", .AMFString (str "x"))]) true =
          .ok m ∧ Ascending m ∧
        (∀ k, k ∈ m.map Prod.fst ↔
          k ∈ [(str "a", AMFData.AMFNull), (str "c", .AMFDouble 0x3FF0000000000000)].map Prod.fst ∨
          k ∈ [(str "b", AMFData.AMFBoolean true), (str "c", .AMFString (str "x"))].map Prod.fst) ∧
        (∀ e, e ∈ m ↔ e ∈ [(str "b", AMFData.AMFBoolean true), (str "c", .AMFString (str "x"))] ∨
          (e ∈ [(str "a", AMFData.AMFNull), (str "c", .AMFDouble 0x3FF0000000000000)] ∧
            e.1 ∉ [(str "b", AMFData.AMFBoolean true),
              (str "c", .AMFString (str "x"))].map Prod.fst)))) :=
  ⟨by rfl, by rfl,
   merge_entries _ _ (by unfold Ascending; decide) (by unfold Ascending; decide)⟩

/-! ## C11: `merge` and the type of its operand -/

/-- C11: `AMFMixedArray::merge` returns exactly when `right` is a MixedArray, for both
values of `overwrite`; for every other value (an Object included) it throws the
`runtime_error` "attempt to merge with something other than a MixedArray" and the map of
`this` is what it was before the call. -/
theorem merge_type_mismatch (dmap : Dmap) (right : AMFData) (overwrite : Bool) :
    (∃ r m, right = .AMFMixedArray r ∧
      AMFMixedArray.merge dmap right overwrite = .ok m ∧
      AMFMixedArray.mergeState dmap right overwrite = (m, .ok ())) ∨
    ((∀ r, right ≠ .AMFMixedArray r) ∧
      AMFMixedArray.merge dmap right overwrite =
        .error (.runtime_error .merge_not_mixed_array) ∧
      AMFMixedArray.mergeState dmap right overwrite =
        (dmap, .error (.runtime_error .merge_not_mixed_array))) := by
  cases right with
  | AMFMixedArray r =>
    exact Or.inl ⟨r, _, rfl, rfl, by simp [AMFMixedArray.mergeState, AMFData.typeID]⟩
  | _ =>
    refine Or.inr ⟨?_, rfl, ?_⟩
    · intro r h
      cases h
    · simp [AMFMixedArray.mergeState, AMFData.typeID, AMF_TYPE_DOUBLE, AMF_TYPE_BOOLEAN,
        AMF_TYPE_STRING, AMF_TYPE_OBJECT, AMF_TYPE_NULL, AMF_TYPE_UNDEFINED,
        AMF_TYPE_MIXED_ARRAY, AMF_TYPE_ARRAY, AMF_TYPE_DATE, AMF_TYPE_UNSUPPORTED]

/-! ## C12: the dispatch of `AMFData::construct` -/

theorem consume_not_runtime (b : serialized_buffer) (n : Nat) (w : RuntimeError) :
    b.consume n ≠ .error (.runtime_error w) := by
  unfold serialized_buffer.consume
  split <;> simp

theorem deref_not_runtime (r : List Byte) (n : Nat) (w : RuntimeError) :
    deref r n ≠ .error (.runtime_error w) := by
  unfold deref
  split <;> simp

theorem get_u8_not_runtime (b : serialized_buffer) (w : RuntimeError) :
    b.get_u8 ≠ .error (.runtime_error w) := by
  intro h
  unfold serialized_buffer.get_u8 at h
  split at h
  · cases h
    exact consume_not_runtime _ _ _ (by assumption)
  · split at h
    · cases h
      exact deref_not_runtime _ _ _ (by assumption)
    · cases h

theorem get_u16_be_not_runtime (b : serialized_buffer) (w : RuntimeError) :
    b.get_u16_be ≠ .error (.runtime_error w) := by
  intro h
  unfold serialized_buffer.get_u16_be at h
  split at h
  · cases h
    exact consume_not_runtime _ _ _ (by assumption)
  · split at h
    · cases h
      exact deref_not_runtime _ _ _ (by assumption)
    · cases h

theorem get_u32_be_not_runtime (b : serialized_buffer) (w : RuntimeError) :
    b.get_u32_be ≠ .error (.runtime_error w) := by
  intro h
  unfold serialized_buffer.get_u32_be at h
  split at h
  · cases h
    exact consume_not_runtime _ _ _ (by assumption)
  · split at h
    · cases h
      exact deref_not_runtime _ _ _ (by assumption)
    · cases h

theorem get_double_be_not_runtime (b : serialized_buffer) (w : RuntimeError) :
    b.get_double_be ≠ .error (.runtime_error w) := by
  intro h
  unfold serialized_buffer.get_double_be serialized_buffer.get_u64_be at h
  split at h
  · cases h
    exact consume_not_runtime _ _ _ (by assumption)
  · split at h
    · cases h
      exact deref_not_runtime _ _ _ (by assumption)
    · cases h

theorem get_bytes_not_runtime (b : serialized_buffer) (n : Nat) (w : RuntimeError) :
    b.get_bytes n ≠ .error (.runtime_error w) := by
  intro h
  unfold serialized_buffer.get_bytes at h
  split at h
  · cases h
    exact consume_not_runtime _ _ _ (by assumption)
  · split at h
    · cases h
      exact deref_not_runtime _ _ _ (by assumption)
    · cases h

/-- The `runtime_error` for an unknown type byte names a byte `construct` has no `case`
for, at every depth of the recursion. -/
theorem unknown_typeID_fuel (fuel : Nat) :
    (∀ (buf : serialized_buffer) (t : Nat),
      constructF fuel buf = .error (.runtime_error (.unknown_typeID t)) → t ∉ knownTypeIDs) ∧
    (∀ (buf : serialized_buffer) (acc : Dmap) (t : Nat),
      _constructF fuel buf acc = .error (.runtime_error (.unknown_typeID t)) →
        t ∉ knownTypeIDs) ∧
    (∀ (len : Nat) (buf : serialized_buffer) (acc : List AMFData) (t : Nat),
      constructElems fuel len buf acc = .error (.runtime_error (.unknown_typeID t)) →
        t ∉ knownTypeIDs) := by
  induction fuel with
  | zero =>
    refine ⟨?_, ?_, ?_⟩
    · intro buf t h
      simp [constructF] at h
    · intro buf acc t h
      simp [_constructF] at h
    · intro len buf acc t h
      simp [constructElems] at h
  | succ fuel ih =>
    obtain ⟨ihv, ihm, iha⟩ := ih
    refine ⟨?_, ?_, ?_⟩
    · intro buf t h
      rw [constructF] at h
      repeat' split at h
      all_goals first
        | cases h; done
        | (cases h; exact absurd (by assumption) (get_u8_not_runtime _ _))
        | (cases h; exact absurd (by assumption) (get_u16_be_not_runtime _ _))
        | (cases h; exact absurd (by assumption) (get_u32_be_not_runtime _ _))
        | (cases h; exact absurd (by assumption) (get_double_be_not_runtime _ _))
        | (cases h; exact absurd (by assumption) (get_bytes_not_runtime _ _ _))
        | (cases h; exact ihm _ _ _ (by assumption))
        | (cases h; exact iha _ _ _ _ (by assumption))
        | (clear ihv ihm iha; cases h; simp_all [knownTypeIDs])
    · intro buf acc t h
      rw [_constructF] at h
      repeat' split at h
      all_goals first
        | cases h; done
        | (cases h; exact absurd (by assumption) (get_u8_not_runtime _ _))
        | (cases h; exact absurd (by assumption) (get_u16_be_not_runtime _ _))
        | (cases h; exact absurd (by assumption) (get_bytes_not_runtime _ _ _))
        | (cases h; exact ihv _ _ (by assumption))
        | exact ihm _ _ _ h
    · intro len buf acc t h
      cases len with
      | zero => simp [constructElems] at h
      | succ len =>
        rw [constructElems] at h
        split at h
        · cases h
          exact ihv _ _ (by assumption)
        · exact iha _ _ _ _ h


/-! ## C13, C14: the getters of `serialized_buffer` -/

theorem getter_after (b : serialized_buffer) (w : Nat) (f : List Byte → Nat)
    (hmem : b.len ≤ b.p.length) :
    Except.map Prod.snd
      (match b.consume w with
       | .error e => (Except.error e : Except Fault (Nat × serialized_buffer))
       | .ok (r, b1) =>
         match deref r w with
         | .error e => Except.error e
         | .ok bs => Except.ok (f bs, b1)) =
      b.after w := by
  unfold serialized_buffer.consume serialized_buffer.after deref
  by_cases h : b.len < w
  · simp [h, Except.map]
  · have h2 : ¬ b.p.length < w := by omega
    simp [h, h2, Except.map]

theorem getter_after24 (b : serialized_buffer) (f : List Byte → Nat) :
    Except.map Prod.snd
      (match b.consume 3 with
       | .error e => (Except.error e : Except Fault (Nat × serialized_buffer))
       | .ok (r, b1) =>
         match deref r 4 with
         | .error e => Except.error e
         | .ok bs => Except.ok (f bs, b1)) =
      b.after24 := by
  unfold serialized_buffer.consume serialized_buffer.after24 deref
  by_cases h : b.len < 3
  · simp [h, Except.map]
  · by_cases h2 : b.p.length < 4
    · simp [h, h2, Except.map]
    · simp [h, h2, Except.map]

/-- C13: on a cursor whose remaining bytes exist in memory, every getter of width `w`
other than the two 24-bit ones leaves the cursor advanced by `w` with `w` fewer bytes
remaining when `remaining >= w`, and throws `end_of_buffer(w, remaining)` otherwise, the
cursor being as it was; `get_u24_be` and `get_u24_le` consume 3 bytes in the same way but
load 4 bytes from memory, which is a read outside the memory when the cursor holds its
last 3 bytes. -/
theorem read_contract (b : serialized_buffer) (w : Nat) (hmem : b.len ≤ b.p.length) :
    (b.consumeState w).1 = (if b.len < w then b else ⟨b.p.drop w, b.len - w⟩) ∧
    (b.consumeState w).2.map (fun r => (r, (b.consumeState w).1)) = b.consume w ∧
    (b.consume w).map Prod.snd = b.after w ∧
    (b.get_bytes w).map Prod.snd = b.after w ∧
    b.get_u8.map Prod.snd = b.after 1 ∧
    b.get_u16_be.map Prod.snd = b.after 2 ∧
    b.get_u16_le.map Prod.snd = b.after 2 ∧
    b.get_u32_be.map Prod.snd = b.after 4 ∧
    b.get_u32_le.map Prod.snd = b.after 4 ∧
    b.get_u64_be.map Prod.snd = b.after 8 ∧
    b.get_u64_le.map Prod.snd = b.after 8 ∧
    b.get_double_be.map Prod.snd = b.after 8 ∧
    b.get_double_le.map Prod.snd = b.after 8 ∧
    b.get_u24_be.map Prod.snd = b.after24 ∧
    b.get_u24_le.map Prod.snd = b.after24 := by
  refine ⟨?_, ?_, ?_, ?_, getter_after b 1 _ hmem, getter_after b 2 _ hmem,
    getter_after b 2 _ hmem, getter_after b 4 _ hmem, getter_after b 4 _ hmem,
    getter_after b 8 _ hmem, getter_after b 8 _ hmem, getter_after b 8 _ hmem,
    getter_after b 8 _ hmem, getter_after24 b _, getter_after24 b _⟩
  · unfold serialized_buffer.consumeState
    split <;> rfl
  · unfold serialized_buffer.consumeState serialized_buffer.consume
    split <;> rfl
  · unfold serialized_buffer.consume serialized_buffer.after
    split <;> rfl
  · unfold serialized_buffer.get_bytes serialized_buffer.consume serialized_buffer.after deref
    by_cases h : b.len < w
    · simp [h, Except.map]
    · have h2 : ¬ b.p.length < w := by omega
      simp [h, h2, Except.map]

/-- Witness for C13: a cursor over the three bytes `01 02 03`, read with width 2; on this
cursor both 24-bit getters load a byte that is not there. -/
theorem read_contract_witness :
    (serialized_buffer.ofBytes [1, 2, 3]).len ≤ (serialized_buffer.ofBytes [1, 2, 3]).p.length ∧
    (serialized_buffer.ofBytes [1, 2, 3]).get_u16_be = .ok (0x0102, ⟨[3], 1⟩) ∧
    (serialized_buffer.ofBytes [1, 2, 3]).get_u32_be = .error (.end_of_buffer 4 3) ∧
    (serialized_buffer.ofBytes [1, 2, 3]).get_u24_be = .error .out_of_bounds ∧
    (serialized_buffer.ofBytes [1, 2, 3]).get_u24_le = .error .out_of_bounds ∧
    (serialized_buffer.ofBytes [1, 2, 3]).get_u24_le.map Prod.snd =
      (serialized_buffer.ofBytes [1, 2, 3]).after24 :=
  ⟨by decide, by decide!, by decide!, by decide!, by decide!,
    (read_contract (serialized_buffer.ofBytes [1, 2, 3]) 2 (by decide)).2.2.2.2.2.2.2.2.2.2.2.2.2.2⟩

theorem bswap4_load (b0 b1 b2 b3 : Byte) :
    bswap 4 (load_le [b0, b1, b2, b3]) = load_le [b3, b2, b1, b0] :=
  bswap_load_le [b0, b1, b2, b3]

theorem bswap2_load (b0 b1 : Byte) : bswap 2 (load_le [b0, b1]) = load_le [b1, b0] :=
  bswap_load_le [b0, b1]

theorem load_le_mask24 (b0 b1 b2 b3 : Byte) :
    load_le [b0, b1, b2, b3] &&& 0x00ffffff = load_le [b0, b1, b2, 0] := by
  have h0 := b0.isLt
  have h1 := b1.isLt
  have h2 := b2.isLt
  have e : (0x00ffffff : Nat) = 2 ^ 24 - 1 := by norm_num
  rw [e, Nat.and_pow_two_sub_one_eq_mod]
  simp only [load_le, Fin.val_zero]
  omega

/-- C14: on the little-endian build `get_u16_be` and `get_u32_be` return the big-endian
integer of the bytes they consume and `get_u24_le` the little-endian integer of its three
bytes, whatever the fourth byte it loads; `get_u24_be` masks the loaded word before it
swaps it and returns `b0*2^24 + b1*2^16 + b2*2^8`, which is 256 times the big-endian
integer of its three bytes.  The two 24-bit getters consume three bytes. -/
theorem getter_values (b0 b1 b2 b3 : Byte) (p : List Byte) (n : Nat) :
    serialized_buffer.get_u16_be ⟨b0 :: b1 :: p, n + 2⟩ =
      .ok (b0.val * 256 + b1.val, ⟨p, n⟩) ∧
    serialized_buffer.get_u32_be ⟨b0 :: b1 :: b2 :: b3 :: p, n + 4⟩ =
      .ok (b0.val * 2 ^ 24 + b1.val * 2 ^ 16 + b2.val * 2 ^ 8 + b3.val, ⟨p, n⟩) ∧
    serialized_buffer.get_u24_le ⟨b0 :: b1 :: b2 :: b3 :: p, n + 3⟩ =
      .ok (b0.val + b1.val * 256 + b2.val * 65536, ⟨b3 :: p, n⟩) ∧
    serialized_buffer.get_u24_be ⟨b0 :: b1 :: b2 :: b3 :: p, n + 3⟩ =
      .ok (256 * (b0.val * 65536 + b1.val * 256 + b2.val), ⟨b3 :: p, n⟩) ∧
    serialized_buffer.get_u24_be (.ofBytes [0, 0, 1, 0]) = .ok (256, ⟨[0], 1⟩) := by
  have hL : ∀ (m : Nat), ¬ (m + 1 + 1 + 1 + 1 < 4) := fun m => by omega
  refine ⟨?_, ?_, ?_, ?_, by decide!⟩
  · simp only [serialized_buffer.get_u16_be, serialized_buffer.consume, deref, BE16, bswap_16,
      Nat.add_sub_cancel, List.drop_succ_cons, List.drop_zero]
    rw [if_neg (by omega)]
    simp only [List.length_cons]
    rw [if_neg (by omega)]
    simp only [List.take_succ_cons, List.take_zero]
    rw [bswap2_load]
    simp only [load_le]
    congr 2
    omega
  · simp only [serialized_buffer.get_u32_be, serialized_buffer.consume, deref, BE32, bswap_32,
      Nat.add_sub_cancel, List.drop_succ_cons, List.drop_zero]
    rw [if_neg (by omega)]
    simp only [List.length_cons]
    rw [if_neg (hL _)]
    simp only [List.take_succ_cons, List.take_zero]
    rw [bswap4_load]
    simp only [load_le]
    congr 2
    omega
  · simp only [serialized_buffer.get_u24_le, serialized_buffer.consume, deref, LE32,
      Nat.add_sub_cancel, List.drop_succ_cons, List.drop_zero]
    rw [if_neg (by omega)]
    simp only [List.length_cons]
    rw [if_neg (hL _)]
    simp only [List.take_succ_cons, List.take_zero]
    rw [load_le_mask24]
    simp only [load_le, Fin.val_zero]
    congr 2
    omega
  · simp only [serialized_buffer.get_u24_be, serialized_buffer.consume, deref, BE32, bswap_32,
      Nat.add_sub_cancel, List.drop_succ_cons, List.drop_zero]
    rw [if_neg (by omega)]
    simp only [List.length_cons]
    rw [if_neg (hL _)]
    simp only [List.take_succ_cons, List.take_zero]
    rw [load_le_mask24, bswap4_load]
    simp only [load_le, Fin.val_zero]
    congr 2
    omega

/-! ## C15, C16: Exp-Golomb codes -/

theorem get_bit_value (x l : Nat) : ((x &&& (1 <<< l)) >>> l) &&& 1 = x / 2 ^ l % 2 := by
  rw [Nat.one_shiftLeft, Nat.and_two_pow, Nat.shiftRight_eq_div_pow,
    Nat.mul_div_cancel _ (Nat.pos_pow_of_pos l (by decide)), Nat.and_one_is_mod,
    Nat.toNat_testBit, Nat.mod_mod]

theorem natBits_length (n x : Nat) : (natBits n x).length = n := by
  induction n with
  | zero => rfl
  | succ n ih => simp [natBits, ih]

theorem bytesBits_length (bs : List Byte) : (bytesBits bs).length = 8 * bs.length := by
  induction bs with
  | nil => rfl
  | cons b bs ih =>
    simp only [bytesBits, List.length_append, natBits_length, ih, List.length_cons]
    omega

theorem bitstream.pending_length (bs : bitstream) :
    bs.pending.length ≤ bs.last_used_bit + 8 * bs.buffer.p.length := by
  simp only [bitstream.pending, List.length_append, natBits_length, bytesBits_length,
    List.length_take]
  omega

/-- One call of `get_bit` hands out the first pending bit. -/
theorem get_bit_pending (bs : bitstream) (hok : bs.InMemory) (b : Nat) (r : List Nat)
    (hp : bs.pending = b :: r) :
    ∃ bs1, bs.get_bit = .ok (b, bs1) ∧ bs1.pending = r ∧ bs1.InMemory ∧
      bs1.last_used_bit + 8 * bs1.buffer.p.length < bs.last_used_bit + 8 * bs.buffer.p.length := by
  obtain ⟨⟨p, len⟩, cb, lub⟩ := bs
  simp only [bitstream.InMemory] at hok
  cases lub with
  | zero =>
    simp only [bitstream.pending, natBits, List.nil_append] at hp
    cases len with
    | zero => simp [bytesBits] at hp
    | succ len =>
      cases p with
      | nil => simp at hok
      | cons c p =>
        simp only [List.take_succ_cons, bytesBits, natBits, List.cons_append,
          List.cons.injEq] at hp
        obtain ⟨hb, hr⟩ := hp
        refine ⟨⟨⟨p, len⟩, c.val, 7⟩, ?_, ?_, ?_, ?_⟩
        · simp only [bitstream.get_bit, bitstream.refill, if_true, get_u8_cons]
          simp only [Nat.reduceSub, get_bit_value, hb]
        · simp only [bitstream.pending, natBits]
          exact hr
        · simp only [bitstream.InMemory, List.length_cons] at hok ⊢
          omega
        · simp only [List.length_cons]
          omega
  | succ l =>
    simp only [bitstream.pending, natBits, List.cons_append, List.cons.injEq] at hp
    obtain ⟨hb, hr⟩ := hp
    refine ⟨⟨⟨p, len⟩, cb, l⟩, ?_, ?_, hok, ?_⟩
    · simp only [bitstream.get_bit, Nat.add_one_ne_zero, if_false, Nat.add_sub_cancel,
        get_bit_value, hb]
    · simp only [bitstream.pending]
      exact hr
    · simp only []
      omega

theorem natBits_lt (n x : Nat) : ∀ b ∈ natBits n x, b < 2 := by
  induction n with
  | zero => intro b hb; simp [natBits] at hb
  | succ n ih =>
    intro b hb
    simp only [natBits, List.mem_cons] at hb
    rcases hb with hb | hb
    · rw [hb]
      exact Nat.mod_lt _ (by decide)
    · exact ih b hb

/-- The loop of `get_bits` accumulates the pending bits it reads, most significant
first. -/
theorem get_bits_loop_natBits (n : Nat) :
    ∀ (x acc : Nat) (bs : bitstream) (rest : List Nat), bs.InMemory →
      bs.pending = natBits n x ++ rest → (acc + 1) * 2 ^ n ≤ 2 ^ 32 →
      ∃ bs1, bitstream.get_bits_loop n acc bs = .ok (acc * 2 ^ n + x % 2 ^ n, bs1) ∧
        bs1.pending = rest ∧ bs1.InMemory := by
  induction n with
  | zero =>
    intro x acc bs rest hok hp _
    refine ⟨bs, ?_, ?_, hok⟩
    · simp [bitstream.get_bits_loop, Nat.mod_one]
    · simpa [natBits] using hp
  | succ n ih =>
    intro x acc bs rest hok hp hb
    simp only [natBits, List.cons_append] at hp
    obtain ⟨bs1, h1, h2, h3, _⟩ := get_bit_pending bs hok _ _ hp
    have hpow : 0 < 2 ^ n := Nat.pos_pow_of_pos n (by decide)
    have hbit : x / 2 ^ n % 2 < 2 := Nat.mod_lt _ (by decide)
    have hacc : 2 * acc + 2 ≤ 2 ^ 32 := by
      have h4 : (acc + 1) * 2 ≤ (acc + 1) * 2 ^ (n + 1) :=
        Nat.mul_le_mul_left _ (by rw [pow_succ]; omega)
      omega
    have hstep : (acc <<< 1) % 2 ^ 32 ||| (x / 2 ^ n % 2) = 2 * acc + x / 2 ^ n % 2 := by
      rw [Nat.shiftLeft_eq, Nat.mod_eq_of_lt (by omega), pow_one, Nat.mul_comm acc 2]
      have := Nat.mul_add_lt_is_or (i := 1) (b := x / 2 ^ n % 2) (by simpa using hbit) acc
      simpa using this.symm
    have hb2 : (2 * acc + x / 2 ^ n % 2 + 1) * 2 ^ n ≤ 2 ^ 32 := by
      have h5 : (2 * acc + x / 2 ^ n % 2 + 1) * 2 ^ n ≤ (2 * acc + 2) * 2 ^ n :=
        Nat.mul_le_mul_right _ (by omega)
      have h6 : (2 * acc + 2) * 2 ^ n = (acc + 1) * 2 ^ (n + 1) := by
        rw [pow_succ]
        ring
      omega
    obtain ⟨bs2, g1, g2, g3⟩ := ih x (2 * acc + x / 2 ^ n % 2) bs1 rest h3 h2 hb2
    refine ⟨bs2, ?_, g2, g3⟩
    rw [bitstream.get_bits_loop, h1]
    simp only [hstep]
    rw [g1]
    congr 2
    rw [Nat.mod_pow_succ, pow_succ]
    ring

/-- The loop `while (! get_bit()) ++leading_zeros;` counts the zero bits before the first
one bit and consumes that bit. -/
theorem count_zeros_pending (z : Nat) :
    ∀ (lz fuel : Nat) (bs : bitstream) (rest : List Nat), bs.InMemory →
      bs.pending = List.replicate z 0 ++ 1 :: rest → z < fuel → lz + z < 2 ^ 32 →
      ∃ bs1, bitstream.count_zeros fuel lz bs = .ok (lz + z, bs1) ∧ bs1.pending = rest ∧
        bs1.InMemory := by
  induction z with
  | zero =>
    intro lz fuel bs rest hok hp hf _
    simp only [List.replicate_zero, List.nil_append] at hp
    obtain ⟨bs1, h1, h2, h3, _⟩ := get_bit_pending bs hok _ _ hp
    cases fuel with
    | zero => omega
    | succ fuel =>
      refine ⟨bs1, ?_, h2, h3⟩
      rw [bitstream.count_zeros, h1]
      simp
  | succ z ih =>
    intro lz fuel bs rest hok hp hf hlz
    simp only [List.replicate_succ, List.cons_append] at hp
    obtain ⟨bs1, h1, h2, h3, _⟩ := get_bit_pending bs hok _ _ hp
    cases fuel with
    | zero => omega
    | succ fuel =>
      obtain ⟨bs2, g1, g2, g3⟩ := ih (lz + 1) fuel bs1 rest h3 h2 (by omega) (by omega)
      refine ⟨bs2, ?_, g2, g3⟩
      rw [bitstream.count_zeros, h1]
      simp only [if_true]
      rw [Nat.mod_eq_of_lt (by omega), g1]
      congr 2
      omega

/-- The method `get_golomb_ue` on a cursor whose pending bits begin with the code word
of `u`. -/
theorem get_golomb_ue_code (z u : Nat) (bs : bitstream) (rest : List Nat)
    (hok : bs.InMemory) (hz1 : 2 ^ z ≤ u + 1) (hz2 : u + 1 < 2 ^ (z + 1)) (hz : z ≤ 31)
    (hp : bs.pending = ueCode z u ++ rest) :
    ∃ bs1, bs.get_golomb_ue = .ok (u, bs1) ∧ bs1.pending = rest ∧ bs1.InMemory := by
  simp only [ueCode, List.append_assoc, List.cons_append] at hp
  have hlen := bs.pending_length
  rw [hp] at hlen
  simp only [List.length_append, List.length_replicate, List.length_cons] at hlen
  obtain ⟨bs1, h1, h2, h3⟩ := count_zeros_pending z 0
    (8 * bs.buffer.p.length + bs.last_used_bit + 1) bs _ hok hp (by omega) (by omega)
  obtain ⟨bs2, g1, g2, g3⟩ := get_bits_loop_natBits z (u + 1) 0 bs1 rest h3 h2
    (by
      have : 2 ^ z ≤ 2 ^ 31 := Nat.pow_le_pow_right (by decide) hz
      omega)
  refine ⟨bs2, ?_, g2, g3⟩
  have hmod : (u + 1) % 2 ^ z = u + 1 - 2 ^ z := by
    rw [Nat.mod_eq_sub_mod hz1, Nat.mod_eq_of_lt (by rw [pow_succ] at hz2; omega)]
  have hor : (1 <<< z) ||| ((u + 1) % 2 ^ z) = u + 1 := by
    have := Nat.mul_add_lt_is_or (i := z) (b := (u + 1) % 2 ^ z)
      (Nat.mod_lt _ (Nat.pos_pow_of_pos z (by decide))) 1
    simp only [Nat.mul_one] at this
    rw [Nat.one_shiftLeft, ← this, hmod]
    omega
  have hu : u + 1 ≤ 2 ^ 32 := by
    have : 2 ^ (z + 1) ≤ 2 ^ 32 := Nat.pow_le_pow_right (by decide) (by omega)
    omega
  simp only [Nat.zero_add] at h1
  simp only [Nat.zero_mul, Nat.zero_add] at g1
  unfold bitstream.get_golomb_ue
  rw [h1]
  simp only []
  unfold bitstream.get_bits
  rw [Nat.mod_eq_of_lt (by omega : z < 256), if_pos (by omega), g1]
  simp only []
  rw [if_pos (by omega), hor]
  have e : (u + 1 + (2 ^ 32 - 1)) % 2 ^ 32 = u := by omega
  rw [e]

theorem init_pending (bytes : List Byte) :
    (bitstream.init (.ofBytes bytes)).pending = bytesBits bytes ∧
      (bitstream.init (.ofBytes bytes)).InMemory := by
  simp [bitstream.init, serialized_buffer.ofBytes, bitstream.pending, bitstream.InMemory, natBits]

theorem ueCode_length (z u : Nat) : (ueCode z u).length = 2 * z + 1 := by
  simp only [ueCode, List.length_append, List.length_replicate, List.length_cons, natBits_length]
  omega

theorem leading_zeros_le (z u : Nat) (hz1 : 2 ^ z ≤ u + 1) (hu : u + 1 < 2 ^ 32) : z ≤ 31 := by
  by_contra hc
  have : 2 ^ 32 ≤ 2 ^ z := Nat.pow_le_pow_right (by decide) (by omega)
  omega

/-- C15: for every `u` in `[0, 2^31 - 1]`, with `z` the number of leading zeros of its
code word (`2^z <= u + 1 < 2^(z+1)`), `get_golomb_ue` on a fresh bit cursor over bytes
whose bits begin with the code word of `u` (`z` zeros, a one, the `z` low bits of `u + 1`)
returns `u` and leaves pending exactly the bits after the `2z + 1` bits of the code
word. -/
theorem golomb_ue_decodes (z u : Nat) (bytes : List Byte) (rest : List Nat)
    (hz1 : 2 ^ z ≤ u + 1) (hz2 : u + 1 < 2 ^ (z + 1)) (hu : u ≤ 2 ^ 31 - 1)
    (hbits : bytesBits bytes = ueCode z u ++ rest) :
    (ueCode z u).length = 2 * z + 1 ∧
    ∃ bs1, (bitstream.init (.ofBytes bytes)).get_golomb_ue = .ok (u, bs1) ∧
      bs1.pending = rest := by
  obtain ⟨hp, hok⟩ := init_pending bytes
  obtain ⟨bs1, h1, h2, _⟩ := get_golomb_ue_code z u _ rest hok hz1 hz2
    (leading_zeros_le z u hz1 (by omega)) (by rw [hp, hbits])
  exact ⟨ueCode_length z u, bs1, h1, h2⟩

/-- Witness for C15: `u = 2^31 - 1`, whose code word is 31 zeros, a one and 31 zeros, in
eight bytes with one bit of padding. -/
theorem golomb_ue_decodes_witness :
    2 ^ 31 ≤ (2 ^ 31 - 1) + 1 ∧ (2 ^ 31 - 1) + 1 < 2 ^ (31 + 1) ∧
    bytesBits [0, 0, 0, 1, 0, 0, 0, 0] = ueCode 31 (2 ^ 31 - 1) ++ [0] ∧
    (ueCode 31 (2 ^ 31 - 1)).length = 2 * 31 + 1 ∧
    ∃ bs1, (bitstream.init (.ofBytes [0, 0, 0, 1, 0, 0, 0, 0])).get_golomb_ue =
        .ok (2 ^ 31 - 1, bs1) ∧ bs1.pending = [0] :=
  ⟨by decide!, by decide!, by decide!,
    golomb_ue_decodes 31 (2 ^ 31 - 1) [0, 0, 0, 1, 0, 0, 0, 0] [0] (by decide!) (by decide!)
      (by decide!) (by decide!)⟩

theorem get_golomb_ue_lt (bs bs1 : bitstream) (u : Nat) (h : bs.get_golomb_ue = .ok (u, bs1)) :
    u < 2 ^ 32 := by
  unfold bitstream.get_golomb_ue at h
  split at h
  · cases h
  · split at h
    · cases h
    · split at h
      · simp only [Except.ok.injEq, Prod.mk.injEq] at h
        rw [← h.1]
        exact Nat.mod_lt _ (by decide)
      · cases h

/-- The value `get_golomb_se` makes of the unsigned value it reads. -/
theorem get_golomb_se_of_ue (bs bs1 : bitstream) (u : Nat)
    (h : bs.get_golomb_ue = .ok (u, bs1)) :
    bs.get_golomb_se =
      .ok (if u = 0 then 0 else if u % 2 = 1 then ((u / 2 : Nat) : Int)
        else - ((u / 2 : Nat) : Int), bs1) := by
  have hlt := get_golomb_ue_lt bs bs1 u h
  unfold bitstream.get_golomb_se
  rw [h]
  simp only [Nat.and_one_is_mod, Nat.shiftRight_eq_div_pow, pow_one]
  by_cases h0 : u = 0
  · simp [h0]
  · rw [if_neg h0, if_neg h0]
    by_cases h1 : u % 2 = 1
    · rw [if_pos h1, if_pos (by omega)]
      congr 2
      unfold toInt32
      rw [if_pos (by omega)]
      congr 1
      omega
    · rw [if_neg h1, if_neg (by omega)]
      congr 2
      unfold toInt32
      rw [if_neg (by omega)]
      omega

/-- C16: `get_golomb_se` returns 0 when the unsigned value `u` it reads is 0, `-(u/2)`
when `u` is even and `u/2` rounded down, not `(u+1)/2`, when `u` is odd; so that the code
word of a signed integer `k` with `-2^30 <= k <= 2^30` is decoded to `k` when `k <= 0`
and to `k - 1` when `k > 0`. -/
theorem golomb_se_decodes (z : Nat) (k : Int) (bytes : List Byte) (rest : List Nat)
    (hk1 : -2 ^ 30 ≤ k) (hk2 : k ≤ 2 ^ 30)
    (hz1 : 2 ^ z ≤ seIndex k + 1) (hz2 : seIndex k + 1 < 2 ^ (z + 1))
    (hbits : bytesBits bytes = ueCode z (seIndex k) ++ rest) :
    (∀ (bs bs1 : bitstream) (u : Nat), bs.get_golomb_ue = .ok (u, bs1) →
      bs.get_golomb_se =
        .ok (if u = 0 then 0 else if u % 2 = 1 then ((u / 2 : Nat) : Int)
          else - ((u / 2 : Nat) : Int), bs1)) ∧
    ∃ bs1, (bitstream.init (.ofBytes bytes)).get_golomb_se =
        .ok (if 0 < k then k - 1 else k, bs1) ∧ bs1.pending = rest := by
  refine ⟨get_golomb_se_of_ue, ?_⟩
  obtain ⟨hp, hok⟩ := init_pending bytes
  have hidx : seIndex k + 1 < 2 ^ 32 := by
    unfold seIndex
    split <;> omega
  obtain ⟨bs1, h1, h2, _⟩ := get_golomb_ue_code z (seIndex k) _ rest hok hz1 hz2
    (leading_zeros_le z _ hz1 hidx) (by rw [hp, hbits])
  refine ⟨bs1, ?_, h2⟩
  rw [get_golomb_se_of_ue _ _ _ h1]
  congr 2
  unfold seIndex
  by_cases hk : 0 < k
  · simp only [hk, if_true]
    split
    · omega
    · split <;> omega
  · simp only [hk, if_false]
    split
    · omega
    · split <;> omega

/-- Witness for C16: the code word `010` of `k = 1` (unsigned value 1) in the byte `0x40`
is decoded to 0. -/
theorem golomb_se_decodes_witness :
    bytesBits [0x40] = ueCode 1 (seIndex 1) ++ [0, 0, 0, 0, 0] ∧
    (∃ bs1, (bitstream.init (.ofBytes [0x40])).get_golomb_ue = .ok (1, bs1)) ∧
    ∃ bs1, (bitstream.init (.ofBytes [0x40])).get_golomb_se =
        .ok (if (0 : Int) < 1 then 1 - 1 else 1, bs1) ∧ bs1.pending = [0, 0, 0, 0, 0] :=
  ⟨by decide!, ⟨⟨⟨[], 0⟩, 0x40, 5⟩, by decide!⟩,
    (golomb_se_decodes 1 1 [0x40] [0, 0, 0, 0, 0] (by decide) (by decide) (by decide!)
      (by decide!) (by decide!)).2⟩

/-! ## C17, C18: decoding Objects and MixedArrays -/

/-- More fuel does not change a result that is not the exhaustion of the fuel. -/
theorem fuel_mono (fuel : Nat) :
    (∀ (buf : serialized_buffer), constructF fuel buf ≠ .error .out_of_fuel →
      constructF (fuel + 1) buf = constructF fuel buf) ∧
    (∀ (buf : serialized_buffer) (acc : Dmap), _constructF fuel buf acc ≠ .error .out_of_fuel →
      _constructF (fuel + 1) buf acc = _constructF fuel buf acc) ∧
    (∀ (len : Nat) (buf : serialized_buffer) (acc : List AMFData),
      constructElems fuel len buf acc ≠ .error .out_of_fuel →
      constructElems (fuel + 1) len buf acc = constructElems fuel len buf acc) := by
  induction fuel with
  | zero =>
    refine ⟨?_, ?_, ?_⟩
    · intro buf h
      exact absurd rfl h
    · intro buf acc h
      exact absurd rfl h
    · intro len buf acc h
      exact absurd rfl h
  | succ fuel ih =>
    obtain ⟨ihv, ihm, iha⟩ := ih
    refine ⟨?_, ?_, ?_⟩
    · intro buf hr
      rw [constructF] at hr
      rw [constructF, constructF]
      cases hg : buf.get_u8 with
      | error e => rfl
      | ok x =>
        obtain ⟨t, b1⟩ := x
        simp only [hg] at hr ⊢
        by_cases h0 : t = AMF_TYPE_DOUBLE
        · simp only [h0, ↓reduceIte]
        simp only [h0, ↓reduceIte] at hr ⊢
        by_cases h1 : t = AMF_TYPE_BOOLEAN
        · simp only [h1, ↓reduceIte]
        simp only [h1, ↓reduceIte] at hr ⊢
        by_cases h2 : t = AMF_TYPE_STRING
        · simp only [h2, ↓reduceIte]
        simp only [h2, ↓reduceIte] at hr ⊢
        by_cases h3 : t = AMF_TYPE_OBJECT
        · simp only [h3, ↓reduceIte] at hr ⊢
          have hne : _constructF fuel b1 [] ≠ .error .out_of_fuel := fun hc => hr (by rw [hc])
          rw [ihm _ _ hne]
        simp only [h3, ↓reduceIte] at hr ⊢
        by_cases h5 : t = AMF_TYPE_NULL
        · simp only [h5, ↓reduceIte]
        simp only [h5, ↓reduceIte] at hr ⊢
        by_cases h6 : t = AMF_TYPE_UNDEFINED
        · simp only [h6, ↓reduceIte]
        simp only [h6, ↓reduceIte] at hr ⊢
        by_cases h8 : t = AMF_TYPE_MIXED_ARRAY
        · simp only [h8, ↓reduceIte] at hr ⊢
          cases hq : b1.get_u32_be with
          | error e => rfl
          | ok y =>
            obtain ⟨c, b2⟩ := y
            simp only [hq] at hr ⊢
            have hne : _constructF fuel b2 [] ≠ .error .out_of_fuel := fun hc => hr (by rw [hc])
            rw [ihm _ _ hne]
        simp only [h8, ↓reduceIte] at hr ⊢
        by_cases h10 : t = AMF_TYPE_ARRAY
        · simp only [h10, ↓reduceIte] at hr ⊢
          cases hq : b1.get_u32_be with
          | error e => rfl
          | ok y =>
            obtain ⟨c, b2⟩ := y
            simp only [hq] at hr ⊢
            have hne : constructElems fuel c b2 [] ≠ .error .out_of_fuel :=
              fun hc => hr (by rw [hc])
            rw [iha _ _ _ hne]
        simp only [h10, ↓reduceIte] at hr ⊢
    · intro buf acc hr
      rw [_constructF] at hr
      rw [_constructF, _constructF]
      cases hg : buf.get_u16_be with
      | error e => cases e <;> rfl
      | ok x =>
        obtain ⟨l, b1⟩ := x
        simp only [hg] at hr ⊢
        by_cases hl : l = 0
        · simp only [hl, ↓reduceIte]
        simp only [hl, ↓reduceIte] at hr ⊢
        cases hk : b1.get_bytes l with
        | error e => rfl
        | ok y =>
          obtain ⟨k, b2⟩ := y
          simp only [hk] at hr ⊢
          have hne : constructF fuel b2 ≠ .error .out_of_fuel := fun hc => hr (by rw [hc])
          rw [ihv _ hne]
          cases hv : constructF fuel b2 with
          | error e => rfl
          | ok z =>
            obtain ⟨v, b3⟩ := z
            simp only [hv] at hr ⊢
            exact ihm _ _ hr
    · intro len buf acc hr
      cases len with
      | zero => rw [constructElems, constructElems]
      | succ len =>
        rw [constructElems] at hr
        rw [constructElems, constructElems]
        have hne : constructF fuel buf ≠ .error .out_of_fuel := fun hc => hr (by rw [hc])
        rw [ihv _ hne]
        cases hv : constructF fuel buf with
        | error e => rfl
        | ok z =>
          obtain ⟨v, b3⟩ := z
          simp only [hv] at hr ⊢
          exact iha _ _ _ hr

theorem fuel_mono_le (fuel : Nat) (buf : serialized_buffer)
    (h : constructF fuel buf ≠ .error .out_of_fuel) :
    ∀ (more : Nat), constructF (fuel + more) buf = constructF fuel buf := by
  intro more
  induction more with
  | zero => rfl
  | succ more ih =>
    rw [← Nat.add_assoc, (fuel_mono (fuel + more)).1 buf (by rw [ih]; exact h), ih]

theorem consume_len (b b1 : serialized_buffer) (r : List Byte) (w : Nat)
    (h : b.consume w = .ok (r, b1)) : b1.len + w = b.len := by
  unfold serialized_buffer.consume at h
  split at h
  · cases h
  · simp only [Except.ok.injEq, Prod.mk.injEq] at h
    rw [← h.2]
    simp only []
    omega

theorem get_u8_len (b b1 : serialized_buffer) (x : Nat) (h : b.get_u8 = .ok (x, b1)) :
    b1.len + 1 = b.len := by
  unfold serialized_buffer.get_u8 at h
  split at h
  · cases h
  · rename_i r b2 hc
    split at h
    · cases h
    · simp only [Except.ok.injEq, Prod.mk.injEq] at h
      rw [← h.2]
      exact consume_len _ _ _ _ hc

theorem get_u16_be_len (b b1 : serialized_buffer) (x : Nat) (h : b.get_u16_be = .ok (x, b1)) :
    b1.len + 2 = b.len := by
  unfold serialized_buffer.get_u16_be at h
  split at h
  · cases h
  · rename_i r b2 hc
    split at h
    · cases h
    · simp only [Except.ok.injEq, Prod.mk.injEq] at h
      rw [← h.2]
      exact consume_len _ _ _ _ hc

theorem get_u32_be_len (b b1 : serialized_buffer) (x : Nat) (h : b.get_u32_be = .ok (x, b1)) :
    b1.len + 4 = b.len := by
  unfold serialized_buffer.get_u32_be at h
  split at h
  · cases h
  · rename_i r b2 hc
    split at h
    · cases h
    · simp only [Except.ok.injEq, Prod.mk.injEq] at h
      rw [← h.2]
      exact consume_len _ _ _ _ hc

theorem get_double_be_len (b b1 : serialized_buffer) (x : Nat)
    (h : b.get_double_be = .ok (x, b1)) : b1.len + 8 = b.len := by
  unfold serialized_buffer.get_double_be serialized_buffer.get_u64_be at h
  split at h
  · cases h
  · rename_i r b2 hc
    split at h
    · cases h
    · simp only [Except.ok.injEq, Prod.mk.injEq] at h
      rw [← h.2]
      exact consume_len _ _ _ _ hc

theorem get_bytes_len (b b1 : serialized_buffer) (k : List Byte) (w : Nat)
    (h : b.get_bytes w = .ok (k, b1)) : b1.len + w = b.len := by
  unfold serialized_buffer.get_bytes at h
  split at h
  · cases h
  · rename_i r b2 hc
    split at h
    · cases h
    · simp only [Except.ok.injEq, Prod.mk.injEq] at h
      rw [← h.2]
      exact consume_len _ _ _ _ hc

/-- Every value read takes at least its type byte from the buffer. -/
theorem len_fuel (fuel : Nat) :
    (∀ (buf : serialized_buffer) (v : AMFData) (b1 : serialized_buffer),
      constructF fuel buf = .ok (v, b1) → b1.len + 1 ≤ buf.len) ∧
    (∀ (buf : serialized_buffer) (acc m : Dmap) (b1 : serialized_buffer),
      _constructF fuel buf acc = .ok (m, b1) → b1.len ≤ buf.len) ∧
    (∀ (len : Nat) (buf : serialized_buffer) (acc a : List AMFData) (b1 : serialized_buffer),
      constructElems fuel len buf acc = .ok (a, b1) → b1.len ≤ buf.len) := by
  induction fuel with
  | zero =>
    refine ⟨?_, ?_, ?_⟩
    · intro buf v b1 h
      simp [constructF] at h
    · intro buf acc m b1 h
      simp [_constructF] at h
    · intro len buf acc a b1 h
      simp [constructElems] at h
  | succ fuel ih =>
    obtain ⟨ihv, ihm, iha⟩ := ih
    refine ⟨?_, ?_, ?_⟩
    · intro buf v b1 h
      rw [constructF] at h
      cases hg : buf.get_u8 with
      | error e => simp [hg] at h
      | ok x =>
        obtain ⟨t, b2⟩ := x
        have l0 := get_u8_len _ _ _ hg
        simp only [hg] at h
        by_cases h0 : t = AMF_TYPE_DOUBLE
        · simp only [h0, ↓reduceIte] at h
          cases hd : b2.get_double_be with
          | error e => simp [hd] at h
          | ok y =>
            have l1 := get_double_be_len _ _ _ hd
            simp only [hd, Except.ok.injEq, Prod.mk.injEq] at h
            rw [← h.2]
            omega
        simp only [h0, ↓reduceIte] at h
        by_cases h1 : t = AMF_TYPE_BOOLEAN
        · simp only [h1, ↓reduceIte] at h
          cases hd : b2.get_u8 with
          | error e => simp [hd] at h
          | ok y =>
            have l1 := get_u8_len _ _ _ hd
            simp only [hd, Except.ok.injEq, Prod.mk.injEq] at h
            rw [← h.2]
            omega
        simp only [h1, ↓reduceIte] at h
        by_cases h2 : t = AMF_TYPE_STRING
        · simp only [h2, ↓reduceIte] at h
          cases hd : b2.get_u16_be with
          | error e => simp [hd] at h
          | ok y =>
            have l1 := get_u16_be_len _ _ _ hd
            simp only [hd] at h
            cases hk : y.2.get_bytes y.1 with
            | error e => simp [hk] at h
            | ok z =>
              have l2 := get_bytes_len _ _ _ _ hk
              simp only [hk, Except.ok.injEq, Prod.mk.injEq] at h
              rw [← h.2]
              omega
        simp only [h2, ↓reduceIte] at h
        by_cases h3 : t = AMF_TYPE_OBJECT
        · simp only [h3, ↓reduceIte] at h
          cases hd : _constructF fuel b2 [] with
          | error e => simp [hd] at h
          | ok y =>
            have l1 := ihm _ _ _ _ hd
            simp only [hd, Except.ok.injEq, Prod.mk.injEq] at h
            rw [← h.2]
            omega
        simp only [h3, ↓reduceIte] at h
        by_cases h5 : t = AMF_TYPE_NULL
        · simp only [h5, ↓reduceIte, Except.ok.injEq, Prod.mk.injEq] at h
          rw [← h.2]
          omega
        simp only [h5, ↓reduceIte] at h
        by_cases h6 : t = AMF_TYPE_UNDEFINED
        · simp only [h6, ↓reduceIte, Except.ok.injEq, Prod.mk.injEq] at h
          rw [← h.2]
          omega
        simp only [h6, ↓reduceIte] at h
        by_cases h8 : t = AMF_TYPE_MIXED_ARRAY
        · simp only [h8, ↓reduceIte] at h
          cases hq : b2.get_u32_be with
          | error e => simp [hq] at h
          | ok y =>
            have l1 := get_u32_be_len _ _ _ hq
            simp only [hq] at h
            cases hd : _constructF fuel y.2 [] with
            | error e => simp [hd] at h
            | ok z =>
              have l2 := ihm _ _ _ _ hd
              simp only [hd, Except.ok.injEq, Prod.mk.injEq] at h
              rw [← h.2]
              omega
        simp only [h8, ↓reduceIte] at h
        by_cases h10 : t = AMF_TYPE_ARRAY
        · simp only [h10, ↓reduceIte] at h
          cases hq : b2.get_u32_be with
          | error e => simp [hq] at h
          | ok y =>
            have l1 := get_u32_be_len _ _ _ hq
            simp only [hq] at h
            cases hd : constructElems fuel y.1 y.2 [] with
            | error e => simp [hd] at h
            | ok z =>
              have l2 := iha _ _ _ _ _ hd
              simp only [hd, Except.ok.injEq, Prod.mk.injEq] at h
              rw [← h.2]
              omega
        simp only [h10, ↓reduceIte] at h
        by_cases h11 : t = AMF_TYPE_DATE
        · simp only [h11, ↓reduceIte] at h
          cases hd : b2.get_double_be with
          | error e => simp [hd] at h
          | ok y =>
            have l1 := get_double_be_len _ _ _ hd
            simp only [hd] at h
            cases hk : y.2.get_u16_be with
            | error e => simp [hk] at h
            | ok z =>
              have l2 := get_u16_be_len _ _ _ hk
              simp only [hk, Except.ok.injEq, Prod.mk.injEq] at h
              rw [← h.2]
              omega
        simp only [h11, ↓reduceIte] at h
        by_cases h13 : t = AMF_TYPE_UNSUPPORTED
        · simp only [h13, ↓reduceIte, Except.ok.injEq, Prod.mk.injEq] at h
          rw [← h.2]
          omega
        simp only [h13, ↓reduceIte] at h
        cases h
    · intro buf acc m b1 h
      rw [_constructF] at h
      cases hg : buf.get_u16_be with
      | error e =>
        cases e <;> simp only [hg, Except.ok.injEq, Prod.mk.injEq] at h
        · rw [← h.2]
        all_goals cases h
      | ok x =>
        obtain ⟨l, b2⟩ := x
        have l0 := get_u16_be_len _ _ _ hg
        simp only [hg] at h
        by_cases hl : l = 0
        · simp only [hl, ↓reduceIte] at h
          cases hd : b2.get_u8 with
          | error e => simp [hd] at h
          | ok y =>
            have l1 := get_u8_len _ _ _ hd
            simp only [hd, Except.ok.injEq, Prod.mk.injEq] at h
            rw [← h.2]
            omega
        simp only [hl, ↓reduceIte] at h
        cases hk : b2.get_bytes l with
        | error e => simp [hk] at h
        | ok y =>
          have l1 := get_bytes_len _ _ _ _ hk
          simp only [hk] at h
          cases hv : constructF fuel y.2 with
          | error e => simp [hv] at h
          | ok z =>
            have l2 := ihv _ _ _ hv
            simp only [hv] at h
            have l3 := ihm _ _ _ _ h
            omega
    · intro len buf acc a b1 h
      cases len with
      | zero =>
        rw [constructElems] at h
        simp only [Except.ok.injEq, Prod.mk.injEq] at h
        rw [← h.2]
      | succ len =>
        rw [constructElems] at h
        cases hv : constructF fuel buf with
        | error e => simp [hv] at h
        | ok z =>
          have l2 := ihv _ _ _ hv
          simp only [hv] at h
          have l3 := iha _ _ _ _ _ h
          omega

theorem consume_not_fuel (b : serialized_buffer) (n : Nat) :
    b.consume n ≠ .error .out_of_fuel := by
  unfold serialized_buffer.consume
  split <;> simp

theorem deref_not_fuel (r : List Byte) (n : Nat) : deref r n ≠ .error .out_of_fuel := by
  unfold deref
  split <;> simp

theorem get_u8_not_fuel (b : serialized_buffer) : b.get_u8 ≠ .error .out_of_fuel := by
  intro h
  unfold serialized_buffer.get_u8 at h
  split at h
  · cases h
    exact consume_not_fuel _ _ (by assumption)
  · split at h
    · cases h
      exact deref_not_fuel _ _ (by assumption)
    · cases h

theorem get_u16_be_not_fuel (b : serialized_buffer) : b.get_u16_be ≠ .error .out_of_fuel := by
  intro h
  unfold serialized_buffer.get_u16_be at h
  split at h
  · cases h
    exact consume_not_fuel _ _ (by assumption)
  · split at h
    · cases h
      exact deref_not_fuel _ _ (by assumption)
    · cases h

theorem get_u32_be_not_fuel (b : serialized_buffer) : b.get_u32_be ≠ .error .out_of_fuel := by
  intro h
  unfold serialized_buffer.get_u32_be at h
  split at h
  · cases h
    exact consume_not_fuel _ _ (by assumption)
  · split at h
    · cases h
      exact deref_not_fuel _ _ (by assumption)
    · cases h

theorem get_double_be_not_fuel (b : serialized_buffer) :
    b.get_double_be ≠ .error .out_of_fuel := by
  intro h
  unfold serialized_buffer.get_double_be serialized_buffer.get_u64_be at h
  split at h
  · cases h
    exact consume_not_fuel _ _ (by assumption)
  · split at h
    · cases h
      exact deref_not_fuel _ _ (by assumption)
    · cases h

theorem get_bytes_not_fuel (b : serialized_buffer) (n : Nat) :
    b.get_bytes n ≠ .error .out_of_fuel := by
  intro h
  unfold serialized_buffer.get_bytes at h
  split at h
  · cases h
    exact consume_not_fuel _ _ (by assumption)
  · split at h
    · cases h
      exact deref_not_fuel _ _ (by assumption)
    · cases h

/-- With twice the remaining bytes and one more as fuel the decoder never runs out of
fuel. -/
theorem enough_fuel (fuel : Nat) :
    (∀ (buf : serialized_buffer), 2 * buf.len + 1 ≤ fuel →
      constructF fuel buf ≠ .error .out_of_fuel) ∧
    (∀ (buf : serialized_buffer) (acc : Dmap), 2 * buf.len + 1 ≤ fuel →
      _constructF fuel buf acc ≠ .error .out_of_fuel) ∧
    (∀ (len : Nat) (buf : serialized_buffer) (acc : List AMFData), 2 * buf.len + 2 ≤ fuel →
      constructElems fuel len buf acc ≠ .error .out_of_fuel) := by
  induction fuel with
  | zero =>
    refine ⟨?_, ?_, ?_⟩
    · intro buf h
      omega
    · intro buf acc h
      omega
    · intro len buf acc h
      omega
  | succ fuel ih =>
    obtain ⟨ihv, ihm, iha⟩ := ih
    refine ⟨?_, ?_, ?_⟩
    · intro buf hb h
      rw [constructF] at h
      cases hg : buf.get_u8 with
      | error e =>
        simp only [hg, Except.error.injEq] at h
        subst h
        exact get_u8_not_fuel _ hg
      | ok x =>
        obtain ⟨t, b2⟩ := x
        have l0 := get_u8_len _ _ _ hg
        simp only [hg] at h
        by_cases h0 : t = AMF_TYPE_DOUBLE
        · simp only [h0, ↓reduceIte] at h
          cases hd : b2.get_double_be with
          | error e =>
            simp only [hd, Except.error.injEq] at h
            subst h
            exact get_double_be_not_fuel _ hd
          | ok y => simp [hd] at h
        simp only [h0, ↓reduceIte] at h
        by_cases h1 : t = AMF_TYPE_BOOLEAN
        · simp only [h1, ↓reduceIte] at h
          cases hd : b2.get_u8 with
          | error e =>
            simp only [hd, Except.error.injEq] at h
            subst h
            exact get_u8_not_fuel _ hd
          | ok y => simp [hd] at h
        simp only [h1, ↓reduceIte] at h
        by_cases h2 : t = AMF_TYPE_STRING
        · simp only [h2, ↓reduceIte] at h
          cases hd : b2.get_u16_be with
          | error e =>
            simp only [hd, Except.error.injEq] at h
            subst h
            exact get_u16_be_not_fuel _ hd
          | ok y =>
            simp only [hd] at h
            cases hk : y.2.get_bytes y.1 with
            | error e =>
              simp only [hk, Except.error.injEq] at h
              subst h
              exact get_bytes_not_fuel _ _ hk
            | ok z => simp [hk] at h
        simp only [h2, ↓reduceIte] at h
        by_cases h3 : t = AMF_TYPE_OBJECT
        · simp only [h3, ↓reduceIte] at h
          cases hd : _constructF fuel b2 [] with
          | error e =>
            simp only [hd, Except.error.injEq] at h
            subst h
            exact ihm b2 [] (by omega) hd
          | ok y => simp [hd] at h
        simp only [h3, ↓reduceIte] at h
        by_cases h5 : t = AMF_TYPE_NULL
        · simp [h5] at h
        simp only [h5, ↓reduceIte] at h
        by_cases h6 : t = AMF_TYPE_UNDEFINED
        · simp [h6] at h
        simp only [h6, ↓reduceIte] at h
        by_cases h8 : t = AMF_TYPE_MIXED_ARRAY
        · simp only [h8, ↓reduceIte] at h
          cases hq : b2.get_u32_be with
          | error e =>
            simp only [hq, Except.error.injEq] at h
            subst h
            exact get_u32_be_not_fuel _ hq
          | ok y =>
            have l1 := get_u32_be_len _ _ _ hq
            simp only [hq] at h
            cases hd : _constructF fuel y.2 [] with
            | error e =>
              simp only [hd, Except.error.injEq] at h
              subst h
              exact ihm y.2 [] (by omega) hd
            | ok z => simp [hd] at h
        simp only [h8, ↓reduceIte] at h
        by_cases h10 : t = AMF_TYPE_ARRAY
        · simp only [h10, ↓reduceIte] at h
          cases hq : b2.get_u32_be with
          | error e =>
            simp only [hq, Except.error.injEq] at h
            subst h
            exact get_u32_be_not_fuel _ hq
          | ok y =>
            have l1 := get_u32_be_len _ _ _ hq
            simp only [hq] at h
            cases hd : constructElems fuel y.1 y.2 [] with
            | error e =>
              simp only [hd, Except.error.injEq] at h
              subst h
              exact iha y.1 y.2 [] (by omega) hd
            | ok z => simp [hd] at h
        simp only [h10, ↓reduceIte] at h
        by_cases h11 : t = AMF_TYPE_DATE
        · simp only [h11, ↓reduceIte] at h
          cases hd : b2.get_double_be with
          | error e =>
            simp only [hd, Except.error.injEq] at h
            subst h
            exact get_double_be_not_fuel _ hd
          | ok y =>
            simp only [hd] at h
            cases hk : y.2.get_u16_be with
            | error e =>
              simp only [hk, Except.error.injEq] at h
              subst h
              exact get_u16_be_not_fuel _ hk
            | ok z => simp [hk] at h
        simp only [h11, ↓reduceIte] at h
        by_cases h13 : t = AMF_TYPE_UNSUPPORTED
        · simp [h13] at h
        simp only [h13, ↓reduceIte] at h
        cases h
    · intro buf acc hb h
      rw [_constructF] at h
      cases hg : buf.get_u16_be with
      | error e =>
        cases e <;> simp only [hg] at h
        all_goals first
          | cases h; done
          | (exact get_u16_be_not_fuel _ hg)
      | ok x =>
        obtain ⟨l, b2⟩ := x
        have l0 := get_u16_be_len _ _ _ hg
        simp only [hg] at h
        by_cases hl : l = 0
        · simp only [hl, ↓reduceIte] at h
          cases hd : b2.get_u8 with
          | error e =>
            simp only [hd, Except.error.injEq] at h
            subst h
            exact get_u8_not_fuel _ hd
          | ok y => simp [hd] at h
        simp only [hl, ↓reduceIte] at h
        cases hk : b2.get_bytes l with
        | error e =>
          simp only [hk, Except.error.injEq] at h
          subst h
          exact get_bytes_not_fuel _ _ hk
        | ok y =>
          have l1 := get_bytes_len _ _ _ _ hk
          simp only [hk] at h
          cases hv : constructF fuel y.2 with
          | error e =>
            simp only [hv, Except.error.injEq] at h
            subst h
            exact ihv y.2 (by omega) hv
          | ok z =>
            have l2 := (len_fuel fuel).1 _ _ _ hv
            simp only [hv] at h
            exact ihm z.2 _ (by omega) h
    · intro len buf acc hb h
      cases len with
      | zero =>
        rw [constructElems] at h
        cases h
      | succ len =>
        rw [constructElems] at h
        cases hv : constructF fuel buf with
        | error e =>
          simp only [hv, Except.error.injEq] at h
          subst h
          exact ihv buf (by omega) hv
        | ok z =>
          have l2 := (len_fuel fuel).1 _ _ _ hv
          simp only [hv] at h
          exact iha len z.2 _ (by omega) h

theorem fuel_mono_le_pairs (fuel : Nat) (buf : serialized_buffer) (acc : Dmap)
    (h : _constructF fuel buf acc ≠ .error .out_of_fuel) :
    ∀ (more : Nat), _constructF (fuel + more) buf acc = _constructF fuel buf acc := by
  intro more
  induction more with
  | zero => rfl
  | succ more ih =>
    rw [← Nat.add_assoc, (fuel_mono (fuel + more)).2.1 buf acc (by rw [ih]; exact h), ih]

/-- The result of `AMFData::construct` is that of the recursion with any fuel of at least
twice the remaining bytes and one. -/
theorem construct_eq_fuel (buf : serialized_buffer) (fuel : Nat) (h : 2 * buf.len + 1 ≤ fuel) :
    constructF fuel buf = AMFData.construct buf := by
  have h1 := fuel_mono_le (2 * buf.len + 1) buf ((enough_fuel _).1 buf (Nat.le_refl _))
  have e1 := h1 (fuel - (2 * buf.len + 1))
  have e2 := h1 1
  rw [show 2 * buf.len + 1 + (fuel - (2 * buf.len + 1)) = fuel from by omega] at e1
  rw [AMFData.construct, e1, ← e2]

theorem _construct_eq_fuel (buf : serialized_buffer) (acc : Dmap) (fuel : Nat)
    (h : 2 * buf.len + 1 ≤ fuel) :
    _constructF fuel buf acc = AMFMixedArray._construct buf acc := by
  have h1 := fuel_mono_le_pairs (2 * buf.len + 1) buf acc
    ((enough_fuel _).2.1 buf acc (Nat.le_refl _))
  have e1 := h1 (fuel - (2 * buf.len + 1))
  rw [show 2 * buf.len + 1 + (fuel - (2 * buf.len + 1)) = fuel from by omega] at e1
  rw [AMFMixedArray._construct, e1]

theorem construct_total (buf : serialized_buffer) :
    AMFData.construct buf ≠ .error .out_of_fuel :=
  (enough_fuel _).1 buf (by omega)

theorem _construct_step (buf : serialized_buffer) (acc : Dmap) :
    AMFMixedArray._construct buf acc =
      match buf.get_u16_be with
      | .error (.end_of_buffer _ _) => .ok (acc, buf)
      | .error e => .error e
      | .ok (l, buf1) =>
        if l = 0 then
          match buf1.get_u8 with
          | .error e => .error e
          | .ok (_, buf2) => .ok (acc, buf2)
        else
          match buf1.get_bytes l with
          | .error e => .error e
          | .ok (k, buf2) =>
            match AMFData.construct buf2 with
            | .error e => .error e
            | .ok (v, buf3) => AMFMixedArray._construct buf3 (mapInsert acc k v) := by
  rw [AMFMixedArray._construct, _constructF]
  cases hg : buf.get_u16_be with
  | error e => cases e <;> rfl
  | ok x =>
    obtain ⟨l, b1⟩ := x
    have l0 := get_u16_be_len _ _ _ hg
    simp only []
    by_cases hl : l = 0
    · simp only [hl, ↓reduceIte]
    simp only [hl, ↓reduceIte]
    cases hk : b1.get_bytes l with
    | error e => rfl
    | ok y =>
      obtain ⟨k, b2⟩ := y
      have l1 := get_bytes_len _ _ _ _ hk
      simp only []
      rw [construct_eq_fuel b2 _ (by omega)]
      cases hv : AMFData.construct b2 with
      | error e => rfl
      | ok z =>
        obtain ⟨v, b3⟩ := z
        have l2 := (len_fuel _).1 _ _ _ hv
        simp only []
        exact _construct_eq_fuel b3 _ _ (by omega)

theorem construct_object (buf b1 : serialized_buffer)
    (hg : buf.get_u8 = .ok (AMF_TYPE_OBJECT, b1)) :
    AMFData.construct buf =
      match AMFMixedArray._construct b1 [] with
      | .error e => .error e
      | .ok (dmap, buf2) => .ok (.AMFObject dmap, buf2) := by
  have e1 : AMFData.construct buf = constructF (2 * buf.len + 1 + 1) buf := rfl
  have l0 := get_u8_len _ _ _ hg
  rw [e1, constructF, hg]
  simp only [AMF_TYPE_OBJECT, AMF_TYPE_DOUBLE, AMF_TYPE_BOOLEAN, AMF_TYPE_STRING,
    ↓reduceIte, OfNat.ofNat_ne_zero, Nat.reduceEqDiff, OfNat.ofNat_ne_one]
  rw [_construct_eq_fuel b1 [] _ (by omega)]

theorem construct_mixed (buf b1 b2 : serialized_buffer) (c : Nat)
    (hg : buf.get_u8 = .ok (AMF_TYPE_MIXED_ARRAY, b1)) (hq : b1.get_u32_be = .ok (c, b2)) :
    AMFData.construct buf =
      match AMFMixedArray._construct b2 [] with
      | .error e => .error e
      | .ok (dmap, buf3) => .ok (.AMFMixedArray dmap, buf3) := by
  have e1 : AMFData.construct buf = constructF (2 * buf.len + 1 + 1) buf := rfl
  have l0 := get_u8_len _ _ _ hg
  have l1 := get_u32_be_len _ _ _ hq
  rw [e1, constructF, hg]
  simp only [AMF_TYPE_OBJECT, AMF_TYPE_DOUBLE, AMF_TYPE_BOOLEAN, AMF_TYPE_STRING,
    AMF_TYPE_NULL, AMF_TYPE_UNDEFINED, AMF_TYPE_MIXED_ARRAY,
    ↓reduceIte, OfNat.ofNat_ne_zero, Nat.reduceEqDiff, OfNat.ofNat_ne_one, hq]
  rw [_construct_eq_fuel b2 [] _ (by omega)]

/-! ## Entries on the wire -/

theorem decodes_write (v : AMFData) (hw : v.Wf) (hd : v.DatesStable) : Decodes v.write v := by
  intro tail n
  rw [← construct_eq_fuel _ (2 * (v.write.length + n) + 2) (by simp only []; omega)]
  exact (roundtrip_fuel _).1 v hw hd tail n (by omega)

theorem _construct_entries (es : List WireEntry) (hes : ∀ e ∈ es, e.Ok) :
    ∀ (acc : Dmap) (tail : List Byte) (n : Nat),
      AMFMixedArray._construct ⟨wireEntries es ++ tail, (wireEntries es).length + n⟩ acc =
        AMFMixedArray._construct ⟨tail, n⟩ (insertAll (entryPairs es) acc) := by
  induction es with
  | nil =>
    intro acc tail n
    simp [wireEntries, entryPairs, insertAll]
  | cons e es ih =>
    intro acc tail n
    obtain ⟨h0, h1, hv⟩ := hes e (List.mem_cons_self _ _)
    have e1 : (⟨wireEntries (e :: es) ++ tail, (wireEntries (e :: es)).length + n⟩ :
        serialized_buffer) =
        ⟨store_le 2 (htons e.key.length) ++ (e.key ++ (e.bytes ++ (wireEntries es ++ tail))),
          2 + (e.key.length + (e.bytes.length + ((wireEntries es).length + n)))⟩ := by
      simp only [wireEntries, List.append_assoc, List.length_append, store_le_length]
      congr 1
      omega
    rw [e1, _construct_step, get_u16_be_append _ h1]
    simp only []
    rw [if_neg (by omega), get_bytes_append]
    simp only []
    rw [hv]
    simp only []
    rw [ih (fun x hx => hes x (List.mem_cons_of_mem _ hx))]
    simp [entryPairs, insertAll]

/-! ## The header and the end of a container -/

theorem construct_container (c0 c1 c2 c3 : Byte) (f : List Byte × (Dmap → AMFData))
    (hf : f ∈ containerForms c0 c1 c2 c3) (p : List Byte) (n : Nat) :
    AMFData.construct ⟨f.1 ++ p, f.1.length + n⟩ =
      match AMFMixedArray._construct ⟨p, n⟩ [] with
      | .error e => .error e
      | .ok (dmap, buf) => .ok (f.2 dmap, buf) := by
  simp only [containerForms, List.mem_cons, List.mem_singleton, List.not_mem_nil, or_false] at hf
  rcases hf with hf | hf
  · subst hf
    have h1 : serialized_buffer.get_u8 ⟨objectHeader ++ p, objectHeader.length + n⟩ =
        .ok (AMF_TYPE_OBJECT, ⟨p, n⟩) := by
      have h := get_u8_cons 3 p n
      rw [Nat.add_comm] at h
      exact h
    exact construct_object _ ⟨p, n⟩ h1
  · subst hf
    have h1 : serialized_buffer.get_u8 ⟨mixedArrayHeader c0 c1 c2 c3 ++ p,
        (mixedArrayHeader c0 c1 c2 c3).length + n⟩ =
        .ok (AMF_TYPE_MIXED_ARRAY, ⟨c0 :: c1 :: c2 :: c3 :: p, 4 + n⟩) := by
      have h := get_u8_cons 8 (c0 :: c1 :: c2 :: c3 :: p) (4 + n)
      have e : (mixedArrayHeader c0 c1 c2 c3).length + n = 4 + n + 1 := by
        simp only [mixedArrayHeader, List.length_cons, List.length_nil]
        omega
      rw [e]
      exact h
    have h2 : ∃ c, serialized_buffer.get_u32_be ⟨c0 :: c1 :: c2 :: c3 :: p, 4 + n⟩ =
        .ok (c, ⟨p, n⟩) := by
      refine ⟨BE32 (load_le [c0, c1, c2, c3]), ?_⟩
      simp only [serialized_buffer.get_u32_be, serialized_buffer.consume, deref]
      rw [if_neg (by omega)]
      simp only [List.length_cons]
      rw [if_neg (by omega)]
      simp
    obtain ⟨c, h2⟩ := h2
    exact construct_mixed _ _ _ c h1 h2

theorem _construct_cut (t : List Byte) (n : Nat) (acc : Dmap) (hn : n < 2) :
    AMFMixedArray._construct ⟨t, n⟩ acc = .ok (acc, ⟨t, n⟩) := by
  rw [_construct_step]
  simp [serialized_buffer.get_u16_be, serialized_buffer.consume, hn]

theorem _construct_terminator (x : Byte) (rest : List Byte) (n : Nat) (acc : Dmap) :
    AMFMixedArray._construct ⟨0 :: 0 :: x :: rest, 2 + (n + 1)⟩ acc = .ok (acc, ⟨rest, n⟩) := by
  have h := get_u16_be_append 0 (by omega) (x :: rest) (n + 1)
  have e : store_le 2 (htons 0) = [0, 0] := by decide
  rw [e] at h
  rw [_construct_step]
  simp only [List.cons_append, List.nil_append] at h
  rw [h]
  simp only [↓reduceIte, get_u8_cons]

theorem _construct_no_terminator (acc : Dmap) :
    AMFMixedArray._construct ⟨[0, 0], 2 + 0⟩ acc = .error (.end_of_buffer 1 0) := by
  have h := get_u16_be_append 0 (by omega) [] 0
  have e : store_le 2 (htons 0) = [0, 0] := by decide
  rw [e] at h
  rw [_construct_step]
  simp only [List.cons_append, List.nil_append] at h
  rw [h]
  simp [serialized_buffer.get_u8, serialized_buffer.consume]

theorem _construct_key_cut (l : Nat) (t : List Byte) (acc : Dmap) (h0 : 0 < l) (h1 : l < 65536)
    (ht : t.length < l) :
    AMFMixedArray._construct ⟨store_le 2 (htons l) ++ t, 2 + t.length⟩ acc =
      .error (.end_of_buffer l t.length) := by
  rw [_construct_step, get_u16_be_append _ h1]
  simp only []
  rw [if_neg (by omega)]
  simp [serialized_buffer.get_bytes, serialized_buffer.consume, ht]

theorem _construct_value (k vb : List Byte) (acc : Dmap) (h0 : 0 < k.length)
    (h1 : k.length < 65536) :
    AMFMixedArray._construct ⟨store_le 2 (htons k.length) ++ (k ++ vb),
        2 + (k.length + vb.length)⟩ acc =
      match AMFData.construct (.ofBytes vb) with
      | .error e => .error e
      | .ok (v, r) => AMFMixedArray._construct r (mapInsert acc k v) := by
  rw [_construct_step, get_u16_be_append _ h1]
  simp only []
  rw [if_neg (by omega), get_bytes_append]
  rfl

/-! ## The map `dmap.insert` builds -/

theorem mapFind_mapInsert_self (m : Dmap) (k : List Byte) (v : AMFData) :
    mapFind (mapInsert m k v) k = some ((mapFind m k).getD v) := by
  induction m with
  | nil => simp [mapInsert, mapFind, strLt_irrefl]
  | cons e m ih =>
    obtain ⟨k1, v1⟩ := e
    rw [mapInsert]
    cases h1 : strLt k k1 with
    | true => simp [mapFind, strLt_irrefl, h1]
    | false =>
      cases h2 : strLt k1 k with
      | true => simp [mapFind, h1, h2, ih]
      | false => simp [mapFind, h1, h2]

theorem mapFind_mapInsert_other (m : Dmap) (k k1 : List Byte) (v : AMFData) (hne : k ≠ k1) :
    mapFind (mapInsert m k1 v) k = mapFind m k := by
  have hor : strLt k k1 = true ∨ strLt k1 k = true := by
    cases h1 : strLt k k1 with
    | true => exact Or.inl rfl
    | false =>
      cases h2 : strLt k1 k with
      | true => exact Or.inr rfl
      | false => exact absurd (strLt_total k k1 h1 h2) hne
  induction m with
  | nil =>
    rcases hor with h | h
    · simp [mapInsert, mapFind, h]
    · simp [mapInsert, mapFind, h, strLt_asymm _ _ h]
  | cons e m ih =>
    obtain ⟨k2, v2⟩ := e
    rw [mapInsert]
    cases h1 : strLt k1 k2 with
    | true =>
      simp only [if_true]
      rcases hor with h | h
      · simp [mapFind, h, strLt_trans _ _ _ h h1]
      · simp [mapFind, h, strLt_asymm _ _ h]
    | false =>
      cases h2 : strLt k2 k1 with
      | true =>
        simp only [Bool.false_eq_true, if_false, if_true]
        rw [mapFind, mapFind, ih]
      | false => simp only [Bool.false_eq_true, if_false]

theorem mapFind_insertAll (ps : List (List Byte × AMFData)) (k : List Byte) :
    ∀ acc : Dmap, mapFind (insertAll ps acc) k =
      match mapFind acc k with
      | some v => some v
      | none => firstValue ps k := by
  induction ps with
  | nil =>
    intro acc
    cases h : mapFind acc k <;> simp [insertAll, firstValue, h]
  | cons p ps ih =>
    intro acc
    obtain ⟨k1, v1⟩ := p
    have e : insertAll ((k1, v1) :: ps) acc = insertAll ps (mapInsert acc k1 v1) := rfl
    rw [e, ih]
    by_cases hk : k = k1
    · subst hk
      rw [mapFind_mapInsert_self]
      cases h : mapFind acc k <;> simp [firstValue, List.find?]
    · rw [mapFind_mapInsert_other _ _ _ _ hk]
      have hk1 : ¬ k1 = k := fun h => hk h.symm
      cases h : mapFind acc k <;> simp [firstValue, List.find?, hk1]

theorem ascending_insertAll (ps : List (List Byte × AMFData)) :
    ∀ acc : Dmap, Ascending acc → Ascending (insertAll ps acc) := by
  induction ps with
  | nil => intro acc h; exact h
  | cons p ps ih =>
    intro acc h
    exact ih _ (ascending_mapInsert acc p.1 p.2 h)

theorem mem_iff_mapFind (m : Dmap) (h : Ascending m) (k : List Byte) (v : AMFData) :
    (k, v) ∈ m ↔ mapFind m k = some v := by
  induction m with
  | nil => simp [mapFind]
  | cons e m ih =>
    obtain ⟨k1, v1⟩ := e
    unfold Ascending at h
    rw [List.pairwise_cons] at h
    have ih1 := ih h.2
    rw [mapFind, List.mem_cons]
    cases h1 : strLt k k1 with
    | true =>
      simp only [if_true]
      constructor
      · rintro (he | he)
        · cases he
          rw [strLt_irrefl] at h1
          cases h1
        · have := h.1 _ he
          simp only at this
          rw [strLt_asymm _ _ this] at h1
          cases h1
      · intro he
        cases he
    | false =>
      cases h2 : strLt k1 k with
      | true =>
        simp only [Bool.false_eq_true, if_false, if_true]
        rw [← ih1]
        constructor
        · rintro (he | he)
          · cases he
            rw [strLt_irrefl] at h2
            cases h2
          · exact he
        · exact Or.inr
      | false =>
        have hk : k = k1 := strLt_total k k1 h1 h2
        subst hk
        simp only [Bool.false_eq_true, if_false]
        constructor
        · rintro (he | he)
          · cases he
            rfl
          · have := h.1 _ he
            simp only at this
            rw [strLt_irrefl] at this
            cases this
        · intro he
          cases he
          exact Or.inl rfl

theorem nodup_keys_of_ascending (m : Dmap) (h : Ascending m) : (m.map Prod.fst).Nodup := by
  unfold Ascending at h
  rw [List.Nodup, List.pairwise_map]
  exact h.imp (fun hab => strLt_ne _ _ hab)

theorem construct_cutScalar (vb : List Byte) (h : cutScalar vb = true) :
    ∃ a b, AMFData.construct (.ofBytes vb) = .error (.end_of_buffer a b) := by
  cases vb with
  | nil => exact ⟨1, 0, rfl⟩
  | cons ty t =>
    have e1 : AMFData.construct (.ofBytes (ty :: t)) =
        constructF (2 * (t.length + 1) + 1 + 1) ⟨ty :: t, t.length + 1⟩ := rfl
    rw [e1, constructF, get_u8_cons]
    simp only [cutScalar] at h
    simp only []
    by_cases h0 : ty.val = AMF_TYPE_DOUBLE
    · simp only [h0, ↓reduceIte, decide_eq_true_eq] at h ⊢
      refine ⟨8, t.length, ?_⟩
      simp [serialized_buffer.get_double_be, serialized_buffer.get_u64_be,
        serialized_buffer.consume, h]
    simp only [h0, ↓reduceIte] at h ⊢
    by_cases h1 : ty.val = AMF_TYPE_BOOLEAN
    · simp only [h1, ↓reduceIte, decide_eq_true_eq] at h ⊢
      refine ⟨1, t.length, ?_⟩
      simp [serialized_buffer.get_u8, serialized_buffer.consume, h]
    simp only [h1, ↓reduceIte] at h ⊢
    by_cases h2 : ty.val = AMF_TYPE_STRING
    · simp only [h2, ↓reduceIte, Bool.or_eq_true, decide_eq_true_eq] at h ⊢
      by_cases hl : t.length < 2
      · refine ⟨2, t.length, ?_⟩
        simp [serialized_buffer.get_u16_be, serialized_buffer.consume, hl]
      · have h3 : t.length - 2 < BE16 (load_le (t.take 2)) := by
          rcases h with h | h
          · exact absurd h hl
          · exact h
        refine ⟨BE16 (load_le (t.take 2)), t.length - 2, ?_⟩
        simp [serialized_buffer.get_u16_be, serialized_buffer.consume, hl, deref,
          serialized_buffer.get_bytes, h3]
    simp only [h2, ↓reduceIte] at h ⊢
    by_cases h3 : ty.val = AMF_TYPE_DATE
    · have hne : ¬ AMF_TYPE_DATE = AMF_TYPE_OBJECT ∧ ¬ AMF_TYPE_DATE = AMF_TYPE_NULL ∧
          ¬ AMF_TYPE_DATE = AMF_TYPE_UNDEFINED ∧ ¬ AMF_TYPE_DATE = AMF_TYPE_MIXED_ARRAY ∧
          ¬ AMF_TYPE_DATE = AMF_TYPE_ARRAY := by decide
      simp only [h3, ↓reduceIte, decide_eq_true_eq, hne.1, hne.2.1, hne.2.2.1, hne.2.2.2.1,
        hne.2.2.2.2] at h ⊢
      by_cases hl : t.length < 8
      · refine ⟨8, t.length, ?_⟩
        simp [serialized_buffer.get_double_be, serialized_buffer.get_u64_be,
          serialized_buffer.consume, hl]
      · refine ⟨2, t.length - 8, ?_⟩
        have h4 : t.length - 8 < 2 := by omega
        simp [serialized_buffer.get_double_be, serialized_buffer.get_u64_be,
          serialized_buffer.get_u16_be, serialized_buffer.consume, hl, deref, h4]
    simp only [h3, ↓reduceIte] at h
    cases h

theorem firstValue_isSome (ps : List (List Byte × AMFData)) (k : List Byte) :
    (∃ v, firstValue ps k = some v) ↔ k ∈ ps.map Prod.fst := by
  induction ps with
  | nil => simp [firstValue]
  | cons p ps ih =>
    obtain ⟨k1, v1⟩ := p
    by_cases hk : k1 = k
    · simp [firstValue, List.find?, hk]
    · have hk1 : ¬ k = k1 := fun h => hk h.symm
      simp only [firstValue, List.find?, hk, decide_False, List.map_cons, List.mem_cons, hk1,
        false_or]
      exact ih

theorem construct_entries (c0 c1 c2 c3 : Byte) (f : List Byte × (Dmap → AMFData))
    (hf : f ∈ containerForms c0 c1 c2 c3) (es : List WireEntry) (hes : ∀ e ∈ es, e.Ok)
    (tail : List Byte) :
    AMFData.construct (.ofBytes (f.1 ++ wireEntries es ++ tail)) =
      match AMFMixedArray._construct (.ofBytes tail) (insertAll (entryPairs es) []) with
      | .error e => .error e
      | .ok (dmap, buf) => .ok (f.2 dmap, buf) := by
  have e : serialized_buffer.ofBytes (f.1 ++ wireEntries es ++ tail) =
      ⟨f.1 ++ (wireEntries es ++ tail), f.1.length + ((wireEntries es).length + tail.length)⟩ := by
    simp [serialized_buffer.ofBytes, Nat.add_assoc]
  rw [e, construct_container c0 c1 c2 c3 f hf, _construct_entries es hes]
  rfl

/-- C17 (amended): an Object or MixedArray whose entries on the wire are `es` (any keys,
repeated or not, any values the factory can read), closed by the empty key and one more
byte, decodes to the container whose map holds every key of `es` exactly once, mapped to
the value of that key's FIRST entry on the wire: `dmap.insert` leaves an entry that is
already there as it is. -/
theorem duplicate_key_first_wins (c0 c1 c2 c3 x : Byte) (f : List Byte × (Dmap → AMFData))
    (hf : f ∈ containerForms c0 c1 c2 c3) (es : List WireEntry) (hes : ∀ e ∈ es, e.Ok)
    (rest : List Byte) :
    AMFData.construct (.ofBytes (f.1 ++ wireEntries es ++ 0 :: 0 :: x :: rest)) =
      .ok (f.2 (insertAll (entryPairs es) []), .ofBytes rest) ∧
    ((insertAll (entryPairs es) []).map Prod.fst).Nodup ∧
    (∀ k, k ∈ (insertAll (entryPairs es) []).map Prod.fst ↔ k ∈ es.map WireEntry.key) ∧
    (∀ k v, (k, v) ∈ insertAll (entryPairs es) [] ↔ firstValue (entryPairs es) k = some v) ∧
    (∀ k, mapFind (insertAll (entryPairs es) []) k = firstValue (entryPairs es) k) := by
  have hasc : Ascending (insertAll (entryPairs es) []) :=
    ascending_insertAll _ [] List.Pairwise.nil
  have hfind : ∀ k, mapFind (insertAll (entryPairs es) []) k = firstValue (entryPairs es) k := by
    intro k
    rw [mapFind_insertAll]
    rfl
  have hmem : ∀ k v, (k, v) ∈ insertAll (entryPairs es) [] ↔
      firstValue (entryPairs es) k = some v := by
    intro k v
    rw [mem_iff_mapFind _ hasc, hfind]
  refine ⟨?_, nodup_keys_of_ascending _ hasc, ?_, hmem, hfind⟩
  · rw [construct_entries c0 c1 c2 c3 f hf es hes]
    have e : serialized_buffer.ofBytes (0 :: 0 :: x :: rest) =
        ⟨0 :: 0 :: x :: rest, 2 + (rest.length + 1)⟩ := by
      simp [serialized_buffer.ofBytes]
      omega
    rw [e, _construct_terminator]
    rfl
  · intro k
    have e : es.map WireEntry.key = (entryPairs es).map Prod.fst := by
      simp [entryPairs]
    rw [e]
    constructor
    · intro hk
      obtain ⟨⟨k1, v⟩, hm, hk⟩ := List.mem_map.mp hk
      cases hk
      exact (firstValue_isSome _ _).mp ⟨v, (hmem _ _).mp hm⟩
    · intro hk
      obtain ⟨v, hv⟩ := (firstValue_isSome _ _).mpr hk
      exact List.mem_map.mpr ⟨(k, v), (hmem _ _).mpr hv, rfl⟩

/-- C18 (amended): an Object or MixedArray whose input ends behind the entries `es`
(1) where the next key length is expected, fewer than two bytes being left: the decode
succeeds with the entries read so far and leaves those bytes unread;
(2) inside the bytes of a key: `end_of_buffer`;
(3) behind the empty key, where the last byte is expected: `end_of_buffer`;
(4) behind a key, with `vb` left for the value: the decode fails with the error of the
decode of `vb` alone if that fails, and otherwise goes on behind the value read from `vb`;
(5) in particular, with nothing left for the value: `end_of_buffer`;
(6) with the cut bytes of a Double, Boolean, String or Date left for the value:
`end_of_buffer`;
(7) but with an Object or MixedArray left for the value whose own input ends where its
next key length is expected: the decode SUCCEEDS, the inner container holding the entries
read so far. -/
theorem truncated_container (c0 c1 c2 c3 : Byte) (f : List Byte × (Dmap → AMFData))
    (hf : f ∈ containerForms c0 c1 c2 c3) (es : List WireEntry) (hes : ∀ e ∈ es, e.Ok) :
    (∀ t : List Byte, t.length < 2 →
      AMFData.construct (.ofBytes (f.1 ++ wireEntries es ++ t)) =
        .ok (f.2 (insertAll (entryPairs es) []), .ofBytes t)) ∧
    (∀ (l : Nat) (t : List Byte), 0 < l → l < 65536 → t.length < l →
      AMFData.construct (.ofBytes (f.1 ++ wireEntries es ++ (store_le 2 (htons l) ++ t))) =
        .error (.end_of_buffer l t.length)) ∧
    AMFData.construct (.ofBytes (f.1 ++ wireEntries es ++ [0, 0])) =
      .error (.end_of_buffer 1 0) ∧
    (∀ k vb : List Byte, 0 < k.length → k.length < 65536 →
      AMFData.construct
          (.ofBytes (f.1 ++ wireEntries es ++ (store_le 2 (htons k.length) ++ (k ++ vb)))) =
        match AMFData.construct (.ofBytes vb) with
        | .error e => .error e
        | .ok (v, r) =>
          match AMFMixedArray._construct r (insertAll (entryPairs es ++ [(k, v)]) []) with
          | .error e => .error e
          | .ok (dmap, buf) => .ok (f.2 dmap, buf)) ∧
    (∀ k : List Byte, 0 < k.length → k.length < 65536 →
      AMFData.construct (.ofBytes (f.1 ++ wireEntries es ++ (store_le 2 (htons k.length) ++ k))) =
        .error (.end_of_buffer 1 0)) ∧
    (∀ k vb : List Byte, 0 < k.length → k.length < 65536 → cutScalar vb = true →
      ∃ a b, AMFData.construct
          (.ofBytes (f.1 ++ wireEntries es ++ (store_le 2 (htons k.length) ++ (k ++ vb)))) =
        .error (.end_of_buffer a b)) ∧
    (∀ (k : List Byte) (d0 d1 d2 d3 : Byte) (g : List Byte × (Dmap → AMFData))
        (es1 : List WireEntry) (t : List Byte),
      0 < k.length → k.length < 65536 → g ∈ containerForms d0 d1 d2 d3 →
      (∀ e ∈ es1, e.Ok) → t.length < 2 →
      AMFData.construct (.ofBytes (f.1 ++ wireEntries es ++
          (store_le 2 (htons k.length) ++ (k ++ (g.1 ++ wireEntries es1 ++ t))))) =
        .ok (f.2 (insertAll (entryPairs es ++ [(k, g.2 (insertAll (entryPairs es1) []))]) []),
          .ofBytes t)) := by
  have hval : ∀ k vb : List Byte, 0 < k.length → k.length < 65536 →
      AMFData.construct
          (.ofBytes (f.1 ++ wireEntries es ++ (store_le 2 (htons k.length) ++ (k ++ vb)))) =
        match AMFData.construct (.ofBytes vb) with
        | .error e => .error e
        | .ok (v, r) =>
          match AMFMixedArray._construct r (insertAll (entryPairs es ++ [(k, v)]) []) with
          | .error e => .error e
          | .ok (dmap, buf) => .ok (f.2 dmap, buf) := by
    intro k vb h0 h1
    rw [construct_entries c0 c1 c2 c3 f hf es hes]
    have e : serialized_buffer.ofBytes (store_le 2 (htons k.length) ++ (k ++ vb)) =
        ⟨store_le 2 (htons k.length) ++ (k ++ vb), 2 + (k.length + vb.length)⟩ := by
      simp [serialized_buffer.ofBytes, store_le_length]
    rw [e, _construct_value k vb _ h0 h1]
    cases AMFData.construct (.ofBytes vb) with
    | error e => rfl
    | ok y =>
      obtain ⟨v, r⟩ := y
      simp only [insertAll, List.foldl_append, List.foldl_cons, List.foldl_nil]
  refine ⟨?_, ?_, ?_, hval, ?_, ?_, ?_⟩
  · intro t ht
    rw [construct_entries c0 c1 c2 c3 f hf es hes]
    rw [serialized_buffer.ofBytes, _construct_cut _ _ _ ht]
  · intro l t h0 h1 ht
    rw [construct_entries c0 c1 c2 c3 f hf es hes]
    have e : serialized_buffer.ofBytes (store_le 2 (htons l) ++ t) =
        ⟨store_le 2 (htons l) ++ t, 2 + t.length⟩ := by
      simp [serialized_buffer.ofBytes, store_le_length]
    rw [e, _construct_key_cut l t _ h0 h1 ht]
  · rw [construct_entries c0 c1 c2 c3 f hf es hes]
    have e : serialized_buffer.ofBytes [0, 0] = ⟨[0, 0], 2 + 0⟩ := rfl
    rw [e, _construct_no_terminator]
  · intro k h0 h1
    have h := hval k [] h0 h1
    rw [List.append_nil] at h
    rw [h]
    rfl
  · intro k vb h0 h1 hc
    obtain ⟨a, b, hab⟩ := construct_cutScalar vb hc
    exact ⟨a, b, by rw [hval k vb h0 h1, hab]⟩
  · intro k d0 d1 d2 d3 g es1 t h0 h1 hg hes1 ht
    rw [hval k _ h0 h1, construct_entries d0 d1 d2 d3 g hg es1 hes1]
    rw [serialized_buffer.ofBytes, _construct_cut _ _ _ ht]
    simp only []
    rw [_construct_cut _ _ _ ht]

theorem sampleEntries_ok : ∀ e ∈ sampleEntries, e.Ok := by
  intro e he
  simp only [sampleEntries, List.mem_cons, List.mem_singleton, List.not_mem_nil, or_false] at he
  rcases he with rfl | rfl
  · exact ⟨by decide, by decide, decodes_write (.AMFBoolean true) trivial trivial⟩
  · exact ⟨by decide, by decide, decodes_write (.AMFBoolean false) trivial trivial⟩

/-- Witness for C17 (amended): an Object with the entries `a: true`, `a: false`. -/
theorem duplicate_key_first_wins_witness :
    (objectHeader, AMFData.AMFObject) ∈ containerForms 0 0 0 2 ∧
    (∀ e ∈ sampleEntries, e.Ok) ∧
    AMFData.construct (.ofBytes (objectHeader ++ wireEntries sampleEntries ++ 0 :: 0 :: 9 :: [])) =
      .ok (.AMFObject (insertAll (entryPairs sampleEntries) []), .ofBytes []) ∧
    ((insertAll (entryPairs sampleEntries) []).map Prod.fst).Nodup ∧
    (∀ k, k ∈ (insertAll (entryPairs sampleEntries) []).map Prod.fst ↔
      k ∈ sampleEntries.map WireEntry.key) ∧
    (∀ k v, (k, v) ∈ insertAll (entryPairs sampleEntries) [] ↔
      firstValue (entryPairs sampleEntries) k = some v) ∧
    (∀ k, mapFind (insertAll (entryPairs sampleEntries) []) k =
      firstValue (entryPairs sampleEntries) k) :=
  ⟨List.mem_cons_self _ _, sampleEntries_ok,
   duplicate_key_first_wins 0 0 0 2 9 (objectHeader, AMFData.AMFObject)
     (List.mem_cons_self _ _) sampleEntries sampleEntries_ok []⟩

/-- C17 (counterexample): the Object `03 | 00 01 61 01 01 | 00 01 61 01 00 | 00 00 09`
holds the key `a` twice, with `true` and then `false`; it decodes to the Object that maps
`a` to `true`, the value of the first occurrence, while the last occurrence is `false`. -/
theorem duplicate_key_keeps_first :
    objectHeader ++ wireEntries sampleEntries ++ [0, 0, 9] =
      [3, 0, 1, 0x61, 1, 1, 0, 1, 0x61, 1, 0, 0, 0, 9] ∧
    AMFData.construct (.ofBytes [3, 0, 1, 0x61, 1, 1, 0, 1, 0x61, 1, 0, 0, 0, 9]) =
      .ok (.AMFObject [(str "a", .AMFBoolean true)], .ofBytes []) ∧
    lastValue (entryPairs sampleEntries) (str "a") = some (.AMFBoolean false) :=
  ⟨by decide, eq_of_resultBeq _ _ (by decide!), by rfl⟩

/-- Witness for C18 (amended): an Object cut behind the entries `a: true`, `a: false`. -/
theorem truncated_container_witness :
    (objectHeader, AMFData.AMFObject) ∈ containerForms 0 0 0 2 ∧
    (∀ e ∈ sampleEntries, e.Ok) ∧
    (∀ t : List Byte, t.length < 2 →
      AMFData.construct (.ofBytes (objectHeader ++ wireEntries sampleEntries ++ t)) =
        .ok (.AMFObject (insertAll (entryPairs sampleEntries) []), .ofBytes t)) ∧
    (∀ (l : Nat) (t : List Byte), 0 < l → l < 65536 → t.length < l →
      AMFData.construct
          (.ofBytes (objectHeader ++ wireEntries sampleEntries ++ (store_le 2 (htons l) ++ t))) =
        .error (.end_of_buffer l t.length)) ∧
    AMFData.construct (.ofBytes (objectHeader ++ wireEntries sampleEntries ++ [0, 0])) =
      .error (.end_of_buffer 1 0) ∧
    (∀ k vb : List Byte, 0 < k.length → k.length < 65536 →
      AMFData.construct (.ofBytes (objectHeader ++ wireEntries sampleEntries ++
          (store_le 2 (htons k.length) ++ (k ++ vb)))) =
        match AMFData.construct (.ofBytes vb) with
        | .error e => .error e
        | .ok (v, r) =>
          match AMFMixedArray._construct r
              (insertAll (entryPairs sampleEntries ++ [(k, v)]) []) with
          | .error e => .error e
          | .ok (dmap, buf) => .ok (.AMFObject dmap, buf)) ∧
    (∀ k : List Byte, 0 < k.length → k.length < 65536 →
      AMFData.construct (.ofBytes (objectHeader ++ wireEntries sampleEntries ++
          (store_le 2 (htons k.length) ++ k))) =
        .error (.end_of_buffer 1 0)) ∧
    (∀ k vb : List Byte, 0 < k.length → k.length < 65536 → cutScalar vb = true →
      ∃ a b, AMFData.construct (.ofBytes (objectHeader ++ wireEntries sampleEntries ++
          (store_le 2 (htons k.length) ++ (k ++ vb)))) =
        .error (.end_of_buffer a b)) ∧
    (∀ (k : List Byte) (d0 d1 d2 d3 : Byte) (g : List Byte × (Dmap → AMFData))
        (es1 : List WireEntry) (t : List Byte),
      0 < k.length → k.length < 65536 → g ∈ containerForms d0 d1 d2 d3 →
      (∀ e ∈ es1, e.Ok) → t.length < 2 →
      AMFData.construct (.ofBytes (objectHeader ++ wireEntries sampleEntries ++
          (store_le 2 (htons k.length) ++ (k ++ (g.1 ++ wireEntries es1 ++ t))))) =
        .ok (.AMFObject (insertAll
            (entryPairs sampleEntries ++ [(k, g.2 (insertAll (entryPairs es1) []))]) []),
          .ofBytes t)) :=
  ⟨List.mem_cons_self _ _, sampleEntries_ok,
   truncated_container 0 0 0 2 (objectHeader, AMFData.AMFObject)
     (List.mem_cons_self _ _) sampleEntries sampleEntries_ok⟩

/-- C18 (counterexample): the input `03 | 00 01 61 | 03 | 00 01 62 05` ends inside the
value of the key `a`, an Object that has neither a further entry nor its terminator; the
decode succeeds, with the Object `b: Null` as the value of `a`. -/
theorem cut_inside_nested_object_succeeds :
    AMFData.construct (.ofBytes [3, 0, 1, 0x61, 3, 0, 1, 0x62, 5]) =
      .ok (.AMFObject [(str "a", .AMFObject [(str "b", .AMFNull)])], .ofBytes []) :=
  eq_of_resultBeq _ _ (by decide!)

/-! ## C19, C20: what the video probe records -/

/-- The H.264 case as its entry, which picks where the NAL unit begins, followed by the
parse of the NAL unit. -/
theorem probeH264_eq (mem : List Byte) (vptr tag_length : Nat) :
    probeH264 mem vptr tag_length =
      match peek mem vptr with
      | .error e => .error e
      | .ok avc_packet_type =>
        if avc_packet_type.val ≠ 0 ∧ avc_packet_type.val ≠ 1 then .ok .didnt_get_video_params
        else
          probeSPS ⟨mem.drop (if avc_packet_type.val = 0 then vptr + 1 + 3 + 8 else vptr + 1 + 3),
            (tag_length + 2 ^ 32 - 4) % 2 ^ 32⟩ := by
  unfold probeH264
  cases peek mem vptr with
  | error e => rfl
  | ok pt => rfl

/-- C20 (amended): an H.264 body with `avc_packet_type` 0 is probed as one with
`avc_packet_type` 1 whose NAL unit begins eight bytes further on: after the packet type
and the three bytes of composition time the probe skips eight bytes and then parses what
follows as a NAL unit, with every outcome that parse can have. -/
theorem probeH264_avcC (mem mem2 : List Byte) (vptr vptr2 tag_length : Nat)
    (h0 : peek mem vptr = .ok 0) (h1 : peek mem2 vptr2 = .ok 1)
    (hd : mem.drop (vptr + 12) = mem2.drop (vptr2 + 4)) :
    probeH264 mem vptr tag_length = probeH264 mem2 vptr2 tag_length ∧
    probeH264 mem vptr tag_length =
      probeSPS ⟨mem.drop (vptr + 12), (tag_length + 2 ^ 32 - 4) % 2 ^ 32⟩ := by
  have e0 : probeH264 mem vptr tag_length =
      probeSPS ⟨mem.drop (vptr + 12), (tag_length + 2 ^ 32 - 4) % 2 ^ 32⟩ := by
    rw [probeH264_eq, h0]
    simp
  have e1 : probeH264 mem2 vptr2 tag_length =
      probeSPS ⟨mem2.drop (vptr2 + 4), (tag_length + 2 ^ 32 - 4) % 2 ^ 32⟩ := by
    rw [probeH264_eq, h1]
    simp
  exact ⟨by rw [e0, e1, hd], e0⟩

/-- Witness for C20 (amended): the sample tag with `avc_packet_type` 0 and the same
parameter set in a tag with `avc_packet_type` 1. -/
theorem probeH264_avcC_witness :
    peek (sampleHeader ++ sampleAvcTag) 25 = .ok 0 ∧
    probeH264 (sampleHeader ++ sampleAvcTag) 25 21 =
      probeH264 [1, 0, 0, 0, 0x67, 0x42, 0x00, 0x1E, 0xF8, 0x28, 0x3F, 0x00, 0, 0, 0, 32] 0 21 ∧
    probeH264 (sampleHeader ++ sampleAvcTag) 25 21 =
      probeSPS ⟨(sampleHeader ++ sampleAvcTag).drop (25 + 12), (21 + 2 ^ 32 - 4) % 2 ^ 32⟩ :=
  ⟨by decide!,
    probeH264_avcC (sampleHeader ++ sampleAvcTag)
      [1, 0, 0, 0, 0x67, 0x42, 0x00, 0x1E, 0xF8, 0x28, 0x3F, 0x00, 0, 0, 0, 32] 25 0 21
      (by decide!) (by decide!) (by decide!)⟩

/-- C20 (counterexample): the first video tag of the file is an H.264 keyframe with
`avc_packet_type` 0; the probe returns 320 by 240, and pass 1 records `width` and
`height` as the Doubles 320.0 and 240.0. -/
theorem avcC_probe_counterexample :
    peek (sampleHeader ++ sampleAvcTag) 24 = .ok 0x17 ∧
    peek (sampleHeader ++ sampleAvcTag) 25 = .ok 0 ∧
    probeVideo (sampleHeader ++ sampleAvcTag) 25 21 7 = .ok (.params 320 240) ∧
    (pass1 false (sampleHeader ++ sampleAvcTag)).map
        (fun s => ((mapFind s.onMetaData (str "width")).map AMFData.write,
                   (mapFind s.onMetaData (str "height")).map AMFData.write)) =
      .ok (some [0, 0x40, 0x74, 0, 0, 0, 0, 0, 0], some [0, 0x40, 0x6E, 0, 0, 0, 0, 0, 0]) := by
  refine ⟨by decide!, by decide!, by decide!, by decide!⟩

theorem videoKeys_mapFind (dmap : Dmap) (c : AMFData) (w h : Int) :
    mapFind
        (if h ≠ 0 then
          mapAssign
            (if w ≠ 0 then
              mapAssign (mapAssign dmap (str "videocodecid") c) (str "width")
                (.AMFDouble (F64.ofInt w))
            else mapAssign dmap (str "videocodecid") c)
            (str "height") (.AMFDouble (F64.ofInt h))
        else
          if w ≠ 0 then
            mapAssign (mapAssign dmap (str "videocodecid") c) (str "width")
              (.AMFDouble (F64.ofInt w))
          else mapAssign dmap (str "videocodecid") c)
        (str "videocodecid") = some c ∧
    mapFind
        (if h ≠ 0 then
          mapAssign
            (if w ≠ 0 then
              mapAssign (mapAssign dmap (str "videocodecid") c) (str "width")
                (.AMFDouble (F64.ofInt w))
            else mapAssign dmap (str "videocodecid") c)
            (str "height") (.AMFDouble (F64.ofInt h))
        else
          if w ≠ 0 then
            mapAssign (mapAssign dmap (str "videocodecid") c) (str "width")
              (.AMFDouble (F64.ofInt w))
          else mapAssign dmap (str "videocodecid") c)
        (str "width") =
      (if w ≠ 0 then some (.AMFDouble (F64.ofInt w)) else mapFind dmap (str "width")) ∧
    mapFind
        (if h ≠ 0 then
          mapAssign
            (if w ≠ 0 then
              mapAssign (mapAssign dmap (str "videocodecid") c) (str "width")
                (.AMFDouble (F64.ofInt w))
            else mapAssign dmap (str "videocodecid") c)
            (str "height") (.AMFDouble (F64.ofInt h))
        else
          if w ≠ 0 then
            mapAssign (mapAssign dmap (str "videocodecid") c) (str "width")
              (.AMFDouble (F64.ofInt w))
          else mapAssign dmap (str "videocodecid") c)
        (str "height") =
      (if h ≠ 0 then some (.AMFDouble (F64.ofInt h)) else mapFind dmap (str "height")) := by
  have n1 : str "videocodecid" ≠ str "width" := by decide
  have n2 : str "videocodecid" ≠ str "height" := by decide
  have n3 : str "width" ≠ str "height" := by decide
  have n4 : str "width" ≠ str "videocodecid" := by decide
  have n5 : str "height" ≠ str "videocodecid" := by decide
  have n6 : str "height" ≠ str "width" := by decide
  by_cases hw : w = 0 <;> by_cases hh : h = 0 <;>
    simp only [hw, hh, ne_eq, not_true_eq_false, not_false_eq_true, if_true, if_false,
      mapFind_mapAssign_self,
      mapFind_mapAssign_other _ _ _ _ n1, mapFind_mapAssign_other _ _ _ _ n2,
      mapFind_mapAssign_other _ _ _ _ n3, mapFind_mapAssign_other _ _ _ _ n4,
      mapFind_mapAssign_other _ _ _ _ n5, mapFind_mapAssign_other _ _ _ _ n6, and_self]

/-! ## C19: the video keys through pass 1 -/

theorem keepsVideo_refl (nomerge : Bool) (m : Dmap) : KeepsVideo nomerge m m :=
  fun _ _ => ⟨fun _ h => h, fun _ => rfl⟩

theorem keepsVideo_trans (nomerge : Bool) (m m1 m2 : Dmap) (h1 : KeepsVideo nomerge m m1)
    (h2 : KeepsVideo nomerge m1 m2) : KeepsVideo nomerge m m2 :=
  fun k hk => ⟨fun v h => (h2 k hk).1 v ((h1 k hk).1 v h),
    fun hn => ((h2 k hk).2 hn).trans ((h1 k hk).2 hn)⟩

theorem mapFind_merge_keep (m r : Dmap) (k : List Byte) (v : AMFData)
    (h : mapFind m k = some v) :
    mapFind (r.foldl (fun acc ri => mapInsert acc ri.1 ri.2) m) k = some v := by
  have := mapFind_insertAll r k m
  rw [h] at this
  exact this

theorem scanMeta_keeps (nomerge : Bool) (tagbuf : serialized_buffer) (m m1 : Dmap)
    (h : scanMeta nomerge tagbuf m = .ok m1) : KeepsVideo nomerge m m1 := by
  unfold scanMeta at h
  simp only [] at h
  split at h
  · rename_i d hd
    cases h
    split at hd
    · cases hd
    · split at hd
      · cases hd
      · split at hd
        · cases hd
        · split at hd
          · cases hn : nomerge with
            | true =>
              simp only [hn, not_true_eq_false, if_false, Except.ok.injEq] at hd
              subst hd
              exact keepsVideo_refl _ _
            | false =>
              simp only [hn, Bool.false_eq_true, not_false_eq_true, if_true] at hd
              unfold AMFMixedArray.merge at hd
              split at hd
              · simp only [Bool.false_eq_true, if_false, Except.ok.injEq] at hd
                subst hd
                intro k _
                exact ⟨fun v hv => mapFind_merge_keep _ _ _ _ hv, fun hf => by cases hf⟩
              · cases hd
          · split at hd
            · cases hd
            · cases hd
              exact keepsVideo_refl _ _
  · split at h
    · cases h
      exact keepsVideo_refl _ _
    · cases h

theorem scanAudio_keeps (nomerge : Bool) (mem : List Byte) (L : Nat) (s s1 : Scan)
    (h : scanAudio mem L s = .ok s1) :
    s1.have_video_params = s.have_video_params ∧ KeepsVideo nomerge s.onMetaData s1.onMetaData := by
  unfold scanAudio at h
  cases hb : peek mem s.fptr with
  | error e =>
    simp only [hb, bind, Except.bind] at h
    cases h
  | ok b =>
    simp only [hb, bind, Except.bind, pure, Except.pure, Except.ok.injEq] at h
    subst h
    cases ha : s.have_audio_params with
    | true =>
      simp only [ha, not_true_eq_false, if_false]
      exact ⟨trivial, keepsVideo_refl _ _⟩
    | false =>
      simp only [ha, Bool.false_eq_true, not_false_eq_true, if_true]
      refine ⟨trivial, ?_⟩
      have key : ∀ k ∈ videoKeys, ∀ (c1 c2 c3 c4 : AMFData),
          mapFind (mapAssign (mapAssign (mapAssign (mapAssign s.onMetaData (str "audiocodecid") c1)
            (str "audiosamplerate") c2) (str "audiosamplesize") c3) (str "stereo") c4) k =
          mapFind s.onMetaData k := by
        intro k hk c1 c2 c3 c4
        simp only [videoKeys, List.mem_cons, List.mem_singleton, List.not_mem_nil, or_false] at hk
        rcases hk with rfl | rfl | rfl <;>
          rw [mapFind_mapAssign_other _ _ _ _ (by decide),
            mapFind_mapAssign_other _ _ _ _ (by decide),
            mapFind_mapAssign_other _ _ _ _ (by decide),
            mapFind_mapAssign_other _ _ _ _ (by decide)]
      exact fun k hk => ⟨fun v hv => by rw [key k hk]; exact hv, fun _ => key k hk _ _ _ _⟩

theorem scanVideo_meta (mem : List Byte) (L : Nat) (s s1 : Scan) (b : Byte)
    (hb : peek mem s.fptr = .ok b) (h : scanVideo mem L s = .ok s1) :
    if s.have_video_params = true then
      s1.have_video_params = true ∧ s1.onMetaData = s.onMetaData
    else
      match probeVideo mem (s.fptr + 1) L (b.val &&& 0x0f) with
      | .ok (.params w h) =>
        s1.have_video_params = true ∧
          s1.onMetaData = videoAssign s.onMetaData (b.val &&& 0x0f) w h
      | .ok .didnt_get_video_params =>
        s1.have_video_params = false ∧ s1.onMetaData = s.onMetaData
      | .error _ => False := by
  cases hv : s.have_video_params with
  | true =>
    simp only [if_true]
    by_cases hft : (b.val >>> 4) &&& 15 = 1
    · simp only [scanVideo, hb, bind, Except.bind, pure, Except.pure, hft, if_true, hv,
        not_true_eq_false, if_false, Except.ok.injEq] at h
      subst h
      exact ⟨rfl, rfl⟩
    · simp only [scanVideo, hb, bind, Except.bind, pure, Except.pure, hft, if_false, hv,
        not_true_eq_false, Except.ok.injEq] at h
      subst h
      exact ⟨rfl, rfl⟩
  | false =>
    simp only [Bool.false_eq_true, if_false]
    cases hpr : probeVideo mem (s.fptr + 1) L (b.val &&& 15) with
    | error e =>
      simp only []
      by_cases hft : (b.val >>> 4) &&& 15 = 1
      · simp only [scanVideo, hb, bind, Except.bind, pure, Except.pure, hft, if_true, hv,
          Bool.false_eq_true, not_false_eq_true, hpr] at h
        cases h
      · simp only [scanVideo, hb, bind, Except.bind, pure, Except.pure, hft, if_false, hv,
          Bool.false_eq_true, not_false_eq_true, if_true, hpr] at h
        cases h
    | ok r =>
      cases r with
      | didnt_get_video_params =>
        simp only []
        by_cases hft : (b.val >>> 4) &&& 15 = 1
        · simp only [scanVideo, hb, bind, Except.bind, pure, Except.pure, hft, if_true, hv,
            Bool.false_eq_true, not_false_eq_true, hpr, Except.ok.injEq] at h
          subst h
          exact ⟨rfl, rfl⟩
        · simp only [scanVideo, hb, bind, Except.bind, pure, Except.pure, hft, if_false, hv,
            Bool.false_eq_true, not_false_eq_true, if_true, hpr, Except.ok.injEq] at h
          subst h
          exact ⟨rfl, rfl⟩
      | params w h0 =>
        simp only []
        by_cases hft : (b.val >>> 4) &&& 15 = 1
        · simp only [scanVideo, hb, bind, Except.bind, pure, Except.pure, hft, if_true, hv,
            Bool.false_eq_true, not_false_eq_true, hpr, Except.ok.injEq] at h
          subst h
          exact ⟨rfl, rfl⟩
        · simp only [scanVideo, hb, bind, Except.bind, pure, Except.pure, hft, if_false, hv,
            Bool.false_eq_true, not_false_eq_true, if_true, hpr, Except.ok.injEq] at h
          subst h
          exact ⟨rfl, rfl⟩

theorem pass1Step_video (nomerge : Bool) (pre post : List Byte) (t : Tag) (hwf : t.Wf)
    (s : Scan) (hf : s.fptr = pre.length) (hend : s.fend = (pre ++ (t.encode ++ post)).length)
    (b : Bool) (s1 : Scan)
    (h : pass1Step nomerge (pre ++ (t.encode ++ post)) s = .ok (b, s1)) :
    if t.tag_type = 9 ∧ s.have_video_params = false then
      match probeVideo (pre ++ (t.encode ++ post)) (pre.length + 12) t.tag_length t.codec_id with
      | .ok (.params w h) =>
        s1.have_video_params = true ∧ s1.onMetaData = videoAssign s.onMetaData t.codec_id w h
      | .ok .didnt_get_video_params =>
        s1.have_video_params = false ∧ s1.onMetaData = s.onMetaData
      | .error _ => False
    else
      s1.have_video_params = s.have_video_params ∧
        KeepsVideo nomerge s.onMetaData s1.onMetaData := by
  obtain ⟨r1, r2, r3, r4, r5, r6⟩ := tag_reads pre post t s.ts
  have hel : t.encode.length = 11 + (t.tag_length + 4) := by
    rw [Tag.encode_length, ← hwf.1, hwf.2.1]
    omega
  have hc1 : ¬ (pre.length + 15 > s.fend) := by
    rw [hend]
    simp only [List.length_append, hel]
    omega
  have hc2 : ¬ (pre.length + t.tag_length > s.fend) := by
    rw [hend]
    simp only [List.length_append, hel]
    omega
  cases hp : process_timestamp t.tag_type [t.b0, t.b1, t.b2, t.b3] 0 s.ts with
  | error e =>
    rw [hp] at r3
    simp only [pass1Step, hf, hc1, hc2, r1, r2, r3, Except.map, bind, Except.bind, pure,
      Except.pure, if_false] at h
    cases h
  | ok r =>
    obtain ⟨ts, q, st1⟩ := r
    have hq := process_timestamp_ptr _ _ _ _ _ _ _ _ _ hp
    subst hq
    rw [hp] at r3
    simp only [pass1Step, hf, hc1, hc2, r1, r2, r3, Except.map, bind, Except.bind, pure,
      Except.pure, if_false, Nat.add_assoc, Nat.reduceAdd] at h
    split at h
    · cases h
    · rename_i v hv
      simp only [Except.ok.injEq, Prod.mk.injEq] at h
      obtain ⟨_, hs1⟩ := h
      subst hs1
      simp only []
      by_cases h18 : t.tag_type = 18
      · have h9 : ¬ t.tag_type = 9 := by rw [h18]; decide
        rw [if_pos h18] at hv
        rw [if_neg (fun hh => h9 hh.1)]
        split at hv
        · cases hv
        · rename_i d hd
          simp only [Except.ok.injEq] at hv
          subst hv
          exact ⟨rfl, scanMeta_keeps _ _ _ _ hd⟩
      · rw [if_neg h18] at hv
        by_cases h9 : t.tag_type = 9
        · rw [if_pos h9] at hv
          obtain ⟨b0, rest, hb⟩ := List.exists_cons_of_ne_nil (hwf.2.2 h9)
          have hpk : peek (pre ++ (t.encode ++ post)) (pre.length + 11) = .ok b0 := by
            rw [r5, hb]
            exact peek_cons_zero _ _
          have hc : t.codec_id = b0.val &&& 0x0f := by
            simp only [Tag.codec_id, hb]
          have hm := scanVideo_meta _ _ _ _ b0 hpk hv
          simp only [Nat.add_assoc, Nat.reduceAdd] at hm
          cases hvp : s.have_video_params with
          | true =>
            rw [if_neg (fun hh => by cases hh.2)]
            simp only [hvp, if_true] at hm
            exact ⟨hm.1, by rw [hm.2]; exact keepsVideo_refl _ _⟩
          | false =>
            rw [if_pos ⟨h9, rfl⟩]
            simp only [hvp, Bool.false_eq_true, if_false] at hm
            rw [hc]
            exact hm
        · rw [if_neg h9] at hv
          rw [if_neg (fun hh => h9 hh.1)]
          by_cases h8 : t.tag_type = 8 ∧ t.tag_length > 0
          · rw [if_pos h8] at hv
            have := scanAudio_keeps nomerge _ _ _ _ hv
            exact this
          · rw [if_neg h8] at hv
            simp only [Except.ok.injEq] at hv
            subst hv
            exact ⟨rfl, keepsVideo_refl _ _⟩

theorem pass1Loop_video (nomerge : Bool) (tags : List Tag) :
    ∀ (pre : List Byte) (s : Scan) (fuel : Nat) (s1 : Scan),
      (∀ t ∈ tags, t.Wf) → s.fptr = pre.length → s.fend = (pre ++ encodeTags tags).length →
      pass1Loop nomerge (pre ++ encodeTags tags) fuel s = .ok s1 →
      (s.have_video_params = true →
        s1.have_video_params = true ∧ KeepsVideo nomerge s.onMetaData s1.onMetaData) ∧
      (s.have_video_params = false →
        match firstProbed (pre ++ encodeTags tags) pre.length tags with
        | none =>
          s1.have_video_params = false ∧ KeepsVideo nomerge s.onMetaData s1.onMetaData
        | some (c, w, h) =>
          s1.have_video_params = true ∧
            ∃ m0, KeepsVideo nomerge s.onMetaData m0 ∧
              KeepsVideo nomerge (videoAssign m0 c w h) s1.onMetaData) := by
  induction tags with
  | nil =>
    intro pre s fuel s1 _ hf hend h
    cases fuel with
    | zero => rw [pass1Loop] at h; cases h
    | succ fuel =>
      have hc : ¬ s.fptr < s.fend := by
        rw [hf, hend]
        simp [encodeTags]
      rw [pass1Loop, if_neg hc] at h
      cases h
      exact ⟨fun hv => ⟨hv, keepsVideo_refl _ _⟩, fun hv => ⟨hv, keepsVideo_refl _ _⟩⟩
  | cons t rest ih =>
    intro pre s fuel s1 hwf hf hend h
    have hwt : t.Wf := hwf t (List.mem_cons_self _ _)
    have hwr : ∀ u ∈ rest, u.Wf := fun u hu => hwf u (List.mem_cons_of_mem _ hu)
    cases fuel with
    | zero => rw [pass1Loop] at h; cases h
    | succ fuel =>
      have hc : s.fptr < s.fend := by
        rw [hf, hend]
        simp only [encodeTags, List.length_append, Tag.encode_length]
        omega
      rw [pass1Loop, if_pos hc] at h
      simp only [encodeTags] at h hend ⊢
      cases hs : pass1Step nomerge (pre ++ (t.encode ++ encodeTags rest)) s with
      | error e => rw [hs] at h; cases h
      | ok r =>
        obtain ⟨b, s2⟩ := r
        obtain ⟨hb, q1, q2, _, _⟩ :=
          pass1Step_tag nomerge pre (encodeTags rest) t hwt s hf hend b s2 hs
        have hm := pass1Step_video nomerge pre (encodeTags rest) t hwt s hf hend b s2 hs
        subst hb
        rw [hs] at h
        simp only [] at h
        rw [← List.append_assoc] at h
        obtain ⟨i1, i2⟩ := ih (pre ++ t.encode) s2 fuel s1 hwr
          (by rw [q1, List.length_append])
          (by rw [q2, hend, List.append_assoc]) h
        rw [List.length_append, List.append_assoc] at i2
        constructor
        · intro hv
          rw [if_neg (fun hh => by rw [hv] at hh; cases hh.2)] at hm
          obtain ⟨j1, j2⟩ := i1 (by rw [hm.1, hv])
          exact ⟨j1, keepsVideo_trans _ _ _ _ hm.2 j2⟩
        · intro hv
          rw [firstProbed]
          by_cases h9 : t.tag_type = 9
          · rw [if_pos ⟨h9, hv⟩] at hm
            rw [if_pos h9]
            cases hpr : probeVideo (pre ++ (t.encode ++ encodeTags rest)) (pre.length + 12)
                t.tag_length t.codec_id with
            | error e =>
              rw [hpr] at hm
              exact hm.elim
            | ok r =>
              cases r with
              | params w h0 =>
                rw [hpr] at hm
                simp only [] at hm ⊢
                obtain ⟨j1, j2⟩ := i1 hm.1
                rw [hm.2] at j2
                exact ⟨j1, s.onMetaData, keepsVideo_refl _ _, j2⟩
              | didnt_get_video_params =>
                rw [hpr] at hm
                simp only [] at hm ⊢
                have j := i2 hm.1
                rw [hm.2] at j
                exact j
          · rw [if_neg (fun hh => h9 hh.1)] at hm
            rw [if_neg h9]
            have j := i2 (by rw [hm.1, hv])
            cases hfp : firstProbed (pre ++ (t.encode ++ encodeTags rest))
                (pre.length + t.encode.length) rest with
            | none =>
              rw [hfp] at j
              exact ⟨j.1, keepsVideo_trans _ _ _ _ hm.2 j.2⟩
            | some x =>
              obtain ⟨c, w, h0⟩ := x
              rw [hfp] at j
              obtain ⟨j1, m0, j2, j3⟩ := j
              exact ⟨j1, m0, keepsVideo_trans _ _ _ _ hm.2 j2, j3⟩

theorem videoAssign_mapFind (dmap : Dmap) (c : Nat) (w h : Int) :
    mapFind (videoAssign dmap c w h) (str "videocodecid") = some (.AMFDouble (F64.ofNat c)) ∧
    mapFind (videoAssign dmap c w h) (str "width") =
      (if w ≠ 0 then some (.AMFDouble (F64.ofInt w)) else mapFind dmap (str "width")) ∧
    mapFind (videoAssign dmap c w h) (str "height") =
      (if h ≠ 0 then some (.AMFDouble (F64.ofInt h)) else mapFind dmap (str "height")) :=
  videoKeys_mapFind dmap (.AMFDouble (F64.ofNat c)) w h

/-- C19 (amended): for every file of completely framed tags on which pass 1 completes,
the metadata after pass 1 is determined by the first video tag whose probe runs to the
end of its `switch` (every codec but H.264; an H.264 tag only when it does not leave
through `goto didnt_get_video_params`).  If there is such a tag, `videocodecid` is its
`codec_id`, `width` (`height`) is its probed width (height) when that is not 0, and, with
`-nomerge`, `width` (`height`) is absent when the probed value is 0.  If there is none,
as when every video tag is an H.264 tag that is no sequence parameter set, no probe has
recorded anything: `have_video_params` is unset and, with `-nomerge`, none of the three
keys is present. -/
theorem pass1_video_keys (nomerge : Bool) (flags : Byte) (p4 : List Byte) (tags : List Tag)
    (hp4 : p4.length = 4) (hwf : ∀ t ∈ tags, t.Wf)
    (hp1 : (pass1 nomerge (flvFile flags p4 tags)).toBool = true) :
    ∃ s, pass1 nomerge (flvFile flags p4 tags) = .ok s ∧
      match firstProbed (flvFile flags p4 tags) 13 tags with
      | some (c, w, h) =>
        s.have_video_params = true ∧
        mapFind s.onMetaData (str "videocodecid") = some (.AMFDouble (F64.ofNat c)) ∧
        (w ≠ 0 → mapFind s.onMetaData (str "width") = some (.AMFDouble (F64.ofInt w))) ∧
        (h ≠ 0 → mapFind s.onMetaData (str "height") = some (.AMFDouble (F64.ofInt h))) ∧
        (nomerge = true → w = 0 → mapFind s.onMetaData (str "width") = none) ∧
        (nomerge = true → h = 0 → mapFind s.onMetaData (str "height") = none)
      | none =>
        s.have_video_params = false ∧
        (nomerge = true →
          mapFind s.onMetaData (str "videocodecid") = none ∧
          mapFind s.onMetaData (str "width") = none ∧
          mapFind s.onMetaData (str "height") = none) := by
  cases hs : pass1 nomerge (flvFile flags p4 tags) with
  | error e => rw [hs] at hp1; cases hp1
  | ok s =>
    refine ⟨s, rfl, ?_⟩
    have k1 : str "videocodecid" ∈ videoKeys := by simp [videoKeys]
    have k2 : str "width" ∈ videoKeys := by simp [videoKeys]
    have k3 : str "height" ∈ videoKeys := by simp [videoKeys]
    have hloop : match firstProbed (flvFile flags p4 tags) 13 tags with
        | none => s.have_video_params = false ∧ KeepsVideo nomerge [] s.onMetaData
        | some (c, w, h) =>
          s.have_video_params = true ∧
            ∃ m0, KeepsVideo nomerge [] m0 ∧
              KeepsVideo nomerge (videoAssign m0 c w h) s.onMetaData := by
      unfold pass1 at hs
      split at hs
      · cases hs
      · split at hs
        · cases hs
        · rw [tagStreamStart_flvFile] at hs
          have := (pass1Loop_video nomerge tags ([0x46, 0x4C, 0x56, 0x01, flags, 0, 0, 0, 9] ++ p4)
            _ _ s hwf (by simp [hp4]) rfl hs).2 rfl
          have hl : ([0x46, 0x4C, 0x56, 0x01, flags, 0, 0, 0, 9] ++ p4).length = 13 := by
            simp [hp4]
          rw [hl] at this
          exact this
    cases hfp : firstProbed (flvFile flags p4 tags) 13 tags with
    | none =>
      rw [hfp] at hloop
      simp only [] at hloop ⊢
      refine ⟨hloop.1, fun hn => ⟨?_, ?_, ?_⟩⟩
      · rw [(hloop.2 _ k1).2 hn]; rfl
      · rw [(hloop.2 _ k2).2 hn]; rfl
      · rw [(hloop.2 _ k3).2 hn]; rfl
    | some x =>
      obtain ⟨c, w, h⟩ := x
      rw [hfp] at hloop
      simp only [] at hloop ⊢
      obtain ⟨j1, m0, j2, j3⟩ := hloop
      obtain ⟨a1, a2, a3⟩ := videoAssign_mapFind m0 c w h
      refine ⟨j1, (j3 _ k1).1 _ a1, ?_, ?_, ?_, ?_⟩
      · intro hw
        rw [if_pos hw] at a2
        exact (j3 _ k2).1 _ a2
      · intro hh
        rw [if_pos hh] at a3
        exact (j3 _ k3).1 _ a3
      · intro hn hw
        rw [(j3 _ k2).2 hn, a2, if_neg (fun hh => hh hw), (j2 _ k2).2 hn]
        rfl
      · intro hn hh
        rw [(j3 _ k3).2 hn, a3, if_neg (fun hx => hx hh), (j2 _ k3).2 hn]
        rfl

/-- Witness for C19 (amended): the file whose tags are an H.264 tag with
`avc_packet_type` 2 and a VP6 tag. -/
theorem pass1_video_keys_witness :
    [(0 : Byte), 0, 0, 0].length = 4 ∧ (∀ t ∈ sampleVideoTags, t.Wf) ∧
    (pass1 false (flvFile 5 [0, 0, 0, 0] sampleVideoTags)).toBool = true ∧
    ∃ s, pass1 false (flvFile 5 [0, 0, 0, 0] sampleVideoTags) = .ok s ∧
      match firstProbed (flvFile 5 [0, 0, 0, 0] sampleVideoTags) 13 sampleVideoTags with
      | some (c, w, h) =>
        s.have_video_params = true ∧
        mapFind s.onMetaData (str "videocodecid") = some (.AMFDouble (F64.ofNat c)) ∧
        (w ≠ 0 → mapFind s.onMetaData (str "width") = some (.AMFDouble (F64.ofInt w))) ∧
        (h ≠ 0 → mapFind s.onMetaData (str "height") = some (.AMFDouble (F64.ofInt h))) ∧
        (false = true → w = 0 → mapFind s.onMetaData (str "width") = none) ∧
        (false = true → h = 0 → mapFind s.onMetaData (str "height") = none)
      | none =>
        s.have_video_params = false ∧
        (false = true →
          mapFind s.onMetaData (str "videocodecid") = none ∧
          mapFind s.onMetaData (str "width") = none ∧
          mapFind s.onMetaData (str "height") = none) :=
  ⟨rfl, by decide, by decide!,
   pass1_video_keys false 5 [0, 0, 0, 0] sampleVideoTags rfl (by decide) (by decide!)⟩

/-- C19 (counterexample): a file whose first video tag is an H.264 tag with
`avc_packet_type` 2.  Pass 1 over that tag alone records no `videocodecid` at all; with
a VP6 tag behind it, pass 1 records `videocodecid` as the Double 4.0, the codec of the
second video tag, and not 7, the codec of the first. -/
theorem first_video_codec_not_recorded :
    flvFile 5 [0, 0, 0, 0] sampleVideoTags = sampleHeader ++ sampleGotoTag ++ sampleVp6Tag ∧
    firstProbed (flvFile 5 [0, 0, 0, 0] sampleVideoTags) 13 sampleVideoTags =
      some (4, 320, 240) ∧
    peek (sampleHeader ++ sampleGotoTag) 24 = .ok 0x17 ∧
    probeVideo (sampleHeader ++ sampleGotoTag) 25 5 7 = .ok .didnt_get_video_params ∧
    (pass1 false (sampleHeader ++ sampleGotoTag)).map
        (fun s => (s.have_video_params, s.vframe_count,
          (mapFind s.onMetaData (str "videocodecid")).map AMFData.write)) =
      .ok (false, 1, none) ∧
    (pass1 false (sampleHeader ++ sampleGotoTag ++ sampleVp6Tag)).map
        (fun s => (s.have_video_params, s.vframe_count,
          (mapFind s.onMetaData (str "videocodecid")).map AMFData.write)) =
      .ok (true, 2, some [0, 0x40, 0x10, 0, 0, 0, 0, 0, 0]) := by
  refine ⟨by decide, by decide!, by decide!, by decide!, by decide!, by decide!⟩

/-! ## C22: the SCREEN probe -/

/-- C22: for every video body whose bytes after the codec byte are `b1 b2 b3 b4`, the
SCREEN case returns the 12-bit width `(b1 & 0x0F) * 256 + b2`, but as height only
`b4 >> 4`: the second assignment to `h` replaces the first (`h = ... << 4; h = ... >> 4`)
instead of adding to it, so `b3` is read and dropped and no height above 15 is ever
returned.  With the bytes `01 40 0F 00` (320 by 240) the probe returns 320 by 0. -/
theorem probeScreen_value (pre post : List Byte) (b1 b2 b3 b4 : Byte) :
    probeScreen (pre ++ b1 :: b2 :: b3 :: b4 :: post) pre.length =
      .ok (.params (((b1.val &&& 0x0f) * 256 + b2.val : Nat) : Int) ((b4.val >>> 4 : Nat) : Int)) ∧
    probeVideo (pre ++ b1 :: b2 :: b3 :: b4 :: post) pre.length 0 3 =
      .ok (.params (((b1.val &&& 0x0f) * 256 + b2.val : Nat) : Int) ((b4.val >>> 4 : Nat) : Int)) ∧
    b4.val >>> 4 ≤ 15 ∧
    probeScreen [0x01, 0x40, 0x0F, 0x00] 0 = .ok (.params 320 0) := by
  have h0 : peek (pre ++ b1 :: b2 :: b3 :: b4 :: post) pre.length = .ok b1 := by
    have h := peek_append pre (b1 :: b2 :: b3 :: b4 :: post) 0
    simpa [peek] using h
  have h1 : peek (pre ++ b1 :: b2 :: b3 :: b4 :: post) (pre.length + 1) = .ok b2 := by
    have h := peek_append pre (b1 :: b2 :: b3 :: b4 :: post) 1
    simpa [peek] using h
  have h2 : peek (pre ++ b1 :: b2 :: b3 :: b4 :: post) (pre.length + 2) = .ok b3 := by
    have h := peek_append pre (b1 :: b2 :: b3 :: b4 :: post) 2
    simpa [peek] using h
  have h3 : peek (pre ++ b1 :: b2 :: b3 :: b4 :: post) (pre.length + 3) = .ok b4 := by
    have h := peek_append pre (b1 :: b2 :: b3 :: b4 :: post) 3
    simpa [peek] using h
  have hb2 : b2.val &&& 0xff = b2.val := by
    have := b2.isLt
    exact Nat.and_pow_two_sub_one_of_lt_two_pow (n := 8) this
  have hb4 : (b4.val &&& 0xf0) >>> 4 = b4.val >>> 4 := by
    have h := b4.isLt
    revert h
    generalize b4.val = x
    intro h
    interval_cases x <;> rfl
  have e : probeScreen (pre ++ b1 :: b2 :: b3 :: b4 :: post) pre.length =
      .ok (.params (((b1.val &&& 0x0f) * 256 + b2.val : Nat) : Int)
        ((b4.val >>> 4 : Nat) : Int)) := by
    simp only [probeScreen, h0, h1, h2, h3, bind, Except.bind, pure, Except.pure, hb2, hb4,
      Nat.shiftLeft_eq, Nat.reducePow]
  refine ⟨e, ?_, ?_, by decide⟩
  · simp only [probeVideo, ↓reduceIte, Nat.reduceEqDiff]
    exact e
  · have := b4.isLt
    rw [Nat.shiftRight_eq_div_pow]
    omega

/-! ## C24, C28: `process_timestamp` and the running `last_timestamp` -/

/-- C24 (amended): scenario S5.  With the running `last_timestamp` equal to `0x01000100`,
a video tag with the raw 24-bit timestamp `0x000050` and extension byte 0 is reconstructed
as `0x02000050`: the repair adds the top byte of `last_timestamp`, finds `0x01000050`
still below `last_timestamp`, and adds `0x01000000`.  The tags with stored timestamps
`0x01000100` and `0x000050` come out as `0x01000100`, `0x02000050`. -/
theorem s5_wrapped_repair (w : Bool) (pre post : List Byte) :
    process_timestamp 9 (pre ++ 0 :: 0 :: 0x50 :: 0 :: post) pre.length ⟨0x01000100, w⟩ =
      .ok (0x02000050, pre.length + 4, ⟨0x02000050, true⟩) ∧
    videoRun [(0, 1, 0, 1), (0, 0, 0x50, 0)] ⟨0, w⟩ = .ok [0x01000100, 0x02000050] := by
  constructor
  · rw [process_timestamp_eq]
    simp only []
    rw [if_pos (by decide), if_pos (by decide)]
    simp only [show repaired (candidate 0 0 0x50 0) 0x01000100 = 0x02000050 from by decide]
    rfl
  · cases w <;> rfl

/-- C24 (counterexample): the second tag of scenario S5 is returned as `0x02000050`, which
is not `0x01000150`. -/
theorem s5_not_0x01000150 :
    (process_timestamp 9 [0, 0, 0x50, 0] 0 ⟨0x01000100, false⟩).map (fun r => r.1) =
      .ok 0x02000050 ∧
    (process_timestamp 9 [0, 0, 0x50, 0] 0 ⟨0x01000100, false⟩).map (fun r => r.1) ≠
      .ok 0x01000150 := by
  decide

theorem peek_error (mem : List Byte) (i : Nat) (e : Fault) (h : peek mem i = .error e) :
    e = .out_of_bounds := by
  unfold peek at h
  split at h
  · cases h
  · cases h
    rfl

theorem deserialize_uint24_error (mem : List Byte) (i : Nat) (e : Fault)
    (h : deserialize_uint24 mem i = .error e) : e = .out_of_bounds := by
  unfold deserialize_uint24 at h
  split at h
  · rename_i h0
    cases h
    exact peek_error _ _ _ h0
  · split at h
    · rename_i h1
      cases h
      exact peek_error _ _ _ h1
    · split at h
      · rename_i h2
        cases h
        exact peek_error _ _ _ h2
      · cases h

theorem process_timestamp_shape (tag_type : Byte) (mem : List Byte) (fptr : Nat)
    (st : TsState) :
    process_timestamp tag_type mem fptr st = .error .out_of_bounds ∨
    process_timestamp tag_type mem fptr st = .error .assert_fail ∨
    ∃ x q w, process_timestamp tag_type mem fptr st =
      .ok (x, q, ⟨if tag_type = 9 then max x st.last_timestamp else st.last_timestamp, w⟩) := by
  unfold process_timestamp
  cases hd : deserialize_uint24 mem fptr with
  | error e =>
    rw [deserialize_uint24_error _ _ _ hd]
    exact Or.inl rfl
  | ok r =>
    obtain ⟨lo, p⟩ := r
    simp only []
    cases hp : peek mem p with
    | error e =>
      rw [peek_error _ _ _ hp]
      exact Or.inl rfl
    | ok hi =>
      simp only []
      generalize lo ||| hi.val <<< 24 = c
      by_cases h1 : c < st.last_timestamp
      · rw [if_pos h1]
        by_cases h2 : c &&& 0xff000000 = 0 ∧ st.last_timestamp &&& 0xfff00000 ≠ 0
        · rw [if_pos h2]
          split <;> split <;>
            first
              | exact Or.inr (Or.inr ⟨_, _, _, rfl⟩)
              | exact Or.inr (Or.inl rfl)
        · rw [if_neg h2]
          exact Or.inr (Or.inr ⟨_, _, _, rfl⟩)
      · rw [if_neg h1]
        exact Or.inr (Or.inr ⟨_, _, _, rfl⟩)

/-- C28: whenever `process_timestamp` returns, the caller's `last_timestamp` has not
decreased; it is unchanged when the tag type is not 9 and is the maximum of its old value
and the returned timestamp when the tag type is 9.  On four timestamp bytes that lie in
the file the call returns unless the assertion of the repair branch stops the program. -/
theorem last_timestamp_monotone (tag_type : Byte) (mem : List Byte) (fptr : Nat) (st : TsState)
    (pre post : List Byte) (b0 b1 b2 b3 : Byte) :
    (match process_timestamp tag_type mem fptr st with
     | .ok (ts, _, st1) =>
       st.last_timestamp ≤ st1.last_timestamp ∧
       (tag_type ≠ 9 → st1.last_timestamp = st.last_timestamp) ∧
       (tag_type = 9 → st1.last_timestamp = max st.last_timestamp ts)
     | .error e => e = .out_of_bounds ∨ e = .assert_fail) ∧
    (match process_timestamp tag_type (pre ++ b0 :: b1 :: b2 :: b3 :: post) pre.length st with
     | .ok _ => True
     | .error e => e = .assert_fail ∧
         RepairCondition (candidate b0 b1 b2 b3) st.last_timestamp ∧
         repaired (candidate b0 b1 b2 b3) st.last_timestamp < st.last_timestamp) := by
  constructor
  · rcases process_timestamp_shape tag_type mem fptr st with h | h | ⟨x, q, w, h⟩
    · rw [h]
      exact Or.inl rfl
    · rw [h]
      exact Or.inr rfl
    · rw [h]
      simp only []
      by_cases h9 : tag_type = 9
      · simp only [h9, if_true, ne_eq, not_true_eq_false, false_implies, true_implies,
          true_and]
        exact ⟨Nat.le_max_right _ _, Nat.max_comm _ _⟩
      · simp only [h9, if_false, ne_eq, not_false_eq_true, true_implies, false_implies,
          and_true, le_refl]
  · rw [process_timestamp_eq]
    by_cases hc : RepairCondition (candidate b0 b1 b2 b3) st.last_timestamp
    · rw [if_pos hc]
      by_cases hle : st.last_timestamp ≤ repaired (candidate b0 b1 b2 b3) st.last_timestamp
      · rw [if_pos hle]
        trivial
      · rw [if_neg hle]
        exact ⟨rfl, hc, by omega⟩
    · rw [if_neg hc]
      trivial

/-- Witness for C28: a video tag that stores the timestamp 5 while `last_timestamp` is 3
is returned as 5 and raises `last_timestamp` to 5. -/
theorem last_timestamp_monotone_witness :
    process_timestamp 9 [0, 0, 5, 0] 0 ⟨3, false⟩ = .ok (5, 4, ⟨5, false⟩) ∧
      (3 : Nat) ≤ 5 ∧ (5 : Nat) = max 3 5 := by
  have h := (last_timestamp_monotone 9 [0, 0, 5, 0] 0 ⟨3, false⟩ [] [] 0 0 5 0).1
  have e : process_timestamp 9 [0, 0, 5, 0] 0 ⟨3, false⟩ = .ok (5, 4, ⟨5, false⟩) := by decide
  rw [e] at h
  exact ⟨e, h.1, h.2.2 rfl⟩

/-! ## The output file of a run on a completely framed input -/

theorem preambleBytes_length (hasVideo hasAudio : Bool) (dmap : Dmap) :
    (preambleBytes hasVideo hasAudio dmap).length = 41 + (AMFData.AMFMixedArray dmap).write.length := by
  simp only [preambleBytes, List.length_append, List.length_cons, List.length_nil,
    store_le_length, onMetaData_write_length]
  omega

theorem mem_replicate_double (n : Nat) (d : Nat) :
    ∀ x ∈ List.replicate n (AMFData.AMFDouble d), ∃ d, x = AMFData.AMFDouble d := by
  intro x hx
  exact ⟨d, (List.mem_replicate.mp hx).2⟩

mutual
/-- The only fault of `asString()` is that of a call without defined behaviour. -/
theorem AMFData.asString_error : ∀ (v : AMFData) (e : Fault), v.asString = .error e →
    e = .asString_undefined
  | .AMFDouble d, e, h => by
    simp only [AMFData.asString, sprintf_f] at h
    split at h
    · cases h
    · cases h; rfl
  | .AMFBoolean _, e, h => by simp [AMFData.asString] at h
  | .AMFString _, e, h => by simp [AMFData.asString] at h
  | .AMFObject dmap, e, h => by
    simp only [AMFData.asString] at h
    exact asStringPairs_error dmap _ e h
  | .AMFNull, e, h => by simp [AMFData.asString] at h
  | .AMFUndefined, e, h => by simp [AMFData.asString] at h
  | .AMFMixedArray dmap, e, h => by
    simp only [AMFData.asString] at h
    exact asStringPairs_error dmap _ e h
  | .AMFArray dmap, e, h => by
    simp only [AMFData.asString] at h
    exact asStringElems_error dmap _ e h
  | .AMFDate tv_sec _ tz _, e, h => by
    simp only [AMFData.asString] at h
    split at h
    · cases h; rfl
    · split at h
      · cases h; rfl
      · cases ha : asctime (gmtime (tv_sec - tz * 60)) with
        | ok buf => rw [ha] at h; cases h
        | error e1 =>
          rw [ha] at h
          cases h
          unfold asctime at ha
          split at ha
          · cases ha; rfl
          · cases ha
  | .AMFUnsupported, e, h => by simp [AMFData.asString] at h
theorem asStringPairs_error : ∀ (m : List (List Byte × AMFData)) (d : List Byte) (e : Fault),
    asStringPairs m d = .error e → e = .asString_undefined
  | [], d, e, h => by simp [asStringPairs] at h
  | (k, v) :: m, d, e, h => by
    simp only [asStringPairs] at h
    cases hv : v.asString with
    | error e1 =>
      rw [hv] at h
      cases h
      exact AMFData.asString_error v e hv
    | ok s =>
      rw [hv] at h
      exact asStringPairs_error m _ e h
theorem asStringElems_error : ∀ (a : List AMFData) (d : List Byte) (e : Fault),
    asStringElems a d = .error e → e = .asString_undefined
  | [], d, e, h => by simp [asStringElems] at h
  | v :: a, d, e, h => by
    simp only [asStringElems] at h
    cases hv : v.asString with
    | error e1 =>
      rw [hv] at h
      cases h
      exact AMFData.asString_error v e hv
    | ok s =>
      rw [hv] at h
      exact asStringElems_error a _ e h
end

/-- The run after pass 1 and pass 2 have completed, in a run that writes an output file:
the rewrite of the map `final`, and the dump, which is the only step that can still
fail. -/
theorem run_eq (o : Options) (now : Now) (mem : List Byte) (s : Scan) (c : Copy) (final : Dmap)
    (hs : pass1 o.nomerge mem = .ok s) (hnone : o.outFilename.isNone = false)
    (hc : pass2Loop o.nometapackets mem s.fend (mem.length + 1)
      { fptr := tagStreamStart mem, ts := ⟨0, s.ts.timestamp_warning_given⟩, current_keyframe := 0,
        keyTimes := List.replicate s.keyframe_count (AMFData.AMFDouble (F64.ofNat 0)),
        keyPositions := List.replicate s.keyframe_count (AMFData.AMFDouble (F64.ofNat 0)),
        fp := (writePreamble s.hasVideo s.hasAudio (metaWith o.strip (installTags o now (installStats s))
          (List.replicate s.keyframe_count (AMFData.AMFDouble (F64.ofNat 0)))
          (List.replicate s.keyframe_count (AMFData.AMFDouble (F64.ofNat 0))))).1 } = .ok c)
    (hfinal : final = if ¬ o.strip then
        mapAssign (metaWith o.strip (installTags o now (installStats s)) c.keyTimes c.keyPositions)
          (str "datasize") (.AMFDouble (F64.ofNat c.fp.tell))
      else metaWith o.strip (installTags o now (installStats s)) c.keyTimes c.keyPositions) :
    ∃ r : Outcome, r.onMetaData = final ∧
      r.output = some ((c.fp.seek
        (writePreamble s.hasVideo s.hasAudio (metaWith o.strip (installTags o now (installStats s))
          (List.replicate s.keyframe_count (AMFData.AMFDouble (F64.ofNat 0)))
          (List.replicate s.keyframe_count (AMFData.AMFDouble (F64.ofNat 0))))).2).write
        (AMFData.AMFMixedArray final).write).file ∧
      (o.nodump = true → run o now mem = .ok r) ∧
      (∀ t, (AMFData.AMFMixedArray final).asString = .ok t → run o now mem = .ok r) ∧
      (o.nodump = false → ∀ e, (AMFData.AMFMixedArray final).asString = .error e →
        run o now mem = .error e) := by
  unfold run
  rw [hs]
  simp only [bind, Except.bind, hnone, Bool.false_eq_true, if_false]
  rw [hc]
  simp only [← hfinal]
  generalize hd : (if ¬o.nodump = true then (AMFData.AMFMixedArray final).asString
    else Except.ok []) = d
  have hd1 : o.nodump = true → d = .ok [] := by
    intro hn
    rw [← hd, if_neg (by rw [hn]; exact fun h => h rfl)]
  have hd2 : o.nodump = false → d = (AMFData.AMFMixedArray final).asString := by
    intro hn
    rw [← hd, if_pos (by rw [hn]; exact Bool.false_ne_true)]
  refine ⟨{ onMetaData := final,
              output := some ((c.fp.seek
                (writePreamble s.hasVideo s.hasAudio (metaWith o.strip (installTags o now (installStats s))
                  (List.replicate s.keyframe_count (AMFData.AMFDouble (F64.ofNat 0)))
                  (List.replicate s.keyframe_count (AMFData.AMFDouble (F64.ofNat 0))))).2).write
                (AMFData.AMFMixedArray final).write).file,
              write_ends := some ((writePreamble s.hasVideo s.hasAudio
                (metaWith o.strip (installTags o now (installStats s))
                  (List.replicate s.keyframe_count (AMFData.AMFDouble (F64.ofNat 0)))
                  (List.replicate s.keyframe_count (AMFData.AMFDouble (F64.ofNat 0))))).2 +
                (AMFData.AMFMixedArray (metaWith o.strip (installTags o now (installStats s))
                  (List.replicate s.keyframe_count (AMFData.AMFDouble (F64.ofNat 0)))
                  (List.replicate s.keyframe_count (AMFData.AMFDouble (F64.ofNat 0))))).write.length,
                ((c.fp.seek
                (writePreamble s.hasVideo s.hasAudio (metaWith o.strip (installTags o now (installStats s))
                  (List.replicate s.keyframe_count (AMFData.AMFDouble (F64.ofNat 0)))
                  (List.replicate s.keyframe_count (AMFData.AMFDouble (F64.ofNat 0))))).2).write
                (AMFData.AMFMixedArray final).write).tell) }, rfl, rfl, ?_, ?_, ?_⟩
  · intro hn
    rw [hd1 hn]
    rfl
  · intro t ht
    cases hn : o.nodump with
    | true => rw [hd1 hn]; rfl
    | false => rw [hd2 hn, ht]; rfl
  · intro hn e he
    rw [hd2 hn, he]

/-- A run that writes an output file, on an input of completely framed tags on which
pass 1 completes: pass 2 completes and leaves an outcome `r`, whose output is the preamble
holding the final map followed by the copied tags; the run returns `r` when the dump of
the final map returns (or is not asked for), and fails with the fault of the dump
otherwise.  With `-strip` the map is empty both times it is written; without it no `-tag`
may be named `datasize`, and the map is the one of the `-tag` loop with the two arrays of
the keyframe index and the `datasize`. -/
theorem run_flvFile_dump (o : Options) (now : Now) (flags : Byte) (p4 : List Byte)
    (tags : List Tag) (hp4 : p4.length = 4) (hwf : ∀ t ∈ tags, t.Wf)
    (hk : (tags.filter Tag.isKeyframe).length < 2 ^ 32)
    (hds : o.strip = false → ∀ e ∈ o.extra_tags, e.1 ≠ str "datasize")
    (hout : o.outFilename.isSome = true)
    (s : Scan) (hs : pass1 o.nomerge (flvFile flags p4 tags) = .ok s) :
    ∃ (r : Outcome) (tss : List Nat),
      tagTimestamps tags ⟨0, false⟩ = .ok tss ∧
      r.output = some (preambleBytes s.hasVideo s.hasAudio r.onMetaData ++
        copiedBytes o.nometapackets (tags.zip tss)) ∧
      (o.strip = false → ∃ n : Nat, r.onMetaData =
        mapAssign (metaWith false (installTags o now (installStats s))
          ((keyIndex o.nometapackets (tags.zip tss)
              (preambleBytes s.hasVideo s.hasAudio r.onMetaData).length).map
            (fun e => AMFData.AMFDouble (F64.div (F64.ofNat e.2) (F64.ofNat 1000))))
          ((keyIndex o.nometapackets (tags.zip tss)
              (preambleBytes s.hasVideo s.hasAudio r.onMetaData).length).map
            (fun e => AMFData.AMFDouble (F64.ofNat e.1))))
          (str "datasize") (.AMFDouble (F64.ofNat n))) ∧
      (o.nodump = true → run o now (flvFile flags p4 tags) = .ok r) ∧
      (∀ t, (AMFData.AMFMixedArray r.onMetaData).asString = .ok t →
        run o now (flvFile flags p4 tags) = .ok r) ∧
      (o.nodump = false → ∀ e, (AMFData.AMFMixedArray r.onMetaData).asString = .error e →
        run o now (flvFile flags p4 tags) = .error e) := by
  obtain ⟨hfend, hkc, tss, htss⟩ := pass1_flvFile o.nomerge flags p4 tags s hp4 hwf hs
  rw [Nat.mod_eq_of_lt hk] at hkc
  have hlen := tagTimestamps_length tags _ tss htss
  have hloop := pass2Loop_tags o.nometapackets tags ([0x46, 0x4C, 0x56, 0x01, flags, 0, 0, 0, 9] ++ p4)
    { fptr := 13, ts := ⟨0, s.ts.timestamp_warning_given⟩, current_keyframe := 0,
      keyTimes := List.replicate (tags.filter Tag.isKeyframe).length (AMFData.AMFDouble (F64.ofNat 0)),
      keyPositions := List.replicate (tags.filter Tag.isKeyframe).length (AMFData.AMFDouble (F64.ofNat 0)),
      fp := ⟨preambleBytes s.hasVideo s.hasAudio
              (metaWith o.strip (installTags o now (installStats s))
                (List.replicate (tags.filter Tag.isKeyframe).length (AMFData.AMFDouble (F64.ofNat 0)))
                (List.replicate (tags.filter Tag.isKeyframe).length (AMFData.AMFDouble (F64.ofNat 0)))),
             (preambleBytes s.hasVideo s.hasAudio
              (metaWith o.strip (installTags o now (installStats s))
                (List.replicate (tags.filter Tag.isKeyframe).length (AMFData.AMFDouble (F64.ofNat 0)))
                (List.replicate (tags.filter Tag.isKeyframe).length (AMFData.AMFDouble (F64.ofNat 0))))).length⟩ }
    tss ((flvFile flags p4 tags).length + 1) hwf (by simp [hp4]) rfl
    (by rw [tagTimestamps_flag tags 0 _ false]; exact htss) rfl
    (by simp) (by simp only [List.length_replicate]; exact hk)
    (by
      have := encodeTags_length tags
      simp only [flvFile, List.length_append]
      omega)
  obtain ⟨c1, hc1, hfile, hpos1, hkt, hkp⟩ := hloop
  simp only [List.take_zero, List.nil_append, Nat.zero_add, List.drop_replicate, Nat.sub_self,
    List.replicate_zero, List.append_nil] at hkt hkp hfile
  have hc2 : pass2Loop o.nometapackets (flvFile flags p4 tags) (flvFile flags p4 tags).length
      ((flvFile flags p4 tags).length + 1) _ = .ok c1 := hc1
  have hnone : o.outFilename.isNone = false := by
    cases h : o.outFilename with
    | none => rw [h] at hout; cases hout
    | some x => rfl
  have hidx := keyIndex_length o.nometapackets tags tss
    (preambleBytes s.hasVideo s.hasAudio
      (metaWith o.strip (installTags o now (installStats s))
        (List.replicate (tags.filter Tag.isKeyframe).length (AMFData.AMFDouble (F64.ofNat 0)))
        (List.replicate (tags.filter Tag.isKeyframe).length
          (AMFData.AMFDouble (F64.ofNat 0))))).length hlen
  cases hstrip : o.strip with
  | true =>
    rw [hstrip] at hc2 hfile
    obtain ⟨r, hr1, hr2, hr3, hr4, hr5⟩ := run_eq o now (flvFile flags p4 tags) s c1
      (metaWith true (installTags o now (installStats s)) c1.keyTimes c1.keyPositions) hs hnone
      (by rw [hfend, tagStreamStart_flvFile, hkc, writePreamble_eq, hstrip]; exact hc2)
      (by rw [hstrip]; rfl)
    rw [hkc, writePreamble_eq, hstrip] at hr2
    simp only [Sink.seek, Sink.write] at hr2
    have hOut := preamble_rewrite s.hasVideo s.hasAudio
      (metaWith true (installTags o now (installStats s))
        (List.replicate (tags.filter Tag.isKeyframe).length (AMFData.AMFDouble (F64.ofNat 0)))
        (List.replicate (tags.filter Tag.isKeyframe).length (AMFData.AMFDouble (F64.ofNat 0))))
      (metaWith true (installTags o now (installStats s)) c1.keyTimes c1.keyPositions)
      (copiedBytes o.nometapackets (tags.zip tss)) rfl
    rw [← hfile] at hOut
    rw [hOut, ← hr1] at hr2
    rw [← hr1] at hr4 hr5
    exact ⟨r, tss, htss, hr2, (fun h => by cases h), hr3, hr4, hr5⟩
  | false =>
    rw [hstrip] at hc2 hfile hkt hkp hidx
    obtain ⟨r, hr1, hr2, hr3, hr4, hr5⟩ := run_eq o now (flvFile flags p4 tags) s c1
      (mapAssign (metaWith false (installTags o now (installStats s)) c1.keyTimes c1.keyPositions)
        (str "datasize") (.AMFDouble (F64.ofNat c1.fp.tell))) hs hnone
      (by rw [hfend, tagStreamStart_flvFile, hkc, writePreamble_eq, hstrip]; exact hc2)
      (by rw [hstrip]; rfl)
    rw [hkc, writePreamble_eq, hstrip] at hr2
    simp only [Sink.seek, Sink.write] at hr2
    have hW := final_write_length o now s
      (List.replicate (tags.filter Tag.isKeyframe).length (AMFData.AMFDouble (F64.ofNat 0)))
      (List.replicate (tags.filter Tag.isKeyframe).length (AMFData.AMFDouble (F64.ofNat 0)))
      c1.keyTimes c1.keyPositions (F64.ofNat c1.fp.tell) (hds hstrip)
      (mem_replicate_double _ _) (mem_replicate_double _ _)
      (by
        rw [hkt]
        intro x hx
        obtain ⟨e, _, he⟩ := List.mem_map.mp hx
        exact ⟨_, he.symm⟩)
      (by
        rw [hkp]
        intro x hx
        obtain ⟨e, _, he⟩ := List.mem_map.mp hx
        exact ⟨_, he.symm⟩)
      (by rw [hkt, List.length_map, hidx, List.length_replicate])
      (by rw [hkp, List.length_map, hidx, List.length_replicate])
    have hOut := preamble_rewrite s.hasVideo s.hasAudio _ _
      (copiedBytes o.nometapackets (tags.zip tss)) hW
    rw [← hfile] at hOut
    have hPlen : (preambleBytes s.hasVideo s.hasAudio r.onMetaData).length =
        (preambleBytes s.hasVideo s.hasAudio
          (metaWith false (installTags o now (installStats s))
            (List.replicate (tags.filter Tag.isKeyframe).length (AMFData.AMFDouble (F64.ofNat 0)))
            (List.replicate (tags.filter Tag.isKeyframe).length
              (AMFData.AMFDouble (F64.ofNat 0))))).length := by
      rw [hr1, preambleBytes_length, preambleBytes_length, hW]
    rw [hOut, ← hr1] at hr2
    rw [← hr1] at hr4 hr5
    refine ⟨r, tss, htss, hr2, fun _ => ⟨c1.fp.tell, ?_⟩, hr3, hr4, hr5⟩
    rw [hPlen, ← hkt, ← hkp]
    exact hr1

/-- A run that writes an output file, on an input of completely framed tags on which
pass 1 completes, and that does not end in a call of `asString()` without defined
behaviour: the run completes, and the output is the preamble holding the final map
followed by the copied tags.  With `-strip` the map is empty both times it is written;
without it no `-tag` may be named `datasize`. -/
theorem run_flvFile (o : Options) (now : Now) (flags : Byte) (p4 : List Byte)
    (tags : List Tag) (hp4 : p4.length = 4) (hwf : ∀ t ∈ tags, t.Wf)
    (hk : (tags.filter Tag.isKeyframe).length < 2 ^ 32)
    (hds : o.strip = false → ∀ e ∈ o.extra_tags, e.1 ≠ str "datasize")
    (hout : o.outFilename.isSome = true)
    (s : Scan) (hs : pass1 o.nomerge (flvFile flags p4 tags) = .ok s)
    (hdump : (run o now (flvFile flags p4 tags)).map (fun _ => ()) ≠
      .error .asString_undefined) :
    ∃ (r : Outcome) (tss : List Nat),
      run o now (flvFile flags p4 tags) = .ok r ∧
      tagTimestamps tags ⟨0, false⟩ = .ok tss ∧
      r.output = some (preambleBytes s.hasVideo s.hasAudio r.onMetaData ++
        copiedBytes o.nometapackets (tags.zip tss)) := by
  obtain ⟨r, tss, h1, h2, _, h4, h5, h6⟩ :=
    run_flvFile_dump o now flags p4 tags hp4 hwf hk hds hout s hs
  refine ⟨r, tss, ?_, h1, h2⟩
  cases hd : (AMFData.AMFMixedArray r.onMetaData).asString with
  | ok t => exact h5 t hd
  | error e =>
    cases hn : o.nodump with
    | true => exact h4 hn
    | false =>
      have he := AMFData.asString_error _ e hd
      subst he
      rw [h6 hn _ hd] at hdump
      exact absurd rfl hdump

/-- A run whose two passes complete, or whose pass 1 completes in dump-only mode,
completes unless it ends in a call of `asString()` without defined behaviour. -/
theorem run_completes (o : Options) (now : Now) (mem : List Byte) (s : Scan)
    (hs : pass1 o.nomerge mem = .ok s)
    (hc : o.outFilename.isNone = false →
      ∃ c, pass2Loop o.nometapackets mem s.fend (mem.length + 1)
        { fptr := tagStreamStart mem, ts := ⟨0, s.ts.timestamp_warning_given⟩,
          current_keyframe := 0,
          keyTimes := List.replicate s.keyframe_count (AMFData.AMFDouble (F64.ofNat 0)),
          keyPositions := List.replicate s.keyframe_count (AMFData.AMFDouble (F64.ofNat 0)),
          fp := (writePreamble s.hasVideo s.hasAudio
            (metaWith o.strip (installTags o now (installStats s))
              (List.replicate s.keyframe_count (AMFData.AMFDouble (F64.ofNat 0)))
              (List.replicate s.keyframe_count (AMFData.AMFDouble (F64.ofNat 0))))).1 } = .ok c)
    (hdump : (run o now mem).map (fun _ => ()) ≠ .error .asString_undefined) :
    ∃ r, run o now mem = .ok r := by
  cases hout : o.outFilename.isNone with
  | true =>
    obtain ⟨d, hd⟩ : ∃ d, (AMFData.AMFMixedArray (installStats s)).asString = d := ⟨_, rfl⟩
    have hrun : run o now mem =
        d.map (fun _ => { onMetaData := installStats s, output := none, write_ends := none }) := by
      unfold run
      rw [hs]
      simp only [bind, Except.bind, hout, if_true]
      rw [hd]
      cases d <;> rfl
    cases d with
    | ok t => exact ⟨_, hrun⟩
    | error e =>
      have he := AMFData.asString_error _ e hd
      subst he
      rw [hrun] at hdump
      exact absurd rfl hdump
  | false =>
    obtain ⟨c, hc⟩ := hc hout
    obtain ⟨final, hfinal⟩ : ∃ final : Dmap, final = if ¬ o.strip then
        mapAssign (metaWith o.strip (installTags o now (installStats s)) c.keyTimes c.keyPositions)
          (str "datasize") (.AMFDouble (F64.ofNat c.fp.tell))
      else metaWith o.strip (installTags o now (installStats s)) c.keyTimes c.keyPositions :=
      ⟨_, rfl⟩
    obtain ⟨r, _, _, h3, h4, h5⟩ := run_eq o now mem s c final hs hout hc hfinal
    cases hd : (AMFData.AMFMixedArray final).asString with
    | ok t => exact ⟨r, h4 t hd⟩
    | error e =>
      cases hn : o.nodump with
      | true => exact ⟨r, h3 hn⟩
      | false =>
        have he := AMFData.asString_error _ e hd
        subst he
        rw [h5 hn _ hd] at hdump
        exact absurd rfl hdump

/-! ## C29: the bytes of a copied tag -/

theorem u24_bytes (a b c : Byte) :
    byte ((((a.val <<< 16) + (b.val <<< 8) + c.val) >>> 16) &&& 0xff) = a ∧
    byte ((((a.val <<< 16) + (b.val <<< 8) + c.val) >>> 8) &&& 0xff) = b ∧
    byte (((a.val <<< 16) + (b.val <<< 8) + c.val) &&& 0xff) = c := by
  have ha := a.isLt
  have hb := b.isLt
  have hc := c.isLt
  have hm : ∀ x : Nat, x &&& 0xff = x % 256 := fun x =>
    Nat.and_pow_two_sub_one_eq_mod x 8
  simp only [hm, Nat.shiftLeft_eq, Nat.shiftRight_eq_div_pow]
  refine ⟨?_, ?_, ?_⟩ <;> apply Fin.ext <;> simp only [byte_val_mod] <;> omega

theorem candidate_eq (b0 b1 b2 b3 : Byte) :
    candidate b0 b1 b2 b3 = b3.val * 2 ^ 24 + (b0.val * 2 ^ 16 + b1.val * 2 ^ 8 + b2.val) := by
  have h0 := b0.isLt
  have h1 := b1.isLt
  have h2 := b2.isLt
  have hlt : b0.val * 2 ^ 16 + b1.val * 2 ^ 8 + b2.val < 2 ^ 24 := by omega
  have := Nat.mul_add_lt_is_or hlt b3.val
  simp only [candidate, Nat.shiftLeft_eq]
  rw [Nat.mul_comm b3.val, this]

theorem candidate_bytes (b0 b1 b2 b3 : Byte) :
    byte ((candidate b0 b1 b2 b3 >>> 16) &&& 0xff) = b0 ∧
    byte ((candidate b0 b1 b2 b3 >>> 8) &&& 0xff) = b1 ∧
    byte (candidate b0 b1 b2 b3 &&& 0xff) = b2 ∧
    byte ((candidate b0 b1 b2 b3 >>> 24) &&& 0xff) = b3 := by
  have h0 := b0.isLt
  have h1 := b1.isLt
  have h2 := b2.isLt
  have h3 := b3.isLt
  have hm : ∀ x : Nat, x &&& 0xff = x % 256 := fun x =>
    Nat.and_pow_two_sub_one_eq_mod x 8
  simp only [hm, candidate_eq, Nat.shiftRight_eq_div_pow]
  refine ⟨?_, ?_, ?_, ?_⟩ <;> apply Fin.ext <;> simp only [byte_val_mod] <;> omega

theorem Tag.rewritten_eq (t : Tag) (ts : Nat) : t.rewritten ts = (t.withTimestamp ts).encode := by
  obtain ⟨a1, a2, a3⟩ := u24_bytes t.l0 t.l1 t.l2
  obtain ⟨c1, c2, c3⟩ := u24_bytes t.s0 t.s1 t.s2
  simp only [Tag.rewritten, Tag.withTimestamp, Tag.encode, Tag.tag_length, Tag.streamID,
    a1, a2, a3, c1, c2, c3]

theorem Tag.withTimestamp_candidate (t : Tag) :
    t.withTimestamp (candidate t.b0 t.b1 t.b2 t.b3) = t := by
  obtain ⟨a0, a1, a2, a3⟩ := candidate_bytes t.b0 t.b1 t.b2 t.b3
  simp only [Tag.withTimestamp, a0, a1, a2, a3]

/-- C29: in a run that writes an output file, on an input of completely framed tags on
which pass 1 completes (without `-strip`, no `-tag` named `datasize`), and that does not
end in a call of `asString()` without defined behaviour when it prints the final map
(`sprintf` of a Double into `char buf[64]`, `asctime_r` of a Date), the tag stream of
the output consists of the bytes pass 2 writes for the copied tags, in order.  For every
tag with its reconstructed timestamp `ts` these are `11 + tag_length + 4` bytes, the
bytes of the tag in the input with the four timestamp bytes (header offsets 4 to 7)
replaced by those of `ts`: the first four bytes (type and length) and everything from
offset 8 on (stream id, body, trailer) are those of the input, and when `ts` is the
timestamp the tag stores the tag is written byte for byte. -/
theorem copied_tag_bytes (o : Options) (now : Now) (flags : Byte) (p4 : List Byte)
    (tags : List Tag) (hp4 : p4.length = 4) (hwf : ∀ t ∈ tags, t.Wf)
    (hk : (tags.filter Tag.isKeyframe).length < 2 ^ 32)
    (hds : o.strip = false → ∀ e ∈ o.extra_tags, e.1 ≠ str "datasize")
    (hout : o.outFilename.isSome = true)
    (hp1 : (pass1 o.nomerge (flvFile flags p4 tags)).toBool = true)
    (hdump : (run o now (flvFile flags p4 tags)).map (fun _ => ()) ≠
      .error .asString_undefined) :
    ∃ (r : Outcome) (tss : List Nat) (hasVideo hasAudio : Bool),
      run o now (flvFile flags p4 tags) = .ok r ∧
      tagTimestamps tags ⟨0, false⟩ = .ok tss ∧
      r.output = some (preambleBytes hasVideo hasAudio r.onMetaData ++
        copiedBytes o.nometapackets (tags.zip tss)) ∧
      ∀ p ∈ tags.zip tss,
        (p.1.rewritten p.2).length = 11 + p.1.tag_length + 4 ∧
        p.1.rewritten p.2 = (p.1.withTimestamp p.2).encode ∧
        (p.1.rewritten p.2).take 4 = p.1.encode.take 4 ∧
        (p.1.rewritten p.2).drop 8 = p.1.encode.drop 8 ∧
        (p.2 = candidate p.1.b0 p.1.b1 p.1.b2 p.1.b3 → p.1.rewritten p.2 = p.1.encode) := by
  cases hs : pass1 o.nomerge (flvFile flags p4 tags) with
  | error e => rw [hs] at hp1; cases hp1
  | ok s =>
    obtain ⟨r, tss, h1, h2, h3⟩ := run_flvFile o now flags p4 tags hp4 hwf hk hds hout s hs hdump
    refine ⟨r, tss, s.hasVideo, s.hasAudio, h1, h2, h3, ?_⟩
    intro p hp
    obtain ⟨t, ts⟩ := p
    have ht : t ∈ tags := (List.of_mem_zip hp).1
    obtain ⟨w1, w2, _⟩ := hwf t ht
    refine ⟨?_, Tag.rewritten_eq t ts, ?_, ?_, ?_⟩
    · rw [Tag.rewritten_length, w1, w2]
    · rw [Tag.rewritten_eq]
      simp [Tag.encode, Tag.withTimestamp]
    · rw [Tag.rewritten_eq]
      simp [Tag.encode, Tag.withTimestamp]
    · intro hts
      simp only at hts
      rw [Tag.rewritten_eq, hts, Tag.withTimestamp_candidate]

/-- Witness for C29: the sample file of two keyframes around an audio tag. -/
theorem copied_tag_bytes_witness :
    [(0 : Byte), 0, 0, 0].length = 4 ∧ (∀ t ∈ sampleTags, t.Wf) ∧
    (sampleTags.filter Tag.isKeyframe).length < 2 ^ 32 ∧
    (sampleOptions.strip = false → ∀ e ∈ sampleOptions.extra_tags, e.1 ≠ str "datasize") ∧
    sampleOptions.outFilename.isSome = true ∧
    (pass1 sampleOptions.nomerge (flvFile 5 [0, 0, 0, 0] sampleTags)).toBool = true ∧
    (run sampleOptions sampleNow (flvFile 5 [0, 0, 0, 0] sampleTags)).map (fun _ => ()) ≠
      .error .asString_undefined ∧
    ∃ (r : Outcome) (tss : List Nat) (hasVideo hasAudio : Bool),
      run sampleOptions sampleNow (flvFile 5 [0, 0, 0, 0] sampleTags) = .ok r ∧
      tagTimestamps sampleTags ⟨0, false⟩ = .ok tss ∧
      r.output = some (preambleBytes hasVideo hasAudio r.onMetaData ++
        copiedBytes sampleOptions.nometapackets (sampleTags.zip tss)) ∧
      ∀ p ∈ sampleTags.zip tss,
        (p.1.rewritten p.2).length = 11 + p.1.tag_length + 4 ∧
        p.1.rewritten p.2 = (p.1.withTimestamp p.2).encode ∧
        (p.1.rewritten p.2).take 4 = p.1.encode.take 4 ∧
        (p.1.rewritten p.2).drop 8 = p.1.encode.drop 8 ∧
        (p.2 = candidate p.1.b0 p.1.b1 p.1.b2 p.1.b3 → p.1.rewritten p.2 = p.1.encode) :=
  ⟨rfl, by decide, by decide, (fun _ e he => by cases he), rfl, by decide!, by decide!,
   copied_tag_bytes sampleOptions sampleNow 5 [0, 0, 0, 0] sampleTags rfl (by decide) (by decide)
     (fun _ e he => by cases he) rfl (by decide!) (by decide!)⟩

/-! ## The counters of pass 1 over the tags of a file -/

theorem scanVideo_counts (mem : List Byte) (L : Nat) (s s1 : Scan) (b : Byte)
    (hb : peek mem s.fptr = .ok b) (h : scanVideo mem L s = .ok s1) :
    s1.hasAudio = s.hasAudio ∧ s1.hasVideo = true ∧ s1.total_audio = s.total_audio ∧
    s1.total_video = (s.total_video + (L + 2 ^ 32 - 1) % 2 ^ 32) % 2 ^ 64 ∧
    s1.vframe_count = (s.vframe_count + 1) % 2 ^ 32 ∧
    s1.have_audio_params = s.have_audio_params := by
  cases hv : s.have_video_params with
  | true =>
    by_cases hft : (b.val >>> 4) &&& 15 = 1
    · simp only [scanVideo, hb, bind, Except.bind, pure, Except.pure, hft, if_true, hv,
        not_true_eq_false, if_false, Except.ok.injEq] at h
      subst h
      exact ⟨rfl, rfl, rfl, rfl, rfl, rfl⟩
    · simp only [scanVideo, hb, bind, Except.bind, pure, Except.pure, hft, if_false, hv,
        not_true_eq_false, Except.ok.injEq] at h
      subst h
      exact ⟨rfl, rfl, rfl, rfl, rfl, rfl⟩
  | false =>
    cases hpr : probeVideo mem (s.fptr + 1) L (b.val &&& 15) with
    | error e =>
      by_cases hft : (b.val >>> 4) &&& 15 = 1
      · simp only [scanVideo, hb, bind, Except.bind, pure, Except.pure, hft, if_true, hv,
          Bool.false_eq_true, not_false_eq_true, hpr] at h
        cases h
      · simp only [scanVideo, hb, bind, Except.bind, pure, Except.pure, hft, if_false, hv,
          Bool.false_eq_true, not_false_eq_true, if_true, hpr] at h
        cases h
    | ok r =>
      cases r with
      | didnt_get_video_params =>
        by_cases hft : (b.val >>> 4) &&& 15 = 1
        · simp only [scanVideo, hb, bind, Except.bind, pure, Except.pure, hft, if_true, hv,
            Bool.false_eq_true, not_false_eq_true, hpr, Except.ok.injEq] at h
          subst h
          exact ⟨rfl, rfl, rfl, rfl, rfl, rfl⟩
        · simp only [scanVideo, hb, bind, Except.bind, pure, Except.pure, hft, if_false, hv,
            Bool.false_eq_true, not_false_eq_true, if_true, hpr, Except.ok.injEq] at h
          subst h
          exact ⟨rfl, rfl, rfl, rfl, rfl, rfl⟩
      | params w h0 =>
        by_cases hft : (b.val >>> 4) &&& 15 = 1
        · simp only [scanVideo, hb, bind, Except.bind, pure, Except.pure, hft, if_true, hv,
            Bool.false_eq_true, not_false_eq_true, hpr, Except.ok.injEq] at h
          subst h
          exact ⟨rfl, rfl, rfl, rfl, rfl, rfl⟩
        · simp only [scanVideo, hb, bind, Except.bind, pure, Except.pure, hft, if_false, hv,
            Bool.false_eq_true, not_false_eq_true, if_true, hpr, Except.ok.injEq] at h
          subst h
          exact ⟨rfl, rfl, rfl, rfl, rfl, rfl⟩

theorem scanAudio_counts (mem : List Byte) (L : Nat) (s s1 : Scan)
    (h : scanAudio mem L s = .ok s1) :
    s1.hasAudio = true ∧ s1.hasVideo = s.hasVideo ∧
    s1.total_audio = (s.total_audio + L) % 2 ^ 64 ∧ s1.total_video = s.total_video ∧
    s1.vframe_count = s.vframe_count ∧ s1.have_audio_params = true := by
  unfold scanAudio at h
  cases hb : peek mem s.fptr with
  | error e =>
    simp only [hb, bind, Except.bind] at h
    cases h
  | ok b =>
    simp only [hb, bind, Except.bind, pure, Except.pure, Except.ok.injEq] at h
    subst h
    cases ha : s.have_audio_params with
    | true =>
      simp only [ha, not_true_eq_false, if_false]
      exact ⟨trivial, trivial, trivial, trivial, trivial, trivial⟩
    | false =>
      simp only [ha, Bool.false_eq_true, not_false_eq_true, if_true]
      exact ⟨trivial, trivial, trivial, trivial, trivial, trivial⟩

theorem pass1Step_counts (nomerge : Bool) (pre post : List Byte) (t : Tag) (hwf : t.Wf)
    (s : Scan) (hf : s.fptr = pre.length) (hend : s.fend = (pre ++ (t.encode ++ post)).length)
    (b : Bool) (s1 : Scan)
    (h : pass1Step nomerge (pre ++ (t.encode ++ post)) s = .ok (b, s1)) :
    s1.counts = countTag s.counts t ∧
    s1.have_audio_params = (s.have_audio_params || t.isAudio) := by
  obtain ⟨_, _, _, hkc, _⟩ := pass1Step_tag nomerge pre post t hwf s hf hend b s1 h
  obtain ⟨r1, r2, r3, r4, r5, r6⟩ := tag_reads pre post t s.ts
  have hel : t.encode.length = 11 + (t.tag_length + 4) := by
    rw [Tag.encode_length, ← hwf.1, hwf.2.1]
    omega
  have hc1 : ¬ (pre.length + 15 > s.fend) := by
    rw [hend]
    simp only [List.length_append, hel]
    omega
  have hc2 : ¬ (pre.length + t.tag_length > s.fend) := by
    rw [hend]
    simp only [List.length_append, hel]
    omega
  cases hp : process_timestamp t.tag_type [t.b0, t.b1, t.b2, t.b3] 0 s.ts with
  | error e =>
    rw [hp] at r3
    simp only [pass1Step, hf, hc1, hc2, r1, r2, r3, Except.map, bind, Except.bind, pure,
      Except.pure, if_false] at h
    cases h
  | ok r =>
    obtain ⟨ts, q, st1⟩ := r
    have hq := process_timestamp_ptr _ _ _ _ _ _ _ _ _ hp
    subst hq
    rw [hp] at r3
    simp only [pass1Step, hf, hc1, hc2, r1, r2, r3, Except.map, bind, Except.bind, pure,
      Except.pure, if_false, Nat.add_assoc, Nat.reduceAdd] at h
    split at h
    · cases h
    · rename_i v hv
      simp only [Except.ok.injEq, Prod.mk.injEq] at h
      obtain ⟨_, hs1⟩ := h
      subst hs1
      simp only [Scan.counts] at hkc ⊢
      by_cases h18 : t.tag_type = 18
      · have h9 : ¬ t.tag_type = 9 := by rw [h18]; decide
        have h8 : t.isAudio = false := by simp [Tag.isAudio, h18]
        rw [if_pos h18] at hv
        split at hv
        · cases hv
        · simp only [Except.ok.injEq] at hv
          subst hv
          simp only [countTag, h9, h8, if_false, Bool.false_eq_true, Bool.or_false, and_self]
      · rw [if_neg h18] at hv
        by_cases h9 : t.tag_type = 9
        · rw [if_pos h9] at hv
          have h8 : t.isAudio = false := by simp [Tag.isAudio, h9]
          obtain ⟨b0, rest, hb⟩ := List.exists_cons_of_ne_nil (hwf.2.2 h9)
          have hpk : peek (pre ++ (t.encode ++ post)) (pre.length + 11) = .ok b0 := by
            rw [r5, hb]
            exact peek_cons_zero _ _
          obtain ⟨e1, e2, e3, e4, e5, e6⟩ := scanVideo_counts _ _ _ _ b0 hpk hv
          simp only [] at e1 e2 e3 e4 e5 e6
          simp only [countTag, h9, h8, if_true, e1, e2, e3, e4, e5, e6, hkc, Bool.or_false,
            and_self]
        · rw [if_neg h9] at hv
          have hkey : t.isKeyframe = false := by
            unfold Tag.isKeyframe
            split <;> simp [h9]
          simp only [hkey, Bool.false_eq_true, if_false] at hkc
          by_cases h8 : t.tag_type = 8 ∧ t.tag_length > 0
          · rw [if_pos h8] at hv
            have h8b : t.isAudio = true := by simp [Tag.isAudio, h8.1, h8.2]
            obtain ⟨e1, e2, e3, e4, e5, e6⟩ := scanAudio_counts _ _ _ _ hv
            simp only [] at e1 e2 e3 e4 e5 e6
            simp only [countTag, h9, h8b, if_true, if_false, e1, e2, e3, e4, e5, e6, hkc,
              Bool.or_true, and_self]
          · rw [if_neg h8] at hv
            have h8b : t.isAudio = false := by
              simp only [Tag.isAudio, decide_eq_false_iff_not]
              exact h8
            simp only [Except.ok.injEq] at hv
            subst hv
            simp only [countTag, h9, h8b, if_false, Bool.false_eq_true, Bool.or_false, and_self]

theorem finalTs_of_timestamps (t : Tag) (st : TsState) (ts q : Nat) (st1 : TsState)
    (h : process_timestamp t.tag_type [t.b0, t.b1, t.b2, t.b3] 0 st = .ok (ts, q, st1))
    (tags : List Tag) : finalTs (t :: tags) st = finalTs tags st1 := by
  rw [finalTs, h]

theorem pass1Loop_counts (nomerge : Bool) (tags : List Tag) :
    ∀ (pre : List Byte) (s : Scan) (fuel : Nat) (s1 : Scan),
      (∀ t ∈ tags, t.Wf) → s.fptr = pre.length → s.fend = (pre ++ encodeTags tags).length →
      pass1Loop nomerge (pre ++ encodeTags tags) fuel s = .ok s1 →
      s1.counts = tags.foldl countTag s.counts ∧
      s1.have_audio_params = (s.have_audio_params || tags.any Tag.isAudio) ∧
      finalTs tags s.ts = .ok s1.ts := by
  induction tags with
  | nil =>
    intro pre s fuel s1 _ hf hend h
    cases fuel with
    | zero => rw [pass1Loop] at h; cases h
    | succ fuel =>
      have hc : ¬ s.fptr < s.fend := by
        rw [hf, hend]
        simp [encodeTags]
      rw [pass1Loop, if_neg hc] at h
      cases h
      exact ⟨rfl, by simp, rfl⟩
  | cons t rest ih =>
    intro pre s fuel s1 hwf hf hend h
    have hwt : t.Wf := hwf t (List.mem_cons_self _ _)
    have hwr : ∀ u ∈ rest, u.Wf := fun u hu => hwf u (List.mem_cons_of_mem _ hu)
    cases fuel with
    | zero => rw [pass1Loop] at h; cases h
    | succ fuel =>
      have hc : s.fptr < s.fend := by
        rw [hf, hend]
        simp only [encodeTags, List.length_append, Tag.encode_length]
        omega
      rw [pass1Loop, if_pos hc] at h
      simp only [encodeTags] at h hend
      cases hs : pass1Step nomerge (pre ++ (t.encode ++ encodeTags rest)) s with
      | error e => rw [hs] at h; cases h
      | ok r =>
        obtain ⟨b, s2⟩ := r
        obtain ⟨hb, q1, q2, _, ts, q, q4⟩ :=
          pass1Step_tag nomerge pre (encodeTags rest) t hwt s hf hend b s2 hs
        obtain ⟨m1, m2⟩ := pass1Step_counts nomerge pre (encodeTags rest) t hwt s hf hend b s2 hs
        subst hb
        rw [hs] at h
        simp only [] at h
        rw [← List.append_assoc] at h
        obtain ⟨i1, i2, i3⟩ := ih (pre ++ t.encode) s2 fuel s1 hwr
          (by rw [q1, List.length_append])
          (by rw [q2, hend, List.append_assoc]) h
        refine ⟨?_, ?_, ?_⟩
        · rw [i1, m1, List.foldl_cons]
        · rw [i2, m2, List.any_cons, Bool.or_assoc]
        · rw [finalTs_of_timestamps t s.ts ts q s2.ts q4, i3]

theorem pass1_counts (nomerge : Bool) (flags : Byte) (p4 : List Byte) (tags : List Tag)
    (s : Scan) (hp4 : p4.length = 4) (hwf : ∀ t ∈ tags, t.Wf)
    (h : pass1 nomerge (flvFile flags p4 tags) = .ok s) :
    s.counts = countTags tags ∧ s.have_audio_params = tags.any Tag.isAudio ∧
    finalTs tags ⟨0, false⟩ = .ok s.ts := by
  unfold pass1 at h
  split at h
  · cases h
  · split at h
    · cases h
    · rw [tagStreamStart_flvFile] at h
      have := pass1Loop_counts nomerge tags ([0x46, 0x4C, 0x56, 0x01, flags, 0, 0, 0, 9] ++ p4)
        _ _ s hwf (by simp [hp4]) rfl h
      simpa [Scan.counts, countTags] using this

/-! ## C23: audio tags with an empty body -/

theorem foldl_countTag_audio (tags : List Tag) :
    ∀ c : Counts, c.total_audio < 2 ^ 64 →
      (tags.foldl countTag c).hasAudio = (c.hasAudio || tags.any Tag.isAudio) ∧
      (tags.foldl countTag c).total_audio =
        (c.total_audio + ((tags.filter Tag.isAudio).map Tag.tag_length).sum) % 2 ^ 64 := by
  induction tags with
  | nil =>
    intro c hc
    refine ⟨by simp, ?_⟩
    simp only [List.filter_nil, List.map_nil, List.sum_nil, Nat.add_zero, List.foldl_nil]
    exact (Nat.mod_eq_of_lt hc).symm
  | cons t rest ih =>
    intro c hc
    rw [List.foldl_cons]
    by_cases h9 : t.tag_type = 9
    · have h8 : t.isAudio = false := by simp [Tag.isAudio, h9]
      obtain ⟨i1, i2⟩ := ih (countTag c t) (by simp only [countTag, h9, if_true]; exact hc)
      rw [i1, i2]
      simp [countTag, h9, h8, List.filter_cons]
    · cases h8 : t.isAudio with
      | true =>
        obtain ⟨i1, i2⟩ := ih (countTag c t)
          (by
            simp only [countTag, h9, h8, if_true, if_false]
            exact Nat.mod_lt _ (by decide))
        rw [i1, i2]
        simp [countTag, h9, h8, List.filter_cons, Nat.add_assoc]
      | false =>
        obtain ⟨i1, i2⟩ := ih (countTag c t)
          (by simp only [countTag, h9, h8, if_false, Bool.false_eq_true]; exact hc)
        rw [i1, i2]
        simp [countTag, h9, h8, List.filter_cons]

theorem copiedBytes_skip_empty_audio (nometa : Bool) (l : List (Tag × Nat)) :
    copiedBytes nometa l =
      copiedBytes nometa (l.filter (fun p => !p.1.isEmptyAudio)) := by
  induction l with
  | nil => rfl
  | cons p l ih =>
    obtain ⟨t, ts⟩ := p
    rw [List.filter_cons]
    cases he : t.isEmptyAudio with
    | false =>
      simp only [Bool.not_false, if_true, copiedBytes]
      rw [ih]
    | true =>
      simp only [Tag.isEmptyAudio, decide_eq_true_eq] at he
      have hc : t.copied nometa = false := by
        simp [Tag.copied, he.1, he.2]
      simp only [Bool.not_true, Bool.false_eq_true, if_false, copiedBytes, hc, List.nil_append]
      exact ih

/-- C23: in a run that writes an output file, on an input of completely framed tags on
which pass 1 completes (without `-strip`, no `-tag` named `datasize`), and that does not
end in a call of `asString()` without defined behaviour when it prints the final map
(`sprintf` of a Double into `char buf[64]`, `asctime_r` of a Date), only audio tags
with a body count as audio: `hasAudio` and `have_audio_params` are set exactly when there
is one, `total_audio` is the sum of their body lengths, and the tag stream of the output
is that of the input without the audio tags of zero length.  The flags byte of the output
header carries the audio bit exactly when `hasAudio` is set; an input whose audio tags
all have zero length gives `hasAudio = false` and a flags byte without the audio bit. -/
theorem empty_audio_skipped (o : Options) (now : Now) (flags : Byte) (p4 : List Byte)
    (tags : List Tag) (hp4 : p4.length = 4) (hwf : ∀ t ∈ tags, t.Wf)
    (hk : (tags.filter Tag.isKeyframe).length < 2 ^ 32)
    (hds : o.strip = false → ∀ e ∈ o.extra_tags, e.1 ≠ str "datasize")
    (hout : o.outFilename.isSome = true)
    (hp1 : (pass1 o.nomerge (flvFile flags p4 tags)).toBool = true)
    (hdump : (run o now (flvFile flags p4 tags)).map (fun _ => ()) ≠
      .error .asString_undefined) :
    ∃ (s : Scan) (r : Outcome) (tss : List Nat) (out : List Byte) (fl : Byte),
      pass1 o.nomerge (flvFile flags p4 tags) = .ok s ∧
      run o now (flvFile flags p4 tags) = .ok r ∧
      tagTimestamps tags ⟨0, false⟩ = .ok tss ∧
      s.hasAudio = tags.any Tag.isAudio ∧
      s.have_audio_params = tags.any Tag.isAudio ∧
      s.total_audio = ((tags.filter Tag.isAudio).map Tag.tag_length).sum % 2 ^ 64 ∧
      r.output = some out ∧
      out = preambleBytes s.hasVideo s.hasAudio r.onMetaData ++
        copiedBytes o.nometapackets ((tags.zip tss).filter (fun p => !p.1.isEmptyAudio)) ∧
      out[4]? = some fl ∧
      (fl.val &&& 0x01 ≠ 0 ↔ s.hasAudio = true) ∧
      ((∀ t ∈ tags, t.tag_type = 8 → t.tag_length = 0) →
        s.hasAudio = false ∧ fl.val &&& 0x01 = 0) := by
  cases hs : pass1 o.nomerge (flvFile flags p4 tags) with
  | error e => rw [hs] at hp1; cases hp1
  | ok s =>
    obtain ⟨r, tss, h1, h2, h3⟩ := run_flvFile o now flags p4 tags hp4 hwf hk hds hout s hs hdump
    obtain ⟨c1, c2, _⟩ := pass1_counts o.nomerge flags p4 tags s hp4 hwf hs
    obtain ⟨a1, a2⟩ := foldl_countTag_audio tags ⟨false, false, 0, 0, 0, 0⟩ (by decide)
    have hA : s.hasAudio = tags.any Tag.isAudio := by
      have : s.counts.hasAudio = (countTags tags).hasAudio := by rw [c1]
      rw [countTags, a1] at this
      simpa [Scan.counts] using this
    have hT : s.total_audio = ((tags.filter Tag.isAudio).map Tag.tag_length).sum % 2 ^ 64 := by
      have : s.counts.total_audio = (countTags tags).total_audio := by rw [c1]
      rw [countTags, a2] at this
      simpa [Scan.counts] using this
    have hbit : (byte ((if s.hasVideo = true then 0x04 else 0) |||
        (if s.hasAudio = true then 0x01 else 0))).val &&& 0x01 ≠ 0 ↔ s.hasAudio = true := by
      cases s.hasVideo <;> cases s.hasAudio <;> decide
    refine ⟨s, r, tss, _, byte ((if s.hasVideo = true then 0x04 else 0) |||
        (if s.hasAudio = true then 0x01 else 0)), rfl, h1, h2, hA, c2, hT, h3, ?_, ?_, hbit, ?_⟩
    · rw [← copiedBytes_skip_empty_audio]
    · simp [preambleBytes]
    · intro hall
      have hno : tags.any Tag.isAudio = false := by
        rw [List.any_eq_false]
        intro t ht
        simp only [Tag.isAudio, decide_eq_true_eq, not_and]
        intro h8
        have := hall t ht h8
        omega
      have hf : s.hasAudio = false := by rw [hA, hno]
      refine ⟨hf, ?_⟩
      by_contra hne
      have := hbit.mp hne
      rw [hf] at this
      cases this

/-- Witness for C23: a keyframe, an audio tag of zero length and an audio tag of one
byte. -/
theorem empty_audio_skipped_witness :
    [(0 : Byte), 0, 0, 0].length = 4 ∧ (∀ t ∈ sampleAudioTags, t.Wf) ∧
    (sampleAudioTags.filter Tag.isKeyframe).length < 2 ^ 32 ∧
    (sampleOptions.strip = false → ∀ e ∈ sampleOptions.extra_tags, e.1 ≠ str "datasize") ∧
    sampleOptions.outFilename.isSome = true ∧
    (pass1 sampleOptions.nomerge (flvFile 5 [0, 0, 0, 0] sampleAudioTags)).toBool = true ∧
    (run sampleOptions sampleNow (flvFile 5 [0, 0, 0, 0] sampleAudioTags)).map (fun _ => ()) ≠
      .error .asString_undefined ∧
    ∃ (s : Scan) (r : Outcome) (tss : List Nat) (out : List Byte) (fl : Byte),
      pass1 sampleOptions.nomerge (flvFile 5 [0, 0, 0, 0] sampleAudioTags) = .ok s ∧
      run sampleOptions sampleNow (flvFile 5 [0, 0, 0, 0] sampleAudioTags) = .ok r ∧
      tagTimestamps sampleAudioTags ⟨0, false⟩ = .ok tss ∧
      s.hasAudio = sampleAudioTags.any Tag.isAudio ∧
      s.have_audio_params = sampleAudioTags.any Tag.isAudio ∧
      s.total_audio = ((sampleAudioTags.filter Tag.isAudio).map Tag.tag_length).sum % 2 ^ 64 ∧
      r.output = some out ∧
      out = preambleBytes s.hasVideo s.hasAudio r.onMetaData ++
        copiedBytes sampleOptions.nometapackets
          ((sampleAudioTags.zip tss).filter (fun p => !p.1.isEmptyAudio)) ∧
      out[4]? = some fl ∧
      (fl.val &&& 0x01 ≠ 0 ↔ s.hasAudio = true) ∧
      ((∀ t ∈ sampleAudioTags, t.tag_type = 8 → t.tag_length = 0) →
        s.hasAudio = false ∧ fl.val &&& 0x01 = 0) :=
  ⟨rfl, by decide, by decide, (fun _ e he => by cases he), rfl, by decide!, by decide!,
   empty_audio_skipped sampleOptions sampleNow 5 [0, 0, 0, 0] sampleAudioTags rfl (by decide)
     (by decide) (fun _ e he => by cases he) rfl (by decide!) (by decide!)⟩

/-! ## C25: the framing of the generated script tag -/

theorem store_le_htons (x : Nat) : store_le 4 (htons x) = [byte (x / 256), byte x, 0, 0] := by
  have e : htons x = (x / 256) % 256 + 256 * (x % 256) := by
    simp only [htons, bswap_16, bswap, store_le, List.reverse_cons, List.reverse_nil,
      List.nil_append, List.singleton_append, load_le, byte_val_mod]
    omega
  rw [e]
  have ha : x / 256 % 256 < 256 := Nat.mod_lt _ (by decide)
  have hb : x % 256 < 256 := Nat.mod_lt _ (by decide)
  have hbx : byte (x % 256) = byte x := by
    apply Fin.ext
    simp only [byte_val_mod, Nat.mod_mod]
  have hax : byte (x / 256 % 256) = byte (x / 256) := by
    apply Fin.ext
    simp only [byte_val_mod, Nat.mod_mod]
  rw [← hbx, ← hax]
  generalize x / 256 % 256 = a at ha
  generalize x % 256 = b at hb
  have k1 : (a + 256 * b) / 256 = b := by omega
  have k2 : b / 256 = 0 := by omega
  have h1 : byte (a + 256 * b) = byte a := by
    apply Fin.ext
    simp only [byte_val_mod]
    omega
  simp only [store_le, k1, k2, h1, Nat.zero_div]
  rfl

theorem store_le_htonl (x : Nat) :
    store_le 4 (htonl x) =
      [byte (x / 2 ^ 24), byte (x / 2 ^ 16), byte (x / 2 ^ 8), byte x] := by
  rw [htonl, bswap_32, store_le_bswap]
  simp only [store_le, List.reverse_cons, List.reverse_nil, List.nil_append,
    List.singleton_append, List.cons_append, Nat.div_div_eq_div_mul]
  rfl

theorem trailer_not_big_endian (x : Nat) (h0 : 0 < x) (h1 : x < 2 ^ 32) :
    store_le 4 (htons x) ≠ store_le 4 (htonl x) := by
  rw [store_le_htons, store_le_htonl]
  intro h
  simp only [List.cons.injEq, and_true] at h
  obtain ⟨a0, a1, a2, a3⟩ := h
  have b0 := congrArg Fin.val a0
  have b1 := congrArg Fin.val a1
  have b2 := congrArg Fin.val a2
  have b3 := congrArg Fin.val a3
  simp only [byte_val_mod, Fin.val_zero] at b0 b1 b2 b3
  omega

theorem preamble_parts (hasVideo hasAudio : Bool) (dmap : Dmap) (C P : List Byte)
    (hP : P = (AMFData.AMFString (str "onMetaData")).write ++ (AMFData.AMFMixedArray dmap).write) :
    ∃ H : List Byte, H.length = 13 ∧
      preambleBytes hasVideo hasAudio dmap ++ C =
        H ++ ([18, byte ((P.length >>> 16) &&& 0xff), byte ((P.length >>> 8) &&& 0xff),
          byte (P.length &&& 0xff), 0, 0, 0, 0, 0, 0, 0] ++
          (P ++ (store_le 4 (htons (P.length + 11)) ++ C))) := by
  subst hP
  exact ⟨[0x46, 0x4C, 0x56, 0x01,
    byte ((if hasVideo then 0x04 else 0) ||| (if hasAudio then 0x01 else 0)),
    0x00, 0x00, 0x00, 0x09, 0x00, 0x00, 0x00, 0x00], rfl, by simp [preambleBytes]⟩

/-- C25: in a run that writes an output file, on an input of completely framed tags on
which pass 1 completes (without `-strip`, no `-tag` named `datasize`), and that does not
end in a call of `asString()` without defined behaviour when it prints the final map
(`sprintf` of a Double into `char buf[64]`, `asctime_r` of a Date), the output holds at
offset 13 the generated script tag: the type byte 18, the length field with the low 24
bits of the payload length `L` big-endian, zero timestamp and stream id, and at offset 24
the payload, the string `onMetaData` followed by the encoded map.  The four bytes behind
the payload are those of `write<uint32_t>(htons(L + 11))`: the two low bytes of `L + 11`
big-endian and then two zero bytes, which is not the big-endian 32-bit `L + 11` (the call
converts with `htons` where `htonl` is needed). -/
theorem metadata_tag_framing (o : Options) (now : Now) (flags : Byte) (p4 : List Byte)
    (tags : List Tag) (hp4 : p4.length = 4) (hwf : ∀ t ∈ tags, t.Wf)
    (hk : (tags.filter Tag.isKeyframe).length < 2 ^ 32)
    (hds : o.strip = false → ∀ e ∈ o.extra_tags, e.1 ≠ str "datasize")
    (hout : o.outFilename.isSome = true)
    (hp1 : (pass1 o.nomerge (flvFile flags p4 tags)).toBool = true)
    (hdump : (run o now (flvFile flags p4 tags)).map (fun _ => ()) ≠
      .error .asString_undefined) :
    ∃ (r : Outcome) (out payload : List Byte),
      run o now (flvFile flags p4 tags) = .ok r ∧
      r.output = some out ∧
      payload = (AMFData.AMFString (str "onMetaData")).write ++
        (AMFData.AMFMixedArray r.onMetaData).write ∧
      (out.drop 13).take 11 =
        [18, byte ((payload.length >>> 16) &&& 0xff), byte ((payload.length >>> 8) &&& 0xff),
          byte (payload.length &&& 0xff), 0, 0, 0, 0, 0, 0, 0] ∧
      (out.drop 24).take payload.length = payload ∧
      (out.drop (24 + payload.length)).take 4 =
        [byte ((payload.length + 11) / 256), byte (payload.length + 11), 0, 0] ∧
      (payload.length + 11 < 2 ^ 32 →
        (out.drop (24 + payload.length)).take 4 ≠ store_le 4 (htonl (payload.length + 11))) := by
  cases hs : pass1 o.nomerge (flvFile flags p4 tags) with
  | error e => rw [hs] at hp1; cases hp1
  | ok s =>
    obtain ⟨r, tss, h1, h2, h3⟩ := run_flvFile o now flags p4 tags hp4 hwf hk hds hout s hs hdump
    obtain ⟨H, hH, hP⟩ := preamble_parts s.hasVideo s.hasAudio r.onMetaData
      (copiedBytes o.nometapackets (tags.zip tss)) _ rfl
    rw [hP] at h3
    generalize hPd : (AMFData.AMFString (str "onMetaData")).write ++
      (AMFData.AMFMixedArray r.onMetaData).write = P at h3
    have e24 : ∀ X : List Byte, (H ++ ([18, byte ((P.length >>> 16) &&& 0xff),
        byte ((P.length >>> 8) &&& 0xff), byte (P.length &&& 0xff), 0, 0, 0, 0, 0, 0, 0] ++ X)).drop 24
        = X := by
      intro X
      rw [← List.append_assoc]
      exact List.drop_left' (by simp [hH])
    have e13 : ∀ X : List Byte, (H ++ X).drop 13 = X := fun X => List.drop_left' hH
    have eT : ∀ X : List Byte, (H ++ ([18, byte ((P.length >>> 16) &&& 0xff),
        byte ((P.length >>> 8) &&& 0xff), byte (P.length &&& 0xff), 0, 0, 0, 0, 0, 0, 0] ++
        (P ++ X))).drop (24 + P.length) = X := by
      intro X
      rw [← List.append_assoc, ← List.append_assoc]
      exact List.drop_left' (by simp [hH]; omega)
    have hT : (store_le 4 (htons (P.length + 11)) ++
        copiedBytes o.nometapackets (tags.zip tss)).take 4 =
        store_le 4 (htons (P.length + 11)) := List.take_left' (store_le_length _ _)
    refine ⟨r, _, P, h1, h3, hPd.symm, ?_, ?_, ?_, ?_⟩
    · rw [e13]
      rfl
    · rw [e24]
      exact List.take_left' rfl
    · rw [eT, hT, store_le_htons]
    · intro hlt
      rw [eT, hT]
      exact trailer_not_big_endian _ (by omega) hlt

/-- Witness for C25: the run on the sample file; the payload has 586 bytes, from offset 24
to 610, and the four bytes behind it are `02 55 00 00` where the big-endian 32-bit 597 is
`00 00 02 55`. -/
theorem metadata_tag_framing_witness :
    [(0 : Byte), 0, 0, 0].length = 4 ∧ (∀ t ∈ sampleTags, t.Wf) ∧
    (sampleTags.filter Tag.isKeyframe).length < 2 ^ 32 ∧
    (sampleOptions.strip = false → ∀ e ∈ sampleOptions.extra_tags, e.1 ≠ str "datasize") ∧
    sampleOptions.outFilename.isSome = true ∧
    (pass1 sampleOptions.nomerge (flvFile 5 [0, 0, 0, 0] sampleTags)).toBool = true ∧
    (run sampleOptions sampleNow (flvFile 5 [0, 0, 0, 0] sampleTags)).map (fun _ => ()) ≠
      .error .asString_undefined ∧
    (∃ (r : Outcome) (out payload : List Byte),
      run sampleOptions sampleNow (flvFile 5 [0, 0, 0, 0] sampleTags) = .ok r ∧
      r.output = some out ∧
      payload = (AMFData.AMFString (str "onMetaData")).write ++
        (AMFData.AMFMixedArray r.onMetaData).write ∧
      (out.drop 13).take 11 =
        [18, byte ((payload.length >>> 16) &&& 0xff), byte ((payload.length >>> 8) &&& 0xff),
          byte (payload.length &&& 0xff), 0, 0, 0, 0, 0, 0, 0] ∧
      (out.drop 24).take payload.length = payload ∧
      (out.drop (24 + payload.length)).take 4 =
        [byte ((payload.length + 11) / 256), byte (payload.length + 11), 0, 0] ∧
      (payload.length + 11 < 2 ^ 32 →
        (out.drop (24 + payload.length)).take 4 ≠ store_le 4 (htonl (payload.length + 11)))) ∧
    (run sampleOptions sampleNow (flvFile 5 [0, 0, 0, 0] sampleTags)).map
        (fun r => r.output.map (fun out => ((out.drop 13).take 4, (out.drop 610).take 4))) =
      .ok (some ([18, 0, 0x02, 0x4A], [0x02, 0x55, 0, 0])) :=
  ⟨rfl, by decide, by decide, (fun _ e he => by cases he), rfl, by decide!, by decide!,
   metadata_tag_framing sampleOptions sampleNow 5 [0, 0, 0, 0] sampleTags rfl (by decide)
     (by decide) (fun _ e he => by cases he) rfl (by decide!) (by decide!), by decide!⟩

/-! ## C30: the buffered sink and the positional writer -/

theorem overwrite_nil (file : List Byte) (pos : Nat) : overwrite file pos [] = file := by
  simp [overwrite]

theorem overwrite_overwrite (file a b : List Byte) (pos : Nat) :
    overwrite (overwrite file pos a) (pos + a.length) b = overwrite file pos (a ++ b) := by
  by_cases ha : a = []
  · subst ha
    simp [overwrite_nil]
  by_cases hb : b = []
  · subst hb
    simp [overwrite_nil]
  have hab : a ++ b ≠ [] := by simp [ha]
  simp only [overwrite, ha, hb, hab, if_false]
  generalize hP : file.take pos ++ List.replicate (pos - file.length) 0 = P
  have hPl : P.length = pos := by
    rw [← hP, List.length_append, List.length_take, List.length_replicate]
    omega
  have e1 : (P ++ a ++ file.drop (pos + a.length)).take (pos + a.length) = P ++ a :=
    List.take_left' (by rw [List.length_append, hPl])
  have e2 : pos + a.length - (P ++ a ++ file.drop (pos + a.length)).length = 0 := by
    simp only [List.length_append, hPl]
    omega
  have e3 : (P ++ a ++ file.drop (pos + a.length)).drop (pos + a.length + b.length) =
      file.drop (pos + (a ++ b).length) := by
    have : pos + a.length + b.length = (P ++ a).length + b.length := by
      rw [List.length_append, hPl]
    rw [this, List.drop_append, List.drop_drop, List.length_append]
    congr 1
    omega
  rw [e1, e2, e3, List.replicate_zero, List.append_nil, List.append_assoc P a b]

theorem fout.view_flush (f : fout) :
    f.flush.view = f.view ∧ f.flush.buffer = [] ∧ f.flush.file = f.view.file ∧
      f.flush.fpos = f.view.pos := by
  unfold fout.flush fout.view fout.buffer_used
  by_cases h : f.buffer = []
  · simp [h, overwrite_nil]
  · have h1 : f.buffer.length ≠ 0 := fun hh => h (List.length_eq_zero.mp hh)
    simp [h1, overwrite_nil]

theorem fout.view_of_empty (f : fout) (h : f.buffer = []) : f.view = ⟨f.file, f.fpos⟩ := by
  simp [fout.view, h, overwrite_nil]

theorem fout.view_write (f : fout) (dat : List Byte) :
    (f.write dat).view = f.view.write dat ∧ (f.write dat).buffer_used ≤ BUFFER_SIZE := by
  obtain ⟨v1, v2, v3, v4⟩ := f.view_flush
  simp only [fout.write, fout.buffer_used]
  by_cases hfl : dat.length + f.buffer.length > BUFFER_SIZE
  · simp only [hfl, if_true]
    by_cases hbig : dat.length > BUFFER_SIZE
    · simp only [hbig, if_true, fout.view, v2, v3, v4, overwrite_nil,
        List.length_nil, Nat.add_zero, Sink.write]
      exact ⟨trivial, Nat.zero_le _⟩
    · simp only [hbig, if_false, fout.view, v2, v3, v4, List.nil_append, Sink.write]
      exact ⟨trivial, by omega⟩
  · have hbig : ¬ dat.length > BUFFER_SIZE := by omega
    simp only [hfl, hbig, if_false, fout.view, Sink.write, overwrite_overwrite,
      List.length_append, Nat.add_assoc]
    exact ⟨trivial, by omega⟩

theorem fout.view_putc (f : fout) (c : Byte) (h : f.buffer_used ≤ BUFFER_SIZE) :
    (f.putc c).view = f.view.putc c ∧ (f.putc c).buffer_used ≤ BUFFER_SIZE := by
  obtain ⟨v1, v2, v3, v4⟩ := f.view_flush
  simp only [fout.buffer_used] at h
  simp only [fout.putc, fout.buffer_used]
  by_cases hfl : f.buffer.length = BUFFER_SIZE
  · simp only [hfl, if_true, fout.view, v2, v3, v4, List.nil_append, Sink.putc, Sink.write,
      List.length_cons, List.length_nil]
    exact ⟨trivial, by decide⟩
  · simp only [hfl, if_false, fout.view, Sink.putc, Sink.write, overwrite_overwrite,
      List.length_append, Nat.add_assoc, List.length_cons, List.length_nil]
    exact ⟨trivial, by omega⟩

theorem fout.view_call (f : fout) (c : Call) (h : f.buffer_used ≤ BUFFER_SIZE) :
    (f.call c).view = f.view.call c ∧ (f.call c).buffer_used ≤ BUFFER_SIZE := by
  cases c with
  | write dat => exact f.view_write dat
  | putc c => exact f.view_putc c h
  | write_u24_be d =>
    obtain ⟨a1, a2⟩ := f.view_putc (byte ((d >>> 16) &&& 0xff)) h
    obtain ⟨b1, b2⟩ := (f.putc (byte ((d >>> 16) &&& 0xff))).view_putc (byte ((d >>> 8) &&& 0xff)) a2
    obtain ⟨c1, c2⟩ := ((f.putc (byte ((d >>> 16) &&& 0xff))).putc
      (byte ((d >>> 8) &&& 0xff))).view_putc (byte (d &&& 0xff)) b2
    exact ⟨by simp only [fout.call, Sink.call, fout.write_u24_be, Sink.write_u24_be, c1, b1, a1],
      c2⟩
  | seek offset =>
    obtain ⟨v1, v2, v3, v4⟩ := f.view_flush
    simp only [fout.call, Sink.call, fout.seek, fout.view, fout.buffer_used, v2, v3,
      overwrite_nil, Sink.seek, List.length_nil, Nat.add_zero]
    exact ⟨trivial, Nat.zero_le _⟩

theorem fout.view_calls (cs : List Call) :
    ∀ f : fout, f.buffer_used ≤ BUFFER_SIZE →
      (f.calls cs).view = f.view.calls cs ∧ (f.calls cs).buffer_used ≤ BUFFER_SIZE := by
  induction cs with
  | nil => intro f h; exact ⟨rfl, h⟩
  | cons c cs ih =>
    intro f h
    obtain ⟨a1, a2⟩ := f.view_call c h
    obtain ⟨b1, b2⟩ := ih (f.call c) a2
    simp only [fout.calls, Sink.calls, List.foldl_cons] at b1 b2 ⊢
    rw [← a1]
    exact ⟨b1, b2⟩

/-- C30: the buffered sink refines the positional writer.  After any sequence of calls of
`write`, `putc`, `write_u24_be` and `seek` on a freshly opened `fout`, at most 32768
bytes are in the buffer, `tell()` is the position of the positional writer after the
same calls, the file once the buffer is written out has the contents the positional
writer has produced by applying each write at once, and `close()` leaves the file with
exactly these contents. -/
theorem fout_refines_sink (cs : List Call) :
    (fout.opened.calls cs).buffer_used ≤ BUFFER_SIZE ∧
    (fout.opened.calls cs).tell = ((⟨[], 0⟩ : Sink).calls cs).tell ∧
    (fout.opened.calls cs).view = (⟨[], 0⟩ : Sink).calls cs ∧
    (fout.opened.calls cs).close = ((⟨[], 0⟩ : Sink).calls cs).file := by
  obtain ⟨h1, h2⟩ := fout.view_calls cs fout.opened (by decide)
  have hv : fout.opened.view = ⟨[], 0⟩ := rfl
  rw [hv] at h1
  obtain ⟨v1, v2, v3, v4⟩ := (fout.opened.calls cs).view_flush
  refine ⟨h2, ?_, h1, ?_⟩
  · rw [← h1]
    rfl
  · rw [← h1]
    exact v3

/-! ## C27: the H.263 probe and the bit cursor -/

theorem get_bits_loop_list (l : List Nat) :
    ∀ (acc : Nat) (bs : bitstream) (rest : List Nat), bs.InMemory →
      bs.pending = l ++ rest → (∀ b ∈ l, b < 2) → (acc + 1) * 2 ^ l.length ≤ 2 ^ 32 →
      ∃ bs1, bitstream.get_bits_loop l.length acc bs = .ok (bitsVal acc l, bs1) ∧
        bs1.pending = rest ∧ bs1.InMemory := by
  induction l with
  | nil =>
    intro acc bs rest hok hp _ _
    exact ⟨bs, rfl, by simpa using hp, hok⟩
  | cons b l ih =>
    intro acc bs rest hok hp hl hb
    simp only [List.cons_append] at hp
    obtain ⟨bs1, h1, h2, h3, _⟩ := get_bit_pending bs hok _ _ hp
    have hbit : b < 2 := hl b (List.mem_cons_self _ _)
    have hpow : 0 < 2 ^ l.length := Nat.pos_pow_of_pos _ (by decide)
    simp only [List.length_cons] at hb
    have hacc : 2 * acc + 2 ≤ 2 ^ 32 := by
      have h4 : (acc + 1) * 2 ≤ (acc + 1) * 2 ^ (l.length + 1) :=
        Nat.mul_le_mul_left _ (by rw [pow_succ]; omega)
      omega
    have hstep : (acc <<< 1) % 2 ^ 32 ||| b = 2 * acc + b := by
      rw [Nat.shiftLeft_eq, Nat.mod_eq_of_lt (by omega), pow_one, Nat.mul_comm acc 2]
      have := Nat.mul_add_lt_is_or (i := 1) (b := b) (by simpa using hbit) acc
      simpa using this.symm
    have hb2 : (2 * acc + b + 1) * 2 ^ l.length ≤ 2 ^ 32 := by
      have h5 : (2 * acc + b + 1) * 2 ^ l.length ≤ (2 * acc + 2) * 2 ^ l.length :=
        Nat.mul_le_mul_right _ (by omega)
      have h6 : (2 * acc + 2) * 2 ^ l.length = (acc + 1) * 2 ^ (l.length + 1) := by
        rw [pow_succ]
        ring
      omega
    obtain ⟨bs2, g1, g2, g3⟩ := ih (2 * acc + b) bs1 rest h3 h2
      (fun x hx => hl x (List.mem_cons_of_mem _ hx)) hb2
    refine ⟨bs2, ?_, g2, g3⟩
    rw [List.length_cons, bitstream.get_bits_loop, h1]
    simp only [hstep]
    rw [g1]
    rfl

/-- The method `get_bits` hands out the next `n` pending bits as a number. -/
theorem get_bits_list (n : Nat) (l rest : List Nat) (bs : bitstream) (hok : bs.InMemory)
    (hp : bs.pending = l ++ rest) (hl : ∀ b ∈ l, b < 2) (hn : l.length = n) (h32 : n ≤ 32) :
    ∃ bs1, bs.get_bits n = .ok (bitsVal 0 l, bs1) ∧ bs1.pending = rest ∧ bs1.InMemory := by
  have hp2 : (0 + 1) * 2 ^ l.length ≤ 2 ^ 32 := by
    rw [Nat.zero_add, Nat.one_mul, hn]
    exact Nat.pow_le_pow_right (by decide) h32
  obtain ⟨bs1, h1, h2, h3⟩ := get_bits_loop_list l 0 bs rest hok hp hl hp2
  refine ⟨bs1, ?_, h2, h3⟩
  have hm : n % 256 = n := Nat.mod_eq_of_lt (by omega)
  rw [bitstream.get_bits, hm, if_pos h32, ← hn]
  exact h1

/-- With no pending bit left `get_bit` fails. -/
theorem get_bit_empty (bs : bitstream) (hp : bs.pending = []) :
    ∃ e, bs.get_bit = .error e := by
  obtain ⟨⟨p, len⟩, cb, lub⟩ := bs
  cases lub with
  | succ l => simp [bitstream.pending, natBits] at hp
  | zero =>
    simp only [bitstream.pending, natBits, List.nil_append] at hp
    have hlen : (bytesBits (p.take len)).length = 0 := by rw [hp]; rfl
    rw [bytesBits_length] at hlen
    have ht : (p.take len).length = 0 := by omega
    rw [List.length_take] at ht
    simp only [bitstream.get_bit, bitstream.refill, if_true, serialized_buffer.get_u8,
      serialized_buffer.consume, deref]
    by_cases h1 : len < 1
    · rw [if_pos h1]
      exact ⟨_, rfl⟩
    · rw [if_neg h1]
      have hp0 : p.length < 1 := by omega
      simp only []
      rw [if_pos hp0]
      exact ⟨_, rfl⟩

theorem get_bits_loop_short (n : Nat) :
    ∀ (acc : Nat) (bs : bitstream), bs.InMemory → bs.pending.length < n →
      ∃ e, bitstream.get_bits_loop n acc bs = .error e := by
  induction n with
  | zero => intro acc bs _ h; omega
  | succ n ih =>
    intro acc bs hok h
    cases hp : bs.pending with
    | nil =>
      obtain ⟨e, he⟩ := get_bit_empty bs hp
      exact ⟨e, by rw [bitstream.get_bits_loop, he]⟩
    | cons b r =>
      obtain ⟨bs1, h1, h2, h3, _⟩ := get_bit_pending bs hok b r hp
      rw [hp, List.length_cons] at h
      obtain ⟨e, he⟩ := ih ((acc <<< 1) % 2 ^ 32 ||| b) bs1 h3 (by rw [h2]; omega)
      exact ⟨e, by rw [bitstream.get_bits_loop, h1]; exact he⟩

/-- Asking `get_bits` for more bits than are pending fails. -/
theorem get_bits_short (bs : bitstream) (n : Nat) (hok : bs.InMemory)
    (h : bs.pending.length < n) (h32 : n ≤ 32) : ∃ e, bs.get_bits n = .error e := by
  have hm : n % 256 = n := Nat.mod_eq_of_lt (by omega)
  rw [bitstream.get_bits, hm, if_pos h32]
  exact get_bits_loop_short n 0 bs hok h

theorem bitsVal_append (l1 l2 : List Nat) :
    ∀ acc, bitsVal acc (l1 ++ l2) = bitsVal (bitsVal acc l1) l2 := by
  induction l1 with
  | nil => intro acc; rfl
  | cons b l ih => intro acc; exact ih _

theorem bytesBits_lt (bs : List Byte) : ∀ b ∈ bytesBits bs, b < 2 := by
  induction bs with
  | nil => intro b hb; simp [bytesBits] at hb
  | cons c bs ih =>
    intro b hb
    simp only [bytesBits, List.mem_append] at hb
    rcases hb with hb | hb
    · exact natBits_lt _ _ b hb
    · exact ih b hb

theorem byte_top_bit (b : Byte) : (b.val &&& 0x80) >>> 7 = b.val / 128 := by
  obtain ⟨x, hx⟩ := b
  simp only []
  interval_cases x <;> rfl

theorem byte_low7 (b : Byte) : b.val &&& 0x7f = b.val % 128 :=
  Nat.and_pow_two_sub_one_eq_mod b.val 7

theorem byte_low2 (b : Byte) : b.val &&& 0x03 = b.val % 4 :=
  Nat.and_pow_two_sub_one_eq_mod b.val 2

theorem bitstream.pending_lt (bs : bitstream) : ∀ b ∈ bs.pending, b < 2 := by
  intro b hb
  simp only [bitstream.pending, List.mem_append] at hb
  rcases hb with hb | hb
  · exact natBits_lt _ _ b hb
  · exact bytesBits_lt _ b hb

/-- With `n` bits pending, `get_bits n` hands out the first `n` of them as a number. -/
theorem get_bits_take (bs : bitstream) (n : Nat) (hok : bs.InMemory)
    (h : n ≤ bs.pending.length) (h32 : n ≤ 32) :
    ∃ bs1, bs.get_bits n = .ok (bitsVal 0 (bs.pending.take n), bs1) ∧
      bs1.pending = bs.pending.drop n ∧ bs1.InMemory :=
  get_bits_list n (bs.pending.take n) (bs.pending.drop n) bs hok
    (List.take_append_drop n bs.pending).symm
    (fun b hb => bs.pending_lt b (List.mem_of_mem_take hb))
    (by rw [List.length_take]; omega) h32

theorem length_ge_five (l : List Byte) (h : 5 ≤ l.length) :
    ∃ a b c d e r, l = a :: b :: c :: d :: e :: r := by
  rcases l with _ | ⟨a, _ | ⟨b, _ | ⟨c, _ | ⟨d, _ | ⟨e, r⟩⟩⟩⟩⟩ <;>
    simp only [List.length_cons, List.length_nil] at h <;> first | omega | exact ⟨_, _, _, _, _, _, rfl⟩

theorem length_ge_two (l : List Byte) (h : 2 ≤ l.length) : ∃ a b r, l = a :: b :: r := by
  rcases l with _ | ⟨a, _ | ⟨b, r⟩⟩ <;>
    simp only [List.length_cons, List.length_nil] at h <;> first | omega | exact ⟨_, _, _, rfl⟩

theorem length_ge_four (l : List Byte) (h : 4 ≤ l.length) :
    ∃ a b c d r, l = a :: b :: c :: d :: r := by
  rcases l with _ | ⟨a, _ | ⟨b, _ | ⟨c, _ | ⟨d, r⟩⟩⟩⟩ <;>
    simp only [List.length_cons, List.length_nil] at h <;> first | omega | exact ⟨_, _, _, _, _, rfl⟩

/-- The selector of the shifts is the number in the bits 30 to 32. -/
theorem h263_selector (b0 b1 b2 b3 b4 : Byte) (rest : List Byte) :
    ((b3.val &&& 0x03) <<< 1) + ((b4.val &&& 0x80) >>> 7) =
      bitsVal 0 (((bytesBits (b0 :: b1 :: b2 :: b3 :: b4 :: rest)).drop 30).take 3) := by
  have e : ((bytesBits (b0 :: b1 :: b2 :: b3 :: b4 :: rest)).drop 30).take 3 =
      [b3.val / 2 % 2, b3.val % 2, b4.val / 128 % 2] := by
    simp only [bytesBits, natBits, List.cons_append, List.nil_append, List.drop_succ_cons,
      List.drop_zero, List.take_succ_cons, List.take_zero, Nat.reducePow, Nat.div_one]
  rw [e, byte_low2, byte_top_bit, Nat.shiftLeft_eq]
  simp only [bitsVal]
  have := b4.isLt
  omega

theorem peek_body (pre l : List Byte) (i : Nat) (b : Byte) (h : l[i]? = some b) (post : List Byte) :
    peek (pre ++ l ++ post) (pre.length + i) = .ok b := by
  rw [List.append_assoc, peek_append]
  unfold peek
  have hi : i < l.length := by
    by_contra hc
    rw [List.getElem?_eq_none (by omega)] at h
    cases h
  rw [List.getElem?_append_left hi, h]

/-- The shifts with selector 2 or more. -/
theorem probeH263_table (pre post : List Byte) (b0 b1 b2 b3 b4 : Byte) (rest : List Byte)
    (sel : Nat) (hs : ((b3.val &&& 0x03) <<< 1) + ((b4.val &&& 0x80) >>> 7) = sel)
    (h0 : sel ≠ 0) (h1 : sel ≠ 1) :
    probeH263 (pre ++ (b0 :: b1 :: b2 :: b3 :: b4 :: rest) ++ post) pre.length =
      (if sel = 2 then pure (.params 352 288)
        else if sel = 3 then pure (.params 176 144)
        else if sel = 4 then pure (.params 128 96)
        else if sel = 5 then pure (.params 320 240)
        else if sel = 6 then pure (.params 160 120)
        else pure (.params 0 0)) := by
  have p3 := peek_body pre (b0 :: b1 :: b2 :: b3 :: b4 :: rest) 3 b3 (by simp) post
  have p4 := peek_body pre (b0 :: b1 :: b2 :: b3 :: b4 :: rest) 4 b4 (by simp) post
  unfold probeH263
  simp only [Nat.add_assoc, Nat.reduceAdd, p3, p4, bind, Except.bind, hs, if_neg h0, if_neg h1]

/-- The shifts with selector 0. -/
theorem probeH263_bytes8 (pre post : List Byte) (b0 b1 b2 b3 b4 c5 c6 : Byte) (rest : List Byte)
    (hs : ((b3.val &&& 0x03) <<< 1) + ((b4.val &&& 0x80) >>> 7) = 0) :
    probeH263 (pre ++ (b0 :: b1 :: b2 :: b3 :: b4 :: c5 :: c6 :: rest) ++ post) pre.length =
      .ok (.params ((b4.val % 128 * 2 + c5.val / 128 : Nat) : Int)
        ((c5.val % 128 * 2 + c6.val / 128 : Nat) : Int)) := by
  have p3 := peek_body pre (b0 :: b1 :: b2 :: b3 :: b4 :: c5 :: c6 :: rest) 3 b3 (by simp) post
  have p4 := peek_body pre (b0 :: b1 :: b2 :: b3 :: b4 :: c5 :: c6 :: rest) 4 b4 (by simp) post
  have p5 := peek_body pre (b0 :: b1 :: b2 :: b3 :: b4 :: c5 :: c6 :: rest) 5 c5 (by simp) post
  have p6 := peek_body pre (b0 :: b1 :: b2 :: b3 :: b4 :: c5 :: c6 :: rest) 6 c6 (by simp) post
  simp only [byte_top_bit, Nat.shiftLeft_eq, pow_one] at hs
  unfold probeH263
  simp only [Nat.add_assoc, Nat.reduceAdd, p3, p4, p5, p6, bind, Except.bind, hs, if_true,
    byte_low7, byte_top_bit, Nat.shiftLeft_eq, pow_one, pure, Except.pure]

/-- The shifts with selector 1. -/
theorem probeH263_bytes16 (pre post : List Byte) (b0 b1 b2 b3 b4 c5 c6 c7 c8 : Byte)
    (rest : List Byte)
    (hs : ((b3.val &&& 0x03) <<< 1) + ((b4.val &&& 0x80) >>> 7) = 1) :
    probeH263 (pre ++ (b0 :: b1 :: b2 :: b3 :: b4 :: c5 :: c6 :: c7 :: c8 :: rest) ++ post)
        pre.length =
      .ok (.params
        (((b4.val % 128 * 2 + c5.val / 128) * 256 + (c5.val % 128 * 2 + c6.val / 128) : Nat) : Int)
        (((c6.val % 128 * 2 + c7.val / 128) * 256 + (c7.val % 128 * 2 + c8.val / 128) : Nat) :
          Int)) := by
  have p3 := peek_body pre (b0 :: b1 :: b2 :: b3 :: b4 :: c5 :: c6 :: c7 :: c8 :: rest) 3 b3 (by simp) post
  have p4 := peek_body pre (b0 :: b1 :: b2 :: b3 :: b4 :: c5 :: c6 :: c7 :: c8 :: rest) 4 b4 (by simp) post
  have p5 := peek_body pre (b0 :: b1 :: b2 :: b3 :: b4 :: c5 :: c6 :: c7 :: c8 :: rest) 5 c5 (by simp) post
  have p6 := peek_body pre (b0 :: b1 :: b2 :: b3 :: b4 :: c5 :: c6 :: c7 :: c8 :: rest) 6 c6 (by simp) post
  have p7 := peek_body pre (b0 :: b1 :: b2 :: b3 :: b4 :: c5 :: c6 :: c7 :: c8 :: rest) 7 c7 (by simp) post
  have p8 := peek_body pre (b0 :: b1 :: b2 :: b3 :: b4 :: c5 :: c6 :: c7 :: c8 :: rest) 8 c8 (by simp) post
  simp only [byte_top_bit, Nat.shiftLeft_eq, pow_one] at hs
  unfold probeH263
  simp only [Nat.add_assoc, Nat.reduceAdd, p3, p4, p5, p6, p7, p8, bind, Except.bind, hs,
    if_true, byte_low7, byte_top_bit, Nat.shiftLeft_eq, pow_one, pure, Except.pure,
    Nat.reducePow, one_ne_zero, if_false]

/-- A call of `get_bits` that returns has handed out the first pending bits. -/
theorem get_bits_ok (bs bs1 : bitstream) (n x : Nat) (hok : bs.InMemory) (h32 : n ≤ 32)
    (h : bs.get_bits n = .ok (x, bs1)) :
    n ≤ bs.pending.length ∧ x = bitsVal 0 (bs.pending.take n) ∧
      bs1.pending = bs.pending.drop n ∧ bs1.InMemory := by
  by_cases hn : n ≤ bs.pending.length
  · obtain ⟨bs2, g1, g2, g3⟩ := get_bits_take bs n hok hn h32
    rw [g1] at h
    cases h
    exact ⟨hn, rfl, g2, g3⟩
  · obtain ⟨e, he⟩ := get_bits_short bs n hok (by omega) h32
    rw [he] at h
    cases h

/-- A cursor probe that returns has read a selector from five bytes or more. -/
theorem h263_cursor_ok (body : List Byte) (r : Probe) (h : probeH263_cursor body = .ok r) :
    ∃ (b0 b1 b2 b3 b4 : Byte) (rest : List Byte) (bs2 : bitstream),
      body = b0 :: b1 :: b2 :: b3 :: b4 :: rest ∧
      bs2.pending = natBits 7 b4.val ++ bytesBits rest ∧ bs2.InMemory ∧
      probeH263_fields (((b3.val &&& 0x03) <<< 1) + ((b4.val &&& 0x80) >>> 7)) bs2 = .ok r := by
  obtain ⟨hp, hok⟩ := init_pending body
  unfold probeH263_cursor at h
  simp only [] at h
  cases h1 : (bitstream.init (.ofBytes body)).get_bits 30 with
  | error e => rw [h1] at h; cases h
  | ok v1 =>
    obtain ⟨skip, bs1⟩ := v1
    obtain ⟨k1, _, k2, k3⟩ := get_bits_ok _ _ _ _ hok (by decide) h1
    rw [h1] at h
    simp only [bind, Except.bind] at h
    cases h2 : bs1.get_bits 3 with
    | error e => rw [h2] at h; cases h
    | ok v2 =>
      obtain ⟨sel, bs2⟩ := v2
      obtain ⟨m1, m2, m3, m4⟩ := get_bits_ok _ _ _ _ k3 (by decide) h2
      rw [h2] at h
      simp only [] at h
      rw [k2, hp] at m1 m2 m3
      rw [List.length_drop, bytesBits_length] at m1
      obtain ⟨b0, b1, b2, b3, b4, rest, rfl⟩ := length_ge_five body (by omega)
      refine ⟨b0, b1, b2, b3, b4, rest, bs2, rfl, ?_, m4, ?_⟩
      · rw [m3]
        simp only [bytesBits, natBits, List.cons_append, List.nil_append, List.drop_succ_cons,
          List.drop_zero]
      · rw [h263_selector b0 b1 b2 b3 b4 rest, ← m2]
        exact h

/-- The cursor probe on five bytes or more reads the selector. -/
theorem h263_cursor_selector (b0 b1 b2 b3 b4 : Byte) (rest : List Byte) :
    ∃ bs2 : bitstream, bs2.pending = natBits 7 b4.val ++ bytesBits rest ∧ bs2.InMemory ∧
      probeH263_cursor (b0 :: b1 :: b2 :: b3 :: b4 :: rest) =
        probeH263_fields (((b3.val &&& 0x03) <<< 1) + ((b4.val &&& 0x80) >>> 7)) bs2 := by
  obtain ⟨hp, hok⟩ := init_pending (b0 :: b1 :: b2 :: b3 :: b4 :: rest)
  have hlen : (bytesBits (b0 :: b1 :: b2 :: b3 :: b4 :: rest)).length = 40 + 8 * rest.length := by
    rw [bytesBits_length]
    simp only [List.length_cons]
    omega
  obtain ⟨bs1, g1, g2, g3⟩ := get_bits_take _ 30 hok (by rw [hp, hlen]; omega) (by decide)
  obtain ⟨bs2, k1, k2, k3⟩ := get_bits_take bs1 3 g3
    (by rw [g2, hp, List.length_drop, hlen]; omega) (by decide)
  refine ⟨bs2, ?_, k3, ?_⟩
  · rw [k2, g2, hp]
    simp only [bytesBits, natBits, List.cons_append, List.nil_append, List.drop_succ_cons,
      List.drop_zero]
  · unfold probeH263_cursor
    simp only [g1, bind, Except.bind, k1]
    rw [h263_selector b0 b1 b2 b3 b4 rest, g2, hp]

theorem twoFields_ok (n : Nat) (bs : bitstream) (r : Probe) (hok : bs.InMemory) (h32 : n ≤ 32)
    (h : twoFields n bs = .ok r) :
    2 * n ≤ bs.pending.length ∧
      r = .params (bitsVal 0 (bs.pending.take n) : Nat)
        (bitsVal 0 ((bs.pending.drop n).take n) : Nat) := by
  unfold twoFields at h
  cases h1 : bs.get_bits n with
  | error e => rw [h1] at h; cases h
  | ok v1 =>
    obtain ⟨w, bs1⟩ := v1
    obtain ⟨k1, k2, k3, k4⟩ := get_bits_ok _ _ _ _ hok h32 h1
    rw [h1] at h
    simp only [bind, Except.bind] at h
    cases h2 : bs1.get_bits n with
    | error e => rw [h2] at h; cases h
    | ok v2 =>
      obtain ⟨hh, bs2⟩ := v2
      obtain ⟨m1, m2, m3, m4⟩ := get_bits_ok _ _ _ _ k4 h32 h2
      rw [h2] at h
      simp only [pure, Except.pure] at h
      cases h
      rw [k3, List.length_drop] at m1
      rw [k3] at m2
      exact ⟨by omega, by rw [k2, m2]⟩

theorem twoFields_take (n : Nat) (bs : bitstream) (hok : bs.InMemory) (h32 : n ≤ 32)
    (h : 2 * n ≤ bs.pending.length) :
    twoFields n bs = .ok (.params (bitsVal 0 (bs.pending.take n) : Nat)
        (bitsVal 0 ((bs.pending.drop n).take n) : Nat)) := by
  obtain ⟨bs1, g1, g2, g3⟩ := get_bits_take bs n hok (by omega) h32
  obtain ⟨bs2, k1, k2, k3⟩ := get_bits_take bs1 n g3 (by rw [g2, List.length_drop]; omega) h32
  unfold twoFields
  simp only [g1, bind, Except.bind, k1, g2]
  rfl

theorem probeH263_fields_zero (bs : bitstream) : probeH263_fields 0 bs = twoFields 8 bs := rfl

theorem probeH263_fields_one (bs : bitstream) : probeH263_fields 1 bs = twoFields 16 bs := rfl

theorem h263_bits8 (b4 c5 c6 : Byte) (rest : List Byte) :
    bitsVal 0 ((natBits 7 b4.val ++ bytesBits (c5 :: c6 :: rest)).take 8) =
        b4.val % 128 * 2 + c5.val / 128 ∧
      bitsVal 0 (((natBits 7 b4.val ++ bytesBits (c5 :: c6 :: rest)).drop 8).take 8) =
        c5.val % 128 * 2 + c6.val / 128 := by
  simp only [bytesBits, natBits, List.cons_append, List.nil_append, List.drop_succ_cons,
    List.drop_zero, List.take_succ_cons, List.take_zero, Nat.reducePow, Nat.div_one, bitsVal]
  have h5 := c5.isLt
  have h6 := c6.isLt
  constructor <;> omega

theorem bitsVal_natBits (n : Nat) :
    ∀ x acc, bitsVal acc (natBits n x) = acc * 2 ^ n + x % 2 ^ n := by
  induction n with
  | zero => intro x acc; simp [natBits, bitsVal, Nat.mod_one]
  | succ n ih =>
    intro x acc
    simp only [natBits, bitsVal]
    rw [ih, Nat.mod_pow_succ, pow_succ]
    ring

theorem bitsVal_singleton (acc b : Nat) : bitsVal acc [b] = 2 * acc + b := rfl

theorem h263_bits16 (b4 c5 c6 c7 c8 : Byte) (rest : List Byte) :
    bitsVal 0 ((natBits 7 b4.val ++ bytesBits (c5 :: c6 :: c7 :: c8 :: rest)).take 16) =
        (b4.val % 128 * 2 + c5.val / 128) * 256 + (c5.val % 128 * 2 + c6.val / 128) ∧
      bitsVal 0 (((natBits 7 b4.val ++ bytesBits (c5 :: c6 :: c7 :: c8 :: rest)).drop 16).take 16) =
        (c6.val % 128 * 2 + c7.val / 128) * 256 + (c7.val % 128 * 2 + c8.val / 128) := by
  have n8 : ∀ x, natBits 8 x = (x / 128 % 2) :: natBits 7 x := fun x => rfl
  have e : natBits 7 b4.val ++ bytesBits (c5 :: c6 :: c7 :: c8 :: rest) =
      (natBits 7 b4.val ++ natBits 8 c5.val ++ [c6.val / 128 % 2]) ++
        ((natBits 7 c6.val ++ natBits 8 c7.val ++ [c8.val / 128 % 2]) ++
          (natBits 7 c8.val ++ bytesBits rest)) := by
    simp only [bytesBits, n8 c6.val, n8 c8.val, List.cons_append, List.nil_append,
      List.append_assoc]
  have l1 : (natBits 7 b4.val ++ natBits 8 c5.val ++ [c6.val / 128 % 2]).length = 16 := by
    simp only [List.length_append, natBits_length, List.length_cons, List.length_nil]
  have l2 : (natBits 7 c6.val ++ natBits 8 c7.val ++ [c8.val / 128 % 2]).length = 16 := by
    simp only [List.length_append, natBits_length, List.length_cons, List.length_nil]
  rw [e, List.take_left' l1, List.drop_left' l1, List.take_left' l2]
  simp only [bitsVal_append, bitsVal_natBits, bitsVal_singleton, Nat.reducePow, Nat.zero_mul,
    Nat.zero_add]
  have h5 := c5.isLt
  have h6 := c6.isLt
  have h7 := c7.isLt
  have h8 := c8.isLt
  constructor <;> omega

/-- C27: the H.263 probe written with shifts agrees with the probe that reads the same
bytes through the bit cursor (30 bits skipped, a 3-bit selector, then two 8-bit fields
for selector 0, two 16-bit fields for selector 1, fixed sizes for the selectors 2 to 6):
whenever the cursor probe returns a result on the bytes `body` behind the codec byte,
the shifts return the same result, whatever surrounds `body` in memory; the cursor
probe returns dimensions on every body of nine bytes or more, and on five bytes or
more it reads as selector the number in the bits 30 to 32 of `body`. -/
theorem h263_probe_is_cursor (pre body post : List Byte) :
    (∀ r, probeH263_cursor body = .ok r →
      probeH263 (pre ++ body ++ post) pre.length = .ok r) ∧
    (9 ≤ body.length → ∃ w h, probeH263_cursor body = .ok (.params w h)) ∧
    (5 ≤ body.length → ∃ bs : bitstream,
      bs.pending = (bytesBits body).drop 33 ∧
      probeH263_cursor body =
        probeH263_fields (bitsVal 0 (((bytesBits body).drop 30).take 3)) bs) := by
  refine ⟨?_, ?_, ?_⟩
  · intro r hr
    obtain ⟨b0, b1, b2, b3, b4, rest, bs2, rfl, hp, hok, hf⟩ := h263_cursor_ok body r hr
    generalize hsel : ((b3.val &&& 0x03) <<< 1) + ((b4.val &&& 0x80) >>> 7) = sel at hf
    by_cases h0 : sel = 0
    · subst h0
      rw [probeH263_fields_zero] at hf
      obtain ⟨k1, k2⟩ := twoFields_ok 8 bs2 r hok (by decide) hf
      rw [hp, List.length_append, natBits_length, bytesBits_length] at k1
      obtain ⟨c5, c6, rest2, rfl⟩ := length_ge_two rest (by omega)
      rw [hp, (h263_bits8 b4 c5 c6 rest2).1, (h263_bits8 b4 c5 c6 rest2).2] at k2
      rw [k2]
      exact probeH263_bytes8 pre post b0 b1 b2 b3 b4 c5 c6 rest2 hsel
    · by_cases h1 : sel = 1
      · subst h1
        rw [probeH263_fields_one] at hf
        obtain ⟨k1, k2⟩ := twoFields_ok 16 bs2 r hok (by decide) hf
        rw [hp, List.length_append, natBits_length, bytesBits_length] at k1
        obtain ⟨c5, c6, c7, c8, rest2, rfl⟩ := length_ge_four rest (by omega)
        rw [hp, (h263_bits16 b4 c5 c6 c7 c8 rest2).1, (h263_bits16 b4 c5 c6 c7 c8 rest2).2] at k2
        rw [k2]
        exact probeH263_bytes16 pre post b0 b1 b2 b3 b4 c5 c6 c7 c8 rest2 hsel
      · rw [probeH263_table pre post b0 b1 b2 b3 b4 rest sel hsel h0 h1, ← hf]
        unfold probeH263_fields
        rw [if_neg h0, if_neg h1]
  · intro h9
    obtain ⟨b0, b1, b2, b3, b4, rest, rfl⟩ := length_ge_five body (by omega)
    obtain ⟨bs2, hp, hok, hc⟩ := h263_cursor_selector b0 b1 b2 b3 b4 rest
    have hlen : 4 ≤ rest.length := by
      simp only [List.length_cons] at h9
      omega
    have hpl : 32 ≤ bs2.pending.length := by
      rw [hp, List.length_append, natBits_length, bytesBits_length]
      omega
    rw [hc]
    generalize ((b3.val &&& 0x03) <<< 1) + ((b4.val &&& 0x80) >>> 7) = sel
    by_cases h0 : sel = 0
    · subst h0
      rw [probeH263_fields_zero, twoFields_take 8 bs2 hok (by decide) (by omega)]
      exact ⟨_, _, rfl⟩
    · by_cases h1 : sel = 1
      · subst h1
        rw [probeH263_fields_one, twoFields_take 16 bs2 hok (by decide) (by omega)]
        exact ⟨_, _, rfl⟩
      · unfold probeH263_fields
        rw [if_neg h0, if_neg h1]
        repeat' split
        all_goals exact ⟨_, _, rfl⟩
  · intro h5
    obtain ⟨b0, b1, b2, b3, b4, rest, rfl⟩ := length_ge_five body h5
    obtain ⟨bs2, hp, _, hc⟩ := h263_cursor_selector b0 b1 b2 b3 b4 rest
    refine ⟨bs2, ?_, ?_⟩
    · rw [hp]
      simp only [bytesBits, natBits, List.cons_append, List.nil_append, List.drop_succ_cons,
        List.drop_zero]
    · rw [hc, h263_selector b0 b1 b2 b3 b4 rest]

theorem h263_probe_is_cursor_witness :
    probeH263_cursor [0x00, 0x00, 0x84, 0x00, 0x80, 0xA0, 0x00, 0x78, 0x00] =
        .ok (.params 320 240) ∧
      probeH263 ([0x22] ++ [0x00, 0x00, 0x84, 0x00, 0x80, 0xA0, 0x00, 0x78, 0x00] ++ [0xFF]) 1 =
        .ok (.params 320 240) :=
  ⟨by decide!, (h263_probe_is_cursor [0x22] [0x00, 0x00, 0x84, 0x00, 0x80, 0xA0, 0x00, 0x78, 0x00]
    [0xFF]).1 _ (by decide!)⟩

/-! ## C21: the dimensions of a sequence parameter set -/

theorem probeSPS_eq_blocks (avc_buffer : serialized_buffer) :
    probeSPS avc_buffer = probeSPS_blocks avc_buffer := by
  rfl

theorem log2F_spec (fuel : Nat) :
    ∀ n, n ≤ fuel → n ≠ 0 → 2 ^ F64.log2F fuel n ≤ n ∧ n < 2 ^ (F64.log2F fuel n + 1) := by
  induction fuel with
  | zero => intro n h h0; omega
  | succ fuel ih =>
    intro n h h0
    unfold F64.log2F
    by_cases h2 : n < 2
    · rw [if_pos h2]
      simp only [pow_zero, Nat.zero_add, pow_one]
      omega
    · rw [if_neg h2]
      obtain ⟨k1, k2⟩ := ih (n / 2) (by omega) (by omega)
      rw [pow_succ, pow_succ]
      rw [pow_succ] at k2
      omega

theorem log2_spec (n : Nat) (h : n ≠ 0) : 2 ^ F64.log2 n ≤ n ∧ n < 2 ^ (F64.log2 n + 1) :=
  log2F_spec n n (Nat.le_refl n) h

/-- The method `get_golomb_ue` reads the code word ue(v) of `u`. -/
theorem get_golomb_ue_ue (u : Nat) (bs : bitstream) (rest : List Nat) (hok : bs.InMemory)
    (hu : SPS.ueRange u) (hp : bs.pending = ue u ++ rest) :
    ∃ bs1, bs.get_golomb_ue = .ok (u, bs1) ∧ bs1.pending = rest ∧ bs1.InMemory := by
  obtain ⟨h1, h2⟩ := log2_spec (u + 1) (by omega)
  exact get_golomb_ue_code (F64.log2 (u + 1)) u bs rest hok h1 h2
    (leading_zeros_le _ u h1 hu) hp

/-- The method `get_golomb_se` reads over the code word se(v) of `k`. -/
theorem get_golomb_se_se (k : Int) (bs : bitstream) (rest : List Nat) (hok : bs.InMemory)
    (hk : SPS.ueRange (seIndex k)) (hp : bs.pending = se k ++ rest) :
    ∃ v bs1, bs.get_golomb_se = .ok (v, bs1) ∧ bs1.pending = rest ∧ bs1.InMemory := by
  obtain ⟨bs1, h1, h2, h3⟩ := get_golomb_ue_ue (seIndex k) bs rest hok hk hp
  exact ⟨_, bs1, get_golomb_se_of_ue bs bs1 _ h1, h2, h3⟩

theorem skip_golomb_se_list (ks : List Int) :
    ∀ (bs : bitstream) (rest : List Nat), bs.InMemory → (∀ k ∈ ks, SPS.ueRange (seIndex k)) →
      bs.pending = seList ks ++ rest →
      ∃ bs1, bs.skip_golomb_se ks.length = .ok bs1 ∧ bs1.pending = rest ∧ bs1.InMemory := by
  induction ks with
  | nil =>
    intro bs rest hok _ hp
    exact ⟨bs, rfl, by simpa [seList] using hp, hok⟩
  | cons k ks ih =>
    intro bs rest hok hk hp
    simp only [seList, List.append_assoc] at hp
    obtain ⟨v, bs1, h1, h2, h3⟩ := get_golomb_se_se k bs _ hok (hk k (List.mem_cons_self _ _)) hp
    obtain ⟨bs2, g1, g2, g3⟩ := ih bs1 rest h3 (fun x hx => hk x (List.mem_cons_of_mem _ hx)) h2
    refine ⟨bs2, ?_, g2, g3⟩
    rw [List.length_cons, bitstream.skip_golomb_se, h1]
    exact g1

/-- The method `get_bits` reads a field of `n` bits. -/
theorem get_bits_natBits (n x : Nat) (bs : bitstream) (rest : List Nat) (hok : bs.InMemory)
    (h32 : n ≤ 32) (hp : bs.pending = natBits n x ++ rest) :
    ∃ bs1, bs.get_bits n = .ok (x % 2 ^ n, bs1) ∧ bs1.pending = rest ∧ bs1.InMemory := by
  have hpow : (0 + 1) * 2 ^ n ≤ 2 ^ 32 := by
    rw [Nat.zero_add, Nat.one_mul]
    exact Nat.pow_le_pow_right (by decide) h32
  obtain ⟨bs1, h1, h2, h3⟩ := get_bits_loop_natBits n x 0 bs rest hok hp hpow
  refine ⟨bs1, ?_, h2, h3⟩
  have hm : n % 256 = n := Nat.mod_eq_of_lt (by omega)
  rw [bitstream.get_bits, hm, if_pos h32, h1, Nat.zero_mul, Nat.zero_add]

/-- The method `get_bit` reads a flag. -/
theorem get_bit_flag (b : Bool) (bs : bitstream) (rest : List Nat) (hok : bs.InMemory)
    (hp : bs.pending = flagBit b :: rest) :
    ∃ bs1, bs.get_bit = .ok (flagBit b, bs1) ∧ bs1.pending = rest ∧ bs1.InMemory := by
  obtain ⟨bs1, h1, h2, h3, _⟩ := get_bit_pending bs hok _ _ hp
  exact ⟨bs1, h1, h2, h3⟩

theorem flagBit_lt (b : Bool) : flagBit b < 2 := by
  cases b <;> decide

/-- One call of `get_bits(1)` reads a bit. -/
theorem get_bits_one (b : Nat) (hb : b < 2) (bs : bitstream) (rest : List Nat)
    (hok : bs.InMemory) (hp : bs.pending = b :: rest) :
    ∃ bs1, bs.get_bits 1 = .ok (b, bs1) ∧ bs1.pending = rest ∧ bs1.InMemory := by
  obtain ⟨bs1, h1, h2, h3⟩ := get_bits_list 1 [b] rest bs hok hp
    (fun x hx => by rw [List.mem_singleton.mp hx]; exact hb) rfl (by decide)
  refine ⟨bs1, ?_, h2, h3⟩
  rw [h1]
  simp [bitsVal]

/-- The chroma format block reads over the chroma format fields and does not leave
through `break`. -/
theorem spsHigh_bits (s : SPS) (bs : bitstream) (rest : List Nat) (hok : bs.InMemory)
    (hr : highProfile s.profile_idc.val → SPS.ueRange s.chroma_format_idc ∧
      SPS.ueRange s.bit_depth_luma_minus8 ∧ SPS.ueRange s.bit_depth_chroma_minus8)
    (hp : bs.pending = s.highBits ++ rest) :
    ∃ bs1, spsHigh (s.profile_idc.val % 2 ^ 8 % 256) bs = .ok (false, bs1) ∧
      bs1.pending = rest ∧ bs1.InMemory := by
  have hm : s.profile_idc.val % 2 ^ 8 % 256 = s.profile_idc.val := by
    have := s.profile_idc.isLt
    omega
  rw [hm]
  unfold spsHigh
  unfold SPS.highBits at hp
  by_cases hprof : highProfile s.profile_idc.val
  · obtain ⟨r1, r2, r3⟩ := hr hprof
    rw [if_pos hprof] at hp
    unfold highProfile at hprof
    rw [if_pos hprof]
    simp only [List.append_assoc, List.cons_append, List.nil_append] at hp
    obtain ⟨bs1, a1, a2, a3⟩ := get_golomb_ue_ue _ bs _ hok r1 hp
    have hflag : ∃ bs2, (if s.chroma_format_idc = 3 then do
          let (_, avc) ← bs1.get_bit
          pure avc
        else pure bs1 : Except Fault bitstream) = .ok bs2 ∧
        bs2.pending = ue s.bit_depth_luma_minus8 ++ (ue s.bit_depth_chroma_minus8 ++
          (flagBit s.qpprime_y_zero_transform_bypass_flag :: 0 :: rest)) ∧ bs2.InMemory := by
      by_cases h3 : s.chroma_format_idc = 3
      · rw [if_pos h3] at a2
        simp only [List.cons_append, List.nil_append] at a2
        obtain ⟨bs2, b1, b2, b3⟩ := get_bit_flag _ bs1 _ a3 a2
        refine ⟨bs2, ?_, b2, b3⟩
        rw [if_pos h3, b1]
        rfl
      · rw [if_neg h3] at a2
        simp only [List.nil_append] at a2
        exact ⟨bs1, by rw [if_neg h3]; rfl, a2, a3⟩
    obtain ⟨bs2, b1, b2, b3⟩ := hflag
    obtain ⟨bs3, c1, c2, c3⟩ := get_golomb_ue_ue _ bs2 _ b3 r2 b2
    obtain ⟨bs4, d1, d2, d3⟩ := get_golomb_ue_ue _ bs3 _ c3 r3 c2
    obtain ⟨bs5, e1, e2, e3⟩ := get_bits_one _ (flagBit_lt _) bs4 _ d3 d2
    obtain ⟨bs6, f1, f2, f3⟩ := get_bits_one 0 (by decide) bs5 _ e3 e2
    refine ⟨bs6, ?_, f2, f3⟩
    simp only [bind, Except.bind, pure, Except.pure] at b1
    simp only [a1, bind, Except.bind, b1, c1, d1, e1, f1, pure, Except.pure, ne_eq,
      not_true_eq_false, decide_False]
  · rw [if_neg hprof] at hp
    unfold highProfile at hprof
    rw [if_neg hprof]
    exact ⟨bs, rfl, by simpa using hp, hok⟩

/-- The cursor reads `pic_order_cnt_type` and over the fields that depend on it. -/
theorem spsPicOrder_bits (s : SPS) (bs : bitstream) (rest : List Nat) (hok : bs.InMemory)
    (hr : match s.pic_order_cnt with
      | .type0 lsb => SPS.ueRange lsb
      | .type1 _ nonref topbottom offsets =>
        SPS.ueRange (seIndex nonref) ∧ SPS.ueRange (seIndex topbottom) ∧
          SPS.ueRange offsets.length ∧ ∀ k ∈ offsets, SPS.ueRange (seIndex k)
      | .type2 => True)
    (hp : bs.pending = s.picOrderBits ++ rest) :
    ∃ ty bs1 bs2, bs.get_golomb_ue = .ok (ty, bs1) ∧ spsPicOrder ty bs1 = .ok bs2 ∧
      bs2.pending = rest ∧ bs2.InMemory := by
  unfold SPS.picOrderBits at hp
  cases hpo : s.pic_order_cnt with
  | type0 lsb =>
    rw [hpo] at hp hr
    simp only [List.append_assoc] at hp
    obtain ⟨bs1, a1, a2, a3⟩ := get_golomb_ue_ue 0 bs _ hok (by decide) hp
    obtain ⟨bs2, b1, b2, b3⟩ := get_golomb_ue_ue lsb bs1 _ a3 hr a2
    refine ⟨0, bs1, bs2, a1, ?_, b2, b3⟩
    unfold spsPicOrder
    simp only [if_true, b1, bind, Except.bind, pure, Except.pure]
  | type1 flag nonref topbottom offsets =>
    rw [hpo] at hp hr
    obtain ⟨r1, r2, r3, r4⟩ := hr
    simp only [List.append_assoc, List.cons_append] at hp
    obtain ⟨bs1, a1, a2, a3⟩ := get_golomb_ue_ue 1 bs _ hok (by decide) hp
    obtain ⟨bs2, b1, b2, b3⟩ := get_bit_flag _ bs1 _ a3 a2
    obtain ⟨v1, bs3, c1, c2, c3⟩ := get_golomb_se_se _ bs2 _ b3 r1 b2
    obtain ⟨v2, bs4, d1, d2, d3⟩ := get_golomb_se_se _ bs3 _ c3 r2 c2
    obtain ⟨bs5, e1, e2, e3⟩ := get_golomb_ue_ue _ bs4 _ d3 r3 d2
    obtain ⟨bs6, f1, f2, f3⟩ := skip_golomb_se_list offsets bs5 rest e3 r4 e2
    refine ⟨1, bs1, bs6, a1, ?_, f2, f3⟩
    unfold spsPicOrder
    simp only [one_ne_zero, if_false, if_true, b1, c1, d1, e1, f1, bind, Except.bind]
  | type2 =>
    rw [hpo] at hp
    simp only [] at hp
    obtain ⟨bs1, a1, a2, a3⟩ := get_golomb_ue_ue 2 bs _ hok (by decide) hp
    refine ⟨2, bs1, bs1, a1, ?_, a2, a3⟩
    unfold spsPicOrder
    simp only [OfNat.ofNat_ne_zero, OfNat.ofNat_ne_one, if_false]
    rfl

/-- The cursor reads over `mb_adaptive_frame_field_flag` when it is on the wire. -/
theorem spsMbaff_bits (s : SPS) (bs : bitstream) (rest : List Nat) (hok : bs.InMemory)
    (hp : bs.pending =
      (if s.frame_mbs_only_flag then [] else [flagBit s.mb_adaptive_frame_field_flag]) ++ rest) :
    ∃ bs1, spsMbaff (flagBit s.frame_mbs_only_flag) bs = .ok bs1 ∧ bs1.pending = rest ∧
      bs1.InMemory := by
  unfold spsMbaff
  cases hf : s.frame_mbs_only_flag with
  | true =>
    rw [hf] at hp
    simp only [if_true, List.nil_append] at hp
    exact ⟨bs, by simp [flagBit, pure, Except.pure], hp, hok⟩
  | false =>
    rw [hf] at hp
    simp only [Bool.false_eq_true, if_false, List.cons_append, List.nil_append] at hp
    obtain ⟨bs1, a1, a2, a3⟩ := get_bit_flag _ bs _ hok hp
    refine ⟨bs1, ?_, a2, a3⟩
    simp [flagBit, a1, bind, Except.bind, pure, Except.pure]

/-- The cursor reads `frame_cropping_flag` and the offsets behind it. -/
theorem spsCrop_bits (s : SPS) (bs : bitstream) (hok : bs.InMemory)
    (hr : SPS.ueRange s.crop.left ∧ SPS.ueRange s.crop.right ∧ SPS.ueRange s.crop.top ∧
      SPS.ueRange s.crop.bottom)
    (rest : List Nat) (hp : bs.pending = s.cropBits ++ rest) :
    ∃ fc bs1, bs.get_bit = .ok (fc, bs1) ∧
      spsCrop fc (flagBit s.frame_mbs_only_flag) bs1 =
        .ok ((s.crop.left * 2) % 2 ^ 32, (s.crop.right * 2) % 2 ^ 32,
          (if s.frame_mbs_only_flag then (s.crop.top * 2) % 2 ^ 32
            else ((s.crop.top * 2) % 2 ^ 32 * 2) % 2 ^ 32),
          (if s.frame_mbs_only_flag then (s.crop.bottom * 2) % 2 ^ 32
            else ((s.crop.bottom * 2) % 2 ^ 32 * 2) % 2 ^ 32)) := by
  unfold SPS.cropBits at hp
  unfold SPS.crop at hr ⊢
  cases hc : s.frame_cropping with
  | none =>
    rw [hc] at hp
    simp only [List.cons_append, List.nil_append] at hp
    obtain ⟨bs1, a1, a2, a3, _⟩ := get_bit_pending bs hok _ _ hp
    refine ⟨0, bs1, a1, ?_⟩
    unfold spsCrop
    cases s.frame_mbs_only_flag <;> rfl
  | some c =>
    rw [hc] at hp hr
    simp only [Option.getD_some] at hr ⊢
    obtain ⟨r1, r2, r3, r4⟩ := hr
    simp only [List.cons_append, List.append_assoc] at hp
    obtain ⟨bs1, a1, a2, a3, _⟩ := get_bit_pending bs hok _ _ hp
    obtain ⟨bs2, b1, b2, b3⟩ := get_golomb_ue_ue _ bs1 _ a3 r1 a2
    obtain ⟨bs3, c1, c2, c3⟩ := get_golomb_ue_ue _ bs2 _ b3 r2 b2
    obtain ⟨bs4, d1, d2, d3⟩ := get_golomb_ue_ue _ bs3 _ c3 r3 c2
    obtain ⟨bs5, e1, e2, e3⟩ := get_golomb_ue_ue _ bs4 _ d3 r4 d2
    refine ⟨1, bs1, a1, ?_⟩
    unfold spsCrop
    simp only [one_ne_zero, ne_eq, not_false_eq_true, if_true, b1, c1, d1, e1, bind, Except.bind,
      pure, Except.pure]
    cases s.frame_mbs_only_flag <;> simp [flagBit]

theorem toInt32_emod (x : Nat) : toInt32 x % 2 ^ 32 = ((x % 2 ^ 32 : Nat) : Int) := by
  unfold toInt32
  split <;> omega

theorem toInt32_eq_wrap (x : Nat) (y : Int) (h : ((x : Nat) : Int) % 2 ^ 32 = y % 2 ^ 32) :
    toInt32 x = wrapInt32 y := by
  have e : (y % 2 ^ 32).toNat % 2 ^ 32 = x % 2 ^ 32 := by omega
  unfold wrapInt32 toInt32
  rw [e]

theorem wrapInt32_congr (a b : Int) (h : a % 2 ^ 32 = b % 2 ^ 32) :
    wrapInt32 a = wrapInt32 b := by
  unfold wrapInt32
  rw [h]

/-- An `int` expression whose value fits in 32 bits has that value. -/
theorem wrapInt32_of_fits (x : Int) (h1 : -2 ^ 31 ≤ x) (h2 : x < 2 ^ 31) : wrapInt32 x = x := by
  unfold wrapInt32 toInt32
  split <;> omega

/-- The assignments to `w` and `h` compute the dimensions in 32-bit arithmetic. -/
theorem spsDims_eq (s : SPS) :
    spsDims s.pic_width_in_mbs_minus1 s.pic_height_in_map_units_minus1
        (flagBit s.frame_mbs_only_flag)
        ((s.crop.left * 2) % 2 ^ 32, (s.crop.right * 2) % 2 ^ 32,
          (if s.frame_mbs_only_flag then (s.crop.top * 2) % 2 ^ 32
            else ((s.crop.top * 2) % 2 ^ 32 * 2) % 2 ^ 32),
          (if s.frame_mbs_only_flag then (s.crop.bottom * 2) % 2 ^ 32
            else ((s.crop.bottom * 2) % 2 ^ 32 * 2) % 2 ^ 32)) =
      .params (wrapInt32 s.width) (wrapInt32 s.height) := by
  unfold spsDims SPS.width SPS.height
  generalize s.crop.left = l
  generalize s.crop.right = r
  generalize s.crop.top = t
  generalize s.crop.bottom = b
  generalize s.pic_width_in_mbs_minus1 = pw
  generalize s.pic_height_in_map_units_minus1 = ph
  have hw : toInt32 (((pw + 1) % 2 ^ 32 * 16 +
      (2 ^ 32 - (l * 2 % 2 ^ 32 + r * 2 % 2 ^ 32) % 2 ^ 32)) % 2 ^ 32) =
      wrapInt32 (16 * ((pw : Int) + 1) - 2 * ((l : Int) + r)) :=
    toInt32_eq_wrap _ _ (by omega)
  cases s.frame_mbs_only_flag with
  | true =>
    have hh : toInt32 (((ph + 1) % 2 ^ 32 * 16 +
        (2 ^ 32 - (t * 2 % 2 ^ 32 + b * 2 % 2 ^ 32) % 2 ^ 32)) % 2 ^ 32) =
        wrapInt32 (16 * ((ph : Int) + 1) - 2 * ((t : Int) + b)) :=
      toInt32_eq_wrap _ _ (by omega)
    simp only [flagBit, if_true, one_ne_zero, ne_eq, not_false_eq_true, not_true_eq_false,
      if_false, hw, hh]
  | false =>
    have hh : wrapInt32 (toInt32 (((ph + 1) % 2 ^ 32 * 16 +
        (2 ^ 32 - (t * 2 % 2 ^ 32 * 2 % 2 ^ 32 + b * 2 % 2 ^ 32 * 2 % 2 ^ 32) % 2 ^ 32)) %
          2 ^ 32) * 2) =
        wrapInt32 (2 * (16 * ((ph : Int) + 1) - 2 * (2 * (t : Int) + 2 * b))) := by
      apply wrapInt32_congr
      have e := toInt32_emod (((ph + 1) % 2 ^ 32 * 16 +
        (2 ^ 32 - (t * 2 % 2 ^ 32 * 2 % 2 ^ 32 + b * 2 % 2 ^ 32 * 2 % 2 ^ 32) % 2 ^ 32)) % 2 ^ 32)
      generalize toInt32 (((ph + 1) % 2 ^ 32 * 16 +
        (2 ^ 32 - (t * 2 % 2 ^ 32 * 2 % 2 ^ 32 + b * 2 % 2 ^ 32 * 2 % 2 ^ 32) % 2 ^ 32)) %
          2 ^ 32) = h0 at e
      omega
    unfold wrapInt32 at hh
    simp only [flagBit, Bool.false_eq_true, if_false, ne_eq, not_true_eq_false,
      not_false_eq_true, if_true, hw, hh]
    rfl

/-- The parse of a NAL unit whose bits are those of a sequence parameter set. -/
theorem probeSPS_bits (s : SPS) (p : List Byte) (len : Nat) (rest : List Nat)
    (hmem : len ≤ p.length) (hr : s.InRange)
    (hbits : bytesBits (p.take len) = s.bits ++ rest) :
    probeSPS ⟨p, len⟩ = .ok (.params (wrapInt32 s.width) (wrapInt32 s.height)) := by
  obtain ⟨r1, r2, r3, r4, r5, r6, r7, r8⟩ := hr
  have hok : (bitstream.init ⟨p, len⟩).InMemory := hmem
  have hp : (bitstream.init ⟨p, len⟩).pending = s.bits ++ rest := by
    rw [← hbits]
    simp [bitstream.init, bitstream.pending, natBits]
  unfold SPS.bits at hp
  simp only [List.append_assoc, List.cons_append] at hp
  obtain ⟨a1, ha, pa, za, _⟩ := get_bit_pending _ hok _ _ hp
  obtain ⟨a2, hb, pb, zb⟩ := get_bits_natBits 2 _ a1 _ za (by decide) pa
  obtain ⟨a3, hc, pc, zc⟩ := get_bits_natBits 5 _ a2 _ zb (by decide) pb
  obtain ⟨a4, hd, pd, zd⟩ := get_bits_natBits 8 _ a3 _ zc (by decide) pc
  obtain ⟨a5, he, pe, ze⟩ := get_bits_natBits 8 _ a4 _ zd (by decide) pd
  obtain ⟨a6, hf, pf, zf⟩ := get_bits_natBits 8 _ a5 _ ze (by decide) pe
  obtain ⟨a7, hg, pg, zg⟩ := get_golomb_ue_ue _ a6 _ zf r1 pf
  obtain ⟨a8, hh, ph, zh⟩ := spsHigh_bits s a7 _ zg r2 pg
  obtain ⟨a9, hi, pi, zi⟩ := get_golomb_ue_ue _ a8 _ zh r3 ph
  obtain ⟨ty, a10, a11, hj, hk, pk, zk⟩ := spsPicOrder_bits s a9 _ zi r4 pi
  obtain ⟨a12, hl, pl, zl⟩ := get_golomb_ue_ue _ a11 _ zk r5 pk
  obtain ⟨a13, hm, pm, zm⟩ := get_bit_flag _ a12 _ zl pl
  obtain ⟨a14, hn, pn, zn⟩ := get_golomb_ue_ue _ a13 _ zm r6 pm
  obtain ⟨a15, ho, po, zo⟩ := get_golomb_ue_ue _ a14 _ zn r7 pn
  obtain ⟨a16, hq, pq, zq⟩ := get_bit_flag _ a15 _ zo po
  obtain ⟨a17, hs, ps, zs⟩ := spsMbaff_bits s a16 _ zq pq
  obtain ⟨a18, ht, pt, zt⟩ := get_bit_flag _ a17 _ zs ps
  obtain ⟨fc, a19, hu, hv⟩ := spsCrop_bits s a18 zt r8 rest pt
  have hdims := spsDims_eq s
  simp only [Nat.reducePow] at hh hdims
  rw [probeSPS_eq_blocks]
  unfold probeSPS_blocks
  simp only [ha, bind, Except.bind, pure, Except.pure, ne_eq, not_true_eq_false, if_false, hb, hc,
    Nat.reducePow, Nat.reduceMod, hd, he, hf, hg, hh, Bool.false_eq_true, hi, hj, hk, hl, hm, hn,
    ho, hq, hs, ht, hu, hv, hdims]

theorem candidate_of_u32 (x : Nat) (h : x < 2 ^ 32) :
    candidate (byte ((x >>> 16) &&& 0xff)) (byte ((x >>> 8) &&& 0xff)) (byte (x &&& 0xff))
      (byte ((x >>> 24) &&& 0xff)) = x := by
  have hm : ∀ y : Nat, y &&& 0xff = y % 256 := fun y => Nat.and_pow_two_sub_one_eq_mod y 8
  rw [candidate_eq]
  simp only [byte, hm, Nat.shiftRight_eq_div_pow, Nat.mod_mod, Nat.reducePow]
  omega

theorem candidate_lt (b0 b1 b2 b3 : Byte) : candidate b0 b1 b2 b3 < 2 ^ 32 := by
  rw [candidate_eq]
  have h0 := b0.isLt
  have h1 := b1.isLt
  have h2 := b2.isLt
  have h3 := b3.isLt
  omega

theorem repaired_lt (c l : Nat) : repaired c l < 2 ^ 32 := by
  unfold repaired
  simp only []
  split
  · exact Nat.mod_lt _ (by decide)
  · exact Nat.mod_lt _ (by decide)

/-- The header bytes of a tag as `process_timestamp` reads them. -/
theorem process_timestamp_bytes (tag_type b0 b1 b2 b3 : Byte) (st : TsState) :
    process_timestamp tag_type [b0, b1, b2, b3] 0 st =
      if RepairCondition (candidate b0 b1 b2 b3) st.last_timestamp then
        (if st.last_timestamp ≤ repaired (candidate b0 b1 b2 b3) st.last_timestamp then
          .ok (repaired (candidate b0 b1 b2 b3) st.last_timestamp, 4,
            ⟨if tag_type = 9 then
                max (repaired (candidate b0 b1 b2 b3) st.last_timestamp) st.last_timestamp
              else st.last_timestamp, true⟩)
         else .error .assert_fail)
      else
        .ok (candidate b0 b1 b2 b3, 4,
          ⟨if tag_type = 9 then max (candidate b0 b1 b2 b3) st.last_timestamp
            else st.last_timestamp,
           if candidate b0 b1 b2 b3 < st.last_timestamp then
             (st.timestamp_warning_given || decide (tag_type = 9 ∨ tag_type = 18))
           else st.timestamp_warning_given⟩) :=
  process_timestamp_eq tag_type [] [] b0 b1 b2 b3 st

/-- A timestamp that `process_timestamp` has reconstructed is returned as it is when it
is read again against the same `last_timestamp`, and leaves the same `last_timestamp`. -/
theorem reprocess_step (tag_type b0 b1 b2 b3 : Byte) (st st2 : TsState) (ts q : Nat)
    (st1 : TsState)
    (h : process_timestamp tag_type [b0, b1, b2, b3] 0 st = .ok (ts, q, st1))
    (hl : st2.last_timestamp = st.last_timestamp) :
    (tag_type ≠ 9 → st1.last_timestamp = st.last_timestamp) ∧
    ∃ w, process_timestamp tag_type
      [byte ((ts >>> 16) &&& 0xff), byte ((ts >>> 8) &&& 0xff), byte (ts &&& 0xff),
        byte ((ts >>> 24) &&& 0xff)] 0 st2 = .ok (ts, 4, ⟨st1.last_timestamp, w⟩) := by
  rw [process_timestamp_bytes] at h
  have hc := candidate_lt b0 b1 b2 b3
  generalize candidate b0 b1 b2 b3 = c at h hc
  by_cases hr : RepairCondition c st.last_timestamp
  · rw [if_pos hr] at h
    by_cases ha : st.last_timestamp ≤ repaired c st.last_timestamp
    · rw [if_pos ha] at h
      cases h
      refine ⟨fun h9 => by simp only [if_neg h9], ?_⟩
      rw [process_timestamp_bytes, candidate_of_u32 _ (repaired_lt c _), hl]
      have hn : ¬ RepairCondition (repaired c st.last_timestamp) st.last_timestamp := by
        unfold RepairCondition
        omega
      rw [if_neg hn]
      exact ⟨_, rfl⟩
    · rw [if_neg ha] at h
      cases h
  · rw [if_neg hr] at h
    cases h
    refine ⟨fun h9 => by simp only [if_neg h9], ?_⟩
    rw [process_timestamp_bytes, candidate_of_u32 _ hc, hl, if_neg hr]
    exact ⟨_, rfl⟩

theorem outTags_cons (nmp : Bool) (t : Tag) (ts : Nat) (l : List (Tag × Nat)) :
    outTags nmp ((t, ts) :: l) =
      (if t.copied nmp then [t.withTimestamp ts] else []) ++ outTags nmp l := by
  unfold outTags
  rw [List.filter_cons]
  split <;> rfl

/-- The tag stream of the output is the encoding of the copied tags. -/
theorem copiedBytes_eq_encodeTags (nmp : Bool) (l : List (Tag × Nat)) :
    copiedBytes nmp l = encodeTags (outTags nmp l) := by
  induction l with
  | nil => rfl
  | cons p l ih =>
    obtain ⟨t, ts⟩ := p
    rw [copiedBytes, outTags_cons, ih]
    split
    · rw [Tag.rewritten_eq]
      rfl
    · rfl

theorem Tag.withTimestamp_wf (t : Tag) (ts : Nat) (h : t.Wf) : (t.withTimestamp ts).Wf := h

theorem outTags_wf (nmp : Bool) (l : List (Tag × Nat)) (h : ∀ p ∈ l, p.1.Wf) :
    ∀ t ∈ outTags nmp l, t.Wf := by
  intro t ht
  unfold outTags at ht
  obtain ⟨p, hp, rfl⟩ := List.mem_map.mp ht
  exact Tag.withTimestamp_wf _ _ (h p (List.mem_of_mem_filter hp))

/-- A tag that is not copied adds nothing to the counters, and a copy counts as its
original. -/
theorem countTag_copied (nmp : Bool) (c : Counts) (t : Tag) (ts : Nat) :
    countTag c (t.withTimestamp ts) = countTag c t ∧
      (t.copied nmp = false → countTag c t = c) := by
  refine ⟨rfl, ?_⟩
  intro h
  unfold Tag.copied at h
  simp only [decide_eq_false_iff_not, not_or] at h
  obtain ⟨h8, h9, _⟩ := h
  unfold countTag
  rw [if_neg h9]
  have ha : t.isAudio = false := by
    unfold Tag.isAudio
    simpa using h8
  rw [ha]
  rfl

theorem foldl_countTag_outTags (nmp : Bool) (l : List (Tag × Nat)) :
    ∀ c, (outTags nmp l).foldl countTag c = (l.map Prod.fst).foldl countTag c := by
  induction l with
  | nil => intro c; rfl
  | cons p l ih =>
    intro c
    obtain ⟨t, ts⟩ := p
    rw [outTags_cons, List.foldl_append, List.map_cons, List.foldl_cons]
    cases hc : t.copied nmp with
    | true =>
      simp only [if_true, List.foldl_cons, List.foldl_nil]
      rw [(countTag_copied nmp c t ts).1]
      exact ih _
    | false =>
      simp only [Bool.false_eq_true, if_false, List.foldl_nil]
      rw [(countTag_copied nmp c t ts).2 hc]
      exact ih _

/-- Read again from the output, the timestamps leave the `last_timestamp` they left in
the input. -/
theorem reprocess_final (nmp : Bool) (tags : List Tag) :
    ∀ (st st2 : TsState) (tss : List Nat) (stF : TsState),
      st2.last_timestamp = st.last_timestamp → tagTimestamps tags st = .ok tss →
      finalTs tags st = .ok stF →
      ∃ w, finalTs (outTags nmp (tags.zip tss)) st2 = .ok ⟨stF.last_timestamp, w⟩ := by
  induction tags with
  | nil =>
    intro st st2 tss stF hl _ hf
    cases hf
    exact ⟨st2.timestamp_warning_given, by rw [← hl]; rfl⟩
  | cons t tags ih =>
    intro st st2 tss stF hl ht hf
    unfold tagTimestamps at ht
    cases hp : process_timestamp t.tag_type [t.b0, t.b1, t.b2, t.b3] 0 st with
    | error e => rw [hp] at ht; cases ht
    | ok v =>
      obtain ⟨ts, q, st1⟩ := v
      rw [hp] at ht
      simp only [] at ht
      cases ho : tagTimestamps tags st1 with
      | error e => rw [ho] at ht; cases ht
      | ok out =>
        rw [ho] at ht
        cases ht
        rw [finalTs_of_timestamps t st ts q st1 hp] at hf
        obtain ⟨k1, w, k2⟩ := reprocess_step t.tag_type t.b0 t.b1 t.b2 t.b3 st st2 ts q st1 hp hl
        rw [List.zip_cons_cons, outTags_cons]
        cases hc : t.copied nmp with
        | true =>
          simp only [if_true, List.cons_append, List.nil_append]
          have hstep : finalTs (t.withTimestamp ts :: outTags nmp (tags.zip out)) st2 =
              finalTs (outTags nmp (tags.zip out)) ⟨st1.last_timestamp, w⟩ :=
            finalTs_of_timestamps (t.withTimestamp ts) st2 ts 4 _ k2 _
          rw [hstep]
          exact ih st1 ⟨st1.last_timestamp, w⟩ out stF rfl ho hf
        | false =>
          simp only [Bool.false_eq_true, if_false, List.nil_append]
          have h9 : t.tag_type ≠ 9 := by
            intro h9
            unfold Tag.copied at hc
            simp [h9] at hc
          exact ih st1 st2 out stF (by rw [hl, k1 h9]) ho hf

/-- The output that begins with the preamble is an FLV file whose first tag is the
generated script tag. -/
theorem preamble_flvFile (hasVideo hasAudio : Bool) (dmap : Dmap) (tags : List Tag) :
    preambleBytes hasVideo hasAudio dmap ++ encodeTags tags =
      flvFile (byte ((if hasVideo then 0x04 else 0) ||| (if hasAudio then 0x01 else 0)))
        [0, 0, 0, 0] (metaTag dmap :: tags) := by
  simp only [preambleBytes, flvFile, encodeTags, Tag.encode, metaTag, List.cons_append,
    List.nil_append, List.append_assoc]

theorem metaTag_wf (dmap : Dmap)
    (h : ((AMFData.AMFString (str "onMetaData")).write ++
      (AMFData.AMFMixedArray dmap).write).length < 2 ^ 24) : (metaTag dmap).Wf := by
  refine ⟨?_, ?_, ?_⟩
  · generalize hL : ((AMFData.AMFString (str "onMetaData")).write ++
      (AMFData.AMFMixedArray dmap).write).length = L at h
    have hm : ∀ y : Nat, y &&& 0xff = y % 256 := fun y => Nat.and_pow_two_sub_one_eq_mod y 8
    simp only [metaTag, Tag.tag_length, hL, byte, hm, Nat.shiftRight_eq_div_pow,
      Nat.shiftLeft_eq, Nat.mod_mod, Nat.reducePow]
    omega
  · simp only [metaTag, store_le_length]
  · intro h9
    cases h9

theorem countTag_metaTag (c : Counts) (dmap : Dmap) : countTag c (metaTag dmap) = c := by
  unfold countTag
  rw [if_neg (by simp [metaTag])]
  have ha : (metaTag dmap).isAudio = false := by
    simp [Tag.isAudio, metaTag]
  rw [ha]
  rfl

theorem finalTs_metaTag (dmap : Dmap) (tags : List Tag) :
    finalTs (metaTag dmap :: tags) ⟨0, false⟩ = finalTs tags ⟨0, false⟩ :=
  finalTs_of_timestamps (metaTag dmap) ⟨0, false⟩ 0 4 ⟨0, false⟩
    (by show process_timestamp 18 [0, 0, 0, 0] 0 ⟨0, false⟩ = _; decide) tags

/-- C26: in a run that writes an output file, on an input of completely framed tags on
which pass 1 completes (without `-strip`, no `-tag` named `datasize`), that does not end
in a call of `asString()` without defined behaviour when it prints the final map
(`sprintf` of a Double into `char buf[64]`, `asctime_r` of a Date), and whose generated
script tag has a payload below `2^24` bytes, every pass 1 that completes on the output
file ends with the tuple (hasAudio, hasVideo, total_audio, total_video, vframe_count,
keyframe_count, last_timestamp) of pass 1 on the input.  With `-tag datasize x` it does
not: on the input of one audio tag with a body of two bytes, whose tuple is
(true, false, 2, 0, 0, 0, 0), pass 1 on the output ends with
(false, true, 0, 1, 1, 0, 0). -/
theorem output_reparses (o : Options) (now : Now) (flags : Byte) (p4 : List Byte)
    (tags : List Tag) (hp4 : p4.length = 4) (hwf : ∀ t ∈ tags, t.Wf)
    (hk : (tags.filter Tag.isKeyframe).length < 2 ^ 32)
    (hds : o.strip = false → ∀ e ∈ o.extra_tags, e.1 ≠ str "datasize")
    (hout : o.outFilename.isSome = true)
    (hp1 : (pass1 o.nomerge (flvFile flags p4 tags)).toBool = true)
    (hdump : (run o now (flvFile flags p4 tags)).map (fun _ => ()) ≠
      .error .asString_undefined) :
    (∃ (s : Scan) (r : Outcome) (out : List Byte),
      pass1 o.nomerge (flvFile flags p4 tags) = .ok s ∧
      run o now (flvFile flags p4 tags) = .ok r ∧ r.output = some out ∧
      (((AMFData.AMFString (str "onMetaData")).write ++
          (AMFData.AMFMixedArray r.onMetaData).write).length < 2 ^ 24 →
        ∀ (nomerge2 : Bool) (s2 : Scan), pass1 nomerge2 out = .ok s2 → s2.tuple = s.tuple)) ∧
    (pass1 false (sampleHeader ++ sampleAudioTag)).map Scan.tuple =
      .ok (⟨true, false, 2, 0, 0, 0⟩, 0) ∧
    reparse false (main ["flvtool++", "-tag", "datasize", "x", "in.flv", "out.flv"]
      (oneFile (sampleHeader ++ sampleAudioTag)) sampleNow) =
      .ok (some (⟨false, true, 0, 1, 1, 0⟩, 0)) := by
  refine ⟨?_, by decide!, by decide!⟩
  cases hs : pass1 o.nomerge (flvFile flags p4 tags) with
  | error e => rw [hs] at hp1; cases hp1
  | ok s =>
    obtain ⟨r, tss, h1, h2, h3⟩ := run_flvFile o now flags p4 tags hp4 hwf hk hds hout s hs hdump
    refine ⟨s, r, _, rfl, h1, h3, ?_⟩
    intro hL nomerge2 s2 hs2
    rw [copiedBytes_eq_encodeTags, preamble_flvFile] at hs2
    have hlen := tagTimestamps_length tags _ _ h2
    have hwf2 : ∀ t ∈ metaTag r.onMetaData :: outTags o.nometapackets (tags.zip tss), t.Wf := by
      intro t ht
      rcases List.mem_cons.mp ht with ht | ht
      · rw [ht]
        exact metaTag_wf _ hL
      · exact outTags_wf _ _ (fun p hp => hwf p.1 (List.of_mem_zip hp).1) t ht
    obtain ⟨c2, _, f2⟩ := pass1_counts nomerge2 _ [0, 0, 0, 0] _ s2 rfl hwf2 hs2
    obtain ⟨c1, _, f1⟩ := pass1_counts o.nomerge flags p4 tags s hp4 hwf hs
    obtain ⟨w, f3⟩ := reprocess_final o.nometapackets tags ⟨0, false⟩ ⟨0, false⟩ tss s.ts rfl h2 f1
    rw [finalTs_metaTag, f3] at f2
    have hts : s2.ts.last_timestamp = s.ts.last_timestamp := by
      have e := Except.ok.inj f2
      rw [← e]
    have hc : s2.counts = s.counts := by
      rw [c2, c1]
      unfold countTags
      rw [List.foldl_cons, countTag_metaTag, foldl_countTag_outTags,
        List.map_fst_zip _ _ (by omega)]
    unfold Scan.tuple
    rw [hc, hts]

/-- Witness for C26: the sample file of two keyframes around an audio tag, on whose
output pass 1 completes with the tuple of the input. -/
theorem output_reparses_witness :
    [(0 : Byte), 0, 0, 0].length = 4 ∧ (∀ t ∈ sampleTags, t.Wf) ∧
    (sampleTags.filter Tag.isKeyframe).length < 2 ^ 32 ∧
    (sampleOptions.strip = false → ∀ e ∈ sampleOptions.extra_tags, e.1 ≠ str "datasize") ∧
    sampleOptions.outFilename.isSome = true ∧
    (pass1 sampleOptions.nomerge (flvFile 5 [0, 0, 0, 0] sampleTags)).toBool = true ∧
    (run sampleOptions sampleNow (flvFile 5 [0, 0, 0, 0] sampleTags)).map (fun _ => ()) ≠
      .error .asString_undefined ∧
    (pass1 false (flvFile 5 [0, 0, 0, 0] sampleTags)).map Scan.tuple =
      .ok (⟨true, true, 1, 1, 2, 2⟩, 2000) ∧
    reparse false (run sampleOptions sampleNow (flvFile 5 [0, 0, 0, 0] sampleTags)) =
      .ok (some (⟨true, true, 1, 1, 2, 2⟩, 2000)) ∧
    ∃ (s : Scan) (r : Outcome) (out : List Byte),
      pass1 sampleOptions.nomerge (flvFile 5 [0, 0, 0, 0] sampleTags) = .ok s ∧
      run sampleOptions sampleNow (flvFile 5 [0, 0, 0, 0] sampleTags) = .ok r ∧
      r.output = some out ∧
      (((AMFData.AMFString (str "onMetaData")).write ++
          (AMFData.AMFMixedArray r.onMetaData).write).length < 2 ^ 24 →
        ∀ (nomerge2 : Bool) (s2 : Scan), pass1 nomerge2 out = .ok s2 → s2.tuple = s.tuple) :=
  ⟨rfl, by decide, by decide, (fun _ e he => by cases he), rfl, by decide!, by decide!,
   by decide!, by decide!,
   (output_reparses sampleOptions sampleNow 5 [0, 0, 0, 0] sampleTags rfl (by decide) (by decide)
     (fun _ e he => by cases he) rfl (by decide!) (by decide!)).1⟩

/-! ## C31: the assertion of the repair branch -/

theorem and_top_byte (l : Nat) (h : l < 2 ^ 32) : l &&& 0xff000000 = l / 2 ^ 24 * 2 ^ 24 := by
  apply Nat.eq_of_testBit_eq
  intro i
  rw [Nat.mul_comm, Nat.testBit_and, Nat.testBit_mul_pow_two, ← Nat.shiftRight_eq_div_pow,
    Nat.testBit_shiftRight]
  by_cases h32 : 32 ≤ i
  · have hl : l.testBit i = false :=
      Nat.testBit_lt_two_pow (Nat.lt_of_lt_of_le h (Nat.pow_le_pow_right (by decide) h32))
    have hl2 : l.testBit (24 + (i - 24)) = false := by
      rw [show 24 + (i - 24) = i from by omega]
      exact hl
    rw [hl, hl2]
    simp
  · have hi : i < 32 := by omega
    interval_cases i <;> simp [Nat.testBit]

theorem top_byte_zero (c : Nat) (hc : c < 2 ^ 32) (h : c &&& 0xff000000 = 0) : c < 2 ^ 24 := by
  rw [and_top_byte c hc] at h
  omega

/-- Under the repair condition the repaired timestamp is below `last_timestamp` exactly
when `last_timestamp` has the top byte `0xFF` and the candidate is below its low 24
bits: the addition of `0x1000000` then wraps around. -/
theorem repaired_ge_iff (c l : Nat) (hc : c < 2 ^ 32) (hl : l < 2 ^ 32)
    (hr : RepairCondition c l) :
    l ≤ repaired c l ↔ (l < 0xFF000000 ∨ l % 2 ^ 24 ≤ c) := by
  obtain ⟨h1, h2, _⟩ := hr
  have hc24 := top_byte_zero c hc h2
  unfold repaired
  rw [and_top_byte l hl]
  simp only []
  split <;> omega

/-- C31: for a 32-bit `last_timestamp`, `process_timestamp` stops at the assertion of its
repair branch exactly when the repair condition holds, `last_timestamp` is at least
`0xFF000000` and the candidate is below the low 24 bits of `last_timestamp`: the
repaired value `candidate + 0xFF000000 + 0x1000000` wraps around to the candidate.  For
every `last_timestamp` below `0xFF000000` the repaired timestamp is at least
`last_timestamp`.  With `last_timestamp = 0xFF000100` and the raw timestamp `0x000050`
the assertion fails, in the call and in pass 1 over a file of two such video tags. -/
theorem repair_assertion (tag_type b0 b1 b2 b3 : Byte) (st : TsState)
    (hl : st.last_timestamp < 2 ^ 32) :
    (process_timestamp tag_type [b0, b1, b2, b3] 0 st = .error .assert_fail ↔
      RepairCondition (candidate b0 b1 b2 b3) st.last_timestamp ∧
        0xFF000000 ≤ st.last_timestamp ∧
        candidate b0 b1 b2 b3 < st.last_timestamp % 2 ^ 24) ∧
    (RepairCondition (candidate b0 b1 b2 b3) st.last_timestamp →
      st.last_timestamp < 0xFF000000 →
      st.last_timestamp ≤ repaired (candidate b0 b1 b2 b3) st.last_timestamp) ∧
    process_timestamp 9 [0x00, 0x00, 0x50, 0x00] 0 ⟨0xFF000100, false⟩ = .error .assert_fail ∧
    (pass1 false (sampleHeader ++ sampleWrapTags)).map (fun _ => ()) = .error .assert_fail := by
  have hc := candidate_lt b0 b1 b2 b3
  refine ⟨?_, ?_, by decide, by decide!⟩
  · rw [process_timestamp_bytes]
    by_cases hr : RepairCondition (candidate b0 b1 b2 b3) st.last_timestamp
    · have hiff := repaired_ge_iff _ _ hc hl hr
      rw [if_pos hr]
      by_cases ha : st.last_timestamp ≤ repaired (candidate b0 b1 b2 b3) st.last_timestamp
      · rw [if_pos ha]
        have := hiff.mp ha
        constructor
        · intro h
          cases h
        · intro h
          omega
      · rw [if_neg ha]
        have hn : ¬ (st.last_timestamp < 0xFF000000 ∨
            st.last_timestamp % 2 ^ 24 ≤ candidate b0 b1 b2 b3) := fun h => ha (hiff.mpr h)
        constructor
        · intro _
          exact ⟨hr, by omega, by omega⟩
        · intro _
          rfl
    · rw [if_neg hr]
      constructor
      · intro h
        cases h
      · intro h
        exact absurd h.1 hr
  · intro hr hlt
    exact (repaired_ge_iff _ _ hc hl hr).mpr (Or.inl hlt)

/-- Witness for C31: `last_timestamp = 0xFF000100` and the raw timestamp `0x000050`. -/
theorem repair_assertion_witness :
    (0xFF000100 : Nat) < 2 ^ 32 ∧
    RepairCondition (candidate 0x00 0x00 0x50 0x00) 0xFF000100 ∧
    repaired (candidate 0x00 0x00 0x50 0x00) 0xFF000100 = 0x50 ∧
    (process_timestamp 9 [0x00, 0x00, 0x50, 0x00] 0 ⟨0xFF000100, false⟩ = .error .assert_fail ↔
      RepairCondition (candidate 0x00 0x00 0x50 0x00) 0xFF000100 ∧
        0xFF000000 ≤ 0xFF000100 ∧ candidate 0x00 0x00 0x50 0x00 < 0xFF000100 % 2 ^ 24) :=
  ⟨by decide, by decide, by decide,
    (repair_assertion 9 0x00 0x00 0x50 0x00 ⟨0xFF000100, false⟩ (by decide)).1⟩

/-! ## C32: the keyframe slots of pass 2 -/

/-- Pass 1 at what it leaves unread: the loop is left through `break`, and `fend` is set
to the start of the unread bytes or one below it. -/
theorem pass1Step_junk (nomerge : Bool) (pre junk : List Byte) (s : Scan)
    (hf : s.fptr = pre.length) (hend : s.fend = (pre ++ junk).length)
    (hj : junk.length < 15 ∨
      match deserialize_uint24 junk 1 with
      | .ok (tag_length, _) => junk.length < tag_length
      | .error _ => False) :
    ∃ s1, pass1Step nomerge (pre ++ junk) s = .ok (false, s1) ∧
      pre.length - 1 ≤ s1.fend ∧ s1.fend ≤ pre.length ∧
      s1.keyframe_count = s.keyframe_count ∧ s1.ts = s.ts := by
  by_cases h15 : junk.length < 15
  · refine ⟨{ s with fend := s.fptr - 1 }, ?_, ?_, ?_, rfl, rfl⟩
    · have hc : s.fptr + 15 > s.fend := by
        rw [hf, hend, List.length_append]
        omega
      simp only [pass1Step, hc, if_true, pure, Except.pure]
    · simp only [hf]
      exact Nat.le_refl _
    · simp only [hf]
      omega
  · rcases hj with hj | hj
    · exact absurd hj h15
    · have hc : ¬ s.fptr + 15 > s.fend := by
        rw [hf, hend, List.length_append]
        omega
      have hpk : ∃ b, peek (pre ++ junk) pre.length = .ok b := by
        have := peek_append pre junk 0
        rw [Nat.add_zero] at this
        rw [this]
        cases junk with
        | nil => simp at h15
        | cons b r => exact ⟨b, peek_cons_zero b r⟩
      obtain ⟨b, hb⟩ := hpk
      have hd := deserialize_uint24_append pre junk 1
      cases hdj : deserialize_uint24 junk 1 with
      | error e => rw [hdj] at hj; exact absurd hj id
      | ok r =>
        obtain ⟨len, q⟩ := r
        rw [hdj] at hj hd
        simp only [] at hj
        simp only [Except.map] at hd
        have hc2 : s.fptr + len > s.fend := by
          rw [hf, hend, List.length_append]
          omega
        refine ⟨{ s with fptr := pre.length + q, fend := s.fptr }, ?_, ?_, ?_, rfl, rfl⟩
        · simp only [pass1Step, hc, if_false, hf, hb, hd, bind, Except.bind, pure, Except.pure]
          rw [hf] at hc hc2
          rw [if_neg hc, if_pos hc2]
        · simp only [hf]
          omega
        · simp only [hf]
          exact Nat.le_refl _

/-- Pass 1 over completely framed tags followed by what it leaves unread. -/
theorem pass1Loop_junk (nomerge : Bool) (junk : List Byte) (hj : CutOff junk)
    (tags : List Tag) :
    ∀ (pre : List Byte) (s : Scan) (fuel : Nat) (s1 : Scan),
      (∀ t ∈ tags, t.Wf) → s.fptr = pre.length →
      s.fend = (pre ++ (encodeTags tags ++ junk)).length →
      s.keyframe_count < 2 ^ 32 →
      pass1Loop nomerge (pre ++ (encodeTags tags ++ junk)) fuel s = .ok s1 →
      (pre ++ encodeTags tags).length - 1 ≤ s1.fend ∧
        s1.fend ≤ (pre ++ (encodeTags tags ++ junk)).length ∧
        (junk ≠ [] → s1.fend ≤ (pre ++ encodeTags tags).length) ∧
        s1.keyframe_count = (s.keyframe_count + (tags.filter Tag.isKeyframe).length) % 2 ^ 32 ∧
        ∃ tss, tagTimestamps tags ⟨s.ts.last_timestamp, false⟩ = .ok tss := by
  induction tags with
  | nil =>
    intro pre s fuel s1 _ hf hend hkc h
    simp only [encodeTags, List.nil_append, List.append_nil] at h hend ⊢
    have hcount : s.keyframe_count =
        (s.keyframe_count + (List.filter Tag.isKeyframe []).length) % 2 ^ 32 := by
      simp only [List.filter_nil, List.length_nil, Nat.add_zero]
      exact (Nat.mod_eq_of_lt hkc).symm
    cases fuel with
    | zero => rw [pass1Loop] at h; cases h
    | succ fuel =>
      by_cases hnil : junk = []
      · subst hnil
        have hc : ¬ s.fptr < s.fend := by
          rw [hf, hend]
          simp
        rw [pass1Loop, if_neg hc] at h
        cases h
        refine ⟨by rw [hend]; simp, by rw [hend], fun hn => absurd rfl hn, hcount,
          [], by rw [tagTimestamps]⟩
      · have hc : s.fptr < s.fend := by
          rw [hf, hend, List.length_append]
          have : 0 < junk.length := List.length_pos.mpr hnil
          omega
        have hj2 := hj
        unfold CutOff at hj2
        rcases hj2 with hj2 | hj2
        · exact absurd hj2 hnil
        · obtain ⟨s2, g1, g2, g3, g4, g5⟩ := pass1Step_junk nomerge pre junk s hf hend hj2
          rw [pass1Loop, if_pos hc, g1] at h
          simp only [] at h
          cases h
          refine ⟨g2, ?_, fun _ => g3, by rw [g4]; exact hcount, [], by rw [tagTimestamps]⟩
          rw [List.length_append]
          omega
  | cons t rest ih =>
    intro pre s fuel s1 hwf hf hend hkc h
    have hwt : t.Wf := hwf t (List.mem_cons_self _ _)
    have hwr : ∀ u ∈ rest, u.Wf := fun u hu => hwf u (List.mem_cons_of_mem _ hu)
    cases fuel with
    | zero => rw [pass1Loop] at h; cases h
    | succ fuel =>
      have hc : s.fptr < s.fend := by
        rw [hf, hend]
        simp only [encodeTags, List.length_append, Tag.encode_length]
        omega
      rw [pass1Loop, if_pos hc] at h
      simp only [encodeTags, List.append_assoc] at h hend ⊢
      cases hs : pass1Step nomerge (pre ++ (t.encode ++ (encodeTags rest ++ junk))) s with
      | error e => rw [hs] at h; cases h
      | ok r =>
        obtain ⟨b, s2⟩ := r
        obtain ⟨hb, q1, q2, q3, ts, q, q4⟩ :=
          pass1Step_tag nomerge pre (encodeTags rest ++ junk) t hwt s hf hend b s2 hs
        subst hb
        rw [hs] at h
        simp only [] at h
        rw [← List.append_assoc] at h
        have hkc2 : s2.keyframe_count < 2 ^ 32 := by
          rw [q3]
          split
          · exact Nat.mod_lt _ (by decide)
          · exact hkc
        obtain ⟨i1, i2, i3, i4, tss, i5⟩ := ih (pre ++ t.encode) s2 fuel s1 hwr
          (by rw [q1, List.length_append])
          (by rw [q2, hend, List.append_assoc]) hkc2 h
        simp only [List.append_assoc] at i1 i2 i3
        refine ⟨i1, i2, i3, ?_, ?_⟩
        · rw [i4, q3, List.filter_cons]
          cases t.isKeyframe
          · simp only [Bool.false_eq_true, if_false]
          · simp only [if_true, List.length_cons, Nat.mod_add_mod]
            congr 1
            omega
        · obtain ⟨_, f2⟩ := process_timestamp_flag t.tag_type t.b0 t.b1 t.b2 t.b3
            s.ts.last_timestamp s.ts.timestamp_warning_given false
          obtain ⟨w2, f3⟩ := f2 ts q s2.ts q4
          rw [tagTimestamps, f3]
          simp only []
          rw [tagTimestamps_flag rest _ w2 false, i5]
          exact ⟨ts :: tss, rfl⟩

/-- Pass 2 over completely framed tags, up to an end of file that pass 1 has set at the
end of the tags or one byte below it: every keyframe finds its slot, and the loop ends
with as many keyframes visited as the tags hold. -/
theorem pass2Loop_junk (nometa : Bool) (junk : List Byte) (tags : List Tag) :
    ∀ (pre : List Byte) (c : Copy) (tss : List Nat) (fuel fend : Nat),
      (∀ t ∈ tags, t.Wf) → c.fptr = pre.length → c.fp.pos = c.fp.file.length →
      tagTimestamps tags c.ts = .ok tss →
      c.keyTimes.length = c.keyPositions.length →
      c.current_keyframe + (tags.filter Tag.isKeyframe).length ≤ c.keyTimes.length →
      c.keyTimes.length < 2 ^ 32 →
      tags.length < fuel →
      (pre ++ encodeTags tags).length - 1 ≤ fend → fend ≤ (pre ++ encodeTags tags).length →
      ∃ c1, pass2Loop nometa (pre ++ (encodeTags tags ++ junk)) fend fuel c = .ok c1 ∧
        c1.current_keyframe = c.current_keyframe + (tags.filter Tag.isKeyframe).length ∧
        c1.keyTimes.length = c.keyTimes.length ∧
        c1.keyPositions.length = c.keyPositions.length ∧
        c1.fp.file = c.fp.file ++ copiedBytes nometa (tags.zip tss) := by
  induction tags with
  | nil =>
    intro pre c tss fuel fend _ hf hpos hts _ _ _ hfuel _ hfe
    rw [tagTimestamps] at hts
    cases hts
    cases fuel with
    | zero => simp at hfuel
    | succ fuel =>
      have hc : ¬ c.fptr < fend := by
        rw [hf]
        simp only [encodeTags, List.append_nil] at hfe
        omega
      refine ⟨c, ?_, ?_, rfl, rfl, ?_⟩
      · rw [pass2Loop, if_neg hc]
      · simp
      · simp [copiedBytes]
  | cons t rest ih =>
    intro pre c tss fuel fend hwf hf hpos hts hlen hcount hlt hfuel hfs hfe
    obtain ⟨ts, q, st1, tss1, hp, hts1, htss⟩ := tagTimestamps_cons_ok t rest c.ts tss hts
    subst htss
    have hwt : t.Wf := hwf t (List.mem_cons_self _ _)
    have hwr : ∀ u ∈ rest, u.Wf := fun u hu => hwf u (List.mem_cons_of_mem _ hu)
    cases fuel with
    | zero => simp at hfuel
    | succ fuel =>
      have hk : t.isKeyframe = true →
          c.current_keyframe < c.keyTimes.length ∧ c.current_keyframe < c.keyPositions.length := by
        intro hkey
        simp only [List.filter_cons, hkey, if_true, List.length_cons] at hcount
        omega
      have hstep := pass2Step_tag nometa pre (encodeTags rest ++ junk) t hwt c hf hpos ts q st1
        hp hk
      have hcond : c.fptr < fend := by
        rw [hf]
        simp only [encodeTags, List.length_append, Tag.encode_length] at hfs
        omega
      rw [pass2Loop, if_pos hcond]
      simp only [encodeTags, List.append_assoc] at hfs hfe ⊢
      rw [hstep]
      simp only []
      rw [← List.append_assoc]
      have hfuel1 : rest.length < fuel := by
        simp only [List.length_cons] at hfuel
        omega
      cases hkey : t.isKeyframe with
      | false =>
        simp only [hkey, Bool.false_eq_true, if_false]
        simp only [List.filter_cons, hkey, Bool.false_eq_true, if_false] at hcount ⊢
        obtain ⟨c1, h1, h2, h3, h4, h5⟩ := ih (pre ++ t.encode)
          { fptr := pre.length + t.encode.length, ts := st1,
            current_keyframe := c.current_keyframe, keyTimes := c.keyTimes,
            keyPositions := c.keyPositions,
            fp := ⟨c.fp.file ++ (if t.copied nometa then t.rewritten ts else []),
                   (c.fp.file ++ (if t.copied nometa then t.rewritten ts else [])).length⟩ }
          tss1 fuel fend hwr (by simp only [List.length_append]) rfl hts1 hlen hcount hlt hfuel1
          (by simp only [List.append_assoc]; exact hfs)
          (by simp only [List.append_assoc]; exact hfe)
        refine ⟨c1, h1, h2, h3, h4, ?_⟩
        rw [h5, List.zip_cons_cons]
        simp only [copiedBytes, List.append_assoc]
      | true =>
        obtain ⟨hk1, hk2⟩ := hk hkey
        simp only [List.filter_cons, hkey, if_true, List.length_cons] at hcount ⊢
        have hmod : (c.current_keyframe + 1) % 2 ^ 32 = c.current_keyframe + 1 :=
          Nat.mod_eq_of_lt (by omega)
        simp only [hmod]
        obtain ⟨c1, h1, h2, h3, h4, h5⟩ := ih (pre ++ t.encode)
          { fptr := pre.length + t.encode.length, ts := st1,
            current_keyframe := c.current_keyframe + 1,
            keyTimes := c.keyTimes.set c.current_keyframe
              (.AMFDouble (F64.div (F64.ofNat ts) (F64.ofNat 1000))),
            keyPositions := c.keyPositions.set c.current_keyframe
              (.AMFDouble (F64.ofNat c.fp.file.length)),
            fp := ⟨c.fp.file ++ (if t.copied nometa then t.rewritten ts else []),
                   (c.fp.file ++ (if t.copied nometa then t.rewritten ts else [])).length⟩ }
          tss1 fuel fend hwr (by simp only [List.length_append]) rfl hts1
          (by simp only [List.length_set]; exact hlen)
          (by simp only [List.length_set]; omega)
          (by simp only [List.length_set]; exact hlt) hfuel1
          (by simp only [List.append_assoc]; exact hfs)
          (by simp only [List.append_assoc]; exact hfe)
        simp only [List.length_set] at h2 h3 h4
        refine ⟨c1, h1, by rw [h2]; omega, h3, h4, ?_⟩
        rw [h5, List.zip_cons_cons]
        simp only [copiedBytes, List.append_assoc]

theorem tagStreamStart_junk (flags : Byte) (p4 : List Byte) (tags : List Tag)
    (junk : List Byte) : tagStreamStart (flvFile flags p4 tags ++ junk) = 13 := by
  have h : ((flvFile flags p4 tags ++ junk).drop 5).take 4 = [0, 0, 0, 9] := by
    simp [flvFile]
  unfold tagStreamStart
  rw [h]
  decide!

theorem pass1_junk (nomerge : Bool) (flags : Byte) (p4 : List Byte) (tags : List Tag)
    (junk : List Byte) (s : Scan) (hp4 : p4.length = 4) (hwf : ∀ t ∈ tags, t.Wf)
    (hj : CutOff junk) (h : pass1 nomerge (flvFile flags p4 tags ++ junk) = .ok s) :
    (flvFile flags p4 tags).length - 1 ≤ s.fend ∧
      s.fend ≤ (flvFile flags p4 tags ++ junk).length ∧
      (junk ≠ [] → s.fend ≤ (flvFile flags p4 tags).length) ∧
      s.keyframe_count = (tags.filter Tag.isKeyframe).length % 2 ^ 32 ∧
      ∃ tss, tagTimestamps tags ⟨0, false⟩ = .ok tss := by
  unfold pass1 at h
  split at h
  · cases h
  · split at h
    · cases h
    · rw [tagStreamStart_junk] at h
      have hm : flvFile flags p4 tags ++ junk =
          ([0x46, 0x4C, 0x56, 0x01, flags, 0, 0, 0, 9] ++ p4) ++ (encodeTags tags ++ junk) := by
        simp [flvFile]
      rw [hm] at h
      have := pass1Loop_junk nomerge junk hj tags ([0x46, 0x4C, 0x56, 0x01, flags, 0, 0, 0, 9] ++ p4)
        _ _ s hwf (by simp [hp4]) rfl (Nat.pos_of_ne_zero (by simp)) h
      rw [hm]
      simpa [flvFile] using this

/-- C32: on an input of completely framed tags (video bodies not empty, fewer than `2^32`
keyframes) followed by what pass 1 leaves unread (nothing, fewer than 15 bytes, or a tag
whose length field points beyond the end of the file), on which pass 1 completes, the
`keyframe_count` of pass 1 is the number of keyframe tags, pass 2 started on arrays of
`keyframe_count` slots visits exactly that many keyframes and returns with the arrays at
their length, and the run completes unless it ends in a call of `asString()` without
defined behaviour when it prints the map.  With a video tag of body length 0 it does not:
pass 1 steps `tag_length - 1 = 0xFFFFFFFF` bytes ahead and counts no tag behind it,
pass 2 steps over the four trailer bytes and visits a keyframe that has no slot. -/
theorem keyframe_slots (o : Options) (now : Now) (flags : Byte) (p4 : List Byte)
    (tags : List Tag) (junk : List Byte) (hp4 : p4.length = 4) (hwf : ∀ t ∈ tags, t.Wf)
    (hk : (tags.filter Tag.isKeyframe).length < 2 ^ 32) (hj : CutOff junk)
    (hp1 : (pass1 o.nomerge (flvFile flags p4 tags ++ junk)).toBool = true) :
    (∃ (s : Scan),
      pass1 o.nomerge (flvFile flags p4 tags ++ junk) = .ok s ∧
      s.keyframe_count = (tags.filter Tag.isKeyframe).length ∧
      (∀ fp : Sink, fp.pos = fp.file.length →
        ∃ c, pass2Loop o.nometapackets (flvFile flags p4 tags ++ junk) s.fend
            ((flvFile flags p4 tags ++ junk).length + 1)
            { fptr := tagStreamStart (flvFile flags p4 tags ++ junk),
              ts := ⟨0, s.ts.timestamp_warning_given⟩, current_keyframe := 0,
              keyTimes := List.replicate s.keyframe_count (AMFData.AMFDouble (F64.ofNat 0)),
              keyPositions := List.replicate s.keyframe_count (AMFData.AMFDouble (F64.ofNat 0)),
              fp := fp } = .ok c ∧
          c.current_keyframe = s.keyframe_count ∧ c.keyTimes.length = s.keyframe_count ∧
          c.keyPositions.length = s.keyframe_count) ∧
      ((run o now (flvFile flags p4 tags ++ junk)).map (fun _ => ()) ≠
          .error .asString_undefined →
        ∃ r : Outcome, run o now (flvFile flags p4 tags ++ junk) = .ok r)) ∧
    (pass1 false (sampleHeader ++ sampleEmptyVideo ++ sampleKeyframe)).map
        (fun s => (s.keyframe_count, s.vframe_count, s.fptr, s.fend)) =
      .ok (0, 1, 28 + 2 ^ 32, 44) ∧
    (pass2Loop false (sampleHeader ++ sampleEmptyVideo ++ sampleKeyframe) 44 45
        { fptr := 13, ts := ⟨0, false⟩, current_keyframe := 0, keyTimes := [],
          keyPositions := [], fp := ⟨[], 0⟩ }).map (fun c => c.current_keyframe) =
      .error .out_of_bounds ∧
    (pass2Loop false (sampleHeader ++ sampleEmptyVideo ++ sampleKeyframe) 44 45
        { fptr := 13, ts := ⟨0, false⟩, current_keyframe := 0,
          keyTimes := [.AMFDouble (F64.ofNat 0)], keyPositions := [.AMFDouble (F64.ofNat 0)],
          fp := ⟨[], 0⟩ }).map (fun c => c.current_keyframe) = .ok 1 ∧
    (main ["flvtool++", "in.flv", "out.flv"]
        (oneFile (sampleHeader ++ sampleEmptyVideo ++ sampleKeyframe)) sampleNow).map
        (fun _ => ()) = .error .out_of_bounds := by
  refine ⟨?_, by decide!, by decide!, by decide!, by decide!⟩
  cases hs : pass1 o.nomerge (flvFile flags p4 tags ++ junk) with
  | error e => rw [hs] at hp1; cases hp1
  | ok s =>
    obtain ⟨g1, g2, g3, g4, tss, g5⟩ := pass1_junk o.nomerge flags p4 tags junk s hp4 hwf hj hs
    rw [Nat.mod_eq_of_lt hk] at g4
    have hfe : s.fend ≤ (flvFile flags p4 tags).length := by
      by_cases hn : junk = []
      · subst hn
        simpa using g2
      · exact g3 hn
    have hm : flvFile flags p4 tags ++ junk =
        ([0x46, 0x4C, 0x56, 0x01, flags, 0, 0, 0, 9] ++ p4) ++ (encodeTags tags ++ junk) := by
      simp [flvFile]
    have hloop : ∀ fp : Sink, fp.pos = fp.file.length →
        ∃ c, pass2Loop o.nometapackets (flvFile flags p4 tags ++ junk) s.fend
            ((flvFile flags p4 tags ++ junk).length + 1)
            { fptr := tagStreamStart (flvFile flags p4 tags ++ junk),
              ts := ⟨0, s.ts.timestamp_warning_given⟩, current_keyframe := 0,
              keyTimes := List.replicate s.keyframe_count (AMFData.AMFDouble (F64.ofNat 0)),
              keyPositions := List.replicate s.keyframe_count (AMFData.AMFDouble (F64.ofNat 0)),
              fp := fp } = .ok c ∧
          c.current_keyframe = s.keyframe_count ∧ c.keyTimes.length = s.keyframe_count ∧
          c.keyPositions.length = s.keyframe_count := by
      intro fp hfp
      rw [tagStreamStart_junk, hm]
      rw [flvFile_split] at g1 hfe
      have hl := pass2Loop_junk o.nometapackets junk tags
        ([0x46, 0x4C, 0x56, 0x01, flags, 0, 0, 0, 9] ++ p4)
        { fptr := 13, ts := ⟨0, s.ts.timestamp_warning_given⟩, current_keyframe := 0,
          keyTimes := List.replicate s.keyframe_count (AMFData.AMFDouble (F64.ofNat 0)),
          keyPositions := List.replicate s.keyframe_count (AMFData.AMFDouble (F64.ofNat 0)),
          fp := fp }
        tss ((([0x46, 0x4C, 0x56, 0x01, flags, 0, 0, 0, 9] ++ p4) ++
          (encodeTags tags ++ junk)).length + 1) s.fend hwf (by simp [hp4]) hfp
        (by rw [tagTimestamps_flag tags 0 _ false]; exact g5)
        (by simp only [List.length_replicate])
        (by simp only [List.length_replicate, Nat.zero_add, g4]; exact Nat.le_refl _)
        (by simp only [List.length_replicate, g4]; exact hk)
        (by
          have := encodeTags_length tags
          simp only [List.length_append]
          omega)
        g1 hfe
      obtain ⟨c, h1, h2, h3, h4, _⟩ := hl
      refine ⟨c, h1, ?_, ?_, ?_⟩
      · rw [h2, g4]
        simp
      · rw [h3]
        simp
      · rw [h4]
        simp
    refine ⟨s, rfl, g4, hloop, fun hdump => ?_⟩
    refine run_completes o now _ s hs (fun _ => ?_) hdump
    have hfp : (writePreamble s.hasVideo s.hasAudio
        (metaWith o.strip (installTags o now (installStats s))
          (List.replicate s.keyframe_count (AMFData.AMFDouble (F64.ofNat 0)))
          (List.replicate s.keyframe_count (AMFData.AMFDouble (F64.ofNat 0))))).1.pos =
        (writePreamble s.hasVideo s.hasAudio
        (metaWith o.strip (installTags o now (installStats s))
          (List.replicate s.keyframe_count (AMFData.AMFDouble (F64.ofNat 0)))
          (List.replicate s.keyframe_count (AMFData.AMFDouble (F64.ofNat 0))))).1.file.length := by
      rw [writePreamble_eq]
    obtain ⟨c, hc, _⟩ := hloop _ hfp
    exact ⟨c, hc⟩

/-- Witness for C32: the sample file of two keyframes around an audio tag, followed by the
first 15 bytes of a tag of 256 bytes. -/
theorem keyframe_slots_witness :
    [(0 : Byte), 0, 0, 0].length = 4 ∧ (∀ t ∈ sampleTags, t.Wf) ∧
    (sampleTags.filter Tag.isKeyframe).length < 2 ^ 32 ∧ CutOff sampleCutHeader ∧
    (pass1 sampleOptions.nomerge (flvFile 5 [0, 0, 0, 0] sampleTags ++ sampleCutHeader)).toBool =
      true ∧
    (run sampleOptions sampleNow (flvFile 5 [0, 0, 0, 0] sampleTags ++ sampleCutHeader)).map
        (fun _ => ()) ≠ .error .asString_undefined ∧
    ∃ (s : Scan) (r : Outcome),
      pass1 sampleOptions.nomerge (flvFile 5 [0, 0, 0, 0] sampleTags ++ sampleCutHeader) = .ok s ∧
      s.keyframe_count = 2 ∧
      run sampleOptions sampleNow (flvFile 5 [0, 0, 0, 0] sampleTags ++ sampleCutHeader) = .ok r := by
  obtain ⟨s, h1, h2, _, h4⟩ :=
    (keyframe_slots sampleOptions sampleNow 5 [0, 0, 0, 0] sampleTags sampleCutHeader rfl
      (by decide) (by decide) (by decide) (by decide!)).1
  obtain ⟨r, hr⟩ := h4 (by decide!)
  exact ⟨rfl, by decide, by decide, by decide, by decide!, by decide!, s, r, h1, h2, hr⟩

/-! ## C33: the bytes the parameter probe reads -/

theorem peek_outside (mem : List Byte) (i : Nat) (h : mem.length ≤ i) :
    peek mem i = .error .out_of_bounds := by
  unfold peek
  rw [List.getElem?_eq_none h]

/-- A read followed by statements that all end in a read outside the file. -/
theorem bind_peek_outside {α : Type} (mem : List Byte) (i : Nat) (f : Byte → Except Fault α)
    (h : ∀ b, f b = .error .out_of_bounds) : (peek mem i >>= f) = .error .out_of_bounds := by
  cases hp : peek mem i with
  | error e =>
    rw [peek_error mem i e hp]
    rfl
  | ok b => exact h b

theorem peek_inside (pre l : List Byte) (i : Nat) (b : Byte) (h : l[i]? = some b)
    (post : List Byte) :
    peek (pre ++ l ++ post) (pre.length + i) = .ok b ∧ peek (pre ++ l) (pre.length + i) = .ok b := by
  refine ⟨peek_body pre l i b h post, ?_⟩
  have := peek_body pre l i b h []
  rwa [List.append_nil] at this

/-- The SCREEN case reads the four bytes behind the codec byte. -/
theorem probeScreen_inside (pre body post : List Byte) (h : 5 ≤ body.length) :
    probeScreen (pre ++ body ++ post) (pre.length + 1) = probeScreen (pre ++ body) (pre.length + 1) ∧
      (probeScreen (pre ++ body) (pre.length + 1)).toBool = true := by
  obtain ⟨a, b, c, d, e, r, rfl⟩ := length_ge_five body h
  obtain ⟨p1, q1⟩ := peek_inside pre (a :: b :: c :: d :: e :: r) 1 b (by simp) post
  obtain ⟨p2, q2⟩ := peek_inside pre (a :: b :: c :: d :: e :: r) 2 c (by simp) post
  obtain ⟨p3, q3⟩ := peek_inside pre (a :: b :: c :: d :: e :: r) 3 d (by simp) post
  obtain ⟨p4, q4⟩ := peek_inside pre (a :: b :: c :: d :: e :: r) 4 e (by simp) post
  constructor
  · simp only [probeScreen, Nat.add_assoc, Nat.reduceAdd, p1, p2, p3, p4, q1, q2, q3, q4, bind, Except.bind,
      pure, Except.pure]
  · simp only [probeScreen, Nat.add_assoc, Nat.reduceAdd, q1, q2, q3, q4, bind, Except.bind,
      pure, Except.pure]
    rfl

theorem probeScreen_short (pre body : List Byte) (h : body.length < 5) :
    probeScreen (pre ++ body) (pre.length + 1) = .error .out_of_bounds := by
  unfold probeScreen
  apply bind_peek_outside
  intro b0
  apply bind_peek_outside
  intro b1
  apply bind_peek_outside
  intro b2
  rw [peek_outside _ _ (by rw [List.length_append]; omega)]
  rfl

/-- The VP6 case reads the bytes at the body offsets 1, 5 and 6. -/
theorem probeVP6_inside (pre body post : List Byte) (h : 7 ≤ body.length) :
    probeVP6 (pre ++ body ++ post) (pre.length + 1) = probeVP6 (pre ++ body) (pre.length + 1) ∧
      (probeVP6 (pre ++ body) (pre.length + 1)).toBool = true := by
  obtain ⟨a, b, c, d, e, r, rfl⟩ := length_ge_five body (by omega)
  obtain ⟨f, g, r2, rfl⟩ := length_ge_two r (by simp only [List.length_cons] at h; omega)
  obtain ⟨p1, q1⟩ := peek_inside pre (a :: b :: c :: d :: e :: f :: g :: r2) 1 b (by simp) post
  obtain ⟨p5, q5⟩ := peek_inside pre (a :: b :: c :: d :: e :: f :: g :: r2) 5 f (by simp) post
  obtain ⟨p6, q6⟩ := peek_inside pre (a :: b :: c :: d :: e :: f :: g :: r2) 6 g (by simp) post
  constructor
  · simp only [probeVP6, Nat.add_assoc, Nat.reduceAdd, p1, p5, p6, q1, q5, q6, bind, Except.bind,
      pure, Except.pure]
  · simp only [probeVP6, Nat.add_assoc, Nat.reduceAdd, q1, q5, q6, bind, Except.bind,
      pure, Except.pure]
    rfl

theorem probeVP6_short (pre body : List Byte) (h : body.length < 7) :
    probeVP6 (pre ++ body) (pre.length + 1) = .error .out_of_bounds := by
  unfold probeVP6
  apply bind_peek_outside
  intro b4
  rw [peek_outside _ _ (by rw [List.length_append]; omega)]
  rfl

theorem probeH263_short (pre body : List Byte) (h : body.length < 6) :
    probeH263 (pre ++ body) (pre.length + 1) = .error .out_of_bounds := by
  unfold probeH263
  apply bind_peek_outside
  intro d0
  rw [peek_outside _ _ (by rw [List.length_append]; omega)]
  rfl

theorem probeH264_short (pre body : List Byte) (tag_length : Nat) (h : body.length < 2) :
    probeH264 (pre ++ body) (pre.length + 1) tag_length = .error .out_of_bounds := by
  rw [probeH264_eq, peek_outside _ _ (by rw [List.length_append]; omega)]

/-- The H.263 case reads at most the bytes at the body offsets 4 to 9. -/
theorem probeH263_inside (pre body post : List Byte) (h : 10 ≤ body.length) :
    probeH263 (pre ++ body ++ post) (pre.length + 1) = probeH263 (pre ++ body) (pre.length + 1) ∧
      (probeH263 (pre ++ body) (pre.length + 1)).toBool = true := by
  obtain ⟨c, b0, b1, b2, b3, r, rfl⟩ := length_ge_five body (by omega)
  obtain ⟨b4, c5, c6, c7, c8, r2, rfl⟩ := length_ge_five r
    (by simp only [List.length_cons] at h; omega)
  have hm : ∀ post : List Byte,
      pre ++ (c :: b0 :: b1 :: b2 :: b3 :: b4 :: c5 :: c6 :: c7 :: c8 :: r2) ++ post =
        (pre ++ [c]) ++ (b0 :: b1 :: b2 :: b3 :: b4 :: c5 :: c6 :: c7 :: c8 :: r2) ++ post := by
    intro post
    simp
  have hl : pre.length + 1 = (pre ++ [c]).length := by simp
  have hm0 := hm []
  rw [List.append_nil] at hm0
  rw [hm post, hm0, hl]
  generalize hsel : ((b3.val &&& 0x03) <<< 1) + ((b4.val &&& 0x80) >>> 7) = sel
  have e0 : ∀ post : List Byte, ∃ x : Probe,
      probeH263 ((pre ++ [c]) ++ (b0 :: b1 :: b2 :: b3 :: b4 :: c5 :: c6 :: c7 :: c8 :: r2) ++ post)
        (pre ++ [c]).length = .ok x ∧
      probeH263 ((pre ++ [c]) ++ (b0 :: b1 :: b2 :: b3 :: b4 :: c5 :: c6 :: c7 :: c8 :: r2) ++ [])
        (pre ++ [c]).length = .ok x := by
    intro post
    by_cases h0 : sel = 0
    · subst h0
      exact ⟨_, probeH263_bytes8 _ post b0 b1 b2 b3 b4 c5 c6 _ hsel,
        probeH263_bytes8 _ [] b0 b1 b2 b3 b4 c5 c6 _ hsel⟩
    · by_cases h1 : sel = 1
      · subst h1
        exact ⟨_, probeH263_bytes16 _ post b0 b1 b2 b3 b4 c5 c6 c7 c8 _ hsel,
          probeH263_bytes16 _ [] b0 b1 b2 b3 b4 c5 c6 c7 c8 _ hsel⟩
      · have t1 := probeH263_table (pre ++ [c]) post b0 b1 b2 b3 b4
          (c5 :: c6 :: c7 :: c8 :: r2) sel hsel h0 h1
        have t2 := probeH263_table (pre ++ [c]) [] b0 b1 b2 b3 b4
          (c5 :: c6 :: c7 :: c8 :: r2) sel hsel h0 h1
        rw [t1, t2]
        repeat' split
        all_goals exact ⟨_, rfl, rfl⟩
  obtain ⟨x, x1, x2⟩ := e0 post
  rw [x1, x2]
  exact ⟨rfl, rfl⟩

/-- C33: the bytes the pass-1 probe reads, with the memory `pre ++ body` that ends with
the body of the tag standing for "nothing behind the body may be read": a read behind
the body is a read outside that memory.  Codecs other than 2, 3, 4 and 7 read nothing.
The SCREEN case (3) reads the body offsets 1 to 4, the VP6 case (4) the offsets 1, 5 and
6, the H.263 case (2) the offsets 4 and 5 and up to offset 9: on bodies of at least 5, 7
and 10 bytes the probe returns what it returns without the bytes behind the body, on
bodies of fewer than 5, 7 and 6 bytes a read lands behind the body.  The H.264 case (7)
reads `avc_packet_type` behind a body of one byte.  So a tag with the one-byte body
`0x22` or `0x17` at the end of the file makes pass 1 read outside the file, a SCREEN tag
with a one-byte body gets its width from the trailer, and on the H.264 tag with the
12-byte body `sampleAvcBody` the bit cursor, whose buffer of `tag_length - 4` bytes ends
one byte behind the body, reads the first trailer byte to arrive at 320 by 240. -/
theorem probe_reads (pre body post : List Byte) (tag_length codec_id : Nat) :
    (codec_id ≠ 2 → codec_id ≠ 3 → codec_id ≠ 4 → codec_id ≠ 7 →
      ∀ (mem : List Byte) (vptr : Nat),
        probeVideo mem vptr tag_length codec_id = .ok (.params 0 0)) ∧
    (5 ≤ body.length →
      probeVideo (pre ++ body ++ post) (pre.length + 1) tag_length 3 =
        probeVideo (pre ++ body) (pre.length + 1) tag_length 3 ∧
      (probeVideo (pre ++ body) (pre.length + 1) tag_length 3).toBool = true) ∧
    (body.length < 5 →
      probeVideo (pre ++ body) (pre.length + 1) tag_length 3 = .error .out_of_bounds) ∧
    (7 ≤ body.length →
      probeVideo (pre ++ body ++ post) (pre.length + 1) tag_length 4 =
        probeVideo (pre ++ body) (pre.length + 1) tag_length 4 ∧
      (probeVideo (pre ++ body) (pre.length + 1) tag_length 4).toBool = true) ∧
    (body.length < 7 →
      probeVideo (pre ++ body) (pre.length + 1) tag_length 4 = .error .out_of_bounds) ∧
    (10 ≤ body.length →
      probeVideo (pre ++ body ++ post) (pre.length + 1) tag_length 2 =
        probeVideo (pre ++ body) (pre.length + 1) tag_length 2 ∧
      (probeVideo (pre ++ body) (pre.length + 1) tag_length 2).toBool = true) ∧
    (body.length < 6 →
      probeVideo (pre ++ body) (pre.length + 1) tag_length 2 = .error .out_of_bounds) ∧
    (body.length < 2 →
      probeVideo (pre ++ body) (pre.length + 1) tag_length 7 = .error .out_of_bounds) ∧
    (pass1 false (sampleHeader ++ sampleShortH263)).map (fun _ => ()) = .error .out_of_bounds ∧
    (pass1 false (sampleHeader ++ sampleShortAvc)).map (fun _ => ()) = .error .out_of_bounds ∧
    probeVideo ([0x23] ++ [0x01, 0x40, 0x00, 0x00]) 1 1 3 = .ok (.params 320 0) ∧
    probeVideo sampleAvcBody 1 12 7 = .error .out_of_bounds ∧
    probeVideo (sampleAvcBody ++ [0, 0, 0, 27]) 1 12 7 = .ok (.params 320 240) := by
  have v2 : ∀ mem vptr, probeVideo mem vptr tag_length 2 = probeH263 mem vptr := fun _ _ => rfl
  have v3 : ∀ mem vptr, probeVideo mem vptr tag_length 3 = probeScreen mem vptr := fun _ _ => rfl
  have v4 : ∀ mem vptr, probeVideo mem vptr tag_length 4 = probeVP6 mem vptr := fun _ _ => rfl
  have v7 : ∀ mem vptr, probeVideo mem vptr tag_length 7 = probeH264 mem vptr tag_length :=
    fun _ _ => rfl
  refine ⟨?_, ?_, ?_, ?_, ?_, ?_, ?_, ?_, by decide!, by decide!, by decide!, by decide!,
    by decide!⟩
  · intro h2 h3 h4 h7 mem vptr
    unfold probeVideo
    rw [if_neg h2, if_neg h3, if_neg h4, if_neg h7]
  · intro h
    rw [v3, v3]
    exact probeScreen_inside pre body post h
  · intro h
    rw [v3]
    exact probeScreen_short pre body h
  · intro h
    rw [v4, v4]
    exact probeVP6_inside pre body post h
  · intro h
    rw [v4]
    exact probeVP6_short pre body h
  · intro h
    rw [v2, v2]
    exact probeH263_inside pre body post h
  · intro h
    rw [v2]
    exact probeH263_short pre body h
  · intro h
    rw [v7]
    exact probeH264_short pre body tag_length h

/-- Witness for C33: a SCREEN body of five bytes, and one of one byte. -/
theorem probe_reads_witness :
    probeVideo ([9, 0, 0, 5] ++ [0x23, 0x01, 0x40, 0x0F, 0x00] ++ [0xAA, 0xBB]) 5 5 3 =
        probeVideo ([9, 0, 0, 5] ++ [0x23, 0x01, 0x40, 0x0F, 0x00]) 5 5 3 ∧
      probeVideo ([9, 0, 0, 5] ++ [0x23, 0x01, 0x40, 0x0F, 0x00]) 5 5 3 = .ok (.params 320 0) ∧
      probeVideo ([9, 0, 0, 1] ++ [0x23]) 5 1 3 = .error .out_of_bounds :=
  ⟨((probe_reads [9, 0, 0, 5] [0x23, 0x01, 0x40, 0x0F, 0x00] [0xAA, 0xBB] 5 3).2.1
      (by decide)).1,
    by decide!,
    (probe_reads [9, 0, 0, 1] [0x23] [] 1 3).2.2.1 (by decide)⟩

/-! ## Decoding the encoding of a value -/

theorem reread_fuel (fuel : Nat) :
    (∀ v : AMFData, v.Fits → ∀ (tail : List Byte) (n : Nat),
      2 * v.write.length + 1 ≤ fuel →
      constructF fuel ⟨v.write ++ tail, v.write.length + n⟩ = .ok (v.reread, ⟨tail, n⟩)) ∧
    (∀ m : Dmap, FitsPairs m → ∀ (acc : Dmap), Ascending m →
      (∀ e ∈ acc, ∀ e1 ∈ m, strLt e.1 e1.1 = true) →
      ∀ (tail : List Byte) (n : Nat), 2 * (_write m).length + 2 ≤ fuel →
      _constructF fuel ⟨_write m ++ tail, (_write m).length + n⟩ acc =
        .ok (acc ++ rereadPairs m, ⟨tail, n⟩)) ∧
    (∀ a : List AMFData, FitsElems a → ∀ (acc : List AMFData),
      ∀ (tail : List Byte) (n : Nat), 2 * (writeElems a).length + 2 ≤ fuel →
      constructElems fuel a.length ⟨writeElems a ++ tail, (writeElems a).length + n⟩ acc =
        .ok (acc ++ rereadElems a, ⟨tail, n⟩)) := by
  induction fuel with
  | zero =>
    refine ⟨fun v _ _ _ h => absurd h (by omega), fun m _ _ _ _ _ _ h => absurd h (by omega),
      fun a _ _ _ _ h => absurd h (by omega)⟩
  | succ fuel ih =>
    obtain ⟨ihv, ihm, iha⟩ := ih
    refine ⟨?_, ?_, ?_⟩
    · intro v hw tail n hf
      cases v with
      | AMFDouble d =>
        simp only [AMFData.Fits] at hw
        simp only [AMFData.write, List.length_cons, store_le_length, List.cons_append]
        rw [constructF, get_u8_at _ _ _ (8 + n) (by omega)]
        simp only [AMF_TYPE_DOUBLE, AMF_TYPE_BOOLEAN, AMF_TYPE_STRING, AMF_TYPE_OBJECT, AMF_TYPE_NULL,
          AMF_TYPE_UNDEFINED, AMF_TYPE_MIXED_ARRAY, AMF_TYPE_ARRAY, AMF_TYPE_DATE, AMF_TYPE_UNSUPPORTED,
          byte_val_mod, Nat.reduceMod, Nat.reduceEqDiff, ↓reduceIte, OfNat.ofNat_ne_zero]
        rw [get_double_be_at d hw _ _ n rfl]
        rfl
      | AMFBoolean d =>
        simp only [AMFData.write, List.length_cons, List.length_nil, List.cons_append,
          List.nil_append]
        rw [constructF, get_u8_at _ _ _ (1 + n) (by omega)]
        simp only [AMF_TYPE_DOUBLE, AMF_TYPE_BOOLEAN, AMF_TYPE_STRING, AMF_TYPE_OBJECT, AMF_TYPE_NULL,
          AMF_TYPE_UNDEFINED, AMF_TYPE_MIXED_ARRAY, AMF_TYPE_ARRAY, AMF_TYPE_DATE, AMF_TYPE_UNSUPPORTED,
          byte_val_mod, Nat.reduceMod, Nat.reduceEqDiff, ↓reduceIte, OfNat.ofNat_ne_zero]
        rw [get_u8_at _ _ _ n (by omega)]
        cases d <;> rfl
      | AMFString d =>
        simp only [AMFData.Fits] at hw
        simp only [AMFData.write, List.length_cons, List.length_append, store_le_length,
          List.cons_append, List.append_assoc]
        rw [constructF, get_u8_at _ _ _ (2 + (d.length + n)) (by omega)]
        simp only [AMF_TYPE_DOUBLE, AMF_TYPE_BOOLEAN, AMF_TYPE_STRING, AMF_TYPE_OBJECT, AMF_TYPE_NULL,
          AMF_TYPE_UNDEFINED, AMF_TYPE_MIXED_ARRAY, AMF_TYPE_ARRAY, AMF_TYPE_DATE, AMF_TYPE_UNSUPPORTED,
          byte_val_mod, Nat.reduceMod, Nat.reduceEqDiff, ↓reduceIte, OfNat.ofNat_ne_zero]
        rw [get_u16_be_at d.length hw _ _ (d.length + n) rfl]
        simp only []
        rw [get_bytes_at d tail _ n rfl]
        rfl
      | AMFObject dmap =>
        simp only [AMFData.Fits] at hw
        simp only [AMFData.write, List.length_cons, List.cons_append] at hf ⊢
        rw [constructF, get_u8_at _ _ _ ((_write dmap).length + n) (by omega)]
        simp only [AMF_TYPE_DOUBLE, AMF_TYPE_BOOLEAN, AMF_TYPE_STRING, AMF_TYPE_OBJECT, AMF_TYPE_NULL,
          AMF_TYPE_UNDEFINED, AMF_TYPE_MIXED_ARRAY, AMF_TYPE_ARRAY, AMF_TYPE_DATE, AMF_TYPE_UNSUPPORTED,
          byte_val_mod, Nat.reduceMod, Nat.reduceEqDiff, ↓reduceIte, OfNat.ofNat_ne_zero]
        rw [ihm dmap hw.2 [] hw.1 (fun e he => by cases he) tail n (by omega)]
        simp only [List.nil_append, AMFData.reread]
      | AMFNull =>
        simp only [AMFData.write, List.length_cons, List.length_nil, List.cons_append,
          List.nil_append]
        rw [constructF, get_u8_at _ _ _ n (by omega)]
        simp only [AMF_TYPE_DOUBLE, AMF_TYPE_BOOLEAN, AMF_TYPE_STRING, AMF_TYPE_OBJECT, AMF_TYPE_NULL,
          AMF_TYPE_UNDEFINED, AMF_TYPE_MIXED_ARRAY, AMF_TYPE_ARRAY, AMF_TYPE_DATE, AMF_TYPE_UNSUPPORTED,
          byte_val_mod, Nat.reduceMod, Nat.reduceEqDiff, ↓reduceIte, OfNat.ofNat_ne_zero]
        rfl
      | AMFUndefined =>
        simp only [AMFData.write, List.length_cons, List.length_nil, List.cons_append,
          List.nil_append]
        rw [constructF, get_u8_at _ _ _ n (by omega)]
        simp only [AMF_TYPE_DOUBLE, AMF_TYPE_BOOLEAN, AMF_TYPE_STRING, AMF_TYPE_OBJECT, AMF_TYPE_NULL,
          AMF_TYPE_UNDEFINED, AMF_TYPE_MIXED_ARRAY, AMF_TYPE_ARRAY, AMF_TYPE_DATE, AMF_TYPE_UNSUPPORTED,
          byte_val_mod, Nat.reduceMod, Nat.reduceEqDiff, ↓reduceIte, OfNat.ofNat_ne_zero]
        rfl
      | AMFMixedArray dmap =>
        simp only [AMFData.Fits] at hw
        simp only [AMFData.write, List.length_cons, List.length_append, store_le_length,
          List.cons_append, List.append_assoc] at hf ⊢
        rw [constructF, get_u8_at _ _ _ (4 + ((_write dmap).length + n)) (by omega)]
        simp only [AMF_TYPE_DOUBLE, AMF_TYPE_BOOLEAN, AMF_TYPE_STRING, AMF_TYPE_OBJECT, AMF_TYPE_NULL,
          AMF_TYPE_UNDEFINED, AMF_TYPE_MIXED_ARRAY, AMF_TYPE_ARRAY, AMF_TYPE_DATE, AMF_TYPE_UNSUPPORTED,
          byte_val_mod, Nat.reduceMod, Nat.reduceEqDiff, ↓reduceIte, OfNat.ofNat_ne_zero]
        rw [get_u32_be_any dmap.length _ _ ((_write dmap).length + n) rfl]
        simp only []
        rw [ihm dmap hw.2 [] hw.1 (fun e he => by cases he) tail n (by omega)]
        simp only [List.nil_append, AMFData.reread]
      | AMFArray dmap =>
        simp only [AMFData.Fits] at hw
        simp only [AMFData.write, List.length_cons, List.length_append, store_le_length,
          List.cons_append, List.append_assoc] at hf ⊢
        rw [constructF, get_u8_at _ _ _ (4 + ((writeElems dmap).length + n)) (by omega)]
        simp only [AMF_TYPE_DOUBLE, AMF_TYPE_BOOLEAN, AMF_TYPE_STRING, AMF_TYPE_OBJECT, AMF_TYPE_NULL,
          AMF_TYPE_UNDEFINED, AMF_TYPE_MIXED_ARRAY, AMF_TYPE_ARRAY, AMF_TYPE_DATE, AMF_TYPE_UNSUPPORTED,
          byte_val_mod, Nat.reduceMod, Nat.reduceEqDiff, ↓reduceIte, OfNat.ofNat_ne_zero]
        rw [get_u32_be_at dmap.length hw.1 _ _ ((writeElems dmap).length + n) rfl]
        simp only []
        rw [iha dmap hw.2 [] tail n (by omega)]
        simp only [List.nil_append, AMFData.reread]
      | AMFDate tv_sec tv_usec tz dst =>
        simp only [AMFData.write, List.length_cons, List.length_append, store_le_length,
          List.cons_append, List.append_assoc] at hf ⊢
        rw [constructF, get_u8_at _ _ _ (8 + (2 + n)) (by omega)]
        simp only [AMF_TYPE_DOUBLE, AMF_TYPE_BOOLEAN, AMF_TYPE_STRING, AMF_TYPE_OBJECT, AMF_TYPE_NULL,
          AMF_TYPE_UNDEFINED, AMF_TYPE_MIXED_ARRAY, AMF_TYPE_ARRAY, AMF_TYPE_DATE, AMF_TYPE_UNSUPPORTED,
          byte_val_mod, Nat.reduceMod, Nat.reduceEqDiff, ↓reduceIte, OfNat.ofNat_ne_zero]
        rw [get_double_be_at _ (dateMillis_lt tv_sec tv_usec) _ _ (2 + n) rfl]
        simp only []
        have htz : (tz % 65536).toNat < 65536 := by omega
        rw [get_u16_be_at _ htz _ _ n rfl]
        simp only [AMFData.reread]
      | AMFUnsupported =>
        simp only [AMFData.write, List.length_cons, List.length_nil, List.cons_append,
          List.nil_append]
        rw [constructF, get_u8_at _ _ _ n (by omega)]
        simp only [AMF_TYPE_DOUBLE, AMF_TYPE_BOOLEAN, AMF_TYPE_STRING, AMF_TYPE_OBJECT, AMF_TYPE_NULL,
          AMF_TYPE_UNDEFINED, AMF_TYPE_MIXED_ARRAY, AMF_TYPE_ARRAY, AMF_TYPE_DATE, AMF_TYPE_UNSUPPORTED,
          byte_val_mod, Nat.reduceMod, Nat.reduceEqDiff, ↓reduceIte, OfNat.ofNat_ne_zero]
        rfl
    · intro m hw acc hasc hacc tail n hf
      cases m with
      | nil =>
        simp only [_write, List.length_append, store_le_length, List.length_cons, List.length_nil,
          List.append_assoc, List.cons_append, List.nil_append, List.append_nil]
        have h0 : store_le 2 0 = store_le 2 (htons 0) := by decide
        rw [_constructF, h0, get_u16_be_at 0 (by decide) _ _ (1 + n) (by omega)]
        simp only [if_true]
        rw [get_u8_at _ _ _ n (by omega)]
        simp [rereadPairs]
      | cons e m =>
        obtain ⟨k, v⟩ := e
        simp only [FitsPairs] at hw
        obtain ⟨hk0, hk1, hwv, hwm⟩ := hw
        unfold Ascending at hasc
        rw [List.pairwise_cons] at hasc
        simp only [_write, List.length_append, store_le_length, List.append_assoc] at hf ⊢
        rw [_constructF, get_u16_be_at k.length hk1 _ _
          (k.length + (v.write.length + ((_write m).length + n))) (by omega)]
        simp only [show ¬ (k.length = 0) by omega, if_false]
        rw [get_bytes_at k _ _ (v.write.length + ((_write m).length + n)) rfl]
        simp only []
        rw [ihv v hwv (_write m ++ tail) ((_write m).length + n) (by omega)]
        simp only []
        rw [mapInsert_append acc k v.reread
          (fun e he => hacc e he (k, v) (List.mem_cons_self _ _))]
        rw [ihm m hwm (acc ++ [(k, v.reread)]) hasc.2 (by
          intro e he e1 he1
          rcases List.mem_append.mp he with he | he
          · exact hacc e he e1 (List.mem_cons_of_mem _ he1)
          · rw [List.mem_singleton] at he
            subst he
            exact hasc.1 e1 he1) tail n (by omega)]
        simp [rereadPairs]
    · intro a hw acc tail n hf
      cases a with
      | nil =>
        simp only [writeElems, List.length_nil, List.nil_append, Nat.zero_add, List.append_nil]
        rw [constructElems]
        simp [rereadElems]
      | cons v a =>
        simp only [FitsElems] at hw
        simp only [writeElems, List.length_append, List.append_assoc, List.length_cons] at hf ⊢
        have hpos := write_length_pos v
        rw [constructElems]
        rw [show v.write.length + (writeElems a).length + n =
          v.write.length + ((writeElems a).length + n) by omega]
        rw [ihv v hw.1 (writeElems a ++ tail) ((writeElems a).length + n) (by omega)]
        simp only []
        rw [iha a hw.2 (acc ++ [v.reread]) tail n (by omega)]
        simp [rereadElems]

/-! ## The map of a run fits the fields it is written to -/

theorem F64.ofNat_lt (n : Nat) : F64.ofNat n < 2 ^ 64 :=
  Nat.lt_of_le_of_lt (F64.roundPos_le n 1) (by decide)

theorem F64.ofInt_lt (i : Int) : F64.ofInt i < 2 ^ 64 := F64.roundSigned_lt _ _ _

theorem F64.div_lt (a b : Nat) : F64.div a b < 2 ^ 64 := by
  unfold F64.div
  split
  · exact F64.propagate_lt a b
  · simp only []
    split
    · split
      · decide
      · exact F64.withSign_lt _ _ (Nat.le_refl _)
    · split
      · exact F64.withSign_lt _ _ (by simp [F64.inf])
      · split
        · split
          · decide
          · exact F64.withSign_lt _ _ (Nat.le_refl _)
        · exact F64.roundSigned_lt _ _ _

theorem fitsPairs_iff (m : Dmap) :
    FitsPairs m ↔ ∀ e ∈ m, 0 < e.1.length ∧ e.1.length < 65536 ∧ e.2.Fits := by
  induction m with
  | nil => simp [FitsPairs]
  | cons e m ih =>
    obtain ⟨k, v⟩ := e
    simp only [FitsPairs, ih, List.mem_cons, forall_eq_or_imp]
    constructor
    · rintro ⟨h1, h2, h3, h4⟩
      exact ⟨⟨h1, h2, h3⟩, h4⟩
    · rintro ⟨⟨h1, h2, h3⟩, h4⟩
      exact ⟨h1, h2, h3, h4⟩

theorem fitsElems_iff (a : List AMFData) : FitsElems a ↔ ∀ v ∈ a, v.Fits := by
  induction a with
  | nil => simp [FitsElems]
  | cons v a ih => simp only [FitsElems, ih, List.mem_cons, forall_eq_or_imp]

theorem fitsPairs_mapAssign (m : Dmap) (k : List Byte) (v : AMFData) (hm : FitsPairs m)
    (hk0 : 0 < k.length) (hk1 : k.length < 65536) (hv : v.Fits) :
    FitsPairs (mapAssign m k v) := by
  induction m with
  | nil => simp [mapAssign, FitsPairs, hk0, hk1, hv]
  | cons e m ih =>
    obtain ⟨k1, v1⟩ := e
    simp only [FitsPairs] at hm
    simp only [mapAssign]
    split
    · simp only [FitsPairs]
      exact ⟨hk0, hk1, hv, hm⟩
    · split
      · simp only [FitsPairs]
        exact ⟨hm.1, hm.2.1, hm.2.2.1, ih hm.2.2.2⟩
      · simp only [FitsPairs]
        exact ⟨hm.1, hm.2.1, hv, hm.2.2.2⟩

theorem fitsPairs_mapInsert (m : Dmap) (k : List Byte) (v : AMFData) (hm : FitsPairs m)
    (hk0 : 0 < k.length) (hk1 : k.length < 65536) (hv : v.Fits) :
    FitsPairs (mapInsert m k v) := by
  induction m with
  | nil => simp [mapInsert, FitsPairs, hk0, hk1, hv]
  | cons e m ih =>
    obtain ⟨k1, v1⟩ := e
    simp only [FitsPairs] at hm
    simp only [mapInsert]
    split
    · simp only [FitsPairs]
      exact ⟨hk0, hk1, hv, hm⟩
    · split
      · simp only [FitsPairs]
        exact ⟨hm.1, hm.2.1, hm.2.2.1, ih hm.2.2.2⟩
      · simp only [FitsPairs]
        exact hm

mutual
/-- What the factory returns fits the fields it is written to. -/
theorem AMFData.fits_of_wf : ∀ (v : AMFData), v.Wf → v.Fits
  | .AMFDouble _, h => by simpa only [AMFData.Wf, AMFData.Fits] using h
  | .AMFBoolean _, _ => by simp only [AMFData.Fits]
  | .AMFString _, h => by simpa only [AMFData.Wf, AMFData.Fits] using h
  | .AMFObject dmap, h => by
    simp only [AMFData.Wf] at h
    simp only [AMFData.Fits]
    exact ⟨h.1, fitsPairs_of_wf dmap h.2⟩
  | .AMFNull, _ => by simp only [AMFData.Fits]
  | .AMFUndefined, _ => by simp only [AMFData.Fits]
  | .AMFMixedArray dmap, h => by
    simp only [AMFData.Wf] at h
    simp only [AMFData.Fits]
    exact ⟨h.1, fitsPairs_of_wf dmap h.2⟩
  | .AMFArray dmap, h => by
    simp only [AMFData.Wf] at h
    simp only [AMFData.Fits]
    exact ⟨h.1, fitsElems_of_wf dmap h.2⟩
  | .AMFDate _ _ _ _, _ => by simp only [AMFData.Fits]
  | .AMFUnsupported, _ => by simp only [AMFData.Fits]
theorem fitsPairs_of_wf : ∀ (m : List (List Byte × AMFData)), WfPairs m → FitsPairs m
  | [], _ => by simp only [FitsPairs]
  | (k, v) :: m, h => by
    simp only [WfPairs] at h
    simp only [FitsPairs]
    exact ⟨h.1, h.2.1, AMFData.fits_of_wf v h.2.2.1, fitsPairs_of_wf m h.2.2.2⟩
theorem fitsElems_of_wf : ∀ (a : List AMFData), WfElems a → FitsElems a
  | [], _ => by simp only [FitsElems]
  | v :: a, h => by
    simp only [WfElems] at h
    simp only [FitsElems]
    exact ⟨AMFData.fits_of_wf v h.1, fitsElems_of_wf a h.2⟩
end

/-- The invariant of the `onMetaData` map through a run. -/
theorem inv_mapAssign (m : Dmap) (k : List Byte) (v : AMFData)
    (hm : Ascending m ∧ FitsPairs m)
    (hk0 : 0 < k.length) (hk1 : k.length < 65536) (hv : v.Fits) :
    Ascending (mapAssign m k v) ∧ FitsPairs (mapAssign m k v) :=
  ⟨ascending_mapAssign m k v hm.1, fitsPairs_mapAssign m k v hm.2 hk0 hk1 hv⟩

theorem inv_foldl_mapInsert (r : Dmap) (hr : FitsPairs r) :
    ∀ m : Dmap, Ascending m ∧ FitsPairs m →
      Ascending (r.foldl (fun acc ri => mapInsert acc ri.1 ri.2) m) ∧
        FitsPairs (r.foldl (fun acc ri => mapInsert acc ri.1 ri.2) m) := by
  induction r with
  | nil => exact fun m hm => hm
  | cons e r ih =>
    obtain ⟨k, v⟩ := e
    simp only [FitsPairs] at hr
    intro m hm
    simp only [List.foldl_cons]
    exact ih hr.2.2.2 _ ⟨ascending_mapInsert m k v hm.1,
      fitsPairs_mapInsert m k v hm.2 hr.1 hr.2.1 hr.2.2.1⟩

theorem scanMeta_inv (nomerge : Bool) (tagbuf : serialized_buffer) (m m1 : Dmap)
    (h : scanMeta nomerge tagbuf m = .ok m1) (hm : Ascending m ∧ FitsPairs m) :
    Ascending m1 ∧ FitsPairs m1 := by
  unfold scanMeta at h
  simp only [] at h
  split at h
  · rename_i d hd
    cases h
    split at hd
    · cases hd
    · split at hd
      · cases hd
      · rename_i tagKey buf1 hk e1 v buf2 hv
        split at hd
        · cases hd
        · split at hd
          · cases hn : nomerge with
            | true =>
              simp only [hn, not_true_eq_false, if_false, Except.ok.injEq] at hd
              subst hd
              exact hm
            | false =>
              simp only [hn, Bool.false_eq_true, not_false_eq_true, if_true] at hd
              unfold AMFMixedArray.merge at hd
              split at hd
              · rename_i r
                simp only [Bool.false_eq_true, if_false, Except.ok.injEq] at hd
                subst hd
                have hw := AMFData.fits_of_wf _ (wf_of_construct _ _ _ hv)
                simp only [AMFData.Fits] at hw
                exact inv_foldl_mapInsert r hw.2 m hm
              · cases hd
          · split at hd
            · cases hd
            · cases hd
              exact hm
  · split at h
    · cases h
      exact hm
    · cases h

theorem videoAssign_inv (m : Dmap) (c : Nat) (w h : Int) (hm : Ascending m ∧ FitsPairs m) :
    Ascending (videoAssign m c w h) ∧ FitsPairs (videoAssign m c w h) := by
  unfold videoAssign
  simp only []
  have h1 := inv_mapAssign m (str "videocodecid") (.AMFDouble (F64.ofNat c)) hm (by decide)
    (by decide) (F64.ofNat_lt _)
  have h2 : Ascending (if w ≠ 0 then mapAssign (mapAssign m (str "videocodecid")
        (.AMFDouble (F64.ofNat c))) (str "width") (.AMFDouble (F64.ofInt w))
      else mapAssign m (str "videocodecid") (.AMFDouble (F64.ofNat c))) ∧
      FitsPairs (if w ≠ 0 then mapAssign (mapAssign m (str "videocodecid")
        (.AMFDouble (F64.ofNat c))) (str "width") (.AMFDouble (F64.ofInt w))
      else mapAssign m (str "videocodecid") (.AMFDouble (F64.ofNat c))) := by
    split
    · exact inv_mapAssign _ _ _ h1 (by decide) (by decide) (F64.ofInt_lt _)
    · exact h1
  split
  · exact inv_mapAssign _ _ _ h2 (by decide) (by decide) (F64.ofInt_lt _)
  · exact h2

theorem scanVideo_inv (mem : List Byte) (L : Nat) (s s1 : Scan)
    (h : scanVideo mem L s = .ok s1) (hm : Ascending s.onMetaData ∧ FitsPairs s.onMetaData) :
    Ascending s1.onMetaData ∧ FitsPairs s1.onMetaData := by
  cases hb : peek mem s.fptr with
  | error e =>
    simp only [scanVideo, hb, bind, Except.bind] at h
    cases h
  | ok b =>
    have hv := scanVideo_meta mem L s s1 b hb h
    split at hv
    · rw [hv.2]
      exact hm
    · split at hv
      · rw [hv.2]
        exact videoAssign_inv _ _ _ _ hm
      · rw [hv.2]
        exact hm
      · exact hv.elim

theorem scanAudio_inv (mem : List Byte) (L : Nat) (s s1 : Scan)
    (h : scanAudio mem L s = .ok s1) (hm : Ascending s.onMetaData ∧ FitsPairs s.onMetaData) :
    Ascending s1.onMetaData ∧ FitsPairs s1.onMetaData := by
  unfold scanAudio at h
  cases hb : peek mem s.fptr with
  | error e =>
    simp only [hb, bind, Except.bind] at h
    cases h
  | ok b =>
    simp only [hb, bind, Except.bind, pure, Except.pure, Except.ok.injEq] at h
    subst h
    cases ha : s.have_audio_params with
    | true =>
      simp only [ha, not_true_eq_false, if_false]
      exact hm
    | false =>
      simp only [ha, Bool.false_eq_true, not_false_eq_true, if_true]
      exact inv_mapAssign _ _ _ (inv_mapAssign _ _ _ (inv_mapAssign _ _ _
        (inv_mapAssign _ _ _ hm (by decide) (by decide) (F64.ofNat_lt _))
        (by decide) (by decide) (F64.ofNat_lt _))
        (by decide) (by decide) (F64.ofNat_lt _))
        (by decide) (by decide) (by simp only [AMFData.Fits])

theorem pass1Step_inv (nomerge : Bool) (mem : List Byte) (s : Scan) (b : Bool) (s1 : Scan)
    (h : pass1Step nomerge mem s = .ok (b, s1))
    (hm : Ascending s.onMetaData ∧ FitsPairs s.onMetaData) :
    Ascending s1.onMetaData ∧ FitsPairs s1.onMetaData := by
  unfold pass1Step at h
  simp only [bind, Except.bind, pure, Except.pure] at h
  split at h
  · simp only [Except.ok.injEq, Prod.mk.injEq] at h
    rw [← h.2]
    exact hm
  · split at h
    · cases h
    · split at h
      · cases h
      · split at h
        · simp only [Except.ok.injEq, Prod.mk.injEq] at h
          rw [← h.2]
          exact hm
        · split at h
          · cases h
          · split at h
            · cases h
            · rename_i v hv
              simp only [Except.ok.injEq, Prod.mk.injEq] at h
              rw [← h.2]
              show Ascending v.onMetaData ∧ FitsPairs v.onMetaData
              split at hv
              · split at hv
                · cases hv
                · rename_i d hd
                  simp only [Except.ok.injEq] at hv
                  rw [← hv]
                  exact scanMeta_inv _ _ _ _ hd hm
              · split at hv
                · exact scanVideo_inv _ _ _ _ hv hm
                · split at hv
                  · exact scanAudio_inv _ _ _ _ hv hm
                  · simp only [Except.ok.injEq] at hv
                    rw [← hv]
                    exact hm

theorem pass1Loop_inv (nomerge : Bool) (mem : List Byte) :
    ∀ (fuel : Nat) (s s1 : Scan), pass1Loop nomerge mem fuel s = .ok s1 →
      Ascending s.onMetaData ∧ FitsPairs s.onMetaData →
      Ascending s1.onMetaData ∧ FitsPairs s1.onMetaData := by
  intro fuel
  induction fuel with
  | zero =>
    intro s s1 h
    rw [pass1Loop] at h
    cases h
  | succ fuel ih =>
    intro s s1 h hm
    rw [pass1Loop] at h
    split at h
    · split at h
      · cases h
      · rename_i s2 hs
        exact ih s2 s1 h (pass1Step_inv _ _ _ _ _ hs hm)
      · rename_i s2 hs
        cases h
        exact pass1Step_inv _ _ _ _ _ hs hm
    · cases h
      exact hm

/-- The map pass 1 leaves has ascending keys and fits the fields it is written to. -/
theorem pass1_inv (nomerge : Bool) (mem : List Byte) (s : Scan)
    (h : pass1 nomerge mem = .ok s) : Ascending s.onMetaData ∧ FitsPairs s.onMetaData := by
  unfold pass1 at h
  split at h
  · cases h
  · split at h
    · cases h
    · exact pass1Loop_inv _ _ _ _ _ h ⟨List.Pairwise.nil, by simp only [FitsPairs]⟩

/-! ## C1: decoding the encoding of a decoded value -/

theorem construct_write_reread (v : AMFData) (hw : v.Fits) (tail : List Byte) :
    AMFData.construct (.ofBytes (v.write ++ tail)) = .ok (v.reread, .ofBytes tail) := by
  have h := (reread_fuel (2 * (v.write ++ tail).length + 2)).1 v hw tail tail.length
    (by rw [List.length_append]; omega)
  unfold AMFData.construct serialized_buffer.ofBytes
  rw [List.length_append] at h ⊢
  exact h

theorem construct_write_reread_len (v : AMFData) (hw : v.Fits) (tail : List Byte) (n : Nat) :
    AMFData.construct ⟨v.write ++ tail, v.write.length + n⟩ = .ok (v.reread, ⟨tail, n⟩) := by
  unfold AMFData.construct
  exact (reread_fuel _).1 v hw tail n (by simp only []; omega)

mutual
/-- A value without an `AMFDate` is read back as it is. -/
theorem AMFData.reread_of_no_date : ∀ v : AMFData, v.hasDate = false → v.reread = v
  | .AMFDouble _, _ => rfl
  | .AMFBoolean _, _ => rfl
  | .AMFString _, _ => rfl
  | .AMFObject dmap, h => by
    simp only [AMFData.hasDate] at h
    simp only [AMFData.reread, rereadPairs_of_no_date dmap h]
  | .AMFNull, _ => rfl
  | .AMFUndefined, _ => rfl
  | .AMFMixedArray dmap, h => by
    simp only [AMFData.hasDate] at h
    simp only [AMFData.reread, rereadPairs_of_no_date dmap h]
  | .AMFArray dmap, h => by
    simp only [AMFData.hasDate] at h
    simp only [AMFData.reread, rereadElems_of_no_date dmap h]
  | .AMFDate _ _ _ _, h => by simp [AMFData.hasDate] at h
  | .AMFUnsupported, _ => rfl
theorem rereadPairs_of_no_date : ∀ m : List (List Byte × AMFData),
    hasDatePairs m = false → rereadPairs m = m
  | [], _ => rfl
  | (k, v) :: m, h => by
    simp only [hasDatePairs, Bool.or_eq_false_iff] at h
    simp only [rereadPairs, AMFData.reread_of_no_date v h.1, rereadPairs_of_no_date m h.2]
theorem rereadElems_of_no_date : ∀ a : List AMFData,
    hasDateElems a = false → rereadElems a = a
  | [], _ => rfl
  | v :: a, h => by
    simp only [hasDateElems, Bool.or_eq_false_iff] at h
    simp only [rereadElems, AMFData.reread_of_no_date v h.1, rereadElems_of_no_date a h.2]
end

/-- C1: for every value `v` the factory `AMFData::construct` can return, decoding the
bytes written by `v.write` (followed by any bytes `tail`) returns `v.reread` and leaves
exactly `tail` unread, where `v.reread` is `v` with every `AMFDate` in it replaced by the
date the reading constructor makes of the milliseconds `AMFDate::write` writes; a value
that holds no `AMFDate` is returned as it is.  A Date is not always: the constructor
truncates `(s - floor(s)) * 1000000.0` where the product lies just below the microseconds
that were written.  The eleven bytes `0B 40 8F 48 00 00 00 00 00 00 00` (a Date of
1001.0 ms) decode to `tv_sec = 1`, `tv_usec = 999`; that value is written as 1000.999 ms
and decoded back with `tv_usec = 998`. -/
theorem construct_write_roundtrip (buf rest : serialized_buffer) (v : AMFData)
    (h : AMFData.construct buf = .ok (v, rest)) (tail : List Byte) :
    AMFData.construct (.ofBytes (v.write ++ tail)) = .ok (v.reread, .ofBytes tail) ∧
    (v.hasDate = false →
      AMFData.construct (.ofBytes (v.write ++ tail)) = .ok (v, .ofBytes tail)) ∧
    AMFData.construct (.ofBytes [0x0B, 0x40, 0x8F, 0x48, 0, 0, 0, 0, 0, 0, 0]) =
      .ok (.AMFDate 1 999 0 0, .ofBytes []) ∧
    AMFData.construct (.ofBytes (AMFData.AMFDate 1 999 0 0).write) =
      .ok (.AMFDate 1 998 0 0, .ofBytes []) ∧
    AMFData.construct (.ofBytes (AMFData.AMFDate 1 999 0 0).write) ≠
      .ok (.AMFDate 1 999 0 0, .ofBytes []) := by
  have h0 := construct_write_reread v (AMFData.fits_of_wf v (wf_of_construct buf rest v h)) tail
  have h2 : AMFData.construct (.ofBytes (AMFData.AMFDate 1 999 0 0).write) =
      .ok (.AMFDate 1 998 0 0, .ofBytes []) := eq_of_resultBeq _ _ (by decide!)
  refine ⟨h0, fun hd => ?_, eq_of_resultBeq _ _ (by decide!), h2, fun hne => ?_⟩
  · rw [h0, AMFData.reread_of_no_date v hd]
  · rw [h2] at hne
    simp at hne

/-- Witness for C1: a mixed array holding every kind of value, decoded from its wire
form, is decoded again from its own encoding followed by three more bytes; its Date of
1 ms is one that is read back as it is. -/
theorem construct_write_roundtrip_witness :
    AMFData.construct (.ofBytes sampleBytes) = .ok (sampleValue, .ofBytes []) ∧
    AMFData.construct (.ofBytes (sampleValue.write ++ [1, 2, 3])) =
      .ok (sampleValue.reread, .ofBytes [1, 2, 3]) ∧
    sampleValue.reread = sampleValue :=
  have h1 : AMFData.construct (.ofBytes sampleBytes) = .ok (sampleValue, .ofBytes []) :=
    eq_of_resultBeq _ _ (by decide!)
  ⟨h1, (construct_write_roundtrip (.ofBytes sampleBytes) (.ofBytes []) sampleValue h1
    [1, 2, 3]).1, AMFData.eq_of_beq _ _ (by decide!)⟩

/-! ## C12: the dispatch of the factory -/

theorem get_u8_val (b : Byte) (p : List Byte) (n : Nat) (c : Nat) (h : b.val = c) :
    serialized_buffer.get_u8 ⟨b :: p, n + 1⟩ = .ok (c, ⟨p, n⟩) := by
  rw [get_u8_cons, h]

theorem construct_fuel_cons (b : Byte) (p : List Byte) (n : Nat) :
    AMFData.construct ⟨b :: p, n + 1⟩ = constructF ((2 * n + 3) + 1) ⟨b :: p, n + 1⟩ := by
  have hfuel : 2 * (n + 1) + 2 = (2 * n + 3) + 1 := by omega
  simp only [AMFData.construct, hfuel]

theorem construct_unknown_iff (b : Byte) (p : List Byte) (n : Nat) :
    AMFData.construct ⟨b :: p, n + 1⟩ = .error (.runtime_error (.unknown_typeID b.val)) ↔
      b.val ∉ knownTypeIDs := by
  by_cases hmem : b.val ∈ knownTypeIDs
  · refine ⟨fun h => ?_, fun h => absurd hmem h⟩
    simp only [AMFData.construct] at h
    exact absurd hmem (fun hm => (unknown_typeID_fuel _).1 _ _ h hm)
  · refine ⟨fun _ => hmem, fun _ => ?_⟩
    simp only [knownTypeIDs, List.mem_cons, List.mem_singleton, List.not_mem_nil, or_false,
      not_or] at hmem
    obtain ⟨h0, h1, h2, h3, h5, h6, h8, h10, h11, h13⟩ := hmem
    rw [construct_fuel_cons, constructF, get_u8_cons]
    simp only [h0, h1, h2, h3, h5, h6, h8, h10, h11, h13, if_false]

theorem construct_typeID (b : Byte) (p : List Byte) (n : Nat) (v : AMFData)
    (buf1 : serialized_buffer) (h : AMFData.construct ⟨b :: p, n + 1⟩ = .ok (v, buf1)) :
    v.typeID = b.val := by
  rw [construct_fuel_cons, constructF, get_u8_cons] at h
  simp only [] at h
  repeat' split at h
  all_goals first
    | cases h; done
    | (cases h; simp only [AMFData.typeID]; symm; assumption)

theorem construct_null (b : Byte) (p : List Byte) (n : Nat) (hb : b.val = AMF_TYPE_NULL) :
    AMFData.construct ⟨b :: p, n + 1⟩ = .ok (.AMFNull, ⟨p, n⟩) := by
  rw [construct_fuel_cons, constructF, get_u8_val b p n _ hb]
  rfl

theorem construct_undefined (b : Byte) (p : List Byte) (n : Nat)
    (hb : b.val = AMF_TYPE_UNDEFINED) :
    AMFData.construct ⟨b :: p, n + 1⟩ = .ok (.AMFUndefined, ⟨p, n⟩) := by
  rw [construct_fuel_cons, constructF, get_u8_val b p n _ hb]
  rfl

theorem construct_unsupported (b : Byte) (p : List Byte) (n : Nat)
    (hb : b.val = AMF_TYPE_UNSUPPORTED) :
    AMFData.construct ⟨b :: p, n + 1⟩ = .ok (.AMFUnsupported, ⟨p, n⟩) := by
  rw [construct_fuel_cons, constructF, get_u8_val b p n _ hb]
  rfl

theorem construct_double (b : Byte) (p : List Byte) (n : Nat) (hb : b.val = AMF_TYPE_DOUBLE) :
    AMFData.construct ⟨b :: p, n + 1⟩ =
      (serialized_buffer.get_double_be ⟨p, n⟩).map (fun r => (.AMFDouble r.1, r.2)) := by
  rw [construct_fuel_cons, constructF, get_u8_val b p n _ hb]
  show (match serialized_buffer.get_double_be ⟨p, n⟩ with
    | .error e => .error e
    | .ok (d, buf) => .ok (.AMFDouble d, buf) : Except Fault (AMFData × serialized_buffer)) = _
  cases serialized_buffer.get_double_be ⟨p, n⟩ <;> rfl

theorem construct_boolean (b : Byte) (p : List Byte) (n : Nat)
    (hb : b.val = AMF_TYPE_BOOLEAN) :
    AMFData.construct ⟨b :: p, n + 1⟩ =
      (serialized_buffer.get_u8 ⟨p, n⟩).map (fun r => (.AMFBoolean (r.1 != 0), r.2)) := by
  rw [construct_fuel_cons, constructF, get_u8_val b p n _ hb]
  show (match serialized_buffer.get_u8 ⟨p, n⟩ with
    | .error e => .error e
    | .ok (d, buf) => .ok (.AMFBoolean (d != 0), buf) :
      Except Fault (AMFData × serialized_buffer)) = _
  cases serialized_buffer.get_u8 ⟨p, n⟩ <;> rfl

theorem construct_string (b : Byte) (p : List Byte) (n : Nat) (hb : b.val = AMF_TYPE_STRING) :
    AMFData.construct ⟨b :: p, n + 1⟩ =
      (serialized_buffer.get_u16_be ⟨p, n⟩).bind (fun r =>
        (r.2.get_bytes r.1).map (fun q => (.AMFString q.1, q.2))) := by
  rw [construct_fuel_cons, constructF, get_u8_val b p n _ hb]
  show (match serialized_buffer.get_u16_be ⟨p, n⟩ with
    | .error e => .error e
    | .ok (l, buf) =>
      match buf.get_bytes l with
      | .error e => .error e
      | .ok (d, buf) => .ok (.AMFString d, buf) : Except Fault (AMFData × serialized_buffer)) = _
  cases serialized_buffer.get_u16_be ⟨p, n⟩ with
  | error e => rfl
  | ok r =>
    show (match r.2.get_bytes r.1 with
      | .error e => .error e
      | .ok (d, buf) => .ok (.AMFString d, buf) : Except Fault (AMFData × serialized_buffer)) =
        Except.map (fun q => (AMFData.AMFString q.1, q.2)) (r.2.get_bytes r.1)
    cases r.2.get_bytes r.1 <;> rfl

theorem construct_date (b : Byte) (p : List Byte) (n : Nat) (hb : b.val = AMF_TYPE_DATE) :
    AMFData.construct ⟨b :: p, n + 1⟩ =
      (serialized_buffer.get_double_be ⟨p, n⟩).bind (fun r =>
        (r.2.get_u16_be).map (fun q =>
          (.AMFDate (dateFields r.1).1 (dateFields r.1).2 (q.1 : Int) 0, q.2))) := by
  rw [construct_fuel_cons, constructF, get_u8_val b p n _ hb]
  show (match serialized_buffer.get_double_be ⟨p, n⟩ with
    | .error e => .error e
    | .ok (ms, buf) =>
      match buf.get_u16_be with
      | .error e => .error e
      | .ok (tz, buf) =>
        .ok (.AMFDate (dateFields ms).1 (dateFields ms).2 (tz : Int) 0, buf) :
        Except Fault (AMFData × serialized_buffer)) = _
  cases serialized_buffer.get_double_be ⟨p, n⟩ with
  | error e => rfl
  | ok r =>
    show (match r.2.get_u16_be with
      | .error e => .error e
      | .ok (tz, buf) =>
        .ok (.AMFDate (dateFields r.1).1 (dateFields r.1).2 (tz : Int) 0, buf) :
          Except Fault (AMFData × serialized_buffer)) =
        Except.map (fun q => (AMFData.AMFDate (dateFields r.1).1 (dateFields r.1).2 (q.1 : Int) 0,
          q.2)) (r.2.get_u16_be)
    cases r.2.get_u16_be <;> rfl

theorem construct_object_cons (b : Byte) (p : List Byte) (n : Nat)
    (hb : b.val = AMF_TYPE_OBJECT) :
    AMFData.construct ⟨b :: p, n + 1⟩ =
      (AMFMixedArray._construct ⟨p, n⟩ []).map (fun r => (.AMFObject r.1, r.2)) := by
  rw [construct_object ⟨b :: p, n + 1⟩ ⟨p, n⟩ (get_u8_val b p n _ hb)]
  cases AMFMixedArray._construct ⟨p, n⟩ [] <;> rfl

theorem construct_mixed_cons (b : Byte) (p : List Byte) (n : Nat)
    (hb : b.val = AMF_TYPE_MIXED_ARRAY) :
    AMFData.construct ⟨b :: p, n + 1⟩ =
      (serialized_buffer.get_u32_be ⟨p, n⟩).bind (fun r =>
        (AMFMixedArray._construct r.2 []).map (fun q => (.AMFMixedArray q.1, q.2))) := by
  cases h1 : serialized_buffer.get_u32_be ⟨p, n⟩ with
  | error e =>
    rw [construct_fuel_cons, constructF, get_u8_val b p n _ hb]
    show (match serialized_buffer.get_u32_be ⟨p, n⟩ with
      | .error e => .error e
      | .ok (_, buf) =>
        match _constructF (2 * n + 3) buf [] with
        | .error e => .error e
        | .ok (dmap, buf) => .ok (.AMFMixedArray dmap, buf) :
          Except Fault (AMFData × serialized_buffer)) = _
    rw [h1]
    rfl
  | ok r =>
    obtain ⟨c, b2⟩ := r
    rw [construct_mixed ⟨b :: p, n + 1⟩ ⟨p, n⟩ b2 c (get_u8_val b p n _ hb) h1]
    show _ = Except.map (fun q => (AMFData.AMFMixedArray q.1, q.2))
      (AMFMixedArray._construct b2 [])
    cases AMFMixedArray._construct b2 [] <;> rfl

theorem construct_array (b : Byte) (p : List Byte) (n : Nat) (hb : b.val = AMF_TYPE_ARRAY) :
    AMFData.construct ⟨b :: p, n + 1⟩ =
      (serialized_buffer.get_u32_be ⟨p, n⟩).bind (fun r =>
        (constructElems (2 * n + 3) r.1 r.2 []).map (fun q => (.AMFArray q.1, q.2))) := by
  rw [construct_fuel_cons, constructF, get_u8_val b p n _ hb]
  show (match serialized_buffer.get_u32_be ⟨p, n⟩ with
    | .error e => .error e
    | .ok (len, buf) =>
      match constructElems (2 * n + 3) len buf [] with
      | .error e => .error e
      | .ok (dmap, buf) => .ok (.AMFArray dmap, buf) :
        Except Fault (AMFData × serialized_buffer)) = _
  cases serialized_buffer.get_u32_be ⟨p, n⟩ with
  | error e => rfl
  | ok r =>
    show (match constructElems (2 * n + 3) r.1 r.2 [] with
      | .error e => .error e
      | .ok (dmap, buf) => .ok (.AMFArray dmap, buf) :
        Except Fault (AMFData × serialized_buffer)) =
        Except.map (fun q => (AMFData.AMFArray q.1, q.2)) (constructElems (2 * n + 3) r.1 r.2 [])
    cases constructElems (2 * n + 3) r.1 r.2 [] <;> rfl

theorem construct_write_typeID (v : AMFData) (tail : List Byte) (hv : v.Fits) :
    v.write.head? = some (byte v.typeID) ∧ v.typeID ∈ knownTypeIDs ∧
      ∃ v1, AMFData.construct (.ofBytes (v.write ++ tail)) = .ok (v1, .ofBytes tail) ∧
        v1.typeID = v.typeID := by
  refine ⟨?_, ?_, v.reread, construct_write_reread v hv tail, ?_⟩
  · cases v <;> rfl
  · cases v <;> simp [AMFData.typeID, knownTypeIDs, AMF_TYPE_DOUBLE, AMF_TYPE_BOOLEAN,
      AMF_TYPE_STRING, AMF_TYPE_OBJECT, AMF_TYPE_NULL, AMF_TYPE_UNDEFINED, AMF_TYPE_MIXED_ARRAY,
      AMF_TYPE_ARRAY, AMF_TYPE_DATE, AMF_TYPE_UNSUPPORTED]
  · cases v <;> rfl

/-- C12: on a buffer that holds at least one byte `b`, `AMFData::construct` throws the
`runtime_error` "unknown typeID" naming `b` exactly when `b` is none of the ten type bytes
`00 01 02 03 05 06 08 0A 0B 0D`, and a value it returns is of the class whose `typeID()`
is `b`.  For each of the ten bytes the result is that of the reading constructor of the
class on the rest of the buffer: `05`, `06` and `0D` return `AMFNull`, `AMFUndefined` and
`AMFUnsupported` and consume nothing more; `00` reads the eight bytes of an `AMFDouble`,
`01` the byte of an `AMFBoolean`, `02` the length and bytes of an `AMFString`, `0B` the
milliseconds and time zone of an `AMFDate`; `03` and `08` (behind its count) read the
entries of an `AMFObject` or `AMFMixedArray`, `0A` the count and elements of an
`AMFArray`.  And the bytes `v.write` writes for a value `v` of any of the ten classes
(followed by any bytes `tail`) begin with the type byte of the class and decode to a
value of that class, leaving `tail`. -/
theorem construct_dispatch (b : Byte) (p : List Byte) (n : Nat) :
    (AMFData.construct ⟨b :: p, n + 1⟩ = .error (.runtime_error (.unknown_typeID b.val)) ↔
      b.val ∉ knownTypeIDs) ∧
    (∀ v buf1, AMFData.construct ⟨b :: p, n + 1⟩ = .ok (v, buf1) → v.typeID = b.val) ∧
    (b.val = AMF_TYPE_NULL → AMFData.construct ⟨b :: p, n + 1⟩ = .ok (.AMFNull, ⟨p, n⟩)) ∧
    (b.val = AMF_TYPE_UNDEFINED →
      AMFData.construct ⟨b :: p, n + 1⟩ = .ok (.AMFUndefined, ⟨p, n⟩)) ∧
    (b.val = AMF_TYPE_UNSUPPORTED →
      AMFData.construct ⟨b :: p, n + 1⟩ = .ok (.AMFUnsupported, ⟨p, n⟩)) ∧
    (b.val = AMF_TYPE_DOUBLE → AMFData.construct ⟨b :: p, n + 1⟩ =
      (serialized_buffer.get_double_be ⟨p, n⟩).map (fun r => (.AMFDouble r.1, r.2))) ∧
    (b.val = AMF_TYPE_BOOLEAN → AMFData.construct ⟨b :: p, n + 1⟩ =
      (serialized_buffer.get_u8 ⟨p, n⟩).map (fun r => (.AMFBoolean (r.1 != 0), r.2))) ∧
    (b.val = AMF_TYPE_STRING → AMFData.construct ⟨b :: p, n + 1⟩ =
      (serialized_buffer.get_u16_be ⟨p, n⟩).bind (fun r =>
        (r.2.get_bytes r.1).map (fun q => (.AMFString q.1, q.2)))) ∧
    (b.val = AMF_TYPE_DATE → AMFData.construct ⟨b :: p, n + 1⟩ =
      (serialized_buffer.get_double_be ⟨p, n⟩).bind (fun r =>
        (r.2.get_u16_be).map (fun q =>
          (.AMFDate (dateFields r.1).1 (dateFields r.1).2 (q.1 : Int) 0, q.2)))) ∧
    (b.val = AMF_TYPE_OBJECT → AMFData.construct ⟨b :: p, n + 1⟩ =
      (AMFMixedArray._construct ⟨p, n⟩ []).map (fun r => (.AMFObject r.1, r.2))) ∧
    (b.val = AMF_TYPE_MIXED_ARRAY → AMFData.construct ⟨b :: p, n + 1⟩ =
      (serialized_buffer.get_u32_be ⟨p, n⟩).bind (fun r =>
        (AMFMixedArray._construct r.2 []).map (fun q => (.AMFMixedArray q.1, q.2)))) ∧
    (b.val = AMF_TYPE_ARRAY → AMFData.construct ⟨b :: p, n + 1⟩ =
      (serialized_buffer.get_u32_be ⟨p, n⟩).bind (fun r =>
        (constructElems (2 * n + 3) r.1 r.2 []).map (fun q => (.AMFArray q.1, q.2)))) ∧
    (∀ (v : AMFData) (tail : List Byte), v.Fits →
      v.write.head? = some (byte v.typeID) ∧ v.typeID ∈ knownTypeIDs ∧
      ∃ v1, AMFData.construct (.ofBytes (v.write ++ tail)) = .ok (v1, .ofBytes tail) ∧
        v1.typeID = v.typeID) :=
  ⟨construct_unknown_iff b p n, construct_typeID b p n, construct_null b p n,
    construct_undefined b p n, construct_unsupported b p n, construct_double b p n,
    construct_boolean b p n, construct_string b p n, construct_date b p n,
    construct_object_cons b p n, construct_mixed_cons b p n, construct_array b p n,
    fun v tail hv => construct_write_typeID v tail hv⟩

/-- Witness for C12: a Boolean, a Null, an unknown type byte, and the encoding of the
sample value (a MixedArray). -/
theorem construct_dispatch_witness :
    AMFData.construct ⟨[0x01, 0x01], 2⟩ =
      (serialized_buffer.get_u8 ⟨[0x01], 1⟩).map (fun r => (.AMFBoolean (r.1 != 0), r.2)) ∧
    (serialized_buffer.get_u8 ⟨[0x01], 1⟩).map (fun r => (AMFData.AMFBoolean (r.1 != 0), r.2)) =
      .ok (.AMFBoolean true, ⟨[], 0⟩) ∧
    AMFData.construct ⟨[0x05, 0x07], 2⟩ = .ok (.AMFNull, ⟨[0x07], 1⟩) ∧
    AMFData.construct ⟨[0x04], 1⟩ = .error (.runtime_error (.unknown_typeID 4)) ∧
    sampleValue.Fits ∧
    ∃ v1, AMFData.construct (.ofBytes (sampleValue.write ++ [1, 2, 3])) =
        .ok (v1, .ofBytes [1, 2, 3]) ∧ v1.typeID = AMF_TYPE_MIXED_ARRAY :=
  have hf : sampleValue.Fits := AMFData.fits_of_wf _
    (wf_of_construct (.ofBytes sampleBytes) (.ofBytes []) sampleValue
      (eq_of_resultBeq _ _ (by decide!)))
  ⟨(construct_dispatch 1 [1] 1).2.2.2.2.2.2.1 rfl, eq_of_resultBeq _ _ (by decide!),
    (construct_dispatch 5 [7] 1).2.2.1 rfl,
    (construct_dispatch 4 [] 0).1.mpr (by decide), hf,
    ((construct_dispatch 0 [] 0).2.2.2.2.2.2.2.2.2.2.2.2 sampleValue [1, 2, 3] hf).2.2⟩

/-! ## C6: the keyframe index the output decodes to -/

theorem fits_double (x : Nat) (h : x < 2 ^ 64) : (AMFData.AMFDouble x).Fits := by
  simp only [AMFData.Fits]
  exact h

theorem fits_boolean (b : Bool) : (AMFData.AMFBoolean b).Fits := by
  simp only [AMFData.Fits]

theorem installStats_inv (s : Scan) (hm : Ascending s.onMetaData ∧ FitsPairs s.onMetaData) :
    Ascending (installStats s) ∧ FitsPairs (installStats s) := by
  unfold installStats
  simp only []
  refine inv_mapAssign _ _ _ ?_ (by decide) (by decide) (fits_double _ (F64.ofNat_lt _))
  refine inv_mapAssign _ _ _ ?_ (by decide) (by decide) (fits_double _ (F64.div_lt _ _))
  refine inv_mapAssign _ _ _ ?_ (by decide) (by decide) (fits_double _ (F64.ofNat_lt _))
  refine inv_mapAssign _ _ _ ?_ (by decide) (by decide) (fits_boolean _)
  refine inv_mapAssign _ _ _ ?_ (by decide) (by decide) (fits_double _ (F64.ofNat_lt _))
  refine inv_mapAssign _ _ _ ?_ (by decide) (by decide) (fits_double _ (F64.ofNat_lt _))
  refine inv_mapAssign _ _ _ ?_ (by decide) (by decide) (fits_double _ (F64.div_lt _ _))
  refine inv_mapAssign _ _ _ ?_ (by decide) (by decide) (fits_double _ (F64.div_lt _ _))
  refine inv_mapAssign _ _ _ ?_ (by decide) (by decide) (fits_double _ (F64.div_lt _ _))
  refine inv_mapAssign _ _ _ ?_ (by decide) (by decide) (fits_double _ (F64.div_lt _ _))
  refine inv_mapAssign _ _ _ ?_ (by decide) (by decide) (fits_boolean _)
  refine inv_mapAssign _ _ _ ?_ (by decide) (by decide) (fits_boolean _)
  refine inv_mapAssign _ _ _ ?_ (by decide) (by decide) (fits_boolean _)
  refine inv_mapAssign _ _ _ ?_ (by decide) (by decide) (fits_boolean _)
  exact inv_mapAssign _ _ _ hm (by decide) (by decide) (fits_boolean _)

theorem foldl_tags_inv (tags : List (List Byte × List Byte))
    (ht : ∀ e ∈ tags, 0 < e.1.length ∧ e.1.length < 65536 ∧ e.2.length < 65536) :
    ∀ m : Dmap, Ascending m ∧ FitsPairs m →
      Ascending (tags.foldl (fun dmap eti => mapAssign dmap eti.1 (.AMFString eti.2)) m) ∧
        FitsPairs (tags.foldl (fun dmap eti => mapAssign dmap eti.1 (.AMFString eti.2)) m) := by
  induction tags with
  | nil => exact fun m hm => hm
  | cons e tags ih =>
    intro m hm
    obtain ⟨h0, h1, h2⟩ := ht e (List.mem_cons_self _ _)
    simp only [List.foldl_cons]
    exact ih (fun x hx => ht x (List.mem_cons_of_mem _ hx)) _
      (inv_mapAssign _ _ _ hm h0 h1 (by simp only [AMFData.Fits]; exact h2))

theorem installTags_inv (o : Options) (now : Now) (m : Dmap)
    (ht : ∀ e ∈ o.extra_tags, 0 < e.1.length ∧ e.1.length < 65536 ∧ e.2.length < 65536)
    (hm : Ascending m ∧ FitsPairs m) :
    Ascending (installTags o now m) ∧ FitsPairs (installTags o now m) := by
  unfold installTags
  simp only []
  refine foldl_tags_inv _ ht _ ?_
  refine inv_mapAssign _ _ _ ?_ (by decide) (by decide) (by simp only [AMFData.Fits])
  exact inv_mapAssign _ _ _ hm (by decide) (by decide)
    (by simp only [AMFData.Fits]; decide)

theorem fitsElems_map_double (l : List (Nat × Nat)) (f : Nat × Nat → Nat)
    (hf : ∀ e, f e < 2 ^ 64) : FitsElems (l.map (fun e => AMFData.AMFDouble (f e))) := by
  rw [fitsElems_iff]
  intro v hv
  obtain ⟨e, _, he⟩ := List.mem_map.mp hv
  rw [← he]
  exact fits_double _ (hf e)

theorem hasDateElems_map_double (l : List (Nat × Nat)) (f : Nat × Nat → Nat) :
    hasDateElems (l.map (fun e => AMFData.AMFDouble (f e))) = false := by
  induction l with
  | nil => rfl
  | cons e l ih => simp only [List.map_cons, hasDateElems, AMFData.hasDate, ih, Bool.or_self]

theorem mapFind_rereadPairs (m : Dmap) (k : List Byte) :
    mapFind (rereadPairs m) k = (mapFind m k).map AMFData.reread := by
  induction m with
  | nil => rfl
  | cons e m ih =>
    obtain ⟨k1, v1⟩ := e
    simp only [rereadPairs, mapFind]
    split
    · rfl
    · split
      · exact ih
      · rfl

/-- The final map of a run without `-strip`, for arrays of Doubles of fewer than `2^32`
entries, fits the fields it is written to. -/
theorem final_map_inv (o : Options) (now : Now) (s : Scan) (idx : List (Nat × Nat)) (n : Nat)
    (hs : Ascending s.onMetaData ∧ FitsPairs s.onMetaData)
    (ht : ∀ e ∈ o.extra_tags, 0 < e.1.length ∧ e.1.length < 65536 ∧ e.2.length < 65536)
    (hl : idx.length < 2 ^ 32) :
    (AMFData.AMFMixedArray (mapAssign (metaWith false (installTags o now (installStats s))
      (idx.map (fun e => AMFData.AMFDouble (F64.div (F64.ofNat e.2) (F64.ofNat 1000))))
      (idx.map (fun e => AMFData.AMFDouble (F64.ofNat e.1))))
      (str "datasize") (.AMFDouble (F64.ofNat n)))).Fits := by
  have h1 := installTags_inv o now _ ht (installStats_inv s hs)
  have hobj : (AMFData.AMFObject
      [(str "filepositions", .AMFArray (idx.map (fun e => AMFData.AMFDouble (F64.ofNat e.1)))),
       (str "times", .AMFArray (idx.map
          (fun e => AMFData.AMFDouble (F64.div (F64.ofNat e.2) (F64.ofNat 1000)))))]).Fits := by
    simp only [AMFData.Fits, FitsPairs, List.length_map, and_true]
    refine ⟨?_, by decide, by decide, ⟨hl, ?_⟩, by decide, by decide, hl, ?_⟩
    · unfold Ascending
      simp only [List.pairwise_cons, List.mem_singleton, forall_eq, List.not_mem_nil,
        false_implies, implies_true, List.Pairwise.nil, and_true]
      decide!
    · exact fitsElems_map_double idx (fun e => F64.ofNat e.1) (fun e => F64.ofNat_lt _)
    · exact fitsElems_map_double idx (fun e => F64.div (F64.ofNat e.2) (F64.ofNat 1000))
        (fun e => F64.div_lt _ _)
  have h2 := inv_mapAssign _ (str "keyframes") _ h1 (by decide) (by decide) hobj
  rw [← metaWith_eq] at h2
  have h3 := inv_mapAssign _ (str "datasize") (.AMFDouble (F64.ofNat n)) h2 (by decide)
    (by decide) (fits_double _ (F64.ofNat_lt _))
  simp only [AMFData.Fits]
  exact h3

/-- The bytes of the output from offset 24 on: the payload of the script tag, the
trailer and the tag stream. -/
theorem preamble_drop (hasVideo hasAudio : Bool) (dmap : Dmap) (C : List Byte) :
    (preambleBytes hasVideo hasAudio dmap ++ C).drop 24 =
      (AMFData.AMFString (str "onMetaData")).write ++
        ((AMFData.AMFMixedArray dmap).write ++
          (store_le 4 (htons (((AMFData.AMFString (str "onMetaData")).write ++
            (AMFData.AMFMixedArray dmap).write).length + 11)) ++ C)) ∧
    (preambleBytes hasVideo hasAudio dmap ++ C)[13]? = some 18 := by
  simp [preambleBytes]

/-- With `-tag "" x` the map is written with an entry of key length 0, which the reader
takes for the end of the map: the output decodes to an empty MixedArray. -/
theorem empty_tag_name_ends_map :
    (main ["flvtool++", "-tag", "", "x", "in.flv", "out.flv"]
        (oneFile (flvFile 5 [0, 0, 0, 0] sampleTags)) sampleNow).map
      (fun r => r.output.map (fun out =>
        ((AMFData.construct (.ofBytes (out.drop 24))).bind
          (fun a => AMFData.construct a.2)).map (fun b => b.1.write))) =
      .ok (some (.ok [8, 0, 0, 0, 0, 0, 0, 9])) := by
  decide!

/-- The call `sprintf(buf, "%f", d)` on `char buf[64]`: the largest double below `1e56` is
printed with 63 characters and fits, the next double has 64 and does not; a negative
double has one digit less room. -/
theorem sprintf_f_limit :
    (sprintf_f 64 0x4B905031E2503DA8).map List.length = .ok 63 ∧
    sprintf_f 64 0x4B905031E2503DA9 = .error .asString_undefined ∧
    sprintf_f 64 0xCB5A19E96A19FC41 = .error .asString_undefined ∧
    sprintf_f 64 0x3FF8000000000000 = .ok (str "1.500000") ∧
    sprintf_f 64 0xFFF0000000000000 = .ok (str "-inf") := by
  decide!

/-- The text of an `AMFDate`: the epoch with a time zone of one hour west of Greenwich,
and the first second of the year 10000, for which `asctime_r` has no room. -/
theorem asString_date :
    (AMFData.AMFDate 0 0 60 0).asString = .ok (str "Wed Dec 31 23:00:00 1969") ∧
    (AMFData.AMFDate 253402300799 0 0 0).asString = .ok (str "Fri Dec 31 23:59:59 9999") ∧
    (AMFData.AMFDate 253402300800 0 0 0).asString = .error .asString_undefined := by
  decide!

/-- A script tag that is not named `onMetaData` is printed in pass 1: with the Double
`1e60` as its value pass 1 ends in the `sprintf` past the end of `buf`. -/
theorem pass1_prints_script_tag :
    (pass1 false (sampleHeader ++ sampleBigDoubleTag)).map (fun _ => ()) =
      .error .asString_undefined ∧
    (pass1 false (sampleHeader ++ sampleMetaTag)).map (fun _ => ()) = .ok () := by
  decide!

/-- An `onMetaData` tag is merged without being printed: with the Double `1e60` in it
pass 1 completes, and the run ends in the `sprintf` past the end of `buf` when it prints
the map, in dump-only mode and at the end of a run without `-nodump`; with `-nodump` the
run completes. -/
theorem run_prints_map :
    (pass1 false (sampleHeader ++ sampleBigMetaTag)).map (fun _ => ()) = .ok () ∧
    (main ["flvtool++", "in.flv"] (oneFile (sampleHeader ++ sampleBigMetaTag)) sampleNow).map
      (fun _ => ()) = .error .asString_undefined ∧
    (main ["flvtool++", "in.flv", "out.flv"] (oneFile (sampleHeader ++ sampleBigMetaTag))
      sampleNow).map (fun _ => ()) = .error .asString_undefined ∧
    (main ["flvtool++", "-nodump", "in.flv", "out.flv"]
      (oneFile (sampleHeader ++ sampleBigMetaTag)) sampleNow).map (fun _ => ()) = .ok () := by
  decide!
end FlvTool
